import Mathlib

/-!
# Verification development for `treap.cpp`, `permutation.cpp`, `rational.cpp`, `nim.cpp`
and `flows.cpp`

The definitions of all five embeddings come first, the theorems after them. The conventions
below are those of the treap; each of the other embeddings states its own where it starts.

## `treap.cpp`

Shallow embedding of the implicit-key treap of `src/treap.cpp` (class `Treap`).

Modelling conventions.
* `long long` is `Int`; the statements below are about executions without signed overflow.
* `size_t` is `Nat`.  Additions of subtree sizes are exact (a tree never holds `2^64` nodes);
  the three subtractions of the source (`pos - 1`, `right - left + 1`,
  `cur_key + size - 1`) wrap modulo `2^64` as in the source.
* A `Link` is either `null` or a node; the scalar fields of `struct Node` are the record
  `Node`, the two `child` pointers are the two sub-links of `Link.node`.
* `bound[type]`, `border[i]`, `inversion[type]` are indexed by a `Bool` (`false` = 0, `true` = 1).
* The random priority drawn by `Node::Node` is an explicit argument.
* Functions that recurse through `push_` take a `fuel` argument in their `Aux` form; the
  function of the source's name supplies the number of nodes, which always suffices.
* Dereferencing a null link (`get_nearest_`, `capture->value`) is `none`.
-/

namespace Treap

/-- The constant `INF_VALUE = 1e14`. -/
def INF_VALUE : Int := 100000000000000

/-- The constant `INF_INDEX = 1e9`. -/
def INF_INDEX : Nat := 1000000000

/-- The modulus of `size_t` arithmetic. -/
def SIZE_MOD : Nat := 18446744073709551616

/-- Wrapping `size_t` subtraction `a - b`. -/
def size_sub (a b : Nat) : Nat := (a + SIZE_MOD - b % SIZE_MOD) % SIZE_MOD

/-- Wrapping `size_t` addition `a + b`. -/
def size_add (a b : Nat) : Nat := (a + b) % SIZE_MOD

/-- Scalar fields of `struct Node`. -/
structure Node where
  value : Int
  bound0 : Int
  bound1 : Int
  border0 : Int
  border1 : Int
  paint : Int
  add : Int
  sum : Int
  priority : Nat
  size : Nat
  reversed : Bool
  inversion0 : Bool
  inversion1 : Bool
deriving DecidableEq, Repr

/-- The field `bound[type]`. -/
def Node.bound (d : Node) (type : Bool) : Int := if type then d.bound1 else d.bound0

/-- The field `border[i]`. -/
def Node.border (d : Node) (i : Bool) : Int := if i then d.border1 else d.border0

/-- The field `inversion[type]`. -/
def Node.inversion (d : Node) (type : Bool) : Bool := if type then d.inversion1 else d.inversion0

/-- A `Link` (`Node *`): `null` or a node with its two children. -/
inductive Link where
  | null : Link
  | node (d : Node) (child0 child1 : Link) : Link
deriving DecidableEq, Repr

open Link

/-- Number of nodes of a tree (used as recursion fuel and in invariants). -/
def Link.count : Link → Nat
  | null => 0
  | node _ c0 c1 => c0.count + c1.count + 1

/-- The test `t != nullptr`. -/
def Link.nonnull : Link → Bool
  | null => false
  | node _ _ _ => true

/-- The constructor `Node::Node(long long)`, the random priority made explicit. -/
def Node.new (_value : Int) (priority : Nat) : Node :=
  { value := _value, bound0 := _value, bound1 := _value, border0 := _value, border1 := _value,
    paint := INF_VALUE, add := 0, sum := _value, priority := priority, size := 1,
    reversed := false, inversion0 := false, inversion1 := false }

/-- `Treap::compare`. -/
def compare (a b : Int) (type : Bool) : Bool :=
  if type then decide (a > b) else decide (a < b)

/-- `Treap::min_max`. -/
def min_max (a b : Int) (type : Bool) : Int :=
  if type then max a b else min a b

/-- `Treap::create`. -/
def create (value : Int) (priority : Nat) : Link := node (Node.new value priority) null null

/-- `Treap::remove(Link&)`: the node is deleted and the link set to null. -/
def Link.remove (_t : Link) : Link := null

/-- The field `t->border[i]` of a link known to be non-null (`0` stands for the
dereference of a null link, which every use guards against). -/
def Link.border (t : Link) (i : Bool) : Int :=
  match t with
  | null => 0
  | node d _ _ => d.border i

/-- `Treap::subtree_size_`. -/
def subtree_size_ : Link → Nat
  | null => 0
  | node d _ _ => d.size

/-- `Treap::subtree_sum_`. -/
def subtree_sum_ : Link → Int
  | null => 0
  | node d _ _ => d.sum

/-- `Treap::subtree_bound_`. -/
def subtree_bound_ (t : Link) (type : Bool) : Int :=
  match t with
  | null => INF_VALUE * (if type then -1 else 1)
  | node d _ _ => d.bound type

/-- `Treap::has_inversion_`. -/
def has_inversion_ (t : Link) (type : Bool) : Bool :=
  match t with
  | null => false
  | node d _ _ => d.inversion type

/-- `Treap::subtree_reverse_`. -/
def subtree_reverse_ : Link → Link
  | null => null
  | node d c0 c1 =>
    node { d with reversed := !d.reversed,
                  inversion0 := d.inversion1, inversion1 := d.inversion0,
                  border0 := d.border1, border1 := d.border0 } c1 c0

/-- `Treap::subtree_paint_`. -/
def subtree_paint_ (t : Link) (x : Int) : Link :=
  match t with
  | null => null
  | node d c0 c1 =>
    node { d with value := x, bound0 := x, bound1 := x, border0 := x, border1 := x, paint := x,
                  add := 0, inversion0 := false, inversion1 := false,
                  sum := (d.size : Int) * x } c0 c1

/-- `Treap::subtree_add_`. -/
def subtree_add_ (t : Link) (x : Int) : Link :=
  match t with
  | null => null
  | node d c0 c1 =>
    node { d with value := d.value + x, bound0 := d.bound0 + x, bound1 := d.bound1 + x,
                  border0 := d.border0 + x, border1 := d.border1 + x, add := d.add + x,
                  sum := d.sum + (d.size : Int) * x } c0 c1

/-- `Treap::update_size_`. -/
def update_size_ (d : Node) (c0 c1 : Link) : Node :=
  { d with size := subtree_size_ c0 + subtree_size_ c1 + 1 }

/-- `Treap::update_sum_`. -/
def update_sum_ (d : Node) (c0 c1 : Link) : Node :=
  { d with sum := subtree_sum_ c0 + subtree_sum_ c1 + d.value }

/-- `Treap::update_bound_`. -/
def update_bound_ (d : Node) (c0 c1 : Link) : Node :=
  { d with
    bound0 := min_max d.value (min_max (subtree_bound_ c0 false) (subtree_bound_ c1 false) false)
                false,
    bound1 := min_max d.value (min_max (subtree_bound_ c0 true) (subtree_bound_ c1 true) true)
                true }

/-- The value assigned to `inversion[type]` by `Treap::update_inversions_`. -/
def inversion_of (d : Node) (c0 c1 : Link) (type : Bool) : Bool :=
  has_inversion_ c0 type ||
  has_inversion_ c1 type ||
  compare (subtree_bound_ c0 type) (min_max d.value (subtree_bound_ c1 (!type)) (!type)) type ||
  compare (min_max (subtree_bound_ c0 type) d.value type) (subtree_bound_ c1 (!type)) type

/-- `Treap::update_inversions_`. -/
def update_inversions_ (d : Node) (c0 c1 : Link) : Node :=
  { d with inversion0 := inversion_of d c0 c1 false, inversion1 := inversion_of d c0 c1 true }

/-- The value assigned to `border[i]` by `Treap::update_border_`, `c` being `child[i]`. -/
def border_of (d : Node) (c : Link) (i : Bool) : Int :=
  match c with
  | null => d.value
  | node dc _ _ => dc.border i

/-- `Treap::update_border_`. -/
def update_border_ (d : Node) (c0 c1 : Link) : Node :=
  { d with border0 := border_of d c0 false, border1 := border_of d c1 true }

/-- `Treap::update_`. -/
def update_ : Link → Link
  | null => null
  | node d c0 c1 =>
    let d1 := update_size_ d c0 c1
    let d2 := update_sum_ d1 c0 c1
    let d3 := update_bound_ d2 c0 c1
    let d4 := update_inversions_ d3 c0 c1
    let d5 := update_border_ d4 c0 c1
    node d5 c0 c1

/-- `Treap::push_reverse_` (only called on a non-null link). -/
def push_reverse_ : Link → Link
  | null => null
  | node d c0 c1 =>
    if d.reversed then
      node { d with reversed := false } (subtree_reverse_ c0) (subtree_reverse_ c1)
    else node d c0 c1

/-- `Treap::push_paint_` (only called on a non-null link). -/
def push_paint_ : Link → Link
  | null => null
  | node d c0 c1 =>
    if d.paint ≠ INF_VALUE then
      node { d with paint := INF_VALUE } (subtree_paint_ c0 d.paint) (subtree_paint_ c1 d.paint)
    else node d c0 c1

/-- `Treap::push_add_` (only called on a non-null link). -/
def push_add_ : Link → Link
  | null => null
  | node d c0 c1 =>
    if d.add ≠ 0 then
      node { d with add := 0 } (subtree_add_ c0 d.add) (subtree_add_ c1 d.add)
    else node d c0 c1

/-- `Treap::push_`. -/
def push_ : Link → Link
  | null => null
  | node d c0 c1 => push_add_ (push_paint_ (push_reverse_ (node d c0 c1)))

/-- `Treap::split_` with recursion fuel; returns `(left, right)`. -/
def splitAux (fuel : Nat) (t : Link) (key cur_key : Nat) : Link × Link :=
  match fuel, push_ t with
  | _, null => (null, null)
  | 0, node _ _ _ => (null, null)
  | fuel + 1, node d c0 c1 =>
    if key ≤ cur_key + subtree_size_ c0 then
      let r := splitAux fuel c0 key cur_key
      (r.1, update_ (node d r.2 c1))
    else
      let r := splitAux fuel c1 key (cur_key + subtree_size_ c0 + 1)
      (update_ (node d c0 r.1), r.2)

/-- `Treap::split_(t, left, right, key, cur_key)`; returns `(left, right)`. -/
def split_ (t : Link) (key : Nat) (cur_key : Nat) : Link × Link :=
  splitAux t.count t key cur_key

/-- `Treap::merge_` with recursion fuel. -/
def mergeAux (fuel : Nat) (left right : Link) : Link :=
  match fuel, push_ left, push_ right with
  | _, null, r => update_ r
  | _, node dl l0 l1, null => update_ (node dl l0 l1)
  | 0, node _ _ _, node _ _ _ => null
  | fuel + 1, node dl l0 l1, node dr r0 r1 =>
    if dl.priority > dr.priority then
      update_ (node dl l0 (mergeAux fuel l1 (node dr r0 r1)))
    else
      update_ (node dr (mergeAux fuel (node dl l0 l1) r0) r1)

/-- `Treap::merge_(t, left, right)`; returns the new `t`. -/
def merge_ (left right : Link) : Link :=
  mergeAux (left.count + right.count) left right

/-- The three parts held by a `Treap::SegmentSplitter`. -/
structure SegmentSplitter where
  left_part : Link
  mid : Link
  right_part : Link
deriving DecidableEq, Repr

/-- The constructor `SegmentSplitter::SegmentSplitter(t, left, right)`. -/
def SegmentSplitter.ctor (t : Link) (left right : Nat) : SegmentSplitter :=
  let s1 := split_ t left 0
  let s2 := split_ s1.2 (size_add (size_sub right left) 1) 0
  { left_part := s1.1, mid := s2.1, right_part := s2.2 }

/-- The destructor `SegmentSplitter::~SegmentSplitter()`; returns the reassembled root. -/
def SegmentSplitter.dtor (s : SegmentSplitter) : Link :=
  merge_ (merge_ s.left_part s.mid) s.right_part

/-- `Treap::print_` with recursion fuel; returns the values written, in order. -/
def printAux (fuel : Nat) (t : Link) : List Int :=
  match fuel, push_ t with
  | _, null => []
  | 0, node _ _ _ => []
  | fuel + 1, node d c0 c1 => printAux fuel c0 ++ d.value :: printAux fuel c1

/-- `Treap::print_`: the values written, in order (the materialized sequence). -/
def print_ (t : Link) : List Int := printAux t.count t

/-- `Treap::get_inversion_` with recursion fuel; returns the index and the tree after the
pushes made on the way. -/
def get_inversionAux (fuel : Nat) (t : Link) (type : Bool) (cur_key : Nat) : Nat × Link :=
  match fuel, push_ t with
  | _, null => (INF_INDEX, null)
  | 0, node d c0 c1 => (INF_INDEX, node d c0 c1)
  | fuel + 1, node d c0 c1 =>
    if d.inversion type = false then (INF_INDEX, node d c0 c1)
    else if c1.nonnull && has_inversion_ c1 type then
      let r := get_inversionAux fuel c1 type (cur_key + subtree_size_ c0 + 1)
      (r.1, node d c0 r.2)
    else if c1.nonnull && compare d.value (c1.border false) type then
      (cur_key + subtree_size_ c0, node d c0 c1)
    else if c0.nonnull && compare (c0.border true) d.value type then
      (size_sub (cur_key + subtree_size_ c0) 1, node d c0 c1)
    else
      let r := get_inversionAux fuel c0 type cur_key
      (r.1, node d r.2 c1)

/-- `Treap::get_inversion_(t, type, cur_key)`. -/
def get_inversion_ (t : Link) (type : Bool) (cur_key : Nat) : Nat × Link :=
  get_inversionAux t.count t type cur_key

/-- `Treap::get_nearest_` with recursion fuel; `none` when a null link is dereferenced. -/
def get_nearestAux (fuel : Nat) (t : Link) (val : Int) (type : Bool) (cur_key : Nat) :
    Option (Nat × Link) :=
  match fuel, push_ t with
  | _, null => none
  | 0, node _ _ _ => none
  | fuel + 1, node d c0 c1 =>
    if c1.nonnull && compare val (subtree_bound_ c1 (!type)) type then
      match get_nearestAux fuel c1 val type (cur_key + subtree_size_ c0 + 1) with
      | none => none
      | some r => some (r.1, node d c0 r.2)
    else if compare val d.value type then
      some (cur_key + subtree_size_ c0, node d c0 c1)
    else
      match get_nearestAux fuel c0 val type cur_key with
      | none => none
      | some r => some (r.1, node d r.2 c1)

/-- `Treap::get_nearest_(t, val, type, cur_key)`. -/
def get_nearest_ (t : Link) (val : Int) (type : Bool) (cur_key : Nat) : Option (Nat × Link) :=
  get_nearestAux t.count t val type cur_key

/-- `Treap::perform_operation`: `operate` returns its result and the new `mid`. -/
def perform_operation {α : Type} (root : Link) (left right : Nat)
    (operate : Link → α × Link) : α × Link :=
  let s := SegmentSplitter.ctor root left right
  let r := operate s.mid
  (r.1, SegmentSplitter.dtor { s with mid := r.2 })

/-- `Treap::insert(x, pos)`; returns the new root. -/
def insert (root : Link) (x : Int) (pos : Nat) (priority : Nat) : Link :=
  (perform_operation root pos (size_sub pos 1) (fun _ => ((), create x priority))).2

/-- `Treap::remove(pos)`; returns the new root. -/
def remove (root : Link) (pos : Nat) : Link :=
  (perform_operation root pos pos (fun t => ((), Link.remove t))).2

/-- `Treap::get_sum(left, right)`; returns the sum and the new root. -/
def get_sum (root : Link) (left right : Nat) : Int × Link :=
  perform_operation root left right (fun t => (subtree_sum_ t, t))

/-- `Treap::paint(x, left, right)`; returns the new root. -/
def paint (root : Link) (x : Int) (left right : Nat) : Link :=
  (perform_operation root left right (fun t => ((), subtree_paint_ t x))).2

/-- `Treap::add(x, left, right)`; returns the new root. -/
def add (root : Link) (x : Int) (left right : Nat) : Link :=
  (perform_operation root left right (fun t => ((), subtree_add_ t x))).2

/-- `Treap::QueryType`. -/
inductive QueryType where
  | SUM | INSERT | REMOVE | PAINT | ADD | NEXT_PERMUTATION | PREV_PERMUTATION
deriving DecidableEq, Repr

/-- The `type` index chosen from a `QueryType` inside `permute`
(`NEXT_PERMUTATION` gives 0, anything else 1). -/
def QueryType.index (q : QueryType) : Bool :=
  if q = QueryType.NEXT_PERMUTATION then false else true

/-- `Treap::permute(Link&, QueryType)`; `none` when a null link is dereferenced. -/
def Link.permute (t : Link) (permutation_type : QueryType) : Option Link :=
  let gi := get_inversion_ t permutation_type.index 0
  let capture_key := gi.1
  let t := gi.2
  if capture_key = INF_INDEX then some (subtree_reverse_ t)
  else
    let s1 := split_ t capture_key 0
    let t_left := s1.1
    let s2 := split_ s1.2 1 0
    let capture := s2.1
    let suffix := s2.2
    match capture with
    | null => none
    | node dcap cc0 cc1 =>
      match get_nearest_ suffix dcap.value permutation_type.index 0 with
      | none => none
      | some gn =>
        let nearest_key := gn.1
        let suffix := gn.2
        let s3 := split_ suffix nearest_key 0
        let suffix_left := s3.1
        let s4 := split_ s3.2 1 0
        let nearest := s4.1
        let suffix_right := s4.2
        let t := merge_ t_left nearest
        let suffix_left := merge_ suffix_left (node dcap cc0 cc1)
        let suffix := merge_ suffix_left suffix_right
        let suffix := subtree_reverse_ suffix
        some (merge_ t suffix)

/-- `Treap::permute(left, right, permutation_type)`: `perform_operation` around
`Link.permute`; `none` when a null link is dereferenced. -/
def permute (root : Link) (left right : Nat) (permutation_type : QueryType) : Option Link :=
  let s := SegmentSplitter.ctor root left right
  match Link.permute s.mid permutation_type with
  | none => none
  | some mid => some (SegmentSplitter.dtor { s with mid := mid })

/-- `permute(left, right, permutation_type)` called `k` times in a row on the same range;
`none` as soon as one call dereferences a null link. -/
def permuteIter (k : Nat) (root : Link) (left right : Nat) (permutation_type : QueryType) :
    Option Link :=
  match k with
  | 0 => some root
  | k + 1 =>
    match permuteIter k root left right permutation_type with
    | none => none
    | some t => permute t left right permutation_type

/-! ## Specification-level notions -/

/-- Effect of the tags pending at a node (`reversed`, then `paint`, then `add`) on the
sequence of one of its child subtrees. -/
def Node.pending (d : Node) (xs : List Int) : List Int :=
  let xs1 := if d.reversed then xs.reverse else xs
  let xs2 := if d.paint ≠ INF_VALUE then xs1.map (fun _ => d.paint) else xs1
  xs2.map (fun v => v + d.add)

/-- The materialized sequence of a tree: in-order values with all pending tags resolved. -/
def materialize : Link → List Int
  | null => []
  | node d c0 c1 => d.pending (materialize c0) ++ d.value :: d.pending (materialize c1)

/-- A node's fields with its three pending tags cleared. -/
def Node.cleared (d : Node) : Node :=
  { d with reversed := false, paint := INF_VALUE, add := 0 }

/-- What `push_` at a node with fields `d` does to one child. -/
def pushdown (d : Node) (c : Link) : Link :=
  let c1 := if d.reversed then subtree_reverse_ c else c
  let c2 := if d.paint ≠ INF_VALUE then subtree_paint_ c1 d.paint else c1
  if d.add ≠ 0 then subtree_add_ c2 d.add else c2

/-- A property holds at every node of a tree (each node seen as the root of its subtree). -/
def Link.All (P : Link → Prop) : Link → Prop
  | null => True
  | node d c0 c1 => P (node d c0 c1) ∧ Link.All P c0 ∧ Link.All P c1

/-- A property holds at every node below the root. -/
def Link.AllBelow (P : Link → Prop) : Link → Prop
  | null => True
  | node _ c0 c1 => Link.All P c0 ∧ Link.All P c1

/-- The cached `size` and `sum` of the root of `t` describe the materialized sequence of `t`. -/
def SizeSumOK (t : Link) : Prop :=
  subtree_size_ t = (materialize t).length ∧ subtree_sum_ t = (materialize t).sum

/-- The strict order selected by `type`: `compare a b type` holds
(`a < b` for type 0, `a > b` for type 1). -/
def rel (type : Bool) (a b : Int) : Prop := compare a b type = true

/-- The value `subtree_bound_` is meant to return for a subtree with sequence `m`: the
`type`-extreme element of `m` (minimum for type 0, maximum for type 1), or the sentinel
`INF_VALUE * (type ? -1 : 1)` when `m` is empty. -/
def BoundOf (type : Bool) (m : List Int) (B : Int) : Prop :=
  (m = [] ∧ B = INF_VALUE * (if type then -1 else 1)) ∨
  (B ∈ m ∧ ∀ v ∈ m, compare v B type = false)

/-- The cached `bound`, `border` and `inversion` fields of the root of `t` describe the
materialized sequence of `t`: `bound[0]`/`bound[1]` are its minimum/maximum, `border[0]`/
`border[1]` its first/last element, `inversion[type]` tells whether some earlier element is
`type`-smaller than a later one (equivalently, whether some adjacent pair is). -/
def AggOK : Link → Prop
  | null => True
  | node d c0 c1 =>
    (∀ type, d.bound type ∈ materialize (node d c0 c1) ∧
      ∀ v ∈ materialize (node d c0 c1), compare v (d.bound type) type = false) ∧
    (materialize (node d c0 c1)).head? = some d.border0 ∧
    (materialize (node d c0 c1)).getLast? = some d.border1 ∧
    (∀ type, d.inversion type = true ↔
      ¬ (materialize (node d c0 c1)).Pairwise (fun a b => compare a b type = false))

/-- All cached aggregates of the root of `t` describe the materialized sequence of `t`. -/
def Good (t : Link) : Prop := SizeSumOK t ∧ AggOK t

/-- What `permute(Link&, type)` does to a range with sequence `m`, read off the code:
`X` is the new sequence.  Without a `type`-inversion the range is reversed.  Otherwise
`m = A ++ a :: b :: S` with the pivot `a` at the rightmost inversion (`b :: S` has none);
when the pivot's index `A.length` equals `INF_INDEX` the range is reversed as well, and in
every other case the pivot is exchanged with the rightmost element `c` of the suffix that
is `type`-greater than it and the suffix is reversed. -/
def CodeStep (type : Bool) (m X : List Int) : Prop :=
  (m.Pairwise (fun x y => compare x y type = false) ∧ X = m.reverse) ∨
  (∃ A a b S, m = A ++ a :: b :: S ∧ compare a b type = true ∧
    (b :: S).Pairwise (fun x y => compare x y type = false) ∧
    ((A.length = INF_INDEX ∧ X = m.reverse) ∨
     (A.length ≠ INF_INDEX ∧ ∃ B c C, b :: S = B ++ c :: C ∧ compare a c type = true ∧
        (∀ y ∈ C, compare a y type = false) ∧ X = A ++ c :: (B ++ a :: C).reverse)))

/-- The elements of `s` at positions `l, ..., r`. -/
def segment (s : List Int) (l r : Nat) : List Int := (s.drop l).take (r - l + 1)

/-- `X` is the lexicographically smallest rearrangement of `m` that is strictly greater
than `m`. -/
def IsNextPerm (m X : List Int) : Prop :=
  X.Perm m ∧ List.Lex (fun a b : Int => a < b) m X ∧
  ∀ Y : List Int, Y.Perm m → List.Lex (fun a b : Int => a < b) m Y →
    ¬ List.Lex (fun a b : Int => a < b) Y X

/-- `X` is the lexicographically largest rearrangement of `m` that is strictly smaller
than `m`. -/
def IsPrevPerm (m X : List Int) : Prop :=
  X.Perm m ∧ List.Lex (fun a b : Int => a < b) X m ∧
  ∀ Y : List Int, Y.Perm m → List.Lex (fun a b : Int => a < b) Y m →
    ¬ List.Lex (fun a b : Int => a < b) X Y

/-- Some adjacent pair of `m` is ascending: `m[p] < m[p+1]` for some `p`. -/
def HasAscent (m : List Int) : Prop := ∃ A a b S, m = A ++ a :: b :: S ∧ a < b

/-- Some adjacent pair of `m` is descending: `m[p] > m[p+1]` for some `p`. -/
def HasDescent (m : List Int) : Prop := ∃ A a b S, m = A ++ a :: b :: S ∧ b < a

/-- The rightmost `p` with `m[p] < m[p+1]` is `p`: an ascent at `p`, none after it. -/
def RightmostAscentAt (m : List Int) (p : Nat) : Prop :=
  ∃ A a b S, m = A ++ a :: b :: S ∧ A.length = p ∧ a < b ∧
    (b :: S).Pairwise (fun x y => y ≤ x)

/-- The rightmost `p` with `m[p] > m[p+1]` is `p`: a descent at `p`, none after it. -/
def RightmostDescentAt (m : List Int) (p : Nat) : Prop :=
  ∃ A a b S, m = A ++ a :: b :: S ∧ A.length = p ∧ b < a ∧
    (b :: S).Pairwise (fun x y => x ≤ y)

/-- One call of `permute(l, r, NEXT_PERMUTATION)` as the classic algorithm specifies it on
the content `m` of the range: the next permutation when `m` has an ascent, the reversal
(wrap to the first permutation) when it has none. -/
def NextStep (m X : List Int) : Prop :=
  (HasAscent m ∧ IsNextPerm m X) ∨ (¬ HasAscent m ∧ X = m.reverse)

/-- The set of all rearrangements of `V`. -/
def permSet (V : List Int) : Finset (List Int) := V.permutations.toFinset

/-- The number of rearrangements of `V` that are lexicographically smaller than `Y`. -/
def lexRank (V Y : List Int) : Nat :=
  ((permSet V).filter (fun Z => List.Lex (fun a b : Int => a < b) Z Y)).card

/-- A property of subtrees that survives the application of each of the three tags
(the assign tag being one that `push_paint_` can push, that is, not `INF_VALUE`). -/
structure TagStable (P : Link → Prop) : Prop where
  rev : ∀ t, P t → P (subtree_reverse_ t)
  paint : ∀ x t, x ≠ INF_VALUE → P t → P (subtree_paint_ t x)
  add : ∀ x t, P t → P (subtree_add_ t x)

/-- Every element is strictly between `-INF_VALUE` and `INF_VALUE`. -/
def InRange (xs : List Int) : Prop := ∀ v ∈ xs, -INF_VALUE < v ∧ v < INF_VALUE

/-- One call of a public operation takes the root `t` to the root `t1`
(arbitrary arguments, arbitrary priority of an inserted node). -/
inductive Step : Link → Link → Prop
  | insert (t : Link) (x : Int) (pos priority : Nat) : Step t (insert t x pos priority)
  | remove (t : Link) (pos : Nat) : Step t (remove t pos)
  | get_sum (t : Link) (left right : Nat) : Step t (get_sum t left right).2
  | paint (t : Link) (x : Int) (left right : Nat) : Step t (paint t x left right)
  | add (t : Link) (x : Int) (left right : Nat) : Step t (add t x left right)
  | permute (t t1 : Link) (left right : Nat) (q : QueryType) :
      permute t left right q = some t1 → Step t t1

/-- The treap states reachable from the empty treap through the public operations. -/
inductive Reachable : Link → Prop
  | empty : Reachable null
  | step {t t1 : Link} : Reachable t → Step t t1 → Reachable t1

/-- The reachable treap states whose elements have always been strictly between
`-INF_VALUE` and `INF_VALUE`: every state on the way satisfies `InRange`. -/
inductive ReachableIn : Link → Prop
  | empty : ReachableIn null
  | step {t t1 : Link} : ReachableIn t → Step t t1 → InRange (print_ t1) → ReachableIn t1

/-! ## Concrete states used to instantiate the theorems -/

/-- The treap obtained from the empty one by `insert(5, 0)` then `insert(9, 0)`:
the sequence `[9, 5]`. -/
def exampleTwo : Link := insert (insert null 5 0 3) 9 0 7

/-- The treap obtained by inserting `1, 2, 3` at positions `0, 1, 2`: the sequence `[1, 2, 3]`. -/
def exampleThree : Link := insert (insert (insert null 1 0 5) 2 1 3) 3 2 9

/-- The treap holding the sequence `e`, built from the empty treap by inserting the elements
of `e` from the last to the first, each at position 0 (priority 0). -/
def fromList (e : List Int) : Link := e.foldr (fun x t => insert t x 0 0) null

/-- A sequence of `INF_INDEX + 2` elements, `INF_INDEX` zeros followed by `0, 1`: its only
ascent is at position `INF_INDEX`. -/
def sentinelAscending : List Int := List.replicate INF_INDEX 0 ++ [0, 1]

/-- A sequence of `INF_INDEX + 2` elements, `INF_INDEX` ones followed by `1, 0`: its only
descent is at position `INF_INDEX`. -/
def sentinelDescending : List Int := List.replicate INF_INDEX 1 ++ [1, 0]

/-- A state of three elements inserted with values above `INF_VALUE` (`3*10^14 + 1`,
`3*10^14 + 2`, `3*10^14`) and then brought into range by `add(-3*10^14, 0, 2)`: the
sequence `[1, 2, 0]`. -/
def exampleStale : Link :=
  add (insert (insert (insert null 300000000000001 0 5) 300000000000002 1 1)
    300000000000000 2 9) (-300000000000000) 0 2

/-- A sequence of `INF_INDEX + 2` pairwise distinct elements, `1, 0, 4, 5, ..., INF_INDEX + 1,
2, 3`: its first pair descends and its last pair, at position `INF_INDEX`, ascends. -/
def sentinelDistinct : List Int :=
  1 :: 0 :: ((List.range (INF_INDEX - 2)).map (fun i : Nat => (i : Int) + 4) ++ [2, 3])

/-- The treap obtained from `exampleThree` by `insert(0, 0)`: the sequence `[0, 1, 2, 3]`. -/
def exampleFour : Link := insert exampleThree 0 0 4

/-! ## Further notions: initial build, heap order, aggregate meaning -/

/-- The initial build of `process_data`: the loop `t.insert(data.elements[i], i)` for
`i = 0, ..., data.elements.size() - 1`, run from the root `t`; `priority i` is the priority
drawn for the node created by the `i`-th insertion. -/
def process_data_build (t : Link) (elements : List Int) (priority : Nat → Nat) : Link :=
  (List.range elements.length).foldl
    (fun t i => insert t (elements.getD i 0) i (priority i)) t

/-- The priority of the root of `c` is at most `p` (nothing to check for a null link). -/
def Link.priorityLE (c : Link) (p : Nat) : Prop :=
  match c with
  | null => True
  | node dc _ _ => dc.priority ≤ p

/-- The priority of the root of `t` is greater than or equal to the priority of each of its
children. -/
def HeapAt : Link → Prop
  | null => True
  | node d c0 c1 => c0.priorityLE d.priority ∧ c1.priorityLE d.priority

/-- The heap invariant: every node's priority is greater than or equal to the priority of
each of its children. -/
def Heap (t : Link) : Prop := Link.All HeapAt t

/-- The aggregate fields of the root of `t` agree with the materialized sequence `m` of `t`:
`size` is the length of `m` and one more than the sizes of the two children, `sum` is the sum
of `m`, `bound[0]`/`bound[1]` are the minimum/maximum of `m`, `border[0]`/`border[1]` are the
first/last element of `m`. -/
def AggregatesMatch : Link → Prop
  | null => True
  | node d c0 c1 =>
    d.size = (print_ (node d c0 c1)).length ∧
    d.size = 1 + subtree_size_ c0 + subtree_size_ c1 ∧
    d.sum = (print_ (node d c0 c1)).sum ∧
    (print_ (node d c0 c1)).minimum = (d.bound0 : WithTop Int) ∧
    (print_ (node d c0 c1)).maximum = (d.bound1 : WithBot Int) ∧
    (print_ (node d c0 c1)).head? = some d.border0 ∧
    (print_ (node d c0 c1)).getLast? = some d.border1

/-- The inversion flags of the root of `t` agree with the materialized sequence `m` of `t`:
`inversion[0]` is set exactly when `m` has an adjacent ascending pair, `inversion[1]` exactly
when `m` has an adjacent descending pair. -/
def InversionFlagsMatch : Link → Prop
  | null => True
  | node d c0 c1 =>
    (d.inversion0 = true ↔ HasAscent (print_ (node d c0 c1))) ∧
    (d.inversion1 = true ↔ HasDescent (print_ (node d c0 c1)))

/-- A state of five elements: `-10^14 - 1`, `3`, `0`, `0`, `-10^14 - 1` are inserted with
priorities `1, 10, 6, 4, 8`, then `paint(-10^14 - 1, 2, 3)` and `add(2, 0, 4)` are applied.
The sequence is `[-10^14 + 1, 5, -10^14 + 1, -10^14 + 1, -10^14 + 1]`. -/
def exampleStaleBound : Link :=
  add (paint (insert (insert (insert (insert (insert null (-100000000000001) 0 1) 3 1 10)
    0 2 6) 0 3 4) (-100000000000001) 4 8) (-100000000000001) 2 3) 2 0 4

/-- A leaf holding the value `10^14 + 1`, as `Node::Node` creates it. -/
def exampleLeafAbove : Link := create 100000000000001 0

/-! ## Further notions: nodes of a tree, bounds alone, values in range -/

/-- The field `t->child[i]` (null for a null link). -/
def Link.child (t : Link) (i : Bool) : Link :=
  match t with
  | null => null
  | node _ c0 c1 => if i then c1 else c0

/-- The link `s` is `t` itself or hangs below some node of `t`: the nodes of a treap with
root `t` are the non-null links `s` with `Link.Subtree s t`. -/
inductive Link.Subtree : Link → Link → Prop
  | root (t : Link) : Link.Subtree t t
  | child0 {s : Link} (d : Node) (c0 c1 : Link) : Link.Subtree s c0 →
      Link.Subtree s (node d c0 c1)
  | child1 {s : Link} (d : Node) (c0 c1 : Link) : Link.Subtree s c1 →
      Link.Subtree s (node d c0 c1)

/-- The field `t->priority` of a non-null link (`0` stands for the field of a null link). -/
def Link.priority (t : Link) : Nat :=
  match t with
  | null => 0
  | node d _ _ => d.priority

/-- The field `t->value` of a non-null link (`0` stands for the field of a null link). -/
def Link.value (t : Link) : Int :=
  match t with
  | null => 0
  | node d _ _ => d.value

/-- The cached `bound[0]`/`bound[1]` of the root of `t` are the minimum/maximum of the
materialized sequence of `t`. -/
def BoundsOK : Link → Prop
  | null => True
  | node d c0 c1 =>
    ∀ type, d.bound type ∈ materialize (node d c0 c1) ∧
      ∀ v ∈ materialize (node d c0 c1), compare v (d.bound type) type = false

/-- The cached `size`, `sum` and the two bounds of the root of `t` describe the materialized
sequence of `t`. -/
def BoundGood (t : Link) : Prop := SizeSumOK t ∧ BoundsOK t

/-- Every element of the materialized sequence of `t` is strictly between `-INF_VALUE` and
`INF_VALUE`. -/
def RangeOK (t : Link) : Prop := InRange (materialize t)

/-- The position `p` is the largest one at which the sequence `m` has an adjacent pair in
the order selected by `type`: `m[p] < m[p+1]` for type 0, `m[p] > m[p+1]` for type 1, and no
later position has such a pair. -/
def LargestPivot (type : Bool) (m : List Int) (p : Nat) : Prop :=
  (∃ a b, m[p]? = some a ∧ m[p + 1]? = some b ∧ compare a b type = true) ∧
  ∀ q a b, p < q → m[q]? = some a → m[q + 1]? = some b → compare a b type = false

/-- Some position of `m` has an adjacent pair in the order selected by `type`. -/
def HasPivot (type : Bool) (m : List Int) : Prop :=
  ∃ p a b, m[p]? = some a ∧ m[p + 1]? = some b ∧ compare a b type = true

/-- The treap obtained from `exampleThree` by `add(7, 0, 2)`: the sequence `[8, 9, 10]`.
The left child of its root still carries the add tag. -/
def examplePending : Link := add exampleThree 7 0 2

/-- The fields of the left child of the root of `examplePending` (pending `add = 7`). -/
def examplePendingFields : Node :=
  { value := 8, bound0 := 8, bound1 := 9, border0 := 8, border1 := 9, paint := INF_VALUE,
    add := 7, sum := 17, priority := 5, size := 2, reversed := false,
    inversion0 := true, inversion1 := false }

/-- The right child of that node: a leaf that the tag has not reached yet, holding `2`. -/
def examplePendingLeaf : Link :=
  node { value := 2, bound0 := 2, bound1 := 2, border0 := 2, border1 := 2, paint := INF_VALUE,
         add := 0, sum := 2, priority := 3, size := 1, reversed := false,
         inversion0 := false, inversion1 := false } null null

/-! ## Further notions: borders alone, states that once held values below the sentinel -/

/-- The cached `border[0]` and `border[1]` of the root of `t` are the first and the last
element of the materialized sequence of `t`. -/
def BorderOK : Link → Prop
  | null => True
  | node d c0 c1 =>
    (materialize (node d c0 c1)).head? = some d.border0 ∧
    (materialize (node d c0 c1)).getLast? = some d.border1

/-- A leaf holding the value `-10^14 - 1`, as `Node::Node` creates it. -/
def exampleLeafBelow : Link := create (-100000000000001) 0

/-- A state of three elements inserted with values below `-INF_VALUE` (`-3*10^14 - 1`,
`-3*10^14 - 2`, `-3*10^14`) and then brought into range by `add(3*10^14, 0, 2)`: the
sequence `[-1, -2, 0]`. -/
def exampleStaleBelow : Link :=
  add (insert (insert (insert null (-300000000000001) 0 5) (-300000000000002) 1 1)
    (-300000000000000) 2 9) 300000000000000 0 2

end Treap

/-! # `nim.cpp`: the first move of a game of Nim, computed by templates

The template parameters are `int`s; the piles are the non-negative ones, kept as natural
numbers. A template instantiation is an evaluation of the function of the same name. -/

namespace Nim

/-- `GetXor<nums...>::value`. -/
def GetXor : List Nat → Nat
  | [] => 0
  | head :: tail => head ^^^ GetXor tail

/-- The value `a_1 xor ... xor a_m` of a list of piles as the game defines it: the bitwise
exclusive or of all piles, accumulated from the left starting at zero. It is stated apart
from the template `GetXor`, which the theorems compare with it. -/
def pilesXor (piles : List Nat) : Nat := piles.foldl (fun acc a => acc ^^^ a) 0

/-- `LeftmostBit<num, cur>::value` with a bound on the depth of the instantiations; `none`
when the bound is reached. The specialisation `LeftmostBit<0, cur>` comes first. -/
def LeftmostBitAux : Nat → Nat → Nat → Option Nat
  | 0, _, _ => none
  | fuel + 1, num, cur =>
    if num = 0 then some 0
    else if num = cur then some num
    else LeftmostBitAux fuel ((num ||| cur) ^^^ cur) (cur <<< 1)

/-- `LeftmostBit<num>::value` (`cur = 1`); an `int` has 31 value bits, so 32 instantiations
are enough for every non-negative `num`. -/
def LeftmostBit (num : Nat) : Option Nat := LeftmostBitAux 32 num 1

/-- The three constants of `FindMove` and of `AhalaiMahalai`. -/
structure Move where
  who : Int
  whence : Int
  how : Int
deriving DecidableEq, Repr

/-- `FindMove<pile_id, bit, sum, nums...>`: the specialisation `<1, 0, 0, head, nums...>`,
the specialisation without piles, and the general case. -/
def FindMove (pile_id : Int) (bit sum : Nat) : List Nat → Move
  | [] => { who := 0, whence := 0, how := 0 }
  | head :: tail =>
    if pile_id = 1 ∧ bit = 0 ∧ sum = 0 then { who := 1 + 1, whence := 0, how := 0 }
    else
      let continue_search := FindMove (pile_id + 1) bit sum tail
      { who := 1
        whence := if head &&& bit ≠ 0 then pile_id else continue_search.whence
        how := if head &&& bit ≠ 0 then (head : Int) - ((head ^^^ sum : Nat) : Int)
               else continue_search.how }

/-- `AhalaiMahalai<nums...>`; `none` when `LeftmostBit` is not computed. -/
def AhalaiMahalai (nums : List Nat) : Option Move :=
  let sum := GetXor nums
  match LeftmostBit sum with
  | none => none
  | some bit => some (FindMove 1 bit sum nums)

/-- The piles after `how` stones are taken from pile `whence` (1-based). -/
def applyMove (nums : List Nat) (whence how : Int) : List Nat :=
  nums.set (whence.toNat - 1) ((nums.getD (whence.toNat - 1) 0 : Int) - how).toNat

end Nim

/-! # `permutation.cpp`: the class `Permutation`

An object is the content of its array `p_`, a list of `int`s; `n_` is the length of the
list. A member function that reads or writes outside the array returns `none`. -/

namespace Permutation

/-- The constructor `Permutation(unsigned int n)`: `p_[i] = i` for every `i < n`. -/
def identity (n : Nat) : List Int := (List.range n).map (fun i : Nat => (i : Int))

/-- `Permutation::operator <`: the loop over `i`, as a recursion on what is left of the two
arrays from position `i` on. -/
def operator_lt : List Int → List Int → Bool
  | [], [] => false
  | [], _ :: _ => true
  | _ :: _, [] => false
  | a :: p, b :: other => if a ≠ b then decide (a < b) else operator_lt p other

/-- The element `p_[v]` for an `int` index `v`; `none` outside the array. -/
def at_index (p : List Int) (v : Int) : Option Int :=
  if 0 ≤ v then p[v.toNat]? else none

/-- `Permutation::operator *=`: `buf[i] = p_[other.p_[i]]` for every `i < n_`, then `buf`
is copied into `p_`. -/
def operator_mul_assign (p other : List Int) : Option (List Int) :=
  (List.range p.length).mapM (fun i => (other[i]?).bind (fun v => at_index p v))

/-- `Permutation::operator *`: a copy of the left operand multiplied in place. -/
def operator_mul (p other : List Int) : Option (List Int) :=
  operator_mul_assign p other

/-- The free function `swap(int & a, int & b)` applied to `p_[i]` and `p_[j]`. -/
def swap (p : List Int) (i j : Nat) : List Int :=
  let tmp := p.getD i 0
  (p.set i (p.getD j 0)).set j tmp

/-- The first loop of `operator ++`, entered with `k`:
`for (; k > 0 && p_[k - 1] > p_[k]; --k) {}`; returns the final `k`. -/
def descent_start (p : List Int) : Nat → Nat
  | 0 => 0
  | k + 1 => if p.getD k 0 > p.getD (k + 1) 0 then descent_start p k else k + 1

/-- The second loop of `operator ++`, with `count` iterations left, the loop variable `i`
and the current `min_greater`; returns the final `min_greater`. -/
def min_greater_loop (p : List Int) (k : Nat) : Nat → Nat → Nat → Nat
  | 0, _, min_greater => min_greater
  | count + 1, i, min_greater =>
    min_greater_loop p k count (i + 1)
      (if p.getD i 0 > p.getD k 0 ∧ p.getD i 0 < p.getD min_greater 0 then i
       else min_greater)

/-- The third loop of `operator ++`:
`for (; left < right; ++left, --right) swap(p_[left], p_[right])`, with a bound on the
number of iterations. -/
def reverse_loop : Nat → List Int → Nat → Nat → List Int
  | 0, p, _, _ => p
  | fuel + 1, p, left, right =>
    if left < right then reverse_loop fuel (swap p left right) (left + 1) (right - 1)
    else p

/-- `Permutation::operator ++()`; returns the new content of `p_`. With `n_ = 0` the
starting value `n_ - 1` wraps around and `p_[k - 1]` is read outside the array. -/
def operator_inc (p : List Int) : Option (List Int) :=
  if p.length = 0 then none
  else
    let k := descent_start p (p.length - 1)
    if k = 0 then some (identity p.length)
    else
      let k := k - 1
      let min_greater := min_greater_loop p k (p.length - (k + 1)) (k + 1) (k + 1)
      let p := swap p k min_greater
      some (reverse_loop p.length p (k + 1) (p.length - 1))

/-- `Permutation::inverse()`: `result` starts as `Permutation(n_)`, then
`result.p_[p_[i]] = i` for every `i < n_`. -/
def inverse (p : List Int) : Option (List Int) :=
  (List.range p.length).foldlM
    (fun result i =>
      let v := p.getD i 0
      if 0 ≤ v ∧ v.toNat < result.length then some (result.set v.toNat (i : Int)) else none)
    (identity p.length)

/-- The product of two permutations as the class documents it, `(a * b)[i] = a[b[i]]` for
every position `i` of `b`; stated apart from `operator *`, which the theorems compare with
it. -/
def compose (a b : List Int) : List Int := b.map (fun v => a.getD v.toNat 0)

/-- The descending permutation `(n - 1, ..., 1, 0)`. -/
def descending (n : Nat) : List Int := (identity n).reverse

/-- The content holds a permutation of `0, ..., n - 1`. -/
def IsPermutation (n : Nat) (p : List Int) : Prop := p.Perm (identity n)

end Permutation

/-! # `rational.cpp`: the classes `BigInteger` and `Rational`

A `BigInteger` is its digit vector `num_` (least significant digit first, elements of type
`int`) and its `sign_`. A loop that may not end is given a bound on its iterations and
returns `none` when the bound is reached. -/

/-- The class `BigInteger`: the digit vector and the sign. -/
structure BigInteger where
  num_ : List Int
  sign_ : Int
deriving DecidableEq, Repr

namespace BigInteger

/-- The constant `BigInteger::BASE_`. -/
def BASE_ : Int := 10

/-- `num_.back()`; `0` stands for the back of an empty vector, which no function below
produces. -/
def back (num : List Int) : Int := num.getLast?.getD 0

/-- The loop of `normalize` on the digits read from the most significant one:
`while (num_.size() > 1 && num_.back() == 0) num_.pop_back()`. -/
def pop_zeros : List Int → List Int
  | [] => []
  | d :: rest => if rest ≠ [] ∧ d = 0 then pop_zeros rest else d :: rest

/-- `BigInteger::normalize`. -/
def normalize (a : BigInteger) : BigInteger :=
  let num := (pop_zeros a.num_.reverse).reverse
  { num_ := num, sign_ := if back num = 0 then 1 else a.sign_ }

/-- `BigInteger::invert_sign`. -/
def invert_sign (a : BigInteger) : BigInteger :=
  normalize { a with sign_ := a.sign_ * (-1) }

/-- The loop `while (x != 0) { num_.push_back(x % 10); x /= 10; }` of the constructor; an
`int` has at most 10 decimal digits. -/
def push_digits : Nat → Int → List Int
  | 0, _ => []
  | fuel + 1, x => if x ≠ 0 then Int.tmod x 10 :: push_digits fuel (Int.tdiv x 10) else []

/-- The constructor `BigInteger(int)`. (For `x = INT_MIN` the statement `x *= -1`
overflows; the arguments considered are the other values of `int`.) -/
def ofInt (x : Int) : BigInteger :=
  let sign : Int := if x < 0 then -1 else 1
  let x := if x < 0 then x * (-1) else x
  { num_ := if x = 0 then [0] else push_digits 10 x, sign_ := sign }

/-- `BigInteger::abs_equal`. -/
def abs_equal (a other : BigInteger) : Bool := decide (a.num_ = other.num_)

/-- The loop of `abs_less` on two digit vectors read from the most significant digit. -/
def abs_less_loop : List Int → List Int → Bool
  | a :: as, b :: bs => if a ≠ b then decide (a < b) else abs_less_loop as bs
  | _, _ => false

/-- `BigInteger::abs_less`. -/
def abs_less (a other : BigInteger) : Bool :=
  if a.num_.length ≠ other.num_.length then decide (a.num_.length < other.num_.length)
  else abs_less_loop a.num_.reverse other.num_.reverse

/-- `BigInteger::abs_greater`. -/
def abs_greater (a other : BigInteger) : Bool := !(abs_less a other || abs_equal a other)

/-- The loop of `abs_add` from position `i` on, once `i` has reached `num_.size()`: a `0`
is pushed for every further digit of `other` and for a last carry. -/
def abs_add_tail : List Int → Bool → List Int
  | b :: bs, carry =>
    let v := 0 + (b + (if carry then 1 else 0))
    if v ≥ BASE_ then (v - BASE_) :: abs_add_tail bs true else v :: abs_add_tail bs false
  | [], true => [1]
  | [], false => []

/-- The loop of `abs_add` from position `i` on: what is left of the two digit vectors and
the carry (`true` is 1). The loop goes on while a digit is left or the carry is set. -/
def abs_add_loop : List Int → List Int → Bool → List Int
  | a :: as, b :: bs, carry =>
    let v := a + (b + (if carry then 1 else 0))
    if v ≥ BASE_ then (v - BASE_) :: abs_add_loop as bs true else v :: abs_add_loop as bs false
  | a :: as, [], carry =>
    let v := a + (0 + (if carry then 1 else 0))
    if v ≥ BASE_ then (v - BASE_) :: abs_add_loop as [] true else v :: abs_add_loop as [] false
  | [], bs, carry => abs_add_tail bs carry

/-- `BigInteger::abs_add`. -/
def abs_add (a other : BigInteger) : BigInteger :=
  normalize { a with num_ := abs_add_loop a.num_ other.num_ false }

/-- The loop of `abs_substract` from position `i` on. The loop runs up to the larger of the
two sizes; every caller has checked `!abs_less(other)`, so `other` is not the longer one and
the third case (a write behind the end of `num_`) is not reached. -/
def abs_substract_loop : List Int → List Int → Bool → List Int
  | a :: as, b :: bs, carry =>
    let v := a - (b + (if carry then 1 else 0))
    if v < 0 then (v + BASE_) :: abs_substract_loop as bs true
    else v :: abs_substract_loop as bs false
  | a :: as, [], carry =>
    let v := a - (0 + (if carry then 1 else 0))
    if v < 0 then (v + BASE_) :: abs_substract_loop as [] true
    else v :: abs_substract_loop as [] false
  | [], _, _ => []

/-- `BigInteger::abs_substract`. -/
def abs_substract (a other : BigInteger) : BigInteger :=
  normalize { a with num_ := abs_substract_loop a.num_ other.num_ false }

/-- The inner loop of `abs_multiply` for the digit `d = num_[i]`: what is left of
`other.num_` from position `j` on, the part of `result.num_` from position `i + j` on, and
the carry. The loop goes on while `j < other.num_.size() || carry > 0`. The buffer has
`num_.size() + other.num_.size() + 7` digits, so its end (third case) is not reached. -/
def multiply_row (d : Int) : List Int → List Int → Int → List Int
  | b :: bs, r :: rs, carry =>
    let v := r + (d * b + carry)
    Int.tmod v BASE_ :: multiply_row d bs rs (Int.tdiv v BASE_)
  | [], r :: rs, carry =>
    if carry > 0 then
      let v := r + (d * 0 + carry)
      Int.tmod v BASE_ :: multiply_row d [] rs (Int.tdiv v BASE_)
    else r :: rs
  | _, [], _ => []

/-- The outer loop of `abs_multiply`: what is left of `num_` from position `i` on and the
part of `result.num_` from position `i` on; the digits below position `i` are final. -/
def multiply_loop : List Int → List Int → List Int → List Int
  | [], _, result => result
  | a :: as, other, result =>
    match multiply_row a other result 0 with
    | [] => []
    | x :: rest => x :: multiply_loop as other rest

/-- `BigInteger::abs_multiply`. -/
def abs_multiply (a other : BigInteger) : BigInteger :=
  normalize { a with
    num_ := multiply_loop a.num_ other.num_
      (List.replicate (a.num_.length + other.num_.length + 7) 0) }

/-- `operator *=` for `BigInteger`. -/
def operator_mul_assign (a b : BigInteger) : BigInteger :=
  let a := abs_multiply a b
  let a := if b.sign_ = -1 then invert_sign a else a
  normalize a

/-- `operator *` for `BigInteger`. -/
def operator_mul (a b : BigInteger) : BigInteger := operator_mul_assign a b

/-- `BigInteger::power_of_ten`: `BigInteger(1)` multiplied `pow` times by `ten`. -/
def power_of_ten : Nat → BigInteger
  | 0 => ofInt 1
  | pow + 1 => abs_multiply (power_of_ten pow) (ofInt 10)

/-- The loop `for (digit = 9; dividend.abs_less((pow * digit).abs_multiply(other));
--digit) {}` of `abs_divide`, entered with `digit`. -/
def digit_loop : Nat → BigInteger → BigInteger → BigInteger → Int → Option Int
  | 0, _, _, _, _ => none
  | fuel + 1, dividend, pow, other, digit =>
    if abs_less dividend (abs_multiply (operator_mul pow (ofInt digit)) other) then
      digit_loop fuel dividend pow other (digit - 1)
    else some digit

/-- The main loop of `abs_divide` for `i, i - 1, ..., 1`; returns the digits
`result.num_[0 .. i - 1]`. -/
def divide_loop : Nat → BigInteger → BigInteger → Option (List Int)
  | 0, _, _ => some []
  | i + 1, dividend, other =>
    let pow := power_of_ten i
    match digit_loop 10 dividend pow other 9 with
    | none => none
    | some digit =>
      let dividend := abs_substract dividend (abs_multiply (operator_mul pow (ofInt digit)) other)
      (divide_loop i dividend other).map (fun low => low ++ [digit])

/-- `BigInteger::abs_divide`. -/
def abs_divide (a other : BigInteger) : Option BigInteger :=
  if abs_less a other then some { a with num_ := [0] }
  else if abs_equal a other then some { a with num_ := [1] }
  else (divide_loop a.num_.length a other).map (fun digits => normalize { a with num_ := digits })

/-- `operator ==` for `BigInteger`. -/
def operator_eq (a b : BigInteger) : Bool := decide (a.sign_ = b.sign_) && abs_equal a b

/-- `operator !=` for `BigInteger`. -/
def operator_ne (a b : BigInteger) : Bool := !operator_eq a b

/-- `operator <` for `BigInteger`. -/
def operator_lt (a b : BigInteger) : Bool :=
  if a.sign_ ≠ b.sign_ then decide (a.sign_ < b.sign_)
  else if a.sign_ = 1 then abs_less a b
  else abs_greater a b

/-- The first two branches of `operator +=`; `none` for the third one. -/
def add_branch (a b : BigInteger) : Option BigInteger :=
  if a.sign_ = b.sign_ then some (abs_add a b)
  else if !abs_less a b then some (abs_substract a b)
  else none

/-- `operator +=` for `BigInteger`. The third branch `a = b + a` runs `operator +=` with the
operands exchanged, which takes one of the first two branches (`abs_less` does not hold both
ways). -/
def operator_add_assign (a b : BigInteger) : BigInteger :=
  match add_branch a b with
  | some r => normalize r
  | none =>
    match add_branch b a with
    | some r => normalize (normalize r)
    | none => a

/-- `operator +` for `BigInteger`. -/
def operator_add (a b : BigInteger) : BigInteger := operator_add_assign a b

/-- `operator -=` for `BigInteger`. -/
def operator_sub_assign (a b : BigInteger) : BigInteger :=
  let a := operator_mul_assign a (ofInt (-1))
  let a := operator_add_assign a b
  let a := operator_mul_assign a (ofInt (-1))
  normalize a

/-- `operator -` (binary) for `BigInteger`. -/
def operator_sub (a b : BigInteger) : BigInteger := operator_sub_assign a b

/-- `operator /=` for `BigInteger`. -/
def operator_div_assign (a b : BigInteger) : Option BigInteger :=
  (abs_divide a b).map (fun a =>
    let a := if b.sign_ = -1 then invert_sign a else a
    normalize a)

/-- `operator /` for `BigInteger`. -/
def operator_div (a b : BigInteger) : Option BigInteger := operator_div_assign a b

/-- `operator %=` for `BigInteger`. -/
def operator_mod_assign (a b : BigInteger) : Option BigInteger :=
  (operator_div_assign a b).map (fun aux =>
    let aux := operator_mul_assign aux b
    let a := operator_sub_assign a aux
    normalize a)

/-- `operator %` for `BigInteger`. -/
def operator_mod (a b : BigInteger) : Option BigInteger := operator_mod_assign a b

/-- `operator -` (unary) for `BigInteger`. -/
def operator_neg (x : BigInteger) : BigInteger := normalize (invert_sign x)

/-- The character `d + '0'`. -/
def digit_char (d : Int) : Char := Char.ofNat (d + 48).toNat

/-- `BigInteger::toString`. -/
def toString (a : BigInteger) : String :=
  a.num_.reverse.foldl (fun result d => result.push (digit_char d))
    (if a.sign_ = -1 then "-" else "")

/-- The integer denoted by a digit vector. -/
def digits_value : List Int → Int
  | [] => 0
  | d :: ds => d + 10 * digits_value ds

/-- The integer `val(a)` denoted by a `BigInteger`. -/
def val (a : BigInteger) : Int := a.sign_ * digits_value a.num_

/-- The loop `while (b != 0) { a %= b; swap(a, b); }` of `greatest_common_divisor`. -/
def gcd_loop : Nat → BigInteger → BigInteger → Option BigInteger
  | 0, _, _ => none
  | fuel + 1, a, b =>
    if operator_ne b (ofInt 0) then
      match operator_mod_assign a b with
      | none => none
      | some a => gcd_loop fuel b a
    else some a

/-- `greatest_common_divisor`; the loop makes at most `|val(b)| + 1` tests. -/
def greatest_common_divisor (a b : BigInteger) : Option BigInteger :=
  let a := if operator_lt a (ofInt 0) then invert_sign a else a
  let b := if operator_lt b (ofInt 0) then invert_sign b else b
  (gcd_loop ((digits_value b.num_).natAbs + 1) a b).map normalize

/-- Every element of the vector is a decimal digit. -/
def IsDigits (num : List Int) : Prop := ∀ d ∈ num, 0 ≤ d ∧ d < 10

instance (num : List Int) : Decidable (IsDigits num) := by
  unfold IsDigits; infer_instance

/-- A digit vector without leading zeros: decimal digits, at least one, and a non-zero
most significant digit unless there is only one digit. -/
def Trimmed (num : List Int) : Prop :=
  IsDigits num ∧ num ≠ [] ∧ (1 < num.length → back num ≠ 0)

instance (num : List Int) : Decidable (Trimmed num) := by
  unfold Trimmed; infer_instance

/-- A normalized `BigInteger`: decimal digits, at least one, no leading zero unless the
vector is `{0}`, sign `+1` or `-1`, and sign `+1` for zero. -/
def Normalized (a : BigInteger) : Prop :=
  Trimmed a.num_ ∧ (a.sign_ = 1 ∨ a.sign_ = -1) ∧ (back a.num_ = 0 → a.sign_ = 1)

instance (a : BigInteger) : Decidable (Normalized a) := by
  unfold Normalized; infer_instance

end BigInteger

/-- The class `Rational`: numerator `p_` and denominator `q_`. -/
structure Rational where
  p_ : BigInteger
  q_ : BigInteger
deriving DecidableEq, Repr

namespace Rational

/-- The constructor `Rational(int)`. -/
def ofInt (x : Int) : Rational := { p_ := BigInteger.ofInt x, q_ := BigInteger.ofInt 1 }

/-- `Rational::normalize`. -/
def normalize (r : Rational) : Option Rational :=
  match BigInteger.greatest_common_divisor r.p_ r.q_ with
  | none => none
  | some gcd =>
    match BigInteger.operator_div_assign r.p_ gcd, BigInteger.operator_div_assign r.q_ gcd with
    | some p, some q =>
      let p1 := if q.sign_ = -1 then BigInteger.invert_sign p else p
      let q1 := if q.sign_ = -1 then BigInteger.invert_sign q else q
      some { p_ := BigInteger.normalize p1, q_ := BigInteger.normalize q1 }
    | _, _ => none

/-- `operator ==` for `Rational`. -/
def operator_eq (a b : Rational) : Bool :=
  BigInteger.operator_eq a.p_ b.p_ && BigInteger.operator_eq a.q_ b.q_

/-- `operator +=` for `Rational` (two distinct objects). -/
def operator_add_assign (a b : Rational) : Option Rational :=
  if BigInteger.operator_eq a.q_ b.q_ then
    normalize { a with p_ := BigInteger.operator_add_assign a.p_ b.p_ }
  else
    let p := BigInteger.operator_mul_assign a.p_ b.q_
    let p := BigInteger.operator_add_assign p (BigInteger.operator_mul b.p_ a.q_)
    let q := BigInteger.operator_mul_assign a.q_ b.q_
    normalize { p_ := p, q_ := q }

/-- `operator *=` for `Rational` (two distinct objects). -/
def operator_mul_assign (a b : Rational) : Option Rational :=
  normalize { p_ := BigInteger.operator_mul_assign a.p_ b.p_,
              q_ := BigInteger.operator_mul_assign a.q_ b.q_ }

/-- `operator /=` for `Rational` (two distinct objects). -/
def operator_div_assign (a b : Rational) : Option Rational :=
  normalize { p_ := BigInteger.operator_mul_assign a.p_ b.q_,
              q_ := BigInteger.operator_mul_assign a.q_ b.p_ }

/-- `operator /=` for `Rational` called as `a /= a`: the second statement reads the
numerator that the first one has already multiplied. -/
def operator_div_assign_self (a : Rational) : Option Rational :=
  let p := BigInteger.operator_mul_assign a.p_ a.q_
  normalize { p_ := p, q_ := BigInteger.operator_mul_assign a.q_ p }

/-- `operator -=` for `Rational`. -/
def operator_sub_assign (a b : Rational) : Option Rational :=
  if operator_eq a b then some (ofInt 0)
  else
    match operator_mul_assign a (ofInt (-1)) with
    | none => none
    | some a =>
      match operator_add_assign a b with
      | none => none
      | some a =>
        match operator_mul_assign a (ofInt (-1)) with
        | none => none
        | some a => normalize a

/-- `operator -` (unary) for `Rational`. -/
def operator_neg (x : Rational) : Option Rational :=
  normalize { x with p_ := BigInteger.invert_sign x.p_ }

/-- The loop `for (i = 0; i + after_dot.size() < precision; ++i) result += '0'` of
`asDecimal`. -/
def pad_zeros (result : String) (after_dot_size precision : Nat) : String :=
  (List.range (precision - after_dot_size)).foldl (fun result _ => result.push '0') result

/-- `Rational::asDecimal`. -/
def asDecimal (r : Rational) (precision : Nat) : Option String :=
  let result := if r.p_.sign_ = -1 then "-" else ""
  let pow := BigInteger.power_of_ten precision
  let before_dot := BigInteger.operator_mul_assign r.p_ pow
  match BigInteger.operator_div_assign before_dot r.q_ with
  | none => none
  | some before_dot =>
    match BigInteger.operator_mod
        (BigInteger.operator_mul before_dot
          (BigInteger.ofInt (if BigInteger.operator_lt before_dot (BigInteger.ofInt 0)
            then -1 else 1))) pow with
    | none => none
    | some rem =>
      let after_dot := BigInteger.toString rem
      match BigInteger.operator_div_assign before_dot pow with
      | none => none
      | some before_dot =>
        let result := result ++ BigInteger.toString before_dot
        if precision > 0 then
          let result := result ++ "."
          let result := pad_zeros result after_dot.length precision
          some (result ++ after_dot)
        else some result

/-- The rational number denoted by a `Rational`. -/
def value (r : Rational) : ℚ := (BigInteger.val r.p_ : ℚ) / (BigInteger.val r.q_ : ℚ)

/-- The canonical form: both components normalized, a strictly positive denominator, and
numerator and denominator coprime. -/
def Canonical (r : Rational) : Prop :=
  BigInteger.Normalized r.p_ ∧ BigInteger.Normalized r.q_ ∧ 0 < BigInteger.val r.q_ ∧
  Nat.gcd (BigInteger.val r.p_).natAbs (BigInteger.val r.q_).natAbs = 1

instance (r : Rational) : Decidable (Canonical r) := by
  unfold Canonical; infer_instance

/-- The `Rational`s produced from integer-constructed ones by `+=`, `-=`, `*=`, `/=` with a
non-zero divisor, and unary minus. -/
inductive Produced : Rational → Prop
  | ofInt (x : Int) (h : -2 ^ 31 < x ∧ x < 2 ^ 31) : Produced (ofInt x)
  | add (a b r : Rational) : Produced a → Produced b → operator_add_assign a b = some r →
      Produced r
  | sub (a b r : Rational) : Produced a → Produced b → operator_sub_assign a b = some r →
      Produced r
  | mul (a b r : Rational) : Produced a → Produced b → operator_mul_assign a b = some r →
      Produced r
  | div (a b r : Rational) : Produced a → Produced b → BigInteger.val b.p_ ≠ 0 →
      operator_div_assign a b = some r → Produced r
  | div_self (a r : Rational) : Produced a → BigInteger.val a.p_ ≠ 0 →
      operator_div_assign_self a = some r → Produced r
  | neg (a r : Rational) : Produced a → operator_neg a = some r → Produced r

end Rational

/-! # `flows.cpp`: two maximum-flow algorithms on the network of a project-selection task

Vectors are lists; an access through `at()` or `[]` outside a vector gives `none`; every
loop has a bound on its iterations and gives `none` when the bound is reached. `int` is
`Int`, `size_t` is `Nat`. -/

namespace Flows

/-- The constant `ResidualNetwork::INF`. -/
def INF : Int := 1000000

/-- The constant `ResidualNetwork::NONE`. -/
def NONE : Nat := 1000000

/-- The class `ResidualNetwork::Edge`. -/
structure Edge where
  from_ : Nat
  to_ : Nat
  capacity_ : Int
  flow_ : Int
deriving DecidableEq, Repr

/-- `Edge::residual_capacity`. -/
def Edge.residual_capacity (e : Edge) : Int := e.capacity_ - e.flow_

/-- `Edge::saturated`. -/
def Edge.saturated (e : Edge) : Bool := decide (e.residual_capacity = 0)

/-- The class `ResidualNetwork`. -/
structure ResidualNetwork where
  edges_ : List Edge
  next_edge_ : List Nat
  head_ : List Nat
  vertices_cnt_ : Nat
  source_ : Nat
  sink_ : Nat
deriving DecidableEq, Repr

/-- The constructor `ResidualNetwork(_n, _source, _sink)`. -/
def ResidualNetwork.new (n source sink : Nat) : ResidualNetwork :=
  { edges_ := [], next_edge_ := [], head_ := List.replicate n NONE,
    vertices_cnt_ := n, source_ := source, sink_ := sink }

/-- `ResidualNetwork::discard_flow`. -/
def ResidualNetwork.discard_flow (net : ResidualNetwork) : ResidualNetwork :=
  { net with edges_ := net.edges_.map (fun e => { e with flow_ := 0 }) }

/-- `ResidualNetwork::add_residual_edge`. -/
def ResidualNetwork.add_residual_edge (net : ResidualNetwork) (src dst : Nat) (capacity : Int) :
    Option ResidualNetwork :=
  match net.head_[src]? with
  | none => none
  | some h =>
    let edges := net.edges_ ++ [{ from_ := src, to_ := dst, capacity_ := capacity, flow_ := 0 }]
    some { net with edges_ := edges, next_edge_ := net.next_edge_ ++ [h],
                    head_ := net.head_.set src (edges.length - 1) }

/-- `ResidualNetwork::add_edge`. -/
def ResidualNetwork.add_edge (net : ResidualNetwork) (src dst : Nat) (capacity : Int)
    (directed : Bool) : Option ResidualNetwork :=
  (net.add_residual_edge src dst capacity).bind
    (fun net => net.add_residual_edge dst src (if directed then 0 else capacity))

/-- The edge flows changed by `flow() += delta` on the edge with the given id. -/
def ResidualNetwork.add_flow (net : ResidualNetwork) (id : Nat) (delta : Int) :
    Option ResidualNetwork :=
  match net.edges_[id]? with
  | none => none
  | some e => some { net with edges_ := net.edges_.set id { e with flow_ := e.flow_ + delta } }

/-! ## `EdgeIterator<BackEdge>`: the state is `current_edge_id_` -/

/-- The id `current_edge_id_ ^ BackEdge`. -/
def edge_id (back : Bool) (id : Nat) : Nat := id ^^^ (if back then 1 else 0)

/-- `EdgeIterator::valid`. -/
def valid (id : Nat) : Bool := decide (id ≠ NONE)

/-- `EdgeIterator::operator *`. -/
def deref (net : ResidualNetwork) (back : Bool) (id : Nat) : Option Edge :=
  net.edges_[edge_id back id]?

/-- `EdgeIterator::back_edge`. -/
def back_edge (net : ResidualNetwork) (back : Bool) (id : Nat) : Option Edge :=
  net.edges_[edge_id back id ^^^ 1]?

/-- `EdgeIterator::go_through`. -/
def go_through (net : ResidualNetwork) (id : Nat) : Option Nat :=
  (net.edges_[id]?).map (fun e => e.to_)

/-- The loop `while (valid() && operator*().saturated()) current_edge_id_ =
next_edge_->at(current_edge_id_)` of `EdgeIterator::operator ++`. -/
def skip_saturated (net : ResidualNetwork) (back : Bool) : Nat → Nat → Option Nat
  | 0, _ => none
  | fuel + 1, id =>
    if valid id then
      match deref net back id with
      | none => none
      | some e =>
        if e.saturated then
          match net.next_edge_[id]? with
          | none => none
          | some next => skip_saturated net back fuel next
        else some id
    else some id

/-- The bound for a walk along one adjacency list. -/
def list_fuel (net : ResidualNetwork) : Nat := net.edges_.length + 2

/-- `EdgeIterator::operator ++`. -/
def increment (net : ResidualNetwork) (back : Bool) (id : Nat) : Option Nat :=
  if valid id then
    match net.next_edge_[id]? with
    | none => none
    | some next => skip_saturated net back (list_fuel net) next
  else skip_saturated net back (list_fuel net) id

/-- `ResidualNetwork::make_iterator<BackEdge>(vertex_id)` with the constructor of
`EdgeIterator`. -/
def make_iterator (net : ResidualNetwork) (back : Bool) (vertex_id : Nat) : Option Nat :=
  match net.head_[vertex_id]? with
  | none => none
  | some start =>
    if valid start then
      match deref net back start with
      | none => none
      | some e => if e.saturated then increment net back start else some start
    else some start

/-! ## `Malhotra::LayeredEdgeIterator<direction>`; `left` stands for `direction == LEFT` -/

/-- `LayeredEdgeIterator::correct_delta_`. -/
def correct_delta (net : ResidualNetwork) (layer_id : List Int) (left : Bool) (id : Nat) :
    Option Bool :=
  match deref net left id with
  | none => none
  | some e =>
    match layer_id[e.from_]?, layer_id[e.to_]? with
    | some l1, some l2 => some (decide (l2 - l1 = 1))
    | _, _ => none

/-- The loop `while (current_edge_.valid() && !correct_delta_()) ++current_edge_` of
`LayeredEdgeIterator::operator ++`. -/
def skip_layers (net : ResidualNetwork) (layer_id : List Int) (left : Bool) :
    Nat → Nat → Option Nat
  | 0, _ => none
  | fuel + 1, id =>
    if valid id then
      match correct_delta net layer_id left id with
      | none => none
      | some true => some id
      | some false =>
        match increment net left id with
        | none => none
        | some next => skip_layers net layer_id left fuel next
    else some id

/-- `LayeredEdgeIterator::operator ++`. -/
def layered_increment (net : ResidualNetwork) (layer_id : List Int) (left : Bool) (id : Nat) :
    Option Nat :=
  (increment net left id).bind (skip_layers net layer_id left (list_fuel net))

/-- The constructor of `LayeredEdgeIterator`. -/
def layered_make (net : ResidualNetwork) (layer_id : List Int) (left : Bool)
    (vertex_id : Nat) : Option Nat :=
  match make_iterator net left vertex_id with
  | none => none
  | some id =>
    if valid id then
      match correct_delta net layer_id left id with
      | none => none
      | some true => some id
      | some false => layered_increment net layer_id left id
    else some id

/-- The state of a `Malhotra` object. -/
structure Malhotra where
  network_ : ResidualNetwork
  flow_ : Int
  potential_in_ : List Int
  potential_out_ : List Int
  excess_ : List Int
  layer_id_ : List Int
  deleted_ : List Bool
  can_reach_sink_ : List Bool
  iterator_left_ : List Nat
  iterator_right_ : List Nat
deriving DecidableEq, Repr

/-- `Malhotra::potential_`. -/
def Malhotra.potential_ (m : Malhotra) (u : Nat) : Option Int :=
  match m.potential_in_[u]?, m.potential_out_[u]? with
  | some a, some b => some (min a b)
  | _, _ => none

/-- `Malhotra::mark_reachable_` and its loop over the iterator `it`; the bound is on the
number of calls and iterations together. The flag `true` enters a vertex, `false` goes on
with the loop at the iterator position `pos`. -/
def mark_reachable_ (net : ResidualNetwork) (layer_id : List Int) :
    Nat → Bool → Nat → List Bool → Option (List Bool)
  | 0, _, _, _ => none
  | fuel + 1, true, vertex_id, visited =>
    if vertex_id < visited.length then
      match layered_make net layer_id true vertex_id with
      | none => none
      | some it => mark_reachable_ net layer_id fuel false it (visited.set vertex_id true)
    else none
  | fuel + 1, false, it, visited =>
    if valid it then
      match go_through net it with
      | none => none
      | some dst =>
        match visited[dst]? with
        | none => none
        | some seen =>
          let after :=
            if seen then some visited else mark_reachable_ net layer_id fuel true dst visited
          match after with
          | none => none
          | some visited =>
            match layered_increment net layer_id true it with
            | none => none
            | some next => mark_reachable_ net layer_id fuel false next visited
    else some visited

/-- The loop over the edges of `vertex_id` inside the breadth-first search of
`build_layers_`; returns the layers and the queue. -/
def relax_edges (net : ResidualNetwork) (vertex_id : Nat) :
    Nat → Nat → List Int → List Nat → Option (List Int × List Nat)
  | 0, _, _, _ => none
  | fuel + 1, it, layer_id, queue =>
    if valid it then
      match deref net false it with
      | none => none
      | some e =>
        match layer_id[e.to_]?, layer_id[vertex_id]? with
        | some lto, some lv =>
          let updated := decide (lto > lv + 1)
          let layer_id := if updated then layer_id.set e.to_ (lv + 1) else layer_id
          let queue := if updated then queue ++ [e.to_] else queue
          match increment net false it with
          | none => none
          | some next => relax_edges net vertex_id fuel next layer_id queue
        | _, _ => none
    else some (layer_id, queue)

/-- The loop `while (!bfs_queue.empty())` of `build_layers_`. -/
def bfs_loop (net : ResidualNetwork) : Nat → List Nat → List Int → Option (List Int)
  | 0, _, _ => none
  | _ + 1, [], layer_id => some layer_id
  | fuel + 1, vertex_id :: queue, layer_id =>
    match make_iterator net false vertex_id with
    | none => none
    | some it =>
      match relax_edges net vertex_id (list_fuel net) it layer_id queue with
      | none => none
      | some r => bfs_loop net fuel r.2 r.1

/-- The bound for the loops over vertices and edges of one phase. -/
def phase_fuel (net : ResidualNetwork) : Nat :=
  (net.vertices_cnt_ + 2) * (net.edges_.length + 2) + 2

/-- `Malhotra::build_layers_`; returns the answer and the new state. -/
def Malhotra.build_layers_ (m : Malhotra) : Option (Bool × Malhotra) :=
  let net := m.network_
  let n := net.vertices_cnt_
  let layer_id := (List.replicate n INF).set net.source_ 0
  if net.source_ < n then
    match bfs_loop net (phase_fuel net) [net.source_] layer_id with
    | none => none
    | some layer_id =>
      match mark_reachable_ net layer_id (2 * phase_fuel net) true net.sink_
          (List.replicate n false) with
      | none => none
      | some reach =>
        let layer_id := (List.range n).foldl
          (fun l v => if reach.getD v false then l else l.set v INF) layer_id
        match layer_id[net.sink_]? with
        | none => none
        | some ls =>
          some (decide (ls < INF), { m with layer_id_ := layer_id, can_reach_sink_ := reach })
  else none

/-- The inner loop of `count_potentials_`: the residual capacities along the layered edges
of one vertex, added to `sum`. -/
def sum_layered (net : ResidualNetwork) (layer_id : List Int) (left : Bool) :
    Nat → Nat → Int → Option Int
  | 0, _, _ => none
  | fuel + 1, it, sum =>
    if valid it then
      match deref net left it, layered_increment net layer_id left it with
      | some e, some next => sum_layered net layer_id left fuel next (sum + e.residual_capacity)
      | _, _ => none
    else some sum

/-- `Malhotra::count_potentials_<direction>`; returns the vector `potential`. -/
def Malhotra.count_potentials_ (m : Malhotra) (left : Bool) (special_vertex : Nat) :
    Option (List Int) :=
  let net := m.network_
  let n := net.vertices_cnt_
  if special_vertex < n then
    (List.range n).foldlM
      (fun potential vertex_id =>
        match layered_make net m.layer_id_ left vertex_id, potential[vertex_id]? with
        | some it, some p =>
          (sum_layered net m.layer_id_ left (list_fuel net) it p).map
            (fun s => potential.set vertex_id s)
        | _, _ => none)
      ((List.replicate n (0 : Int)).set special_vertex INF)
  else none

/-- `Malhotra::init_edge_iterators_<direction>`; returns the vector `iterator`. -/
def Malhotra.init_edge_iterators_ (m : Malhotra) (left : Bool) : Option (List Nat) :=
  (List.range m.network_.vertices_cnt_).mapM
    (fun vertex_id => layered_make m.network_ m.layer_id_ left vertex_id)

/-- `Malhotra::init_iteration_`. -/
def Malhotra.init_iteration_ (m : Malhotra) : Option Malhotra :=
  match m.count_potentials_ true m.network_.source_,
        m.count_potentials_ false m.network_.sink_,
        m.init_edge_iterators_ true, m.init_edge_iterators_ false with
  | some pin, some pout, some il, some ir =>
    some { m with potential_in_ := pin, potential_out_ := pout, iterator_left_ := il,
                  iterator_right_ := ir,
                  deleted_ := List.replicate m.network_.vertices_cnt_ false }
  | _, _, _, _ => none

/-- `Malhotra::delete_adjacent_<direction>`: the loop over the layered edges of the vertex,
from the iterator position `it` on; returns the state and the queue `saturated`. -/
def Malhotra.delete_adjacent_ (left : Bool) :
    Nat → Malhotra → Nat → List Nat → Option (Malhotra × List Nat)
  | 0, _, _, _ => none
  | fuel + 1, m, it, saturated =>
    if valid it then
      match go_through m.network_ it, deref m.network_ left it with
      | some dst, some e =>
        let updated :=
          if left then
            (m.potential_out_[dst]?).map (fun p =>
              { m with potential_out_ := m.potential_out_.set dst (p - e.residual_capacity) })
          else
            (m.potential_in_[dst]?).map (fun p =>
              { m with potential_in_ := m.potential_in_.set dst (p - e.residual_capacity) })
        match updated with
        | none => none
        | some m =>
          match m.potential_ dst, m.deleted_[dst]? with
          | some p, some del =>
            let hit := decide (p = 0) && !del
            let m := if hit then { m with deleted_ := m.deleted_.set dst true } else m
            let saturated := if hit then saturated ++ [dst] else saturated
            match layered_increment m.network_ m.layer_id_ left it with
            | none => none
            | some next => Malhotra.delete_adjacent_ left fuel m next saturated
          | _, _ => none
      | _, _ => none
    else some (m, saturated)

/-- The loop `while (!saturated.empty())` of `delete_saturated_vertices_`. -/
def Malhotra.delete_loop : Nat → Malhotra → List Nat → Option Malhotra
  | 0, _, _ => none
  | _ + 1, m, [] => some m
  | fuel + 1, m, vertex_id :: saturated =>
    if vertex_id < m.deleted_.length then
      let m := { m with deleted_ := m.deleted_.set vertex_id true }
      match layered_make m.network_ m.layer_id_ true vertex_id with
      | none => none
      | some itl =>
        match Malhotra.delete_adjacent_ true (list_fuel m.network_) m itl saturated with
        | none => none
        | some r1 =>
          match layered_make r1.1.network_ r1.1.layer_id_ false vertex_id with
          | none => none
          | some itr =>
            match Malhotra.delete_adjacent_ false (list_fuel r1.1.network_) r1.1 itr r1.2 with
            | none => none
            | some r2 => Malhotra.delete_loop fuel r2.1 r2.2
    else none

/-- `Malhotra::delete_saturated_vertices_`. -/
def Malhotra.delete_saturated_vertices_ (m : Malhotra) : Option Malhotra :=
  let start := (List.range m.network_.vertices_cnt_).foldlM
    (fun saturated vertex_id =>
      match m.deleted_[vertex_id]?, m.potential_ vertex_id with
      | some del, some p => some (if !del && decide (p = 0) then saturated ++ [vertex_id]
                                  else saturated)
      | _, _ => none)
    ([] : List Nat)
  match start with
  | none => none
  | some saturated => Malhotra.delete_loop (phase_fuel m.network_) m saturated

/-- `Malhotra::get_reference_node`. -/
def Malhotra.get_reference_node (m : Malhotra) : Option Nat :=
  (List.range m.network_.vertices_cnt_).foldlM
    (fun reference_node vertex_id =>
      match m.potential_ vertex_id with
      | none => none
      | some p =>
        if p > 0 then
          if reference_node = NONE then some vertex_id
          else
            match m.potential_ reference_node with
            | none => none
            | some pr => some (if pr > p then vertex_id else reference_node)
        else some reference_node)
    NONE

/-- The local state of `Malhotra::push_`. -/
structure PushState where
  m : Malhotra
  bfs_queue : List Nat
  visited : List Bool
deriving DecidableEq, Repr

/-- The stored iterator `iterator[vertex_id]` of `push_`. -/
def Malhotra.get_iterator (m : Malhotra) (left : Bool) (vertex_id : Nat) : Option Nat :=
  if left then m.iterator_left_[vertex_id]? else m.iterator_right_[vertex_id]?

/-- The stored iterator `iterator[vertex_id]` of `push_` set to `it`. -/
def Malhotra.set_iterator (m : Malhotra) (left : Bool) (vertex_id it : Nat) : Malhotra :=
  if left then { m with iterator_left_ := m.iterator_left_.set vertex_id it }
  else { m with iterator_right_ := m.iterator_right_.set vertex_id it }

/-- The loop `for (LayeredEdgeIterator<direction>& it = iterator[vertex_id]; it.valid();
++it)` of `push_`; the iterator is the stored one, so every step writes it back. -/
def Malhotra.push_edges (left : Bool) (vertex_id : Nat) (push_value : Int) :
    Nat → PushState → Option PushState
  | 0, _ => none
  | fuel + 1, s =>
    match s.m.get_iterator left vertex_id with
    | none => none
    | some it =>
      if valid it then
        match go_through s.m.network_ it, deref s.m.network_ left it with
        | some dst, some e =>
          match s.m.deleted_[dst]? with
          | none => none
          | some true =>
            (layered_increment s.m.network_ s.m.layer_id_ left it).bind (fun next =>
              Malhotra.push_edges left vertex_id push_value fuel
                { s with m := s.m.set_iterator left vertex_id next })
          | some false =>
            let push_through_edge := min push_value e.residual_capacity
            match s.m.excess_[vertex_id]?, s.m.excess_[dst]? with
            | some _, some _ =>
              let excess := s.m.excess_.set vertex_id
                (s.m.excess_.getD vertex_id 0 - push_through_edge)
              let excess := excess.set dst (excess.getD dst 0 + push_through_edge)
              match (s.m.network_.add_flow (edge_id left it) push_through_edge).bind
                  (fun net => net.add_flow (edge_id left it ^^^ 1) (- push_through_edge)),
                  s.visited[dst]? with
              | some net, some seen =>
                let m := { s.m with excess_ := excess, network_ := net }
                let s := { s with m := m,
                                  visited := if seen then s.visited else s.visited.set dst true,
                                  bfs_queue := if seen then s.bfs_queue
                                               else s.bfs_queue ++ [dst] }
                match deref net left it with
                | none => none
                | some e1 =>
                  if !e1.saturated then some s
                  else
                    (layered_increment net m.layer_id_ left it).bind (fun next =>
                      Malhotra.push_edges left vertex_id push_value fuel
                        { s with m := s.m.set_iterator left vertex_id next })
              | _, _ => none
            | _, _ => none
        | _, _ => none
      else some s

/-- The loop `while (!bfs_queue.empty())` of `push_`. -/
def Malhotra.push_loop (left : Bool) (push_value : Int) : Nat → PushState → Option Malhotra
  | 0, _ => none
  | fuel + 1, s =>
    match s.bfs_queue with
    | [] => some s.m
    | vertex_id :: queue =>
      match s.m.potential_in_[vertex_id]?, s.m.potential_out_[vertex_id]?,
            s.visited[vertex_id]? with
      | some pin, some pout, some _ =>
        let m := { s.m with
          potential_in_ := s.m.potential_in_.set vertex_id (pin - push_value),
          potential_out_ := s.m.potential_out_.set vertex_id (pout - push_value) }
        match Malhotra.push_edges left vertex_id push_value (list_fuel m.network_)
            { m := m, bfs_queue := queue, visited := s.visited.set vertex_id true } with
        | none => none
        | some s => Malhotra.push_loop left push_value fuel s
      | _, _, _ => none

/-- `Malhotra::push_<direction>`. -/
def Malhotra.push_ (m : Malhotra) (left : Bool) (reference_node : Nat) (push_value : Int) :
    Option Malhotra :=
  let n := m.network_.vertices_cnt_
  if reference_node < n then
    let m := { m with excess_ := (List.replicate n (0 : Int)).set reference_node push_value }
    let bumped :=
      if left then
        (m.potential_out_[reference_node]?).map (fun p =>
          { m with potential_out_ := m.potential_out_.set reference_node (p + push_value) })
      else
        (m.potential_in_[reference_node]?).map (fun p =>
          { m with potential_in_ := m.potential_in_.set reference_node (p + push_value) })
    match bumped with
    | none => none
    | some m =>
      Malhotra.push_loop left push_value (phase_fuel m.network_)
        { m := m, bfs_queue := [reference_node], visited := List.replicate n false }
  else none

/-- The loop `while (potential_(network_->sink()) > 0)` of `Malhotra::run`. -/
def Malhotra.push_phase : Nat → Malhotra → Option Malhotra
  | 0, _ => none
  | fuel + 1, m =>
    match m.potential_ m.network_.sink_ with
    | none => none
    | some ps =>
      if ps > 0 then
        match m.get_reference_node with
        | none => none
        | some reference_node =>
          match m.potential_ reference_node with
          | none => none
          | some push_value =>
            let m := { m with flow_ := m.flow_ + push_value }
            match (m.push_ false reference_node push_value).bind
                (fun m => m.push_ true reference_node push_value) with
            | none => none
            | some m =>
              match m.delete_saturated_vertices_ with
              | none => none
              | some m => Malhotra.push_phase fuel m
      else some m

/-- The loop `while (build_layers_())` of `Malhotra::run`. -/
def Malhotra.run_loop : Nat → Malhotra → Option Malhotra
  | 0, _ => none
  | fuel + 1, m =>
    match m.build_layers_ with
    | none => none
    | some (false, m) => some m
    | some (true, m) =>
      match m.init_iteration_ with
      | none => none
      | some m =>
        match m.delete_saturated_vertices_ with
        | none => none
        | some m =>
          match Malhotra.push_phase (phase_fuel m.network_) m with
          | none => none
          | some m => Malhotra.run_loop fuel m

/-- `MaxFlowAlgorithm::init` for `Malhotra`. -/
def Malhotra.init (network : ResidualNetwork) : Malhotra :=
  { network_ := network, flow_ := 0, potential_in_ := [], potential_out_ := [], excess_ := [],
    layer_id_ := [], deleted_ := [], can_reach_sink_ := [], iterator_left_ := [],
    iterator_right_ := [] }

/-- `Malhotra::run`. -/
def Malhotra.run (m : Malhotra) : Option Malhotra :=
  let m := { m with network_ := m.network_.discard_flow }
  Malhotra.run_loop (phase_fuel m.network_) m

/-- The state of a `PushRelabel` object. -/
structure PushRelabel where
  network_ : ResidualNetwork
  flow_ : Int
  height_ : List Nat
  excess_ : List Int
deriving DecidableEq, Repr

/-- `PushRelabel::push_and_update_excess_` with `push_through_edge_`. -/
def PushRelabel.push_and_update_excess_ (p : PushRelabel) (it : Nat) : Option PushRelabel :=
  match back_edge p.network_ false it, deref p.network_ false it with
  | some b, some e =>
    match p.excess_[b.to_]? with
    | none => none
    | some ex =>
      let push_value := min ex e.residual_capacity
      match (p.network_.add_flow (edge_id false it) push_value).bind
          (fun net => net.add_flow (edge_id false it ^^^ 1) (- push_value)) with
      | none => none
      | some net =>
        let excess := p.excess_.set b.to_ (ex - push_value)
        match excess[e.to_]? with
        | none => none
        | some et =>
          some { p with network_ := net, excess_ := excess.set e.to_ (et + push_value) }
  | _, _ => none

/-- The loop of `PushRelabel::relabel_`; returns `minimal_adjacent_height`. -/
def PushRelabel.relabel_loop (p : PushRelabel) : Nat → Nat → Nat → Option Nat
  | 0, _, _ => none
  | fuel + 1, it, minimal =>
    if valid it then
      match deref p.network_ false it, increment p.network_ false it with
      | some e, some next =>
        if e.saturated then PushRelabel.relabel_loop p fuel next minimal
        else
          match p.height_[e.to_]? with
          | none => none
          | some h => PushRelabel.relabel_loop p fuel next (min minimal h)
      | _, _ => none
    else some minimal

/-- `PushRelabel::relabel_`. -/
def PushRelabel.relabel_ (p : PushRelabel) (vertex_id : Nat) : Option PushRelabel :=
  match make_iterator p.network_ false vertex_id with
  | none => none
  | some it =>
    match PushRelabel.relabel_loop p (list_fuel p.network_) it INF.toNat with
    | none => none
    | some minimal =>
      if vertex_id < p.height_.length then
        some { p with height_ := p.height_.set vertex_id (minimal + 1) }
      else none

/-- The loop of `PushRelabel::init_` over the edges of the source. -/
def PushRelabel.init_loop : Nat → PushRelabel → Nat → Option PushRelabel
  | 0, _, _ => none
  | fuel + 1, p, it =>
    if valid it then
      match p.push_and_update_excess_ it with
      | none => none
      | some p =>
        match increment p.network_ false it with
        | none => none
        | some next => PushRelabel.init_loop fuel p next
    else some p

/-- `PushRelabel::init_`. -/
def PushRelabel.init_ (p : PushRelabel) : Option PushRelabel :=
  let net := p.network_
  let n := net.vertices_cnt_
  if net.source_ < n then
    let p := { p with excess_ := (List.replicate n (0 : Int)).set net.source_ INF,
                      height_ := (List.replicate n 0).set net.source_ n,
                      network_ := net.discard_flow }
    match make_iterator p.network_ false net.source_ with
    | none => none
    | some it => PushRelabel.init_loop (list_fuel p.network_) p it
  else none

/-- The loop over the edges of `vertex_id` inside `discharge_`. -/
def PushRelabel.discharge_edges (vertex_id : Nat) : Nat → PushRelabel → Nat → Option PushRelabel
  | 0, _, _ => none
  | fuel + 1, p, it =>
    if valid it then
      match deref p.network_ false it with
      | none => none
      | some e =>
        let pushed :=
          if e.saturated then some p
          else
            match p.height_[vertex_id]?, p.height_[e.to_]? with
            | some hv, some ht =>
              if hv = ht + 1 then p.push_and_update_excess_ it else some p
            | _, _ => none
        match pushed with
        | none => none
        | some p =>
          match increment p.network_ false it with
          | none => none
          | some next => PushRelabel.discharge_edges vertex_id fuel p next
    else some p

/-- `PushRelabel::discharge_`: the loop `while (excess_[vertex_id] > 0)`. -/
def PushRelabel.discharge_ (vertex_id : Nat) : Nat → PushRelabel → Option PushRelabel
  | 0, _ => none
  | fuel + 1, p =>
    match p.excess_[vertex_id]? with
    | none => none
    | some ex =>
      if ex > 0 then
        match make_iterator p.network_ false vertex_id with
        | none => none
        | some it =>
          match PushRelabel.discharge_edges vertex_id (list_fuel p.network_) p it with
          | none => none
          | some p =>
            match p.relabel_ vertex_id with
            | none => none
            | some p => PushRelabel.discharge_ vertex_id fuel p
      else some p

/-- The bound for the relabel operations of `PushRelabel`. -/
def relabel_fuel (net : ResidualNetwork) : Nat :=
  4 * (net.vertices_cnt_ + 2) * (net.vertices_cnt_ + 2) + 4

/-- The loop of `PushRelabel::run` over the list `order`; `pos` is the position of the
list iterator `it`. -/
def PushRelabel.front_loop : Nat → PushRelabel → List Nat → Nat → Option PushRelabel
  | 0, _, _, _ => none
  | fuel + 1, p, order, pos =>
    match order[pos]? with
    | none => some p
    | some vertex_id =>
      match p.height_[vertex_id]? with
      | none => none
      | some old_height =>
        match PushRelabel.discharge_ vertex_id (relabel_fuel p.network_) p with
        | none => none
        | some p =>
          match p.height_[vertex_id]? with
          | none => none
          | some new_height =>
            if new_height > old_height then
              PushRelabel.front_loop fuel p (vertex_id :: order.eraseIdx pos) 1
            else PushRelabel.front_loop fuel p order (pos + 1)

/-- `MaxFlowAlgorithm::init` for `PushRelabel`. -/
def PushRelabel.init (network : ResidualNetwork) : PushRelabel :=
  { network_ := network, flow_ := 0, height_ := [], excess_ := [] }

/-- `PushRelabel::run`. -/
def PushRelabel.run (p : PushRelabel) : Option PushRelabel :=
  match p.init_ with
  | none => none
  | some p =>
    let net := p.network_
    let order := (List.range net.vertices_cnt_).filter
      (fun vertex_id => decide (vertex_id ≠ net.source_) && decide (vertex_id ≠ net.sink_))
    match PushRelabel.front_loop
        (relabel_fuel net * (net.vertices_cnt_ + 2)) p order 0 with
    | none => none
    | some p => (p.excess_[net.sink_]?).map (fun f => { p with flow_ := f })

/-- The struct `Data`. -/
structure Data where
  topic_cnt : Nat
  values : List Int
  dependencies : List (List Nat)
deriving DecidableEq, Repr

/-- `dependencies[i].count(j)` as a test. -/
def Data.depends (data : Data) (i j : Nat) : Bool := (data.dependencies.getD i []).contains j

/-- The first pair of loops of `solve`: the dependency edges. -/
def dependency_edges (data : Data) (net : ResidualNetwork) : Option ResidualNetwork :=
  (List.range data.topic_cnt).foldlM
    (fun net i =>
      (List.range i).foldlM
        (fun net j =>
          if data.depends i j then net.add_edge i j INF (!data.depends j i)
          else if data.depends j i then net.add_edge j i INF true
          else some net)
        net)
    net

/-- The second loop of `solve`: the edges from the source and to the sink. -/
def terminal_edges (data : Data) (net : ResidualNetwork) : Option ResidualNetwork :=
  (List.range data.topic_cnt).foldlM
    (fun net topic_id =>
      match data.values[topic_id]? with
      | none => none
      | some v =>
        if v ≥ 0 then net.add_edge net.source_ topic_id v true
        else net.add_edge topic_id net.sink_ (- v) true)
    net

/-- The network built by `solve` and the value `positive_sum`. -/
def build_network (data : Data) : Option (ResidualNetwork × Int) :=
  let net := ResidualNetwork.new (data.topic_cnt + 2) data.topic_cnt (data.topic_cnt + 1)
  let positive_sum := ((List.range data.topic_cnt).map
    (fun i => max (data.values.getD i 0) 0)).sum
  ((dependency_edges data net).bind (terminal_edges data)).map (fun net => (net, positive_sum))

/-- `solve<Malhotra>`. -/
def solve_Malhotra (data : Data) : Option Int :=
  match build_network data with
  | none => none
  | some (net, positive_sum) =>
    ((Malhotra.init net).run).map (fun m => positive_sum - m.flow_)

/-- `solve<PushRelabel>`. -/
def solve_PushRelabel (data : Data) : Option Int :=
  match build_network data with
  | none => none
  | some (net, positive_sum) =>
    ((PushRelabel.init net).run).map (fun p => positive_sum - p.flow_)

/-- The input of two independent pairs: topics 0 and 2 are worth 10^6 each and require the
topics 1 and 3, which cost 10^6 each. -/
def exampleTwoPairs : Data :=
  { topic_cnt := 4, values := [1000000, -1000000, 1000000, -1000000],
    dependencies := [[1], [], [3], []] }

end Flows

namespace Treap
open Link

/-! ## Basic facts about tags and the materialized sequence -/

theorem push_node (d : Node) (c0 c1 : Link) :
    push_ (node d c0 c1) = node d.cleared (pushdown d c0) (pushdown d c1) := by
  cases d
  simp only [push_, push_reverse_, push_paint_, push_add_, pushdown, Node.cleared]
  split_ifs <;> simp_all [push_paint_, push_add_]

theorem push_null : push_ null = null := rfl

theorem materialize_reverse (t : Link) :
    materialize (subtree_reverse_ t) = (materialize t).reverse := by
  cases t with
  | null => rfl
  | node d c0 c1 =>
    simp only [subtree_reverse_, materialize, Node.pending]
    by_cases hr : d.reversed <;> by_cases hp : d.paint = INF_VALUE <;>
      simp [hr, hp, List.map_reverse]

theorem materialize_add (t : Link) (x : Int) :
    materialize (subtree_add_ t x) = (materialize t).map (fun v => v + x) := by
  cases t with
  | null => rfl
  | node d c0 c1 =>
    simp only [subtree_add_, materialize, Node.pending]
    simp [Function.comp_def, add_assoc]

theorem materialize_paint (t : Link) (x : Int) (hx : x ≠ INF_VALUE) :
    materialize (subtree_paint_ t x) = (materialize t).map (fun _ => x) := by
  cases t with
  | null => rfl
  | node d c0 c1 =>
    simp only [subtree_paint_, materialize, Node.pending]
    by_cases hr : d.reversed <;> by_cases hp : d.paint = INF_VALUE <;>
      simp [hr, hp, hx, Function.comp_def]

theorem materialize_pushdown (d : Node) (c : Link) :
    materialize (pushdown d c) = d.pending (materialize c) := by
  simp only [pushdown, Node.pending]
  by_cases hr : d.reversed <;> by_cases hp : d.paint = INF_VALUE <;> by_cases ha : d.add = 0 <;>
    simp [hr, hp, ha, materialize_reverse, materialize_add, materialize_paint]

theorem pending_cleared (d : Node) (xs : List Int) : d.cleared.pending xs = xs := by
  simp [Node.pending, Node.cleared]

theorem materialize_cleared (d : Node) (a b : Link) :
    materialize (node d.cleared a b) = materialize a ++ d.value :: materialize b := by
  show d.cleared.pending _ ++ d.cleared.value :: d.cleared.pending _ = _
  rw [pending_cleared, pending_cleared]
  rfl

theorem materialize_push (t : Link) : materialize (push_ t) = materialize t := by
  cases t with
  | null => rfl
  | node d c0 c1 =>
    rw [push_node, materialize_cleared, materialize_pushdown, materialize_pushdown]
    rfl

theorem materialize_update (t : Link) : materialize (update_ t) = materialize t := by
  cases t with
  | null => rfl
  | node d c0 c1 => rfl

theorem length_pending (d : Node) (xs : List Int) : (d.pending xs).length = xs.length := by
  simp only [Node.pending]
  split_ifs <;> simp

theorem length_materialize (t : Link) : (materialize t).length = t.count := by
  induction t with
  | null => rfl
  | node d c0 c1 ih0 ih1 =>
    simp [materialize, length_pending, ih0, ih1, Link.count]; omega

theorem count_reverse (t : Link) : (subtree_reverse_ t).count = t.count := by
  cases t with
  | null => rfl
  | node d c0 c1 => simp [subtree_reverse_, Link.count]; omega

theorem count_paint (t : Link) (x : Int) : (subtree_paint_ t x).count = t.count := by
  cases t <;> rfl

theorem count_add (t : Link) (x : Int) : (subtree_add_ t x).count = t.count := by
  cases t <;> rfl

theorem count_pushdown (d : Node) (c : Link) : (pushdown d c).count = c.count := by
  simp only [pushdown]
  split_ifs <;> simp [count_reverse, count_paint, count_add]

theorem count_update (t : Link) : (update_ t).count = t.count := by
  cases t <;> rfl

theorem printAux_eq (fuel : Nat) : ∀ t : Link, t.count ≤ fuel → printAux fuel t = materialize t := by
  induction fuel with
  | zero =>
    intro t h
    cases t with
    | null => rfl
    | node d c0 c1 => simp [Link.count] at h
  | succ n ih =>
    intro t h
    cases t with
    | null => rfl
    | node d c0 c1 =>
      simp only [Link.count] at h
      unfold printAux
      simp only [push_node]
      rw [ih _ (by rw [count_pushdown]; omega), ih _ (by rw [count_pushdown]; omega),
        materialize_pushdown, materialize_pushdown]
      rfl

theorem print_eq (t : Link) : print_ t = materialize t := printAux_eq _ t (le_refl _)

theorem count_push (t : Link) : (push_ t).count = t.count := by
  cases t with
  | null => rfl
  | node d c0 c1 => rw [push_node]; simp [Link.count, count_pushdown]

theorem mergeAux_materialize (fuel : Nat) : ∀ l r : Link, l.count + r.count ≤ fuel →
    materialize (mergeAux fuel l r) = materialize l ++ materialize r := by
  induction fuel with
  | zero =>
    intro l r h
    cases l with
    | null =>
      cases r with
      | null => rfl
      | node d c0 c1 => simp [Link.count] at h
    | node d c0 c1 => simp [Link.count] at h
  | succ n ih =>
    intro l r h
    cases l with
    | null =>
      unfold mergeAux
      simp only [push_null]
      rw [materialize_update, materialize_push]; rfl
    | node dl l0 l1 =>
      cases r with
      | null =>
        unfold mergeAux
        simp only [push_null, push_node]
        rw [materialize_update, ← push_node, materialize_push]; simp [materialize]
      | node dr r0 r1 =>
        simp only [Link.count] at h
        unfold mergeAux
        simp only [push_node]
        split_ifs with hp
        · rw [materialize_update, materialize_cleared, ih, ← push_node dr, materialize_push,
            materialize_pushdown]
          · simp [materialize, materialize_pushdown]
          · simp [Link.count, count_pushdown]; omega
        · rw [materialize_update, materialize_cleared, ih, ← push_node dl, materialize_push,
            materialize_pushdown]
          · simp [materialize, materialize_pushdown]
          · simp [Link.count, count_pushdown]; omega

theorem merge_materialize (l r : Link) :
    materialize (merge_ l r) = materialize l ++ materialize r :=
  mergeAux_materialize _ l r (le_refl _)

/-! ## Size and sum caches -/

theorem All.root {P : Link → Prop} {d : Node} {c0 c1 : Link} (h : Link.All P (node d c0 c1)) :
    P (node d c0 c1) := h.1

theorem All.below {P : Link → Prop} {t : Link} (h : Link.All P t) : Link.AllBelow P t := by
  cases t with
  | null => trivial
  | node d c0 c1 => exact ⟨h.2.1, h.2.2⟩

theorem sum_pending_const (xs : List Int) (x : Int) :
    (xs.map (fun _ => x)).sum = (xs.length : Int) * x := by
  induction xs with
  | nil => simp
  | cons a l ih => simp [ih]; ring

theorem sum_pending_add (xs : List Int) (x : Int) :
    (xs.map (fun v => v + x)).sum = xs.sum + (xs.length : Int) * x := by
  induction xs with
  | nil => simp
  | cons a l ih => simp [ih]; ring

theorem sizeSumOK_reverse {t : Link} (h : SizeSumOK t) : SizeSumOK (subtree_reverse_ t) := by
  cases t with
  | null => exact h
  | node d c0 c1 =>
    unfold SizeSumOK at h ⊢
    rw [materialize_reverse]
    simpa [subtree_reverse_, subtree_size_, subtree_sum_, List.sum_reverse] using h

theorem sizeSumOK_paint {t : Link} (x : Int) (hx : x ≠ INF_VALUE) (h : SizeSumOK t) :
    SizeSumOK (subtree_paint_ t x) := by
  cases t with
  | null => exact h
  | node d c0 c1 =>
    unfold SizeSumOK at h ⊢
    rw [materialize_paint _ _ hx, sum_pending_const]
    simp only [subtree_paint_, subtree_size_, subtree_sum_, List.length_map] at h ⊢
    exact ⟨h.1, by rw [h.1]⟩

theorem sizeSumOK_add {t : Link} (x : Int) (h : SizeSumOK t) : SizeSumOK (subtree_add_ t x) := by
  cases t with
  | null => exact h
  | node d c0 c1 =>
    unfold SizeSumOK at h ⊢
    rw [materialize_add, sum_pending_add]
    simp only [subtree_add_, subtree_size_, subtree_sum_, List.length_map] at h ⊢
    exact ⟨h.1, by rw [h.1, h.2]⟩

theorem all_reverse (P : Link → Prop) (hP : ∀ t, P t → P (subtree_reverse_ t)) {t : Link}
    (h : Link.All P t) : Link.All P (subtree_reverse_ t) := by
  cases t with
  | null => trivial
  | node d c0 c1 => exact ⟨hP _ h.1, h.2.2, h.2.1⟩

theorem all_paint (P : Link → Prop) (x : Int) (hP : ∀ t, P t → P (subtree_paint_ t x)) {t : Link}
    (h : Link.All P t) : Link.All P (subtree_paint_ t x) := by
  cases t with
  | null => trivial
  | node d c0 c1 => exact ⟨hP _ h.1, h.2.1, h.2.2⟩

theorem all_add (P : Link → Prop) (x : Int) (hP : ∀ t, P t → P (subtree_add_ t x)) {t : Link}
    (h : Link.All P t) : Link.All P (subtree_add_ t x) := by
  cases t with
  | null => trivial
  | node d c0 c1 => exact ⟨hP _ h.1, h.2.1, h.2.2⟩

theorem all_pushdown (P : Link → Prop) (hrev : ∀ t, P t → P (subtree_reverse_ t))
    (hpaint : ∀ x t, x ≠ INF_VALUE → P t → P (subtree_paint_ t x))
    (hadd : ∀ x t, P t → P (subtree_add_ t x)) (d : Node) {c : Link} (h : Link.All P c) :
    Link.All P (pushdown d c) := by
  simp only [pushdown]
  have h1 : Link.All P (if d.reversed then subtree_reverse_ c else c) := by
    split_ifs
    · exact all_reverse P hrev h
    · exact h
  generalize (if d.reversed then subtree_reverse_ c else c) = c1 at h1 ⊢
  have h2 : Link.All P (if d.paint ≠ INF_VALUE then subtree_paint_ c1 d.paint else c1) := by
    split_ifs with hp
    · exact all_paint P _ (fun t => hpaint _ t hp) h1
    · exact h1
  generalize (if d.paint ≠ INF_VALUE then subtree_paint_ c1 d.paint else c1) = c2 at h2 ⊢
  split_ifs with ha
  · exact all_add P _ (hadd _) h2
  · exact h2

theorem allSizeSum_pushdown (d : Node) {c : Link} (h : Link.All SizeSumOK c) :
    Link.All SizeSumOK (pushdown d c) :=
  all_pushdown SizeSumOK (fun _ => sizeSumOK_reverse) (fun x _ hx => sizeSumOK_paint x hx)
    (fun x _ => sizeSumOK_add x) d h

theorem all_null (P : Link → Prop) : Link.All P null := trivial

theorem sizeSumOK_root {t : Link} (h : Link.All SizeSumOK t) : SizeSumOK t := by
  cases t with
  | null => exact ⟨rfl, rfl⟩
  | node d c0 c1 => exact h.1

theorem size_update (d : Node) (a b : Link) :
    subtree_size_ (update_ (node d a b)) = subtree_size_ a + subtree_size_ b + 1 := rfl

theorem sum_update (d : Node) (a b : Link) :
    subtree_sum_ (update_ (node d a b)) = subtree_sum_ a + subtree_sum_ b + d.value := rfl

theorem allSizeSum_update (d : Node) {a b : Link} (ha : Link.All SizeSumOK a)
    (hb : Link.All SizeSumOK b) : Link.All SizeSumOK (update_ (node d.cleared a b)) := by
  refine ⟨?_, ha, hb⟩
  show SizeSumOK (update_ (node d.cleared a b))
  have h1 := sizeSumOK_root ha
  have h2 := sizeSumOK_root hb
  unfold SizeSumOK at h1 h2 ⊢
  have hm : materialize (update_ (node d.cleared a b)) = materialize a ++ d.value :: materialize b := by
    rw [materialize_update, materialize_cleared]
  rw [hm, size_update, sum_update, h1.1, h1.2, h2.1, h2.2]
  simp only [List.length_append, List.length_cons, List.sum_append, List.sum_cons, Node.cleared]
  constructor
  · omega
  · ring

theorem allBelow_push {t : Link} (h : Link.AllBelow SizeSumOK t) :
    Link.AllBelow SizeSumOK (push_ t) := by
  cases t with
  | null => trivial
  | node d c0 c1 =>
    rw [push_node]
    exact ⟨allSizeSum_pushdown d h.1, allSizeSum_pushdown d h.2⟩

theorem mergeAux_sizeSum (fuel : Nat) : ∀ l r : Link, l.count + r.count ≤ fuel →
    Link.AllBelow SizeSumOK l → Link.AllBelow SizeSumOK r →
    Link.All SizeSumOK (mergeAux fuel l r) := by
  induction fuel with
  | zero =>
    intro l r h _ _
    cases l with
    | null =>
      cases r with
      | null => trivial
      | node d c0 c1 => simp [Link.count] at h
    | node d c0 c1 => simp [Link.count] at h
  | succ n ih =>
    intro l r h hl hr
    cases l with
    | null =>
      unfold mergeAux
      simp only [push_null]
      cases r with
      | null => trivial
      | node dr r0 r1 =>
        rw [push_node]
        exact allSizeSum_update dr (allSizeSum_pushdown dr hr.1) (allSizeSum_pushdown dr hr.2)
    | node dl l0 l1 =>
      cases r with
      | null =>
        unfold mergeAux
        simp only [push_null, push_node]
        exact allSizeSum_update dl (allSizeSum_pushdown dl hl.1) (allSizeSum_pushdown dl hl.2)
      | node dr r0 r1 =>
        simp only [Link.count] at h
        unfold mergeAux
        simp only [push_node]
        split_ifs with hp
        · refine allSizeSum_update dl (allSizeSum_pushdown dl hl.1) (ih _ _ ?_ ?_ ?_)
          · simp [Link.count, count_pushdown]; omega
          · exact All.below (allSizeSum_pushdown dl hl.2)
          · exact ⟨allSizeSum_pushdown dr hr.1, allSizeSum_pushdown dr hr.2⟩
        · refine allSizeSum_update dr (ih _ _ ?_ ?_ ?_) (allSizeSum_pushdown dr hr.2)
          · simp [Link.count, count_pushdown]; omega
          · exact ⟨allSizeSum_pushdown dl hl.1, allSizeSum_pushdown dl hl.2⟩
          · exact All.below (allSizeSum_pushdown dr hr.1)

theorem merge_sizeSum {l r : Link} (hl : Link.AllBelow SizeSumOK l)
    (hr : Link.AllBelow SizeSumOK r) : Link.All SizeSumOK (merge_ l r) :=
  mergeAux_sizeSum _ l r (le_refl _) hl hr

theorem subtree_size_eq {t : Link} (h : Link.All SizeSumOK t) :
    subtree_size_ t = (materialize t).length := (sizeSumOK_root h).1

theorem splitAux_spec (fuel : Nat) : ∀ (t : Link) (key cur_key : Nat), t.count ≤ fuel →
    Link.All SizeSumOK t →
    materialize (splitAux fuel t key cur_key).1 = (materialize t).take (key - cur_key) ∧
    materialize (splitAux fuel t key cur_key).2 = (materialize t).drop (key - cur_key) ∧
    Link.All SizeSumOK (splitAux fuel t key cur_key).1 ∧
    Link.All SizeSumOK (splitAux fuel t key cur_key).2 := by
  induction fuel with
  | zero =>
    intro t key cur h _
    cases t with
    | null => unfold splitAux; simp [push_null, materialize, Link.All]
    | node d c0 c1 => simp [Link.count] at h
  | succ n ih =>
    intro t key cur h hall
    cases t with
    | null => unfold splitAux; simp [push_null, materialize, Link.All]
    | node d c0 c1 =>
      simp only [Link.count] at h
      have h0 := allSizeSum_pushdown d hall.2.1
      have h1 := allSizeSum_pushdown d hall.2.2
      have hm : materialize (node d c0 c1) =
          materialize (pushdown d c0) ++ d.value :: materialize (pushdown d c1) := by
        rw [materialize_pushdown, materialize_pushdown]; rfl
      have hs0 := subtree_size_eq h0
      unfold splitAux
      simp only [push_node]
      rw [hm, hs0]
      split_ifs with hk
      · obtain ⟨e1, e2, a1, a2⟩ := ih (pushdown d c0) key cur (by rw [count_pushdown]; omega) h0
        refine ⟨?_, ?_, a1, allSizeSum_update d a2 h1⟩
        · show materialize (splitAux n (pushdown d c0) key cur).1 = _
          rw [e1, List.take_append_of_le_length (by omega)]
        · show materialize (update_ (node d.cleared (splitAux n (pushdown d c0) key cur).2 _)) = _
          rw [materialize_update, materialize_cleared, e2,
            List.drop_append_of_le_length (by omega)]
      · obtain ⟨e1, e2, a1, a2⟩ := ih (pushdown d c1) key
          (cur + (materialize (pushdown d c0)).length + 1) (by rw [count_pushdown]; omega) h1
        rw [hs0] at *
        refine ⟨?_, ?_, allSizeSum_update d h0 a1, a2⟩
        · show materialize (update_ (node d.cleared _ (splitAux n (pushdown d c1) key _).1)) = _
          rw [materialize_update, materialize_cleared, e1]
          have : key - cur = (materialize (pushdown d c0)).length +
              (key - (cur + (materialize (pushdown d c0)).length + 1) + 1) := by omega
          rw [this, List.take_append, List.take_succ_cons]
        · show materialize (splitAux n (pushdown d c1) key _).2 = _
          rw [e2]
          have : key - cur = (materialize (pushdown d c0)).length +
              (key - (cur + (materialize (pushdown d c0)).length + 1) + 1) := by omega
          rw [this, List.drop_append, List.drop_succ_cons]

theorem split_spec (t : Link) (key : Nat) (h : Link.All SizeSumOK t) :
    materialize (split_ t key 0).1 = (materialize t).take key ∧
    materialize (split_ t key 0).2 = (materialize t).drop key ∧
    Link.All SizeSumOK (split_ t key 0).1 ∧ Link.All SizeSumOK (split_ t key 0).2 :=
  splitAux_spec _ t key 0 (le_refl _) h

theorem tagStable_sizeSum : TagStable SizeSumOK :=
  ⟨fun _ => sizeSumOK_reverse, fun x _ hx => sizeSumOK_paint x hx, fun x _ => sizeSumOK_add x⟩

theorem all_pushdown_of {P : Link → Prop} (hP : TagStable P) (d : Node) {c : Link}
    (h : Link.All P c) : Link.All P (pushdown d c) :=
  all_pushdown P hP.rev hP.paint hP.add d h

/-- The tree handed back by `get_inversion_` is the input with some tags pushed down. -/
theorem get_inversionAux_keeps {P : Link → Prop} (hP : TagStable P)
    (hnode : ∀ (d : Node) (a b : Link), P (node d a b) → P (node d.cleared (pushdown d a) (pushdown d b)))
    (hcongr : ∀ (d : Node) (a b a1 b1 : Link), materialize a1 = materialize a → materialize b1 = materialize b →
      P (node d.cleared a b) → P (node d.cleared a1 b1))
    (type : Bool) (fuel : Nat) :
    ∀ (t : Link) (cur_key : Nat), Link.All P t →
      Link.All P (get_inversionAux fuel t type cur_key).2 ∧
      materialize (get_inversionAux fuel t type cur_key).2 = materialize t := by
  induction fuel with
  | zero =>
    intro t cur h
    cases t with
    | null => exact ⟨trivial, rfl⟩
    | node d c0 c1 =>
      unfold get_inversionAux
      simp only [push_node]
      exact ⟨⟨hnode _ _ _ h.1, all_pushdown_of hP d h.2.1, all_pushdown_of hP d h.2.2⟩,
        by rw [← push_node, materialize_push]⟩
  | succ n ih =>
    intro t cur h
    cases t with
    | null => exact ⟨trivial, rfl⟩
    | node d c0 c1 =>
      have hbase : Link.All P (node d.cleared (pushdown d c0) (pushdown d c1)) :=
        ⟨hnode _ _ _ h.1, all_pushdown_of hP d h.2.1, all_pushdown_of hP d h.2.2⟩
      have hm : materialize (node d.cleared (pushdown d c0) (pushdown d c1)) =
          materialize (node d c0 c1) := by rw [← push_node, materialize_push]
      unfold get_inversionAux
      simp only [push_node]
      split_ifs
      · exact ⟨hbase, hm⟩
      · obtain ⟨i1, i2⟩ := ih (pushdown d c1) (cur + subtree_size_ (pushdown d c0) + 1) hbase.2.2
        refine ⟨⟨hcongr _ _ _ _ _ rfl i2 hbase.1, hbase.2.1, i1⟩, ?_⟩
        rw [← hm, materialize_cleared, materialize_cleared]
        show _ ++ _ :: materialize (get_inversionAux n _ _ _).2 = _
        rw [i2]
      · exact ⟨hbase, hm⟩
      · exact ⟨hbase, hm⟩
      · obtain ⟨i1, i2⟩ := ih (pushdown d c0) cur hbase.2.1
        refine ⟨⟨hcongr _ _ _ _ _ i2 rfl hbase.1, i1, hbase.2.2⟩, ?_⟩
        rw [← hm, materialize_cleared, materialize_cleared]
        show materialize (get_inversionAux n _ _ _).2 ++ _ = _
        rw [i2]

/-- The tree handed back by `get_nearest_` is the input with some tags pushed down. -/
theorem get_nearestAux_keeps {P : Link → Prop} (hP : TagStable P)
    (hnode : ∀ (d : Node) (a b : Link), P (node d a b) → P (node d.cleared (pushdown d a) (pushdown d b)))
    (hcongr : ∀ (d : Node) (a b a1 b1 : Link), materialize a1 = materialize a → materialize b1 = materialize b →
      P (node d.cleared a b) → P (node d.cleared a1 b1))
    (val : Int) (type : Bool) (fuel : Nat) :
    ∀ (t : Link) (cur_key : Nat) (r : Nat × Link), Link.All P t →
      get_nearestAux fuel t val type cur_key = some r →
      Link.All P r.2 ∧ materialize r.2 = materialize t := by
  induction fuel with
  | zero =>
    intro t cur r h hr
    cases t with
    | null => simp [get_nearestAux, push_null] at hr
    | node d c0 c1 =>
      unfold get_nearestAux at hr
      simp [push_node] at hr
  | succ n ih =>
    intro t cur r h hr
    cases t with
    | null => simp [get_nearestAux, push_null] at hr
    | node d c0 c1 =>
      have hbase : Link.All P (node d.cleared (pushdown d c0) (pushdown d c1)) :=
        ⟨hnode _ _ _ h.1, all_pushdown_of hP d h.2.1, all_pushdown_of hP d h.2.2⟩
      have hm : materialize (node d.cleared (pushdown d c0) (pushdown d c1)) =
          materialize (node d c0 c1) := by rw [← push_node, materialize_push]
      unfold get_nearestAux at hr
      simp only [push_node] at hr
      split_ifs at hr
      · cases hrec : get_nearestAux n (pushdown d c1) val type
            (cur + subtree_size_ (pushdown d c0) + 1) with
        | none => rw [hrec] at hr; simp at hr
        | some r1 =>
          rw [hrec] at hr
          simp only [Option.some.injEq] at hr
          subst hr
          obtain ⟨i1, i2⟩ := ih _ _ _ hbase.2.2 hrec
          refine ⟨⟨hcongr _ _ _ _ _ rfl i2 hbase.1, hbase.2.1, i1⟩, ?_⟩
          rw [← hm, materialize_cleared, materialize_cleared, i2]
      · simp only [Option.some.injEq] at hr
        subst hr
        exact ⟨hbase, hm⟩
      · cases hrec : get_nearestAux n (pushdown d c0) val type cur with
        | none => rw [hrec] at hr; simp at hr
        | some r1 =>
          rw [hrec] at hr
          simp only [Option.some.injEq] at hr
          subst hr
          obtain ⟨i1, i2⟩ := ih _ _ _ hbase.2.1 hrec
          refine ⟨⟨hcongr _ _ _ _ _ i2 rfl hbase.1, i1, hbase.2.2⟩, ?_⟩
          rw [← hm, materialize_cleared, materialize_cleared, i2]

theorem sizeSum_pushed (d : Node) (a b : Link) (h : SizeSumOK (node d a b)) :
    SizeSumOK (node d.cleared (pushdown d a) (pushdown d b)) := by
  unfold SizeSumOK at h ⊢
  rw [show materialize (node d.cleared (pushdown d a) (pushdown d b)) = materialize (node d a b)
    from by rw [← push_node, materialize_push]]
  exact h

theorem sizeSum_congr (d : Node) (a b a1 b1 : Link) (ha : materialize a1 = materialize a)
    (hb : materialize b1 = materialize b) (h : SizeSumOK (node d.cleared a b)) :
    SizeSumOK (node d.cleared a1 b1) := by
  unfold SizeSumOK at h ⊢
  rw [materialize_cleared] at h ⊢
  rw [ha, hb]
  exact h

/-! ## The scoped range accessor -/

theorem range_key (l r : Nat) (hlr : l ≤ r) (hr : r + 1 < SIZE_MOD) :
    size_add (size_sub r l) 1 = r - l + 1 := by
  unfold size_add size_sub SIZE_MOD at *
  omega

theorem insert_key (pos : Nat) (hpos : pos < SIZE_MOD) :
    size_add (size_sub (size_sub pos 1) pos) 1 = 0 := by
  unfold size_add size_sub SIZE_MOD at *
  omega

theorem ctor_spec (t : Link) (l r : Nat) (h : Link.All SizeSumOK t) :
    materialize (SegmentSplitter.ctor t l r).left_part = (materialize t).take l ∧
    materialize (SegmentSplitter.ctor t l r).mid =
      ((materialize t).drop l).take (size_add (size_sub r l) 1) ∧
    materialize (SegmentSplitter.ctor t l r).right_part =
      ((materialize t).drop l).drop (size_add (size_sub r l) 1) ∧
    Link.All SizeSumOK (SegmentSplitter.ctor t l r).left_part ∧
    Link.All SizeSumOK (SegmentSplitter.ctor t l r).mid ∧
    Link.All SizeSumOK (SegmentSplitter.ctor t l r).right_part := by
  obtain ⟨e1, e2, a1, a2⟩ := split_spec t l h
  obtain ⟨f1, f2, b1, b2⟩ := split_spec (split_ t l 0).2 (size_add (size_sub r l) 1) a2
  simp only [SegmentSplitter.ctor]
  rw [e2] at f1 f2
  exact ⟨e1, f1, f2, a1, b1, b2⟩

theorem dtor_spec (s : SegmentSplitter) (h1 : Link.AllBelow SizeSumOK s.left_part)
    (h2 : Link.AllBelow SizeSumOK s.mid) (h3 : Link.AllBelow SizeSumOK s.right_part) :
    Link.All SizeSumOK s.dtor ∧
    materialize s.dtor =
      materialize s.left_part ++ materialize s.mid ++ materialize s.right_part := by
  simp only [SegmentSplitter.dtor]
  exact ⟨merge_sizeSum (All.below (merge_sizeSum h1 h2)) h3,
    by rw [merge_materialize, merge_materialize]⟩

theorem perform_operation_spec {α : Type} (t : Link) (l r : Nat) (operate : Link → α × Link)
    (h : Link.All SizeSumOK t)
    (hop : ∀ m, Link.All SizeSumOK m → Link.AllBelow SizeSumOK (operate m).2) :
    Link.All SizeSumOK (perform_operation t l r operate).2 ∧
    materialize (perform_operation t l r operate).2 =
      (materialize t).take l ++ materialize (operate (SegmentSplitter.ctor t l r).mid).2 ++
        ((materialize t).drop l).drop (size_add (size_sub r l) 1) := by
  obtain ⟨e1, _, e3, a1, a2, a3⟩ := ctor_spec t l r h
  simp only [perform_operation]
  have := dtor_spec { SegmentSplitter.ctor t l r with
    mid := (operate (SegmentSplitter.ctor t l r).mid).2 } (All.below a1) (hop _ a2) (All.below a3)
  refine ⟨this.1, ?_⟩
  rw [this.2, e1, e3]

theorem link_permute_sizeSum (t t1 : Link) (q : QueryType) (h : Link.All SizeSumOK t)
    (hp : Link.permute t q = some t1) : Link.All SizeSumOK t1 := by
  unfold Link.permute at hp
  obtain ⟨g1, -⟩ := get_inversionAux_keeps tagStable_sizeSum sizeSum_pushed sizeSum_congr
    q.index t.count t 0 h
  simp only [get_inversion_] at hp
  split_ifs at hp with hk
  · simp only [Option.some.injEq] at hp
    subst hp
    exact all_reverse SizeSumOK (fun _ => sizeSumOK_reverse) g1
  · obtain ⟨-, -, a1, a2⟩ := split_spec _ (get_inversionAux t.count t q.index 0).1 g1
    obtain ⟨-, -, b1, b2⟩ := split_spec _ 1 a2
    generalize (split_ (get_inversionAux t.count t q.index 0).2
      (get_inversionAux t.count t q.index 0).1 0).1 = t_left at hp a1
    generalize (split_ (split_ (get_inversionAux t.count t q.index 0).2
      (get_inversionAux t.count t q.index 0).1 0).2 1 0) = s2 at hp b1 b2
    obtain ⟨capture, suffix⟩ := s2
    simp only at hp b1 b2
    cases capture with
    | null => simp at hp
    | node dcap cc0 cc1 =>
      simp only at hp
      cases hgn : get_nearest_ suffix dcap.value q.index 0 with
      | none => rw [hgn] at hp; simp at hp
      | some gn =>
        rw [hgn] at hp
        simp only [Option.some.injEq] at hp
        subst hp
        obtain ⟨n1, -⟩ := get_nearestAux_keeps tagStable_sizeSum sizeSum_pushed sizeSum_congr
          dcap.value q.index suffix.count suffix 0 gn b2 hgn
        obtain ⟨-, -, c1, c2⟩ := split_spec gn.2 gn.1 n1
        obtain ⟨-, -, d1, d2⟩ := split_spec _ 1 c2
        refine merge_sizeSum (All.below (merge_sizeSum (All.below a1) (All.below d1))) ?_
        refine All.below (all_reverse SizeSumOK (fun _ => sizeSumOK_reverse) ?_)
        exact merge_sizeSum (All.below (merge_sizeSum (All.below c1) (All.below b1)))
          (All.below d2)

theorem permute_sizeSum (t t1 : Link) (l r : Nat) (q : QueryType) (h : Link.All SizeSumOK t)
    (hp : permute t l r q = some t1) : Link.All SizeSumOK t1 := by
  obtain ⟨-, -, -, a1, a2, a3⟩ := ctor_spec t l r h
  unfold permute at hp
  simp only at hp
  cases hm : Link.permute (SegmentSplitter.ctor t l r).mid q with
  | none => rw [hm] at hp; simp at hp
  | some mid =>
    rw [hm] at hp
    simp only [Option.some.injEq] at hp
    subst hp
    exact (dtor_spec { SegmentSplitter.ctor t l r with mid := mid } (All.below a1)
      (All.below (link_permute_sizeSum _ mid q a2 hm))
      (All.below a3)).1

theorem allBelow_paint (x : Int) {t : Link} (h : Link.All SizeSumOK t) :
    Link.AllBelow SizeSumOK (subtree_paint_ t x) := by
  cases t with
  | null => trivial
  | node d c0 c1 => exact ⟨h.2.1, h.2.2⟩

theorem step_sizeSum {t t1 : Link} (h : Link.All SizeSumOK t) (hs : Step t t1) :
    Link.All SizeSumOK t1 := by
  cases hs with
  | insert x pos priority =>
    exact (perform_operation_spec t _ _ _ h (fun _ _ => by exact ⟨trivial, trivial⟩)).1
  | remove pos =>
    exact (perform_operation_spec t _ _ _ h (fun _ _ => by trivial)).1
  | get_sum left right =>
    exact (perform_operation_spec t _ _ _ h (fun _ hm => All.below hm)).1
  | paint x left right =>
    exact (perform_operation_spec t _ _ _ h (fun _ hm => allBelow_paint x hm)).1
  | add x left right =>
    exact (perform_operation_spec t _ _ _ h
      (fun _ hm => All.below (all_add SizeSumOK x (fun _ => sizeSumOK_add x) hm))).1
  | permute _ l r q hp => exact permute_sizeSum t _ l r q h hp

theorem reachable_sizeSum {t : Link} (h : Reachable t) : Link.All SizeSumOK t := by
  induction h with
  | empty => trivial
  | step _ hs ih => exact step_sizeSum ih hs

/-! ## The range operations on reachable states -/

theorem reachable_exampleTwo : Reachable exampleTwo :=
  Reachable.step (Reachable.step Reachable.empty (Step.insert null 5 0 3)) (Step.insert _ 9 0 7)

theorem reachable_exampleThree : Reachable exampleThree :=
  Reachable.step (Reachable.step (Reachable.step Reachable.empty (Step.insert null 1 0 5))
    (Step.insert _ 2 1 3)) (Step.insert _ 3 2 9)

theorem subtree_sum_eq {t : Link} (h : Link.All SizeSumOK t) :
    subtree_sum_ t = (materialize t).sum := (sizeSumOK_root h).2

/-- C1: on every reachable state, with `s` the materialized sequence and `l ≤ r < n`,
`get_sum(l, r)` returns `s[l] + ... + s[r]`. -/
theorem get_sum_correct (t : Link) (h : Reachable t) (l r : Nat) (hlr : l ≤ r)
    (hr : r < (print_ t).length) (hn : (print_ t).length < SIZE_MOD) :
    (get_sum t l r).1 = (((print_ t).drop l).take (r - l + 1)).sum := by
  have hall := reachable_sizeSum h
  obtain ⟨-, e2, -, -, a2, -⟩ := ctor_spec t l r hall
  rw [print_eq]
  rw [range_key l r hlr (by omega)] at e2
  show subtree_sum_ (SegmentSplitter.ctor t l r).mid = _
  rw [subtree_sum_eq a2, e2]

theorem get_sum_correct_witness :
    (0 ≤ 1 ∧ 1 < (print_ exampleTwo).length ∧ (print_ exampleTwo).length < SIZE_MOD) ∧
    (get_sum exampleTwo 0 1).1 = (((print_ exampleTwo).drop 0).take (1 - 0 + 1)).sum :=
  ⟨by decide, get_sum_correct exampleTwo reachable_exampleTwo 0 1 (by decide) (by decide)
    (by decide)⟩

/-- C2: on every reachable state with sequence `s` of length `n` and every `pos ≤ n`,
after `insert(x, pos)` the sequence is `s[0..pos)`, then `x`, then `s[pos..n)`. -/
theorem insert_correct (t : Link) (h : Reachable t) (x : Int) (pos priority : Nat)
    (hpos : pos ≤ (print_ t).length) (hn : (print_ t).length < SIZE_MOD) :
    print_ (insert t x pos priority) = (print_ t).take pos ++ x :: (print_ t).drop pos := by
  have hall := reachable_sizeSum h
  have hk := insert_key pos (by omega)
  obtain ⟨-, e⟩ := perform_operation_spec t pos (size_sub pos 1)
    (fun _ => ((), create x priority)) hall (fun _ _ => ⟨trivial, trivial⟩)
  rw [print_eq, print_eq]
  show materialize (perform_operation t pos (size_sub pos 1) _).2 = _
  rw [e, hk]
  simp [create, materialize, Node.pending, Node.new]

theorem insert_correct_witness :
    (1 ≤ (print_ exampleTwo).length ∧ (print_ exampleTwo).length < SIZE_MOD) ∧
    print_ (insert exampleTwo 4 1 2) =
      (print_ exampleTwo).take 1 ++ 4 :: (print_ exampleTwo).drop 1 :=
  ⟨by decide, insert_correct exampleTwo reachable_exampleTwo 4 1 2 (by decide) (by decide)⟩

/-- C3: on every reachable state with sequence `s` of length `n` and every `pos < n`,
after `remove(pos)` the sequence is `s[0..pos)` followed by `s[pos+1..n)`. -/
theorem remove_correct (t : Link) (h : Reachable t) (pos : Nat)
    (hpos : pos < (print_ t).length) (hn : (print_ t).length < SIZE_MOD) :
    print_ (remove t pos) = (print_ t).take pos ++ (print_ t).drop (pos + 1) := by
  have hall := reachable_sizeSum h
  have hk := range_key pos pos (le_refl _) (by omega)
  obtain ⟨-, e⟩ := perform_operation_spec t pos pos
    (fun m => ((), Link.remove m)) hall (fun _ _ => trivial)
  rw [print_eq, print_eq]
  show materialize (perform_operation t pos pos _).2 = _
  rw [e, hk]
  simp [Link.remove, materialize, Nat.add_comm]

theorem remove_correct_witness :
    (1 < (print_ exampleTwo).length ∧ (print_ exampleTwo).length < SIZE_MOD) ∧
    print_ (remove exampleTwo 1) = (print_ exampleTwo).take 1 ++ (print_ exampleTwo).drop (1 + 1) :=
  ⟨by decide, remove_correct exampleTwo reachable_exampleTwo 1 (by decide) (by decide)⟩

theorem range_shape (s : List Int) (l r : Nat) (hlr : l ≤ r) (hr : r < s.length) :
    ((s.drop l).take (r - l + 1)).length = r - l + 1 ∧
    (s.drop l).drop (r - l + 1) = s.drop (r + 1) := by
  constructor
  · simp; omega
  · rw [List.drop_drop]; congr 1; omega

/-- C4 (amended): on every reachable state, for `l ≤ r < n` and every `x` other than the
no-paint marker `INF_VALUE`, after `paint(x, l, r)` the sequence has `x` at every position
of `[l, r]` and is unchanged elsewhere. -/
theorem paint_correct (t : Link) (h : Reachable t) (x : Int) (l r : Nat) (hx : x ≠ INF_VALUE)
    (hlr : l ≤ r) (hr : r < (print_ t).length) (hn : (print_ t).length < SIZE_MOD) :
    print_ (paint t x l r) =
      (print_ t).take l ++ List.replicate (r - l + 1) x ++ (print_ t).drop (r + 1) := by
  have hall := reachable_sizeSum h
  have hk := range_key l r hlr (by omega)
  obtain ⟨-, e2, -, -, -, -⟩ := ctor_spec t l r hall
  obtain ⟨-, e⟩ := perform_operation_spec t l r
    (fun m => ((), subtree_paint_ m x)) hall (fun _ hm => allBelow_paint x hm)
  rw [print_eq] at hr ⊢
  rw [print_eq]
  obtain ⟨s1, s2⟩ := range_shape (materialize t) l r hlr hr
  show materialize (perform_operation t l r _).2 = _
  rw [e, hk]
  simp only
  rw [materialize_paint _ _ hx, e2, hk, s2]
  rw [List.map_const', s1]

theorem paint_correct_witness :
    (4 ≠ INF_VALUE ∧ 0 ≤ 1 ∧ 1 < (print_ exampleThree).length ∧
      (print_ exampleThree).length < SIZE_MOD) ∧
    print_ (paint exampleThree 4 0 1) =
      (print_ exampleThree).take 0 ++ List.replicate (1 - 0 + 1) 4 ++
        (print_ exampleThree).drop (1 + 1) :=
  ⟨by decide, paint_correct exampleThree reachable_exampleThree 4 0 1 (by decide) (by decide)
    (by decide) (by decide)⟩

/-- C4 as stated fails for `x = INF_VALUE`: painting `[0, 1]` of `[9, 5]` with `10^14`
changes only the element held by the root of the range. -/
theorem paint_marker_counterexample :
    Reachable exampleTwo ∧ 0 ≤ 1 ∧ 1 < (print_ exampleTwo).length ∧
    (print_ exampleTwo).length < SIZE_MOD ∧
    print_ (paint exampleTwo INF_VALUE 0 1) = [INF_VALUE, 5] ∧
    print_ (paint exampleTwo INF_VALUE 0 1) ≠
      (print_ exampleTwo).take 0 ++ List.replicate (1 - 0 + 1) INF_VALUE ++
        (print_ exampleTwo).drop (1 + 1) :=
  ⟨reachable_exampleTwo, by decide, by decide, by decide, by decide, by decide⟩

/-- C5: on every reachable state, for `l ≤ r < n` and every `x`, after `add(x, l, r)` the
sequence is `s[i] + x` at every position of `[l, r]` and `s[i]` elsewhere. -/
theorem add_correct (t : Link) (h : Reachable t) (x : Int) (l r : Nat)
    (hlr : l ≤ r) (hr : r < (print_ t).length) (hn : (print_ t).length < SIZE_MOD) :
    print_ (add t x l r) =
      (print_ t).take l ++ (((print_ t).drop l).take (r - l + 1)).map (fun v => v + x) ++
        (print_ t).drop (r + 1) := by
  have hall := reachable_sizeSum h
  have hk := range_key l r hlr (by omega)
  obtain ⟨-, e2, -, -, -, -⟩ := ctor_spec t l r hall
  obtain ⟨-, e⟩ := perform_operation_spec t l r
    (fun m => ((), subtree_add_ m x)) hall
    (fun _ hm => All.below (all_add SizeSumOK x (fun _ => sizeSumOK_add x) hm))
  rw [print_eq] at hr ⊢
  rw [print_eq]
  obtain ⟨-, s2⟩ := range_shape (materialize t) l r hlr hr
  show materialize (perform_operation t l r _).2 = _
  rw [e, hk]
  simp only
  rw [materialize_add, e2, hk, s2]

theorem add_correct_witness :
    (1 ≤ 2 ∧ 2 < (print_ exampleThree).length ∧ (print_ exampleThree).length < SIZE_MOD) ∧
    print_ (add exampleThree 7 1 2) =
      (print_ exampleThree).take 1 ++
        (((print_ exampleThree).drop 1).take (2 - 1 + 1)).map (fun v => v + 7) ++
        (print_ exampleThree).drop (2 + 1) :=
  ⟨by decide, add_correct exampleThree reachable_exampleThree 7 1 2 (by decide) (by decide)
    (by decide)⟩

/-! ## Bound, border and inversion caches -/

theorem compare_flip (a b : Int) (type : Bool) : compare b a type = compare a b (!type) := by
  cases type <;> simp [compare]

theorem compare_irrefl (a : Int) (type : Bool) : compare a a type = false := by
  cases type <;> simp [compare]

theorem compare_add (a b x : Int) (type : Bool) :
    compare (a + x) (b + x) type = compare a b type := by
  cases type <;> simp [compare]

theorem compare_trans_false {a b c : Int} {type : Bool} (h1 : compare a b type = false)
    (h2 : compare b c type = false) : compare a c type = false := by
  cases type <;> simp [compare] at * <;> omega

theorem compare_trans {a b c : Int} {type : Bool} (h1 : compare a b type = true)
    (h2 : compare b c type = true) : compare a c type = true := by
  cases type <;> simp [compare] at * <;> omega

theorem compare_trans_left {a b c : Int} {type : Bool} (h1 : compare a b type = false)
    (h2 : compare a c type = true) : compare b c type = true := by
  cases type <;> simp [compare] at * <;> omega

theorem compare_trans_right {a b c : Int} {type : Bool} (h1 : compare b c type = false)
    (h2 : compare a c type = true) : compare a b type = true := by
  cases type <;> simp [compare] at * <;> omega

theorem materialize_ne_nil (d : Node) (c0 c1 : Link) : materialize (node d c0 c1) ≠ [] := by
  simp [materialize]

theorem aggOK_reverse {t : Link} (h : AggOK t) : AggOK (subtree_reverse_ t) := by
  cases t with
  | null => exact h
  | node d c0 c1 =>
    obtain ⟨hb, hh, hl, hi⟩ := h
    have hm := materialize_reverse (node d c0 c1)
    simp only [subtree_reverse_] at hm
    simp only [subtree_reverse_, AggOK]
    rw [hm]
    refine ⟨?_, ?_, ?_, ?_⟩
    · intro ty
      have := hb ty
      cases ty <;> simpa [Node.bound] using this
    · rw [List.head?_reverse]; exact hl
    · rw [List.getLast?_reverse]; exact hh
    · intro ty
      rw [List.pairwise_reverse]
      have := hi (!ty)
      simp only [compare_flip _ _ ty]
      cases ty <;> simpa [Node.inversion] using this

theorem aggOK_paint {t : Link} (x : Int) (hx : x ≠ INF_VALUE) : AggOK (subtree_paint_ t x) := by
  cases t with
  | null => trivial
  | node d c0 c1 =>
    have hm := materialize_paint (node d c0 c1) x hx
    have hne := materialize_ne_nil d c0 c1
    simp only [subtree_paint_] at hm
    simp only [subtree_paint_, AggOK]
    rw [hm]
    generalize materialize (node d c0 c1) = m at hne
    cases m with
    | nil => exact absurd rfl hne
    | cons a l =>
      refine ⟨?_, ?_, ?_, ?_⟩
      · intro ty
        cases ty <;> simp [Node.bound, compare_irrefl]
      · simp
      · simp [List.getLast?_cons, List.getLast?_eq_getLast, List.map_const']
        cases l <;> simp [List.getLast?]
      · intro ty
        have : List.Pairwise (fun a b => compare a b ty = false)
            (List.map (fun _ => x) (a :: l)) := by
          rw [List.pairwise_map]
          exact List.pairwise_of_forall (fun _ _ => compare_irrefl x ty)
        exact ⟨fun h => by cases ty <;> simp [Node.inversion] at h, fun h => absurd this h⟩

theorem aggOK_add {t : Link} (x : Int) (h : AggOK t) : AggOK (subtree_add_ t x) := by
  cases t with
  | null => exact h
  | node d c0 c1 =>
    obtain ⟨hb, hh, hl, hi⟩ := h
    have hm := materialize_add (node d c0 c1) x
    simp only [subtree_add_] at hm
    simp only [subtree_add_, AggOK]
    rw [hm]
    refine ⟨?_, ?_, ?_, ?_⟩
    · intro ty
      obtain ⟨h1, h2⟩ := hb ty
      constructor
      · rw [List.mem_map]
        exact ⟨d.bound ty, h1, by cases ty <;> simp [Node.bound]⟩
      · intro v hv
        rw [List.mem_map] at hv
        obtain ⟨w, hw, rfl⟩ := hv
        have := h2 w hw
        cases ty <;> simpa [Node.bound, compare_add] using this
    · rw [List.head?_map, hh]; rfl
    · rw [List.getLast?_map, hl]; rfl
    · intro ty
      rw [List.pairwise_map]
      simp only [compare_add]
      have := hi ty
      cases ty <;> simpa [Node.inversion] using this

theorem tagStable_good : TagStable Good :=
  ⟨fun _ h => ⟨sizeSumOK_reverse h.1, aggOK_reverse h.2⟩,
   fun x _ hx h => ⟨sizeSumOK_paint x hx h.1, aggOK_paint x hx⟩,
   fun x _ h => ⟨sizeSumOK_add x h.1, aggOK_add x h.2⟩⟩

theorem inRange_append {l1 l2 : List Int} : InRange (l1 ++ l2) ↔ InRange l1 ∧ InRange l2 := by
  simp only [InRange, List.mem_append]
  constructor
  · intro h
    exact ⟨fun v hv => h v (Or.inl hv), fun v hv => h v (Or.inr hv)⟩
  · rintro ⟨h1, h2⟩ v (hv | hv)
    · exact h1 v hv
    · exact h2 v hv

theorem inRange_cons {a : Int} {l : List Int} :
    InRange (a :: l) ↔ (-INF_VALUE < a ∧ a < INF_VALUE) ∧ InRange l := by
  simp only [InRange, List.mem_cons]
  constructor
  · intro h
    exact ⟨h a (Or.inl rfl), fun v hv => h v (Or.inr hv)⟩
  · rintro ⟨h1, h2⟩ v (hv | hv)
    · rw [hv]; exact h1
    · exact h2 v hv

theorem inRange_nil : InRange [] := fun _ h => absurd h (List.not_mem_nil _)

theorem boundOf_link {t : Link} (h : AggOK t) (type : Bool) :
    BoundOf type (materialize t) (subtree_bound_ t type) := by
  cases t with
  | null => exact Or.inl ⟨rfl, rfl⟩
  | node d c0 c1 => exact Or.inr (h.1 type)

theorem boundOf_singleton (type : Bool) (v : Int) : BoundOf type [v] v :=
  Or.inr ⟨List.mem_singleton.mpr rfl, fun w hw => by
    rw [List.mem_singleton.mp hw]; exact compare_irrefl v type⟩

theorem boundOf_min_max {type : Bool} {m1 m2 : List Int} {B1 B2 : Int}
    (h1 : BoundOf type m1 B1) (h2 : BoundOf type m2 B2) (r1 : InRange m1) (r2 : InRange m2) :
    BoundOf type (m1 ++ m2) (min_max B1 B2 type) := by
  rcases h1 with ⟨e1, s1⟩ | ⟨b1, f1⟩ <;> rcases h2 with ⟨e2, s2⟩ | ⟨b2, f2⟩
  · left
    subst e1 e2 s1 s2
    exact ⟨rfl, by cases type <;> simp [min_max]⟩
  · right
    subst e1 s1
    have hr := r2 B2 b2
    have : min_max (INF_VALUE * if type = true then -1 else 1) B2 type = B2 := by
      cases type <;> simp [min_max] <;> omega
    rw [this]
    exact ⟨b2, f2⟩
  · right
    subst e2 s2
    have hr := r1 B1 b1
    have : min_max B1 (INF_VALUE * if type = true then -1 else 1) type = B1 := by
      cases type <;> simp [min_max] <;> omega
    rw [this, List.append_nil]
    exact ⟨b1, f1⟩
  · right
    constructor
    · rw [List.mem_append]
      cases type
      · simp only [min_max, Bool.false_eq_true, if_false]
        rcases min_choice B1 B2 with h | h <;> rw [h]
        · exact Or.inl b1
        · exact Or.inr b2
      · simp only [min_max, if_true]
        rcases max_choice B1 B2 with h | h <;> rw [h]
        · exact Or.inl b1
        · exact Or.inr b2
    · intro v hv
      rw [List.mem_append] at hv
      rcases hv with hv | hv
      · have := f1 v hv
        cases type <;> simp [compare, min_max] at * <;> omega
      · have := f2 v hv
        cases type <;> simp [compare, min_max] at * <;> omega

theorem compare_bound_iff {type : Bool} {m1 m2 : List Int} {B1 B2 : Int}
    (h1 : BoundOf type m1 B1) (h2 : BoundOf (!type) m2 B2) (r1 : InRange m1) (r2 : InRange m2) :
    compare B1 B2 type = true ↔ ∃ x ∈ m1, ∃ y ∈ m2, compare x y type = true := by
  rcases h1 with ⟨e1, s1⟩ | ⟨b1, f1⟩
  · subst e1 s1
    simp only [List.not_mem_nil, false_and, exists_false, iff_false]
    rcases h2 with ⟨e2, s2⟩ | ⟨b2, f2⟩
    · subst s2
      cases type <;> simp [compare, INF_VALUE]
    · have := r2 B2 b2
      cases type <;> simp [compare] <;> omega
  · rcases h2 with ⟨e2, s2⟩ | ⟨b2, f2⟩
    · subst e2 s2
      simp only [List.not_mem_nil, false_and, exists_false, and_false, iff_false]
      have := r1 B1 b1
      cases type <;> simp [compare] <;> omega
    · constructor
      · intro h
        exact ⟨B1, b1, B2, b2, h⟩
      · rintro ⟨x, hx, y, hy, hxy⟩
        have g1 := f1 x hx
        have g2 := f2 y hy
        cases type <;> simp [compare] at * <;> omega

theorem has_inversion_iff {t : Link} (h : AggOK t) (type : Bool) :
    has_inversion_ t type = true ↔
      ¬ (materialize t).Pairwise (fun a b => compare a b type = false) := by
  cases t with
  | null => simp [has_inversion_, materialize]
  | node d c0 c1 => exact h.2.2.2 type

theorem not_pairwise_mid (R : Int → Int → Prop) (ma mb : List Int) (v : Int) :
    ¬ (ma ++ v :: mb).Pairwise R ↔
      (¬ ma.Pairwise R ∨ ¬ mb.Pairwise R ∨ (∃ x ∈ ma, ∃ y ∈ v :: mb, ¬ R x y) ∨
        (∃ x ∈ ma ++ [v], ∃ y ∈ mb, ¬ R x y)) := by
  rw [List.pairwise_append, List.pairwise_cons]
  constructor
  · intro h
    by_contra hc
    push_neg at hc
    obtain ⟨c1, c2, c3, c4⟩ := hc
    exact h ⟨c1, ⟨fun y hy => c4 v (by simp) y hy, c2⟩, c3⟩
  · rintro (h | h | ⟨x, hx, y, hy, hxy⟩ | ⟨x, hx, y, hy, hxy⟩) ⟨p1, ⟨p2, p3⟩, p4⟩
    · exact h p1
    · exact h p3
    · exact hxy (p4 x hx y hy)
    · rw [List.mem_append, List.mem_singleton] at hx
      rcases hx with hx | hx
      · exact hxy (p4 x hx y (List.mem_cons_of_mem _ hy))
      · rw [hx] at hxy; exact hxy (p2 y hy)

theorem inversion_of_iff (d : Node) {a b : Link} (ha : AggOK a) (hb : AggOK b)
    (hr : InRange (materialize a ++ d.value :: materialize b)) (type : Bool) :
    inversion_of d a b type = true ↔
      ¬ (materialize a ++ d.value :: materialize b).Pairwise
          (fun x y => compare x y type = false) := by
  obtain ⟨ra, rvb⟩ := inRange_append.mp hr
  obtain ⟨rv, rb⟩ := inRange_cons.mp rvb
  have rv1 : InRange [d.value] := inRange_cons.mpr ⟨rv, inRange_nil⟩
  have c3 := compare_bound_iff (boundOf_link ha type)
    (boundOf_min_max (boundOf_singleton (!type) d.value) (boundOf_link hb (!type)) rv1 rb) ra rvb
  have c4 := compare_bound_iff (boundOf_min_max (boundOf_link ha type)
    (boundOf_singleton type d.value) ra rv1) (boundOf_link hb (!type))
    (inRange_append.mpr ⟨ra, rv1⟩) rb
  rw [not_pairwise_mid]
  simp only [inversion_of, Bool.or_eq_true, has_inversion_iff ha, has_inversion_iff hb]
  simp only [List.singleton_append] at c3
  rw [c3, c4]
  simp only [Bool.not_eq_false, or_assoc]

theorem border_of_head (d : Node) {a : Link} (ha : AggOK a) (l : List Int) :
    (materialize a ++ d.value :: l).head? = some (border_of d a false) := by
  cases a with
  | null => rfl
  | node da a0 a1 =>
    have hne := materialize_ne_nil da a0 a1
    have := ha.2.1
    generalize materialize (node da a0 a1) = m at *
    cases m with
    | nil => exact absurd rfl hne
    | cons x xs => simpa [border_of, Node.border] using this

theorem border_of_last (d : Node) {b : Link} (hb : AggOK b) (l : List Int) :
    (l ++ d.value :: materialize b).getLast? = some (border_of d b true) := by
  cases b with
  | null => simp [border_of, materialize]
  | node db b0 b1 =>
    have hne := materialize_ne_nil db b0 b1
    have := hb.2.2.1
    generalize materialize (node db b0 b1) = m at *
    cases m with
    | nil => exact absurd rfl hne
    | cons x xs =>
      rw [List.getLast?_append, List.getLast?_cons_cons, this]
      simp [border_of, Node.border]

theorem update_fields (d : Node) (a b : Link) :
    ∃ d5 : Node, update_ (node d a b) = node d5 a b ∧
      (∀ type, d5.bound type =
        min_max d.value (min_max (subtree_bound_ a type) (subtree_bound_ b type) type) type) ∧
      d5.border0 = border_of d a false ∧ d5.border1 = border_of d b true ∧
      (∀ type, d5.inversion type = inversion_of d a b type) ∧
      d5.value = d.value ∧ d5.priority = d.priority ∧
      d5.reversed = d.reversed ∧ d5.paint = d.paint ∧ d5.add = d.add := by
  refine ⟨_, rfl, ?_, ?_, ?_, ?_, rfl, rfl, rfl, rfl, rfl⟩
  · intro ty; cases ty <;> rfl
  · cases a <;> rfl
  · cases b <;> rfl
  · intro ty; cases ty <;> rfl

theorem aggOK_update (d : Node) {a b : Link} (ha : AggOK a) (hb : AggOK b)
    (hr : InRange (materialize a ++ d.value :: materialize b)) :
    AggOK (update_ (node d.cleared a b)) := by
  have hm : materialize (update_ (node d.cleared a b)) =
      materialize a ++ d.value :: materialize b := by
    rw [materialize_update, materialize_cleared]
  obtain ⟨d5, e, hbd, hb0, hb1, hinv, -⟩ := update_fields d.cleared a b
  rw [e] at hm ⊢
  obtain ⟨ra, rvb⟩ := inRange_append.mp hr
  obtain ⟨rv, rb⟩ := inRange_cons.mp rvb
  have rv1 : InRange [d.value] := inRange_cons.mpr ⟨rv, inRange_nil⟩
  simp only [AggOK]
  rw [hm]
  refine ⟨?_, ?_, ?_, ?_⟩
  · intro ty
    rw [hbd ty]
    have hB := boundOf_min_max (boundOf_singleton ty d.value)
      (boundOf_min_max (boundOf_link ha ty) (boundOf_link hb ty) ra rb) rv1
      (inRange_append.mpr ⟨ra, rb⟩)
    rcases hB with ⟨e1, -⟩ | ⟨m1, m2⟩
    · simp at e1
    · constructor
      · simp only [List.mem_append, List.mem_cons, List.mem_singleton, List.not_mem_nil,
          or_false] at m1 ⊢
        tauto
      · intro v hv
        apply m2
        simp only [List.mem_append, List.mem_cons, List.mem_singleton, List.not_mem_nil,
          or_false] at hv ⊢
        tauto
  · rw [hb0]; exact border_of_head d.cleared ha _
  · rw [hb1]; exact border_of_last d.cleared hb _
  · intro ty
    rw [hinv ty]
    exact inversion_of_iff d.cleared ha hb hr ty

theorem good_root {t : Link} (h : Link.All Good t) : Good t := by
  cases t with
  | null => exact ⟨⟨rfl, rfl⟩, trivial⟩
  | node d c0 c1 => exact h.1

theorem all_mono {P Q : Link → Prop} (hPQ : ∀ t, P t → Q t) {t : Link} (h : Link.All P t) :
    Link.All Q t := by
  induction t with
  | null => trivial
  | node d c0 c1 ih0 ih1 => exact ⟨hPQ _ h.1, ih0 h.2.1, ih1 h.2.2⟩

theorem allGood_sizeSum {t : Link} (h : Link.All Good t) : Link.All SizeSumOK t :=
  all_mono (fun _ hg => hg.1) h

theorem allGood_update (d : Node) {a b : Link} (ha : Link.All Good a) (hb : Link.All Good b)
    (hr : InRange (materialize a ++ d.value :: materialize b)) :
    Link.All Good (update_ (node d.cleared a b)) := by
  have h1 := allSizeSum_update d (allGood_sizeSum ha) (allGood_sizeSum hb)
  have h2 := aggOK_update d (good_root ha).2 (good_root hb).2 hr
  obtain ⟨d5, e, -⟩ := update_fields d.cleared a b
  rw [e] at h1 h2 ⊢
  exact ⟨⟨h1.1, h2⟩, ha, hb⟩

theorem allGood_pushdown (d : Node) {c : Link} (h : Link.All Good c) :
    Link.All Good (pushdown d c) := all_pushdown_of tagStable_good d h

theorem materialize_node_pushed (d : Node) (c0 c1 : Link) :
    materialize (node d c0 c1) =
      materialize (pushdown d c0) ++ d.value :: materialize (pushdown d c1) := by
  rw [materialize_pushdown, materialize_pushdown]; rfl

theorem materialize_pushed (d : Node) (a b : Link) :
    materialize (node d.cleared (pushdown d a) (pushdown d b)) = materialize (node d a b) := by
  rw [← push_node, materialize_push]

theorem aggOK_pushed (d : Node) (a b : Link) (h : AggOK (node d a b)) :
    AggOK (node d.cleared (pushdown d a) (pushdown d b)) := by
  simp only [AggOK] at h ⊢
  rw [materialize_pushed]
  exact h

theorem good_pushed (d : Node) (a b : Link) (h : Good (node d a b)) :
    Good (node d.cleared (pushdown d a) (pushdown d b)) :=
  ⟨sizeSum_pushed d a b h.1, aggOK_pushed d a b h.2⟩

theorem aggOK_congr (d : Node) (a b a1 b1 : Link) (ha : materialize a1 = materialize a)
    (hb : materialize b1 = materialize b) (h : AggOK (node d.cleared a b)) :
    AggOK (node d.cleared a1 b1) := by
  simp only [AggOK] at h ⊢
  rw [materialize_cleared] at h ⊢
  rw [ha, hb]
  exact h

theorem good_congr (d : Node) (a b a1 b1 : Link) (ha : materialize a1 = materialize a)
    (hb : materialize b1 = materialize b) (h : Good (node d.cleared a b)) :
    Good (node d.cleared a1 b1) :=
  ⟨sizeSum_congr d a b a1 b1 ha hb h.1, aggOK_congr d a b a1 b1 ha hb h.2⟩

theorem allGood_pushed (d : Node) (a b : Link) (h : Link.All Good (node d a b)) :
    Link.All Good (node d.cleared (pushdown d a) (pushdown d b)) :=
  ⟨good_pushed d a b h.1, allGood_pushdown d h.2.1, allGood_pushdown d h.2.2⟩

theorem mergeAux_good (fuel : Nat) : ∀ l r : Link, l.count + r.count ≤ fuel →
    Link.All Good l → Link.All Good r → InRange (materialize l) → InRange (materialize r) →
    Link.All Good (mergeAux fuel l r) := by
  induction fuel with
  | zero =>
    intro l r h _ _ _ _
    cases l with
    | null =>
      cases r with
      | null => trivial
      | node d c0 c1 => simp [Link.count] at h
    | node d c0 c1 => simp [Link.count] at h
  | succ n ih =>
    intro l r h hl hr rl rr
    cases l with
    | null =>
      unfold mergeAux
      simp only [push_null]
      cases r with
      | null => trivial
      | node dr r0 r1 =>
        rw [push_node]
        rw [materialize_node_pushed] at rr
        exact allGood_update dr (allGood_pushdown dr hr.2.1) (allGood_pushdown dr hr.2.2) rr
    | node dl l0 l1 =>
      have rl0 := rl
      rw [materialize_node_pushed] at rl
      cases r with
      | null =>
        unfold mergeAux
        simp only [push_null, push_node]
        exact allGood_update dl (allGood_pushdown dl hl.2.1) (allGood_pushdown dl hl.2.2) rl
      | node dr r0 r1 =>
        have rr0 := rr
        rw [materialize_node_pushed] at rr
        simp only [Link.count] at h
        have gL := allGood_pushed dl l0 l1 hl
        have gR := allGood_pushed dr r0 r1 hr
        obtain ⟨rl1, rl2⟩ := inRange_append.mp rl
        obtain ⟨rl3, rl4⟩ := inRange_cons.mp rl2
        obtain ⟨rr1, rr2⟩ := inRange_append.mp rr
        obtain ⟨rr3, rr4⟩ := inRange_cons.mp rr2
        unfold mergeAux
        simp only [push_node]
        split_ifs with hp
        · have hc : (pushdown dl l1).count + (node dr.cleared (pushdown dr r0)
              (pushdown dr r1)).count ≤ n := by
            simp [Link.count, count_pushdown]; omega
          refine allGood_update dl gL.2.1 (ih _ _ hc gL.2.2 gR rl4
            (by rw [materialize_pushed]; exact rr0)) ?_
          rw [mergeAux_materialize _ _ _ hc, materialize_pushed]
          exact inRange_append.mpr ⟨rl1, inRange_cons.mpr ⟨rl3, inRange_append.mpr ⟨rl4, rr0⟩⟩⟩
        · have hc : (node dl.cleared (pushdown dl l0) (pushdown dl l1)).count +
              (pushdown dr r0).count ≤ n := by
            simp [Link.count, count_pushdown]; omega
          refine allGood_update dr (ih _ _ hc gL gR.2.1
            (by rw [materialize_pushed]; exact rl0) rr1) gR.2.2 ?_
          rw [mergeAux_materialize _ _ _ hc, materialize_pushed]
          exact inRange_append.mpr ⟨inRange_append.mpr ⟨rl0, rr1⟩, rr2⟩

theorem merge_good {l r : Link} (hl : Link.All Good l) (hr : Link.All Good r)
    (rl : InRange (materialize l)) (rr : InRange (materialize r)) :
    Link.All Good (merge_ l r) :=
  mergeAux_good _ l r (le_refl _) hl hr rl rr

theorem inRange_take {m : List Int} (h : InRange m) (k : Nat) : InRange (m.take k) :=
  fun v hv => h v (List.mem_of_mem_take hv)

theorem inRange_drop {m : List Int} (h : InRange m) (k : Nat) : InRange (m.drop k) :=
  fun v hv => h v (List.mem_of_mem_drop hv)

theorem splitAux_good (fuel : Nat) : ∀ (t : Link) (key cur_key : Nat), t.count ≤ fuel →
    Link.All Good t → InRange (materialize t) →
    Link.All Good (splitAux fuel t key cur_key).1 ∧
    Link.All Good (splitAux fuel t key cur_key).2 := by
  induction fuel with
  | zero =>
    intro t key cur h _ _
    cases t with
    | null => unfold splitAux; simp [push_null, Link.All]
    | node d c0 c1 => simp [Link.count] at h
  | succ n ih =>
    intro t key cur h hall hr
    cases t with
    | null => unfold splitAux; simp [push_null, Link.All]
    | node d c0 c1 =>
      simp only [Link.count] at h
      have g := allGood_pushed d c0 c1 hall
      have hc0 : (pushdown d c0).count ≤ n := by rw [count_pushdown]; omega
      have hc1 : (pushdown d c1).count ≤ n := by rw [count_pushdown]; omega
      rw [materialize_node_pushed] at hr
      obtain ⟨r0, r2⟩ := inRange_append.mp hr
      obtain ⟨rv, r1⟩ := inRange_cons.mp r2
      unfold splitAux
      simp only [push_node]
      split_ifs with hk
      · obtain ⟨a1, a2⟩ := ih (pushdown d c0) key cur hc0 g.2.1 r0
        obtain ⟨-, e2, -, -⟩ := splitAux_spec n (pushdown d c0) key cur hc0
          (allGood_sizeSum g.2.1)
        refine ⟨a1, allGood_update d a2 g.2.2 ?_⟩
        rw [e2]
        exact inRange_append.mpr ⟨inRange_drop r0 _, r2⟩
      · obtain ⟨a1, a2⟩ := ih (pushdown d c1) key _ hc1 g.2.2 r1
        obtain ⟨e1, -, -, -⟩ := splitAux_spec n (pushdown d c1) key
          (cur + subtree_size_ (pushdown d c0) + 1) hc1 (allGood_sizeSum g.2.2)
        refine ⟨allGood_update d g.2.1 a1 ?_, a2⟩
        rw [e1]
        exact inRange_append.mpr ⟨r0, inRange_cons.mpr ⟨rv, inRange_take r1 _⟩⟩

theorem split_good (t : Link) (key : Nat) (h : Link.All Good t) (hr : InRange (materialize t)) :
    Link.All Good (split_ t key 0).1 ∧ Link.All Good (split_ t key 0).2 :=
  splitAux_good _ t key 0 (le_refl _) h hr

/-! ## The pivot search `get_inversion_` -/

theorem pairwise_cons_of_head {type : Bool} {v : Int} {M : List Int}
    (hM : M.Pairwise (fun a b => compare a b type = false))
    (hv : ∀ y, M.head? = some y → compare v y type = false) :
    (v :: M).Pairwise (fun a b => compare a b type = false) := by
  rw [List.pairwise_cons]
  refine ⟨?_, hM⟩
  cases M with
  | nil => intro y hy; exact absurd hy (List.not_mem_nil _)
  | cons b S =>
    intro y hy
    have hb := hv b rfl
    rcases List.mem_cons.mp hy with h | h
    · rw [h]; exact hb
    · exact compare_trans_false hb ((List.pairwise_cons.mp hM).1 y h)

theorem pairwise_glue {type : Bool} {v : Int} {L M : List Int}
    (hL : L.Pairwise (fun a b => compare a b type = false))
    (hM : (v :: M).Pairwise (fun a b => compare a b type = false))
    (hv : ∀ x, L.getLast? = some x → compare x v type = false) :
    (L ++ v :: M).Pairwise (fun a b => compare a b type = false) := by
  rw [List.pairwise_append]
  refine ⟨hL, hM, ?_⟩
  intro u hu y hy
  rcases List.eq_nil_or_concat L with h | ⟨L1, x, h⟩
  · subst h; exact absurd hu (List.not_mem_nil _)
  · subst h
    have hx := hv x (by simp)
    have hux : compare u x type = false := by
      rw [List.concat_eq_append, List.mem_append, List.mem_singleton] at hu
      rcases hu with hu | hu
      · rw [List.concat_eq_append, List.pairwise_append] at hL
        exact hL.2.2 u hu x (List.mem_singleton.mpr rfl)
      · rw [hu]; exact compare_irrefl x type
    have huv := compare_trans_false hux hx
    rcases List.mem_cons.mp hy with h | h
    · rw [h]; exact huv
    · exact compare_trans_false huv ((List.pairwise_cons.mp hM).1 y h)

theorem link_null_of_not_nonnull {c : Link} (h : c.nonnull = false) : c = null := by
  cases c with
  | null => rfl
  | node d a b => simp [Link.nonnull] at h

theorem link_head {c : Link} (h : AggOK c) (hn : c.nonnull = true) :
    (materialize c).head? = some (c.border false) := by
  cases c with
  | null => simp [Link.nonnull] at hn
  | node d a b => exact h.2.1

theorem link_last {c : Link} (h : AggOK c) (hn : c.nonnull = true) :
    (materialize c).getLast? = some (c.border true) := by
  cases c with
  | null => simp [Link.nonnull] at hn
  | node d a b => exact h.2.2.1

theorem size_sub_one (a : Nat) (h1 : 1 ≤ a) (h2 : a < SIZE_MOD) : size_sub a 1 = a - 1 := by
  unfold size_sub SIZE_MOD at *
  omega

theorem get_inversionAux_spec (type : Bool) (fuel : Nat) :
    ∀ (t : Link) (cur_key : Nat), t.count ≤ fuel → Link.All Good t →
      cur_key + t.count < SIZE_MOD →
      ((materialize t).Pairwise (fun a b => compare a b type = false) →
        (get_inversionAux fuel t type cur_key).1 = INF_INDEX) ∧
      (¬ (materialize t).Pairwise (fun a b => compare a b type = false) →
        ∃ A a b S, materialize t = A ++ a :: b :: S ∧
          (get_inversionAux fuel t type cur_key).1 = cur_key + A.length ∧
          compare a b type = true ∧
          (b :: S).Pairwise (fun a b => compare a b type = false)) := by
  induction fuel with
  | zero =>
    intro t cur h _ _
    cases t with
    | null => exact ⟨fun _ => rfl, fun hn => absurd List.Pairwise.nil hn⟩
    | node d c0 c1 => simp [Link.count] at h
  | succ n ih =>
    intro t cur h hall hsz
    cases t with
    | null => exact ⟨fun _ => rfl, fun hn => absurd List.Pairwise.nil hn⟩
    | node d c0 c1 =>
      simp only [Link.count] at h hsz
      have g := allGood_pushed d c0 c1 hall
      have hc0 : (pushdown d c0).count ≤ n := by rw [count_pushdown]; omega
      have hc1 : (pushdown d c1).count ≤ n := by rw [count_pushdown]; omega
      have hs0 : subtree_size_ (pushdown d c0) = (pushdown d c0).count := by
        rw [subtree_size_eq (allGood_sizeSum g.2.1), length_materialize]
      have hk0 : (pushdown d c0).count = c0.count := count_pushdown d c0
      have hk1 : (pushdown d c1).count = c1.count := count_pushdown d c1
      have hl0 : (materialize (pushdown d c0)).length = c0.count := by
        rw [length_materialize, hk0]
      have hroot := g.1.2.2.2.2 type
      rw [materialize_pushed, materialize_node_pushed] at hroot
      have hi1 := has_inversion_iff (good_root g.2.2).2 type
      rw [materialize_node_pushed]
      generalize hm0 : materialize (pushdown d c0) = m0 at *
      generalize hm1 : materialize (pushdown d c1) = m1 at *
      unfold get_inversionAux
      simp only [push_node]
      split_ifs with h1 h2 h3 h4
      · -- no inversion below this node
        have hpw : (m0 ++ d.value :: m1).Pairwise (fun a b => compare a b type = false) := by
          by_contra hc
          have := hroot.mpr hc
          rw [this] at h1
          exact Bool.noConfusion h1
        exact ⟨fun _ => rfl, fun hn => absurd hpw hn⟩
      · -- the right child holds an inversion
        refine ⟨fun hp => ?_, fun _ => ?_⟩
        · have : ¬ (m0 ++ d.value :: m1).Pairwise (fun a b => compare a b type = false) :=
            hroot.mp (by simpa using h1)
          exact absurd hp this
        · simp only [Bool.and_eq_true] at h2
          obtain ⟨A1, a, b, S, e, hres, hab, hS⟩ :=
            (ih (pushdown d c1) (cur + subtree_size_ (pushdown d c0) + 1) hc1 g.2.2
              (by rw [hs0]; omega)).2 (by rw [hm1]; exact hi1.mp h2.2)
          rw [hm1] at e
          refine ⟨m0 ++ d.value :: A1, a, b, S, ?_, ?_, hab, hS⟩
          · rw [e]; simp
          · show (get_inversionAux n (pushdown d c1) type _).1 = _
            rw [hres, hs0]
            simp only [List.length_append, List.length_cons]
            omega
      · -- the pivot is this node
        refine ⟨fun hp => ?_, fun _ => ?_⟩
        · have : ¬ (m0 ++ d.value :: m1).Pairwise (fun a b => compare a b type = false) :=
            hroot.mp (by simpa using h1)
          exact absurd hp this
        · simp only [Bool.and_eq_true] at h3
          have hpw1 : m1.Pairwise (fun a b => compare a b type = false) := by
            by_contra hc
            exact h2 (by simp [h3.1, hi1.mpr hc])
          have hh := link_head (good_root g.2.2).2 h3.1
          rw [hm1] at hh
          cases m1 with
          | nil => simp at hh
          | cons b S =>
            simp only [List.head?_cons, Option.some.injEq] at hh
            refine ⟨m0, d.value, b, S, rfl, ?_, ?_, hpw1⟩
            · show cur + subtree_size_ (pushdown d c0) = _
              rw [hs0]; omega
            · rw [hh]; exact h3.2
      · -- the pivot is the last element of the left child
        refine ⟨fun hp => ?_, fun _ => ?_⟩
        · have : ¬ (m0 ++ d.value :: m1).Pairwise (fun a b => compare a b type = false) :=
            hroot.mp (by simpa using h1)
          exact absurd hp this
        · simp only [Bool.and_eq_true] at h4
          have hpw1 : m1.Pairwise (fun a b => compare a b type = false) := by
            by_contra hc
            have hnn : (pushdown d c1).nonnull = true := by
              cases hq : (pushdown d c1).nonnull with
              | true => rfl
              | false =>
                rw [link_null_of_not_nonnull hq] at hm1
                rw [← hm1] at hc
                exact absurd List.Pairwise.nil hc
            exact h2 (by simp [hnn, hi1.mpr hc])
          have hv1 : ∀ y, m1.head? = some y → compare d.value y type = false := by
            intro y hy
            cases hq : (pushdown d c1).nonnull with
            | true =>
              have hh := link_head (good_root g.2.2).2 hq
              rw [hm1, hy] at hh
              simp only [Option.some.injEq] at hh
              rw [hh]
              by_contra hc
              exact h3 (by simp [hq]; simpa using hc)
            | false =>
              rw [link_null_of_not_nonnull hq] at hm1
              rw [← hm1] at hy
              simp [materialize] at hy
          have hl := link_last (good_root g.2.1).2 h4.1
          rw [hm0] at hl
          rcases List.eq_nil_or_concat m0 with e0 | ⟨A, x, e0⟩
          · rw [e0] at hl; simp at hl
          · rw [e0] at hl
            simp only [List.concat_eq_append, List.getLast?_append, List.getLast?_singleton] at hl
            replace hl : x = (pushdown d c0).border true := Option.some.inj hl
            refine ⟨A, x, d.value, m1, ?_, ?_, ?_, pairwise_cons_of_head hpw1 hv1⟩
            · rw [e0]; simp
            · show size_sub (cur + subtree_size_ (pushdown d c0)) 1 = _
              have : m0.length = A.length + 1 := by rw [e0]; simp
              rw [size_sub_one _ (by rw [hs0]; omega) (by rw [hs0]; omega), hs0]
              omega
            · rw [hl]; exact h4.2
      · -- the pivot lies inside the left child
        refine ⟨fun hp => ?_, fun _ => ?_⟩
        · have : ¬ (m0 ++ d.value :: m1).Pairwise (fun a b => compare a b type = false) :=
            hroot.mp (by simpa using h1)
          exact absurd hp this
        · have hnp : ¬ (m0 ++ d.value :: m1).Pairwise (fun a b => compare a b type = false) :=
            hroot.mp (by simpa using h1)
          have hpw1 : m1.Pairwise (fun a b => compare a b type = false) := by
            by_contra hc
            have hnn : (pushdown d c1).nonnull = true := by
              cases hq : (pushdown d c1).nonnull with
              | true => rfl
              | false =>
                rw [link_null_of_not_nonnull hq] at hm1
                rw [← hm1] at hc
                exact absurd List.Pairwise.nil hc
            exact h2 (by simp [hnn, hi1.mpr hc])
          have hv1 : ∀ y, m1.head? = some y → compare d.value y type = false := by
            intro y hy
            cases hq : (pushdown d c1).nonnull with
            | true =>
              have hh := link_head (good_root g.2.2).2 hq
              rw [hm1, hy] at hh
              simp only [Option.some.injEq] at hh
              rw [hh]
              by_contra hc
              exact h3 (by simp [hq]; simpa using hc)
            | false =>
              rw [link_null_of_not_nonnull hq] at hm1
              rw [← hm1] at hy
              simp [materialize] at hy
          have hv0 : ∀ x, m0.getLast? = some x → compare x d.value type = false := by
            intro x hx
            cases hq : (pushdown d c0).nonnull with
            | true =>
              have hh := link_last (good_root g.2.1).2 hq
              rw [hm0, hx] at hh
              simp only [Option.some.injEq] at hh
              rw [hh]
              by_contra hc
              exact h4 (by simp [hq]; simpa using hc)
            | false =>
              rw [link_null_of_not_nonnull hq] at hm0
              rw [← hm0] at hx
              simp [materialize] at hx
          have hvm := pairwise_cons_of_head hpw1 hv1
          have hnp0 : ¬ m0.Pairwise (fun a b => compare a b type = false) :=
            fun hc => hnp (pairwise_glue hc hvm hv0)
          obtain ⟨A, a, b, S, e, hres, hab, hS⟩ :=
            (ih (pushdown d c0) cur hc0 g.2.1 (by omega)).2 (by rw [hm0]; exact hnp0)
          rw [hm0] at e
          refine ⟨A, a, b, S ++ d.value :: m1, ?_, ?_, hab, ?_⟩
          · rw [e]; simp
          · show (get_inversionAux n (pushdown d c0) type cur).1 = _
            exact hres
          · have := @pairwise_glue type d.value (b :: S) m1 hS hvm (fun x hx => hv0 x (by
              rw [e, List.getLast?_append, List.getLast?_cons_cons, hx]; rfl))
            simpa using this

theorem get_inversion_spec (type : Bool) (t : Link) (hall : Link.All Good t)
    (hsz : t.count < SIZE_MOD) :
    ((materialize t).Pairwise (fun a b => compare a b type = false) →
      (get_inversion_ t type 0).1 = INF_INDEX) ∧
    (¬ (materialize t).Pairwise (fun a b => compare a b type = false) →
      ∃ A a b S, materialize t = A ++ a :: b :: S ∧
        (get_inversion_ t type 0).1 = A.length ∧
        compare a b type = true ∧
        (b :: S).Pairwise (fun a b => compare a b type = false)) := by
  have := get_inversionAux_spec type t.count t 0 (le_refl _) hall (by omega)
  simpa [get_inversion_] using this

/-! ## The partner search `get_nearest_` and `permute` on a range -/

theorem compare_bound_false {val B y : Int} {type : Bool} (h1 : compare val B type = false)
    (h2 : compare y B (!type) = false) : compare val y type = false := by
  cases type <;> simp [compare] at * <;> omega

theorem get_nearestAux_spec (val : Int) (type : Bool) (fuel : Nat) :
    ∀ (t : Link) (cur_key : Nat), t.count ≤ fuel → Link.All Good t →
      (∃ y ∈ materialize t, compare val y type = true) →
      ∃ r B b C, get_nearestAux fuel t val type cur_key = some r ∧
        materialize t = B ++ b :: C ∧ r.1 = cur_key + B.length ∧
        compare val b type = true ∧ ∀ y ∈ C, compare val y type = false := by
  induction fuel with
  | zero =>
    intro t cur h _ hex
    cases t with
    | null => obtain ⟨y, hy, -⟩ := hex; exact absurd hy (List.not_mem_nil _)
    | node d c0 c1 => simp [Link.count] at h
  | succ n ih =>
    intro t cur h hall hex
    cases t with
    | null => obtain ⟨y, hy, -⟩ := hex; exact absurd hy (List.not_mem_nil _)
    | node d c0 c1 =>
      simp only [Link.count] at h
      have g := allGood_pushed d c0 c1 hall
      have hc0 : (pushdown d c0).count ≤ n := by rw [count_pushdown]; omega
      have hc1 : (pushdown d c1).count ≤ n := by rw [count_pushdown]; omega
      have hs0 : subtree_size_ (pushdown d c0) = (materialize (pushdown d c0)).length :=
        subtree_size_eq (allGood_sizeSum g.2.1)
      have hb1 := boundOf_link (good_root g.2.2).2 (!type)
      rw [materialize_node_pushed] at hex ⊢
      generalize hm0 : materialize (pushdown d c0) = m0 at *
      generalize hm1 : materialize (pushdown d c1) = m1 at *
      unfold get_nearestAux
      simp only [push_node]
      split_ifs with h1 h2
      · simp only [Bool.and_eq_true] at h1
        have hex1 : ∃ y ∈ materialize (pushdown d c1), compare val y type = true := by
          rcases hb1 with ⟨e, -⟩ | ⟨hB, -⟩
          · cases hq : pushdown d c1 with
            | null => rw [hq] at h1; simp [Link.nonnull] at h1
            | node d1 x y =>
              rw [hq] at hm1; rw [← hm1] at e
              exact absurd e (materialize_ne_nil d1 x y)
          · rw [hm1]; exact ⟨_, hB, h1.2⟩
        obtain ⟨r, B, b, C, e1, e2, e3, e4, e5⟩ :=
          ih (pushdown d c1) (cur + subtree_size_ (pushdown d c0) + 1) hc1 g.2.2 hex1
        rw [hm1] at e2
        refine ⟨(r.1, node d.cleared (pushdown d c0) r.2), m0 ++ d.value :: B, b, C, ?_, ?_, ?_,
          e4, e5⟩
        · rw [e1]
        · rw [e2]; simp
        · show r.1 = _
          rw [e3, hs0]
          simp only [List.length_append, List.length_cons]
          omega
      · have hno1 : ∀ y ∈ m1, compare val y type = false := by
          intro y hy
          rcases hb1 with ⟨e, -⟩ | ⟨hB, hBm⟩
          · rw [e] at hy; exact absurd hy (List.not_mem_nil _)
          · have hnn : (pushdown d c1).nonnull = true := by
              cases hq : pushdown d c1 with
              | null => rw [hq] at hm1; rw [← hm1] at hy; exact absurd hy (List.not_mem_nil _)
              | node d1 x y => rfl
            have hcb : compare val (subtree_bound_ (pushdown d c1) (!type)) type = false := by
              by_contra hc
              exact h1 (by simp [hnn]; simpa using hc)
            exact compare_bound_false hcb (hBm y hy)
        exact ⟨(cur + subtree_size_ (pushdown d c0), node d.cleared (pushdown d c0)
          (pushdown d c1)), m0, d.value, m1, rfl, rfl, by rw [hs0], h2, hno1⟩
      · have hno1 : ∀ y ∈ m1, compare val y type = false := by
          intro y hy
          rcases hb1 with ⟨e, -⟩ | ⟨hB, hBm⟩
          · rw [e] at hy; exact absurd hy (List.not_mem_nil _)
          · have hnn : (pushdown d c1).nonnull = true := by
              cases hq : pushdown d c1 with
              | null => rw [hq] at hm1; rw [← hm1] at hy; exact absurd hy (List.not_mem_nil _)
              | node d1 x y => rfl
            have hcb : compare val (subtree_bound_ (pushdown d c1) (!type)) type = false := by
              by_contra hc
              exact h1 (by simp [hnn]; simpa using hc)
            exact compare_bound_false hcb (hBm y hy)
        have hex0 : ∃ y ∈ materialize (pushdown d c0), compare val y type = true := by
          obtain ⟨y, hy, hvy⟩ := hex
          rw [hm0]
          rw [List.mem_append, List.mem_cons] at hy
          rcases hy with hy | hy | hy
          · exact ⟨y, hy, hvy⟩
          · rw [hy] at hvy; exact absurd hvy h2
          · rw [hno1 y hy] at hvy; exact Bool.noConfusion hvy
        obtain ⟨r, B, b, C, e1, e2, e3, e4, e5⟩ := ih (pushdown d c0) cur hc0 g.2.1 hex0
        rw [hm0] at e2
        refine ⟨(r.1, node d.cleared r.2 (pushdown d c1)), B, b, C ++ d.value :: m1, ?_, ?_, e3,
          e4, ?_⟩
        · rw [e1]
        · rw [e2]; simp
        · intro y hy
          rw [List.mem_append, List.mem_cons] at hy
          rcases hy with hy | hy | hy
          · exact e5 y hy
          · rw [hy]; simpa using h2
          · exact hno1 y hy

theorem value_of_singleton {d : Node} {x y : Link} {a : Int}
    (h : materialize (node d x y) = [a]) : d.value = a := by
  have hlen := congrArg List.length h
  rw [length_materialize] at hlen
  simp only [Link.count, List.length_singleton] at hlen
  have hx : x.count = 0 := by omega
  have hy : y.count = 0 := by omega
  cases x with
  | node dx x0 x1 => simp [Link.count] at hx
  | null =>
    simp only [materialize, Node.pending] at h
    simp at h
    exact h.1

theorem allGood_reverse {t : Link} (h : Link.All Good t) : Link.All Good (subtree_reverse_ t) :=
  all_reverse Good tagStable_good.rev h

theorem count_lt_of_length {t : Link} (h : (materialize t).length < SIZE_MOD) :
    t.count < SIZE_MOD := by rw [← length_materialize]; exact h

theorem link_permute_spec (t : Link) (q : QueryType) (hall : Link.All Good t)
    (hr : InRange (materialize t)) (hsz : (materialize t).length < SIZE_MOD) :
    ∃ t1, Link.permute t q = some t1 ∧ CodeStep q.index (materialize t) (materialize t1) ∧
      Link.All Good t1 := by
  obtain ⟨g1, gm⟩ := get_inversionAux_keeps tagStable_good good_pushed good_congr
    q.index t.count t 0 hall
  have spec := get_inversion_spec q.index t hall (count_lt_of_length hsz)
  cases hgi : get_inversion_ t q.index 0 with
  | mk gi1 gi2 =>
  have hgi' : get_inversionAux t.count t q.index 0 = (gi1, gi2) := hgi
  rw [hgi'] at g1 gm
  rw [hgi] at spec
  simp only at g1 gm spec
  have hrev : ∃ t1, some (subtree_reverse_ gi2) = some t1 ∧
      materialize t1 = (materialize t).reverse ∧ Link.All Good t1 :=
    ⟨_, rfl, by rw [materialize_reverse, gm], allGood_reverse g1⟩
  by_cases hp : (materialize t).Pairwise (fun a b => compare a b q.index = false)
  · have hk := spec.1 hp
    obtain ⟨t1, e1, e2, e3⟩ := hrev
    refine ⟨t1, ?_, Or.inl ⟨hp, e2⟩, e3⟩
    unfold Link.permute
    simp only [hgi, hk, if_true]
    exact e1
  · obtain ⟨A, a, b, S, e, hres, hab, hS⟩ := spec.2 hp
    by_cases hk : A.length = INF_INDEX
    · obtain ⟨t1, e1, e2, e3⟩ := hrev
      refine ⟨t1, ?_, Or.inr ⟨A, a, b, S, e, hab, hS, Or.inl ⟨hk, e2⟩⟩, e3⟩
      unfold Link.permute
      simp only [hgi, hres, hk, if_true]
      exact e1
    · have hr2 : InRange (materialize gi2) := by rw [gm]; exact hr
      rw [← gm] at e
      subst hres
      -- first pair of splits: prefix, pivot, suffix
      obtain ⟨s1a, s1b, -, -⟩ := split_spec gi2 A.length (allGood_sizeSum g1)
      obtain ⟨s1c, s1d⟩ := split_good gi2 A.length g1 hr2
      cases hs1 : split_ gi2 A.length 0 with
      | mk t_left rest =>
      rw [hs1] at s1a s1b s1c s1d
      simp only at s1a s1b s1c s1d
      rw [e, List.take_left] at s1a
      rw [e, List.drop_left] at s1b
      have rrest : InRange (materialize rest) := by
        rw [s1b]; rw [e] at hr2; exact (inRange_append.mp hr2).2
      have rA : InRange A := by rw [e] at hr2; exact (inRange_append.mp hr2).1
      obtain ⟨s2a, s2b, -, -⟩ := split_spec rest 1 (allGood_sizeSum s1d)
      obtain ⟨s2c, s2d⟩ := split_good rest 1 s1d rrest
      cases hs2 : split_ rest 1 0 with
      | mk capture suffix =>
      rw [hs2] at s2a s2b s2c s2d
      simp only at s2a s2b s2c s2d
      rw [s1b] at s2a s2b
      simp only [List.take_succ_cons, List.take_zero, List.drop_succ_cons, List.drop_zero]
        at s2a s2b
      cases capture with
      | null => simp [materialize] at s2a
      | node dcap cc0 cc1 =>
      have hval : dcap.value = a := value_of_singleton s2a
      have rsuf : InRange (materialize suffix) := by
        rw [s2b]; rw [s1b] at rrest; exact (inRange_cons.mp rrest).2
      have ra : InRange [a] := by
        rw [s1b] at rrest; exact inRange_cons.mpr ⟨(inRange_cons.mp rrest).1, inRange_nil⟩
      -- the partner
      obtain ⟨gn, B, c, C, n1, n2, n3, n4, n5⟩ := get_nearestAux_spec a q.index suffix.count
        suffix 0 (le_refl _) s2d ⟨b, by rw [s2b]; exact List.mem_cons_self _ _, hab⟩
      obtain ⟨k1, k2⟩ := get_nearestAux_keeps tagStable_good good_pushed good_congr
        a q.index suffix.count suffix 0 gn s2d n1
      rw [s2b] at n2
      simp only [Nat.zero_add] at n3
      have rgn : InRange (materialize gn.2) := by rw [k2]; exact rsuf
      obtain ⟨s3a, s3b, -, -⟩ := split_spec gn.2 gn.1 (allGood_sizeSum k1)
      obtain ⟨s3c, s3d⟩ := split_good gn.2 gn.1 k1 rgn
      cases hs3 : split_ gn.2 gn.1 0 with
      | mk suffix_left rest2 =>
      rw [hs3] at s3a s3b s3c s3d
      simp only at s3a s3b s3c s3d
      rw [k2, s2b, n2, n3, List.take_left] at s3a
      rw [k2, s2b, n2, n3, List.drop_left] at s3b
      have rBcC : InRange (B ++ c :: C) := by rw [← n2, ← s2b]; exact rsuf
      have rB : InRange B := (inRange_append.mp rBcC).1
      have rcC : InRange (c :: C) := (inRange_append.mp rBcC).2
      have rc : InRange [c] := inRange_cons.mpr ⟨(inRange_cons.mp rcC).1, inRange_nil⟩
      have rC : InRange C := (inRange_cons.mp rcC).2
      obtain ⟨s4a, s4b, -, -⟩ := split_spec rest2 1 (allGood_sizeSum s3d)
      obtain ⟨s4c, s4d⟩ := split_good rest2 1 s3d (by rw [s3b]; exact rcC)
      cases hs4 : split_ rest2 1 0 with
      | mk nearest suffix_right =>
      rw [hs4] at s4a s4b s4c s4d
      simp only at s4a s4b s4c s4d
      rw [s3b] at s4a s4b
      simp only [List.take_succ_cons, List.take_zero, List.drop_succ_cons, List.drop_zero]
        at s4a s4b
      -- the merges
      have m1g := merge_good s1c s4c (by rw [s1a]; exact rA) (by rw [s4a]; exact rc)
      have m1m : materialize (merge_ t_left nearest) = A ++ [c] := by
        rw [merge_materialize, s1a, s4a]
      have m2g := merge_good s3c s2c (by rw [s3a]; exact rB) (by rw [s2a]; exact ra)
      have m2m : materialize (merge_ suffix_left (node dcap cc0 cc1)) = B ++ [a] := by
        rw [merge_materialize, s3a, s2a]
      have m3g := merge_good m2g s4d (by rw [m2m]; exact inRange_append.mpr ⟨rB, ra⟩)
        (by rw [s4b]; exact rC)
      have m3m : materialize (merge_ (merge_ suffix_left (node dcap cc0 cc1)) suffix_right) =
          B ++ a :: C := by
        rw [merge_materialize, m2m, s4b]; simp
      have rBaC : InRange (B ++ a :: C) :=
        inRange_append.mpr ⟨rB, inRange_cons.mpr ⟨(inRange_cons.mp ra).1, rC⟩⟩
      have m4g := merge_good m1g (allGood_reverse m3g)
        (by rw [m1m]; exact inRange_append.mpr ⟨rA, rc⟩)
        (by
          rw [materialize_reverse, m3m]
          intro v hv
          exact rBaC v (List.mem_reverse.mp hv))
      refine ⟨_, ?_, Or.inr ⟨A, a, b, S, by rw [← gm]; exact e, hab, hS,
        Or.inr ⟨hk, B, c, C, n2, n4, n5, ?_⟩⟩, m4g⟩
      · unfold Link.permute
        have n1' : get_nearest_ suffix a q.index 0 = some gn := n1
        simp only [hgi, hk, if_false, hs1, hs2, hval, n1', hs3, hs4]
      · rw [merge_materialize, m1m, materialize_reverse, m3m]
        simp

/-! ## Reachable states with elements in range -/

theorem codeStep_perm {type : Bool} {m X : List Int} (h : CodeStep type m X) : X.Perm m := by
  rcases h with ⟨-, e⟩ | ⟨A, a, b, S, e, -, -, ⟨-, e2⟩ | ⟨-, B, c, C, e3, -, -, e4⟩⟩
  · rw [e]; exact List.reverse_perm m
  · rw [e2]; exact List.reverse_perm m
  · rw [e, e3, e4]
    refine List.Perm.append_left A ?_
    have h1 : (c :: (B ++ a :: C).reverse).Perm (c :: (B ++ a :: C)) :=
      List.Perm.cons c (List.reverse_perm _)
    refine h1.trans ?_
    have h2 : (c :: (B ++ a :: C)).Perm (c :: a :: (B ++ C)) :=
      List.Perm.cons c List.perm_middle
    have h3 : (a :: (B ++ c :: C)).Perm (a :: c :: (B ++ C)) :=
      List.Perm.cons a List.perm_middle
    exact h2.trans ((List.Perm.swap a c _).trans h3.symm)

theorem inRange_perm {m X : List Int} (h : X.Perm m) (hm : InRange m) : InRange X :=
  fun v hv => hm v (h.mem_iff.mp hv)

theorem dtor_materialize (s : SegmentSplitter) :
    materialize s.dtor =
      materialize s.left_part ++ materialize s.mid ++ materialize s.right_part := by
  simp only [SegmentSplitter.dtor]
  rw [merge_materialize, merge_materialize]

theorem dtor_good (s : SegmentSplitter) (h1 : Link.All Good s.left_part)
    (h2 : Link.All Good s.mid) (h3 : Link.All Good s.right_part)
    (hr : InRange (materialize s.dtor)) : Link.All Good s.dtor := by
  rw [dtor_materialize] at hr
  obtain ⟨r12, r3⟩ := inRange_append.mp hr
  obtain ⟨r1, r2⟩ := inRange_append.mp r12
  simp only [SegmentSplitter.dtor]
  exact merge_good (merge_good h1 h2 r1 r2) h3 (by rw [merge_materialize]; exact r12) r3

theorem ctor_good (t : Link) (l r : Nat) (h : Link.All Good t) (hr : InRange (materialize t)) :
    Link.All Good (SegmentSplitter.ctor t l r).left_part ∧
    Link.All Good (SegmentSplitter.ctor t l r).mid ∧
    Link.All Good (SegmentSplitter.ctor t l r).right_part := by
  obtain ⟨a1, a2⟩ := split_good t l h hr
  obtain ⟨-, e2, -, -⟩ := split_spec t l (allGood_sizeSum h)
  obtain ⟨b1, b2⟩ := split_good (split_ t l 0).2 (size_add (size_sub r l) 1) a2
    (by rw [e2]; exact inRange_drop hr _)
  exact ⟨a1, b1, b2⟩

theorem perform_operation_good {α : Type} (t : Link) (l r : Nat) (operate : Link → α × Link)
    (h : Link.All Good t) (hr : InRange (materialize t))
    (hop : ∀ m, Link.All Good m → InRange (materialize (operate m).2) →
      Link.All Good (operate m).2)
    (hr1 : InRange (materialize (perform_operation t l r operate).2)) :
    Link.All Good (perform_operation t l r operate).2 := by
  obtain ⟨a1, a2, a3⟩ := ctor_good t l r h hr
  simp only [perform_operation] at hr1 ⊢
  have hr2 := hr1
  rw [dtor_materialize] at hr2
  exact dtor_good { SegmentSplitter.ctor t l r with
    mid := (operate (SegmentSplitter.ctor t l r).mid).2 } a1
    (hop _ a2 (inRange_append.mp (inRange_append.mp hr2).1).2) a3 hr1

theorem allGood_create (x : Int) (priority : Nat) : Link.All Good (create x priority) := by
  refine ⟨⟨⟨rfl, ?_⟩, ?_⟩, trivial, trivial⟩
  · simp [create, materialize, Node.pending, Node.new, subtree_sum_]
  · simp only [create, AggOK]
    have hm : materialize (node (Node.new x priority) null null) = [x] := by
      simp [materialize, Node.pending, Node.new]
    rw [hm]
    refine ⟨?_, rfl, rfl, ?_⟩
    · intro ty
      cases ty <;> simp [Node.bound, Node.new, compare_irrefl]
    · intro ty
      cases ty <;> simp [Node.inversion, Node.new]

theorem paint_value_mem (x : Int) (d : Node) (c0 c1 : Link) :
    x ∈ materialize (subtree_paint_ (node d c0 c1) x) := by
  simp [subtree_paint_, materialize]

theorem allGood_paint (x : Int) {t : Link} (h : Link.All Good t)
    (hr : InRange (materialize (subtree_paint_ t x))) : Link.All Good (subtree_paint_ t x) := by
  cases t with
  | null => trivial
  | node d c0 c1 =>
    have hx : x ≠ INF_VALUE := by
      have := (hr x (paint_value_mem x d c0 c1)).2
      exact ne_of_lt this
    exact all_paint Good x (fun t ht => tagStable_good.paint x t hx ht) h

theorem link_permute_good (t t1 : Link) (q : QueryType) (h : Link.All Good t)
    (hr : InRange (materialize t)) (hp : Link.permute t q = some t1) : Link.All Good t1 := by
  unfold Link.permute at hp
  obtain ⟨g1, gm⟩ := get_inversionAux_keeps tagStable_good good_pushed good_congr
    q.index t.count t 0 h
  simp only [get_inversion_] at hp
  generalize get_inversionAux t.count t q.index 0 = gi at hp g1 gm
  have hr2 : InRange (materialize gi.2) := by rw [gm]; exact hr
  split_ifs at hp with hk
  · simp only [Option.some.injEq] at hp
    subst hp
    exact allGood_reverse g1
  · obtain ⟨s1a, s1b, -, -⟩ := split_spec gi.2 gi.1 (allGood_sizeSum g1)
    obtain ⟨s1c, s1d⟩ := split_good gi.2 gi.1 g1 hr2
    generalize split_ gi.2 gi.1 0 = s1 at hp s1a s1b s1c s1d
    have r1a : InRange (materialize s1.1) := by rw [s1a]; exact inRange_take hr2 _
    have r1b : InRange (materialize s1.2) := by rw [s1b]; exact inRange_drop hr2 _
    obtain ⟨s2a, s2b, -, -⟩ := split_spec s1.2 1 (allGood_sizeSum s1d)
    obtain ⟨s2c, s2d⟩ := split_good s1.2 1 s1d r1b
    generalize split_ s1.2 1 0 = s2 at hp s2a s2b s2c s2d
    have r2a : InRange (materialize s2.1) := by rw [s2a]; exact inRange_take r1b _
    have r2b : InRange (materialize s2.2) := by rw [s2b]; exact inRange_drop r1b _
    obtain ⟨capture, suffix⟩ := s2
    simp only at hp s2a s2b s2c s2d r2a r2b
    cases capture with
    | null => simp at hp
    | node dcap cc0 cc1 =>
      simp only at hp
      cases hgn : get_nearest_ suffix dcap.value q.index 0 with
      | none => rw [hgn] at hp; simp at hp
      | some gn =>
        rw [hgn] at hp
        simp only [Option.some.injEq] at hp
        subst hp
        obtain ⟨k1, k2⟩ := get_nearestAux_keeps tagStable_good good_pushed good_congr
          dcap.value q.index suffix.count suffix 0 gn s2d hgn
        have rgn : InRange (materialize gn.2) := by rw [k2]; exact r2b
        obtain ⟨s3a, s3b, -, -⟩ := split_spec gn.2 gn.1 (allGood_sizeSum k1)
        obtain ⟨s3c, s3d⟩ := split_good gn.2 gn.1 k1 rgn
        generalize split_ gn.2 gn.1 0 = s3 at s3a s3b s3c s3d
        have r3a : InRange (materialize s3.1) := by rw [s3a]; exact inRange_take rgn _
        have r3b : InRange (materialize s3.2) := by rw [s3b]; exact inRange_drop rgn _
        obtain ⟨s4a, s4b, -, -⟩ := split_spec s3.2 1 (allGood_sizeSum s3d)
        obtain ⟨s4c, s4d⟩ := split_good s3.2 1 s3d r3b
        generalize split_ s3.2 1 0 = s4 at s4a s4b s4c s4d
        have r4a : InRange (materialize s4.1) := by rw [s4a]; exact inRange_take r3b _
        have r4b : InRange (materialize s4.2) := by rw [s4b]; exact inRange_drop r3b _
        have m1g := merge_good s1c s4c r1a r4a
        have m2g := merge_good s3c s2c r3a r2a
        have m2r : InRange (materialize (merge_ s3.1 (node dcap cc0 cc1))) := by
          rw [merge_materialize]; exact inRange_append.mpr ⟨r3a, r2a⟩
        have m3g := merge_good m2g s4d m2r r4b
        have m3r : InRange (materialize (merge_ (merge_ s3.1 (node dcap cc0 cc1)) s4.2)) := by
          rw [merge_materialize]; exact inRange_append.mpr ⟨m2r, r4b⟩
        refine merge_good m1g (allGood_reverse m3g)
          (by rw [merge_materialize]; exact inRange_append.mpr ⟨r1a, r4a⟩) ?_
        rw [materialize_reverse]
        intro v hv
        exact m3r v (List.mem_reverse.mp hv)

theorem permute_good (t t1 : Link) (l r : Nat) (q : QueryType) (h : Link.All Good t)
    (hr : InRange (materialize t))
    (hp : permute t l r q = some t1) (hr1 : InRange (materialize t1)) : Link.All Good t1 := by
  obtain ⟨a1, a2, a3⟩ := ctor_good t l r h hr
  obtain ⟨-, e2, -, -, -, -⟩ := ctor_spec t l r (allGood_sizeSum h)
  have rmid : InRange (materialize (SegmentSplitter.ctor t l r).mid) := by
    rw [e2]; exact inRange_take (inRange_drop hr _) _
  unfold permute at hp
  simp only at hp
  cases hm : Link.permute (SegmentSplitter.ctor t l r).mid q with
  | none => rw [hm] at hp; simp at hp
  | some m1 =>
    rw [hm] at hp
    simp only [Option.some.injEq] at hp
    subst hp
    exact dtor_good { SegmentSplitter.ctor t l r with mid := m1 } a1
      (link_permute_good _ m1 q a2 rmid hm) a3 hr1

theorem step_good {t t1 : Link} (h : Link.All Good t) (hr : InRange (materialize t))
    (hs : Step t t1) (hr1 : InRange (materialize t1)) : Link.All Good t1 := by
  cases hs with
  | insert x pos priority =>
    exact perform_operation_good t _ _ _ h hr (fun _ _ _ => allGood_create x priority) hr1
  | remove pos =>
    exact perform_operation_good t _ _ _ h hr (fun _ _ _ => trivial) hr1
  | get_sum left right =>
    exact perform_operation_good t _ _ _ h hr (fun _ hm _ => hm) hr1
  | paint x left right =>
    exact perform_operation_good t _ _ _ h hr (fun _ hm hrm => allGood_paint x hm hrm) hr1
  | add x left right =>
    exact perform_operation_good t _ _ _ h hr
      (fun _ hm _ => all_add Good x (tagStable_good.add x) hm) hr1
  | permute _ l r q hp => exact permute_good t _ l r q h hr hp hr1

theorem reachableIn_inRange {t : Link} (h : ReachableIn t) : InRange (materialize t) := by
  cases h with
  | empty => exact inRange_nil
  | step _ _ hr => rw [← print_eq]; exact hr

theorem reachableIn_good {t : Link} (h : ReachableIn t) : Link.All Good t := by
  induction h with
  | empty => trivial
  | step h0 hs hr ih =>
    exact step_good ih (reachableIn_inRange h0) hs (by rw [← print_eq]; exact hr)

theorem reachableIn_reachable {t : Link} (h : ReachableIn t) : Reachable t := by
  induction h with
  | empty => exact Reachable.empty
  | step _ hs _ ih => exact Reachable.step ih hs

/-- What `permute(l, r, type)` does on a state whose elements have always been in range:
it succeeds and rewrites the range `[l, r]` as `CodeStep` describes, leaving the rest. -/
theorem permute_spec (t : Link) (h : ReachableIn t) (l r : Nat) (q : QueryType)
    (hlr : l ≤ r) (hr : r < (print_ t).length) (hn : (print_ t).length < SIZE_MOD) :
    ∃ t1 X, permute t l r q = some t1 ∧
      print_ t1 = (print_ t).take l ++ X ++ (print_ t).drop (r + 1) ∧
      CodeStep q.index (((print_ t).drop l).take (r - l + 1)) X ∧ ReachableIn t1 := by
  have hg := reachableIn_good h
  have hin := reachableIn_inRange h
  rw [print_eq] at hr hn ⊢
  obtain ⟨a1, a2, a3⟩ := ctor_good t l r hg hin
  obtain ⟨e1, e2, e3, -, -, -⟩ := ctor_spec t l r (allGood_sizeSum hg)
  rw [range_key l r hlr (by omega)] at e2 e3
  have rmid : InRange (materialize (SegmentSplitter.ctor t l r).mid) := by
    rw [e2]; exact inRange_take (inRange_drop hin _) _
  have lmid : (materialize (SegmentSplitter.ctor t l r).mid).length < SIZE_MOD := by
    rw [e2]
    simp only [List.length_take, List.length_drop]
    omega
  obtain ⟨m1, p1, p2, p3⟩ := link_permute_spec _ q a2 rmid lmid
  have hp : permute t l r q =
      some (SegmentSplitter.dtor { SegmentSplitter.ctor t l r with mid := m1 }) := by
    unfold permute
    simp only [p1]
  have hmat : materialize (SegmentSplitter.dtor { SegmentSplitter.ctor t l r with mid := m1 }) =
      (materialize t).take l ++ materialize m1 ++ (materialize t).drop (r + 1) := by
    rw [dtor_materialize]
    simp only
    rw [e1, e3, (range_shape (materialize t) l r hlr hr).2]
  rw [e2] at p2
  refine ⟨_, materialize m1, hp, by rw [print_eq]; exact hmat, p2, ?_⟩
  refine ReachableIn.step h (Step.permute t _ l r q hp) ?_
  rw [print_eq, hmat]
  have hX := inRange_perm (codeStep_perm p2) (inRange_take (inRange_drop hin _) _)
  exact inRange_append.mpr ⟨inRange_append.mpr ⟨inRange_take hin _, hX⟩, inRange_drop hin _⟩

/-! ## Lexicographic order and the classic next-permutation step -/

theorem lex_max_of_pairwise (R : Int → Int → Prop) (hirr : ∀ x, ¬ R x x) :
    ∀ (S Y : List Int), S.Pairwise (fun u v => ¬ R u v) → Y.Perm S → ¬ List.Lex R S Y := by
  intro S
  induction S with
  | nil =>
    intro Y _ hY hlex
    rw [List.Perm.eq_nil hY] at hlex
    cases hlex
  | cons s S1 ih =>
    intro Y hS hY hlex
    cases Y with
    | nil => exact absurd hY.symm (List.cons_ne_nil _ _ ∘ List.Perm.eq_nil)
    | cons y Y1 =>
      cases hlex with
      | cons h =>
        exact ih Y1 (List.pairwise_cons.mp hS).2 (List.Perm.cons_inv hY) h
      | rel h =>
        have hy : y ∈ s :: S1 := hY.mem_iff.mp (List.mem_cons_self _ _)
        rcases List.mem_cons.mp hy with e | e
        · rw [e] at h; exact hirr s h
        · exact (List.pairwise_cons.mp hS).1 y e h

theorem lex_min_of_pairwise (R : Int → Int → Prop) (hirr : ∀ x, ¬ R x x) :
    ∀ (T Y : List Int), T.Pairwise (fun u v => ¬ R v u) → Y.Perm T → ¬ List.Lex R Y T := by
  intro T
  induction T with
  | nil =>
    intro Y _ hY hlex
    rw [List.Perm.eq_nil hY] at hlex
    cases hlex
  | cons s T1 ih =>
    intro Y hT hY hlex
    cases Y with
    | nil => exact absurd hY.symm (List.cons_ne_nil _ _ ∘ List.Perm.eq_nil)
    | cons y Y1 =>
      cases hlex with
      | cons h =>
        exact ih Y1 (List.pairwise_cons.mp hT).2 (List.Perm.cons_inv hY) h
      | rel h =>
        have hy : y ∈ s :: T1 := hY.mem_iff.mp (List.mem_cons_self _ _)
        rcases List.mem_cons.mp hy with e | e
        · rw [e] at h; exact hirr s h
        · exact (List.pairwise_cons.mp hT).1 y e h

theorem step_least_core (R : Int → Int → Prop) (hirr : ∀ x, ¬ R x x)
    (htr : ∀ x y z, R x y → R y z → R x z) (a c : Int) (B C : List Int)
    (hpw : (B ++ c :: C).Pairwise (fun u v => ¬ R u v)) (hac : R a c)
    (hC : ∀ y ∈ C, ¬ R a y) (Y : List Int) (hY : Y.Perm (a :: (B ++ c :: C)))
    (hlex : List.Lex R (a :: (B ++ c :: C)) Y) :
    ¬ List.Lex R Y (c :: (B ++ a :: C).reverse) := by
  intro hlt
  cases Y with
  | nil => cases hlex
  | cons y Y1 =>
    cases hlex with
    | cons h =>
      exact lex_max_of_pairwise R hirr _ Y1 hpw (List.Perm.cons_inv hY) h
    | rel hay =>
      have hy : y ∈ a :: (B ++ c :: C) := hY.mem_iff.mp (List.mem_cons_self _ _)
      have hyS : y ∈ B ++ c :: C := by
        rcases List.mem_cons.mp hy with e | e
        · rw [e] at hay; exact absurd hay (hirr a)
        · exact e
      have hB : ∀ u ∈ B, ¬ R u c := fun u hu =>
        (List.pairwise_append.mp hpw).2.2 u hu c (List.mem_cons_self _ _)
      have hnyc : ¬ R y c := by
        rcases List.mem_append.mp hyS with e | e
        · exact hB y e
        · rcases List.mem_cons.mp e with e | e
          · rw [e]; exact hirr c
          · exact absurd hay (hC y e)
      cases hlt with
      | rel h => exact hnyc h
      | cons h =>
        -- `y = c`: the tails are rearrangements of `B ++ a :: C`
        have hperm : Y1.Perm (B ++ a :: C).reverse := by
          have h1 : (c :: Y1).Perm (c :: (a :: (B ++ C))) := by
            refine hY.trans ?_
            have : (a :: (B ++ c :: C)).Perm (a :: c :: (B ++ C)) :=
              List.Perm.cons a List.perm_middle
            exact this.trans (List.Perm.swap c a _)
          have h2 : Y1.Perm (a :: (B ++ C)) := List.Perm.cons_inv h1
          exact h2.trans ((List.perm_middle.symm).trans (List.reverse_perm _).symm)
        have hpw2 : (B ++ a :: C).Pairwise (fun u v => ¬ R u v) := by
          rw [List.pairwise_append, List.pairwise_cons] at hpw ⊢
          obtain ⟨p1, ⟨p2, p3⟩, p4⟩ := hpw
          refine ⟨p1, ⟨hC, p3⟩, ?_⟩
          intro u hu v hv
          rcases List.mem_cons.mp hv with e | e
          · rw [e]
            intro hua
            exact p4 u hu c (List.mem_cons_self _ _) (htr _ _ _ hua hac)
          · exact p4 u hu v (List.mem_cons_of_mem _ e)
        have hpw3 : (B ++ a :: C).reverse.Pairwise (fun u v => ¬ R v u) := by
          rw [List.pairwise_reverse]; exact hpw2
        exact lex_min_of_pairwise R hirr _ Y1 hpw3 hperm h

theorem step_least (R : Int → Int → Prop) (hirr : ∀ x, ¬ R x x)
    (htr : ∀ x y z, R x y → R y z → R x z) (a c : Int) (B C : List Int)
    (hpw : (B ++ c :: C).Pairwise (fun u v => ¬ R u v)) (hac : R a c)
    (hC : ∀ y ∈ C, ¬ R a y) :
    ∀ (A Y : List Int), Y.Perm (A ++ a :: (B ++ c :: C)) →
      List.Lex R (A ++ a :: (B ++ c :: C)) Y →
      ¬ List.Lex R Y (A ++ c :: (B ++ a :: C).reverse) := by
  intro A
  induction A with
  | nil => exact fun Y hY hlex => step_least_core R hirr htr a c B C hpw hac hC Y hY hlex
  | cons x A1 ih =>
    intro Y hY hlex hlt
    cases Y with
    | nil => cases hlex
    | cons y Y1 =>
      cases hlex with
      | cons h =>
        cases hlt with
        | cons h2 => exact ih Y1 (List.Perm.cons_inv hY) h h2
        | rel h2 => exact hirr _ h2
      | rel hxy =>
        cases hlt with
        | cons h2 => exact hirr _ hxy
        | rel h2 => exact hirr _ (htr _ _ _ hxy h2)

theorem step_greater (R : Int → Int → Prop) (a c : Int) (A B C : List Int) (hac : R a c) :
    List.Lex R (A ++ a :: (B ++ c :: C)) (A ++ c :: (B ++ a :: C).reverse) :=
  List.Lex.append_left R (List.Lex.rel hac) A

theorem lex_flip : ∀ (u v : List Int), u.length = v.length →
    (List.Lex (fun a b : Int => b < a) u v ↔ List.Lex (fun a b : Int => a < b) v u) := by
  intro u
  induction u with
  | nil =>
    intro v hv
    cases v with
    | nil => exact ⟨fun h => (by cases h), fun h => (by cases h)⟩
    | cons y v1 => simp at hv
  | cons x u1 ih =>
    intro v hv
    cases v with
    | nil => simp at hv
    | cons y v1 =>
      have hl : u1.length = v1.length := by simpa using hv
      constructor
      · intro h
        cases h with
        | cons h1 => exact List.Lex.cons ((ih v1 hl).mp h1)
        | rel h1 => exact List.Lex.rel h1
      · intro h
        cases h with
        | cons h1 => exact List.Lex.cons ((ih v1 hl).mpr h1)
        | rel h1 => exact List.Lex.rel h1

/-! ## The permutation operator on reachable states -/

theorem compare_false_iff (a b : Int) : compare a b false = true ↔ a < b := by
  simp [compare]

theorem compare_true_iff (a b : Int) : compare a b true = true ↔ b < a := by
  simp [compare]

theorem compare_false_eq_false (a b : Int) : compare a b false = false ↔ b ≤ a := by
  simp [compare]

theorem compare_true_eq_false (a b : Int) : compare a b true = false ↔ a ≤ b := by
  simp [compare]

theorem pairwise_false_iff (m : List Int) :
    m.Pairwise (fun x y => compare x y false = false) ↔ m.Pairwise (fun x y => y ≤ x) := by
  simp only [compare_false_eq_false]

theorem pairwise_true_iff (m : List Int) :
    m.Pairwise (fun x y => compare x y true = false) ↔ m.Pairwise (fun x y => x ≤ y) := by
  simp only [compare_true_eq_false]

theorem pairwise_of_no_adjacent (type : Bool) :
    ∀ m : List Int, (∀ A a b S, m = A ++ a :: b :: S → compare a b type = false) →
      m.Pairwise (fun x y => compare x y type = false) := by
  intro m
  induction m with
  | nil => intro _; exact List.Pairwise.nil
  | cons x m1 ih =>
    intro h
    refine pairwise_cons_of_head (ih (fun A a b S e => h (x :: A) a b S (by rw [e]; rfl))) ?_
    intro y hy
    cases m1 with
    | nil => simp at hy
    | cons b S =>
      simp only [List.head?_cons, Option.some.injEq] at hy
      subst hy
      exact h [] x b S rfl

theorem not_pairwise_of_adjacent (type : Bool) {m A S : List Int} {a b : Int}
    (e : m = A ++ a :: b :: S) (hab : compare a b type = true) :
    ¬ m.Pairwise (fun x y => compare x y type = false) := by
  intro hp
  rw [e, List.pairwise_append, List.pairwise_cons] at hp
  have := hp.2.1.1 b (List.mem_cons_self _ _)
  rw [hab] at this
  exact Bool.noConfusion this

theorem rightmostAscentAt_lt {m : List Int} {p : Nat} (h : RightmostAscentAt m p) :
    p + 1 < m.length := by
  obtain ⟨A, a, b, S, e, hp, -, -⟩ := h
  rw [e, ← hp]
  simp

theorem rightmostDescentAt_lt {m : List Int} {p : Nat} (h : RightmostDescentAt m p) :
    p + 1 < m.length := by
  obtain ⟨A, a, b, S, e, hp, -, -⟩ := h
  rw [e, ← hp]
  simp

/-- A `CodeStep` of type 0 away from the `INF_INDEX` collision is the next permutation. -/
theorem codeStep_next {m X : List Int} (h : CodeStep false m X) (hasc : HasAscent m)
    (hpiv : ¬ RightmostAscentAt m INF_INDEX) : IsNextPerm m X := by
  have hperm := codeStep_perm h
  obtain ⟨A0, a0, b0, S0, e0, hab0⟩ := hasc
  have hnp := not_pairwise_of_adjacent false e0 ((compare_false_iff _ _).mpr hab0)
  rcases h with ⟨hp, -⟩ | ⟨A, a, b, S, e, hab, hS, ⟨hk, -⟩ | ⟨-, B, c, C, e3, hac, hC, e4⟩⟩
  · exact absurd hp hnp
  · exact absurd ⟨A, a, b, S, e, hk, (compare_false_iff _ _).mp hab,
      (pairwise_false_iff _).mp hS⟩ hpiv
  · refine ⟨hperm, ?_, ?_⟩
    · rw [e, e3, e4]
      exact step_greater _ a c A B C ((compare_false_iff _ _).mp hac)
    · intro Y hY hlex
      rw [e, e3] at hY hlex
      rw [e4]
      rw [e3] at hS
      refine step_least (fun a b : Int => a < b) (fun x => lt_irrefl x)
        (fun x y z => lt_trans) a c B C ?_ ((compare_false_iff _ _).mp hac) ?_ A Y hY hlex
      · refine List.Pairwise.imp ?_ hS
        intro u v huv
        exact not_lt.mpr ((compare_false_eq_false _ _).mp huv)
      · intro y hy
        exact not_lt.mpr ((compare_false_eq_false _ _).mp (hC y hy))

/-- A `CodeStep` of type 1 away from the `INF_INDEX` collision is the previous permutation. -/
theorem codeStep_prev {m X : List Int} (h : CodeStep true m X) (hdesc : HasDescent m)
    (hpiv : ¬ RightmostDescentAt m INF_INDEX) : IsPrevPerm m X := by
  have hperm := codeStep_perm h
  obtain ⟨A0, a0, b0, S0, e0, hab0⟩ := hdesc
  have hnp := not_pairwise_of_adjacent true e0 ((compare_true_iff _ _).mpr hab0)
  rcases h with ⟨hp, -⟩ | ⟨A, a, b, S, e, hab, hS, ⟨hk, -⟩ | ⟨-, B, c, C, e3, hac, hC, e4⟩⟩
  · exact absurd hp hnp
  · exact absurd ⟨A, a, b, S, e, hk, (compare_true_iff _ _).mp hab,
      (pairwise_true_iff _).mp hS⟩ hpiv
  · refine ⟨hperm, ?_, ?_⟩
    · rw [← lex_flip _ _ hperm.length_eq.symm, e, e3, e4]
      exact step_greater _ a c A B C ((compare_true_iff _ _).mp hac)
    · intro Y hY hlex
      rw [← lex_flip _ _ (hY.length_eq.trans hperm.length_eq.symm)]
      rw [← lex_flip _ _ hY.length_eq.symm] at hlex
      rw [e, e3] at hY hlex
      rw [e4]
      rw [e3] at hS
      refine step_least (fun a b : Int => b < a) (fun x => lt_irrefl x)
        (fun x y z hxy hyz => lt_trans hyz hxy) a c B C ?_ ((compare_true_iff _ _).mp hac) ?_
        A Y hY hlex
      · refine List.Pairwise.imp ?_ hS
        intro u v huv
        exact not_lt.mpr ((compare_true_eq_false _ _).mp huv)
      · intro y hy
        exact not_lt.mpr ((compare_true_eq_false _ _).mp (hC y hy))

/-- A `CodeStep` on a range without inversion reverses it. -/
theorem codeStep_wrap {type : Bool} {m X : List Int} (h : CodeStep type m X)
    (hno : ∀ A a b S, m = A ++ a :: b :: S → compare a b type = false) : X = m.reverse := by
  rcases h with ⟨-, e⟩ | ⟨A, a, b, S, e, hab, -, -⟩
  · exact e
  · rw [hno A a b S e] at hab
    exact Bool.noConfusion hab

theorem reachableIn_exampleTwo : ReachableIn exampleTwo :=
  ReachableIn.step (ReachableIn.step ReachableIn.empty (Step.insert null 5 0 3)
    (by unfold InRange; decide)) (Step.insert _ 9 0 7) (by unfold InRange; decide)

theorem reachableIn_exampleThree : ReachableIn exampleThree :=
  ReachableIn.step (ReachableIn.step (ReachableIn.step ReachableIn.empty
    (Step.insert null 1 0 5) (by unfold InRange; decide))
    (Step.insert _ 2 1 3) (by unfold InRange; decide))
    (Step.insert _ 3 2 9) (by unfold InRange; decide)

theorem reachableIn_exampleFour : ReachableIn exampleFour :=
  ReachableIn.step reachableIn_exampleThree (Step.insert _ 0 0 4) (by unfold InRange; decide)

/-- C6 (amended): on every reachable state whose elements have always been strictly between
`-10^14` and `10^14`, for `l ≤ r < n` such that `s[l..r]` has an ascent whose rightmost
position is not at offset `INF_INDEX = 10^9`, `permute(l, r, NEXT_PERMUTATION)` leaves the
positions outside `[l, r]` unchanged and replaces `s[l..r]` by the lexicographically
smallest rearrangement strictly greater than it. -/
theorem next_permutation_correct (t : Link) (h : ReachableIn t) (l r : Nat) (hlr : l ≤ r)
    (hr : r < (print_ t).length) (hn : (print_ t).length < SIZE_MOD)
    (hasc : HasAscent (segment (print_ t) l r))
    (hpiv : ¬ RightmostAscentAt (segment (print_ t) l r) INF_INDEX) :
    ∃ t1 X, permute t l r QueryType.NEXT_PERMUTATION = some t1 ∧
      print_ t1 = (print_ t).take l ++ X ++ (print_ t).drop (r + 1) ∧
      IsNextPerm (segment (print_ t) l r) X := by
  obtain ⟨t1, X, h1, h2, h3, -⟩ := permute_spec t h l r QueryType.NEXT_PERMUTATION hlr hr hn
  exact ⟨t1, X, h1, h2, codeStep_next h3 hasc hpiv⟩

theorem next_permutation_correct_witness :
    (1 ≤ 3 ∧ 3 < (print_ exampleFour).length ∧ (print_ exampleFour).length < SIZE_MOD) ∧
    ∃ t1 X, permute exampleFour 1 3 QueryType.NEXT_PERMUTATION = some t1 ∧
      print_ t1 = (print_ exampleFour).take 1 ++ X ++ (print_ exampleFour).drop (3 + 1) ∧
      IsNextPerm (segment (print_ exampleFour) 1 3) X :=
  ⟨by decide, next_permutation_correct exampleFour reachableIn_exampleFour 1 3 (by decide)
    (by decide) (by decide) ⟨[1], 2, 3, [], by decide, by decide⟩
    (fun hp => absurd (rightmostAscentAt_lt hp) (by decide))⟩

/-- C7 (amended): on every reachable state whose elements have always been strictly between
`-10^14` and `10^14`, for `l ≤ r < n` such that `s[l..r]` has a descent whose rightmost
position is not at offset `INF_INDEX = 10^9`, `permute(l, r, PREV_PERMUTATION)` leaves the
positions outside `[l, r]` unchanged and replaces `s[l..r]` by the lexicographically
largest rearrangement strictly smaller than it. -/
theorem prev_permutation_correct (t : Link) (h : ReachableIn t) (l r : Nat) (hlr : l ≤ r)
    (hr : r < (print_ t).length) (hn : (print_ t).length < SIZE_MOD)
    (hdesc : HasDescent (segment (print_ t) l r))
    (hpiv : ¬ RightmostDescentAt (segment (print_ t) l r) INF_INDEX) :
    ∃ t1 X, permute t l r QueryType.PREV_PERMUTATION = some t1 ∧
      print_ t1 = (print_ t).take l ++ X ++ (print_ t).drop (r + 1) ∧
      IsPrevPerm (segment (print_ t) l r) X := by
  obtain ⟨t1, X, h1, h2, h3, -⟩ := permute_spec t h l r QueryType.PREV_PERMUTATION hlr hr hn
  exact ⟨t1, X, h1, h2, codeStep_prev h3 hdesc hpiv⟩

theorem prev_permutation_correct_witness :
    (0 ≤ 1 ∧ 1 < (print_ exampleTwo).length ∧ (print_ exampleTwo).length < SIZE_MOD) ∧
    ∃ t1 X, permute exampleTwo 0 1 QueryType.PREV_PERMUTATION = some t1 ∧
      print_ t1 = (print_ exampleTwo).take 0 ++ X ++ (print_ exampleTwo).drop (1 + 1) ∧
      IsPrevPerm (segment (print_ exampleTwo) 0 1) X :=
  ⟨by decide, prev_permutation_correct exampleTwo reachableIn_exampleTwo 0 1 (by decide)
    (by decide) (by decide) ⟨[], 9, 5, [], by decide, by decide⟩
    (fun hp => absurd (rightmostDescentAt_lt hp) (by decide))⟩

theorem segment_single (s : List Int) (l : Nat) (hl : l < s.length) :
    (∀ A a b S, segment s l l ≠ A ++ a :: b :: S) ∧
    s.take l ++ (segment s l l).reverse ++ s.drop (l + 1) = s := by
  have h1 : (segment s l l).length = 1 := by
    simp only [segment, List.length_take, List.length_drop]; omega
  have h2 : segment s l l ++ s.drop (l + 1) = s.drop l := by
    have := List.take_append_drop 1 (s.drop l)
    rw [List.drop_drop] at this
    unfold segment
    rw [Nat.sub_self, Nat.zero_add]
    exact this
  constructor
  · intro A a b S e
    rw [e] at h1
    simp only [List.length_append, List.length_cons] at h1
    omega
  · match hs : segment s l l, h1 with
    | [x], _ =>
      rw [hs] at h2
      rw [List.reverse_singleton, List.append_assoc, h2, List.take_append_drop]

/-- C8: on every reachable state whose elements have always been strictly between `-10^14`
and `10^14` and every `l ≤ r < n`: if `s[l..r]` has no ascent, `permute(l, r, NEXT)`
replaces it by its reversal and changes nothing else; if it has no descent,
`permute(l, r, PREV)` does the same; a single-element range is left unchanged by both. -/
theorem permute_wrap_correct (t : Link) (h : ReachableIn t) (l r : Nat) (hlr : l ≤ r)
    (hr : r < (print_ t).length) (hn : (print_ t).length < SIZE_MOD) :
    (¬ HasAscent (segment (print_ t) l r) →
      ∃ t1, permute t l r QueryType.NEXT_PERMUTATION = some t1 ∧
        print_ t1 = (print_ t).take l ++ (segment (print_ t) l r).reverse ++
          (print_ t).drop (r + 1)) ∧
    (¬ HasDescent (segment (print_ t) l r) →
      ∃ t1, permute t l r QueryType.PREV_PERMUTATION = some t1 ∧
        print_ t1 = (print_ t).take l ++ (segment (print_ t) l r).reverse ++
          (print_ t).drop (r + 1)) ∧
    (l = r →
      (∃ t1, permute t l r QueryType.NEXT_PERMUTATION = some t1 ∧ print_ t1 = print_ t) ∧
      (∃ t1, permute t l r QueryType.PREV_PERMUTATION = some t1 ∧ print_ t1 = print_ t)) := by
  obtain ⟨t1, X, h1, h2, h3, -⟩ := permute_spec t h l r QueryType.NEXT_PERMUTATION hlr hr hn
  obtain ⟨t2, Y, k1, k2, k3, -⟩ := permute_spec t h l r QueryType.PREV_PERMUTATION hlr hr hn
  have wn : (∀ A a b S, segment (print_ t) l r = A ++ a :: b :: S → ¬ a < b) →
      ∃ t1, permute t l r QueryType.NEXT_PERMUTATION = some t1 ∧
        print_ t1 = (print_ t).take l ++ (segment (print_ t) l r).reverse ++
          (print_ t).drop (r + 1) := by
    intro hno
    refine ⟨t1, h1, ?_⟩
    rw [h2, codeStep_wrap h3 (fun A a b S e => by
      have := hno A a b S e
      simpa [compare] using this)]
    rfl
  have wp : (∀ A a b S, segment (print_ t) l r = A ++ a :: b :: S → ¬ b < a) →
      ∃ t1, permute t l r QueryType.PREV_PERMUTATION = some t1 ∧
        print_ t1 = (print_ t).take l ++ (segment (print_ t) l r).reverse ++
          (print_ t).drop (r + 1) := by
    intro hno
    refine ⟨t2, k1, ?_⟩
    rw [k2, codeStep_wrap k3 (fun A a b S e => by
      have := hno A a b S e
      simpa [compare] using this)]
    rfl
  refine ⟨fun hna => wn (fun A a b S e hab => hna ⟨A, a, b, S, e, hab⟩),
    fun hnd => wp (fun A a b S e hab => hnd ⟨A, a, b, S, e, hab⟩), ?_⟩
  intro hlr2
  subst hlr2
  obtain ⟨s1, s2⟩ := segment_single (print_ t) l hr
  constructor
  · obtain ⟨u, u1, u2⟩ := wn (fun A a b S e => absurd e (s1 A a b S))
    exact ⟨u, u1, by rw [u2, s2]⟩
  · obtain ⟨u, u1, u2⟩ := wp (fun A a b S e => absurd e (s1 A a b S))
    exact ⟨u, u1, by rw [u2, s2]⟩

theorem permute_wrap_correct_witness :
    (0 ≤ 1 ∧ 1 < (print_ exampleTwo).length ∧ (print_ exampleTwo).length < SIZE_MOD) ∧
    ((¬ HasAscent (segment (print_ exampleTwo) 0 1) →
      ∃ t1, permute exampleTwo 0 1 QueryType.NEXT_PERMUTATION = some t1 ∧
        print_ t1 = (print_ exampleTwo).take 0 ++ (segment (print_ exampleTwo) 0 1).reverse ++
          (print_ exampleTwo).drop (1 + 1)) ∧
    (¬ HasDescent (segment (print_ exampleTwo) 0 1) →
      ∃ t1, permute exampleTwo 0 1 QueryType.PREV_PERMUTATION = some t1 ∧
        print_ t1 = (print_ exampleTwo).take 0 ++ (segment (print_ exampleTwo) 0 1).reverse ++
          (print_ exampleTwo).drop (1 + 1)) ∧
    (0 = 1 →
      (∃ t1, permute exampleTwo 0 1 QueryType.NEXT_PERMUTATION = some t1 ∧
        print_ t1 = print_ exampleTwo) ∧
      (∃ t1, permute exampleTwo 0 1 QueryType.PREV_PERMUTATION = some t1 ∧
        print_ t1 = print_ exampleTwo))) :=
  ⟨by decide, permute_wrap_correct exampleTwo reachableIn_exampleTwo 0 1 (by decide)
    (by decide) (by decide)⟩

/-! ## The pivot is unique; states of arbitrary size -/

theorem pivot_unique (type : Bool) {A A1 S S1 : List Int} {a b a1 b1 : Int}
    (e : A ++ a :: b :: S = A1 ++ a1 :: b1 :: S1)
    (hab : compare a b type = true) (hab1 : compare a1 b1 type = true)
    (hS : (b :: S).Pairwise (fun x y => compare x y type = false))
    (hS1 : (b1 :: S1).Pairwise (fun x y => compare x y type = false)) : A = A1 := by
  rcases List.append_eq_append_iff.mp e with ⟨L, e1, e2⟩ | ⟨L, e1, e2⟩
  · cases L with
    | nil => simpa using e1.symm
    | cons x L1 =>
      simp only [List.cons_append, List.cons.injEq] at e2
      have hp := hS
      rw [e2.2, List.pairwise_append, List.pairwise_cons] at hp
      have := hp.2.1.1 b1 (List.mem_cons_self _ _)
      rw [hab1] at this
      exact Bool.noConfusion this
  · cases L with
    | nil => simpa using e1
    | cons x L1 =>
      simp only [List.cons_append, List.cons.injEq] at e2
      have hp := hS1
      rw [e2.2, List.pairwise_append, List.pairwise_cons] at hp
      have := hp.2.1.1 b (List.mem_cons_self _ _)
      rw [hab] at this
      exact Bool.noConfusion this

/-- When the pivot of `m` sits at index `INF_INDEX`, `CodeStep` reverses `m`. -/
theorem codeStep_at_sentinel {type : Bool} {m X A S : List Int} {a b : Int}
    (h : CodeStep type m X) (e : m = A ++ a :: b :: S) (hab : compare a b type = true)
    (hS : (b :: S).Pairwise (fun x y => compare x y type = false))
    (hA : A.length = INF_INDEX) : X = m.reverse := by
  rcases h with ⟨-, e2⟩ | ⟨A1, a1, b1, S1, e1, hab1, hS1, ⟨-, e2⟩ | ⟨hk, -⟩⟩
  · exact e2
  · exact e2
  · rw [e] at e1
    have := pivot_unique type e1 hab hab1 hS hS1
    rw [← this] at hk
    exact absurd hA hk

theorem insert_front (t : Link) (h : Reachable t) (x : Int) (priority : Nat) :
    print_ (insert t x 0 priority) = x :: print_ t := by
  have hall := reachable_sizeSum h
  have hk := insert_key 0 (by unfold SIZE_MOD; decide)
  obtain ⟨-, e⟩ := perform_operation_spec t 0 (size_sub 0 1)
    (fun _ => ((), create x priority)) hall (fun _ _ => ⟨trivial, trivial⟩)
  rw [print_eq, print_eq]
  show materialize (perform_operation t 0 (size_sub 0 1) _).2 = _
  rw [e, hk]
  simp [create, materialize, Node.pending, Node.new]

theorem fromList_cons (x : Int) (e : List Int) :
    fromList (x :: e) = insert (fromList e) x 0 0 := rfl

theorem fromList_spec : ∀ e : List Int, InRange e → e.length < SIZE_MOD →
    ReachableIn (fromList e) ∧ print_ (fromList e) = e := by
  intro e
  induction e with
  | nil => intro _ _; exact ⟨ReachableIn.empty, rfl⟩
  | cons x e ih =>
    intro hr hl
    obtain ⟨h1, h2⟩ := ih (inRange_cons.mp hr).2
      (by simp only [List.length_cons] at hl; omega)
    have hp : print_ (fromList (x :: e)) = x :: e := by
      rw [fromList_cons, insert_front _ (reachableIn_reachable h1) x 0, h2]
    refine ⟨?_, hp⟩
    rw [fromList_cons] at hp ⊢
    exact ReachableIn.step h1 (Step.insert _ x 0 0) (by rw [hp]; exact hr)

theorem segment_all (s : List Int) (r : Nat) (h : s.length = r + 1) : segment s 0 r = s := by
  unfold segment
  rw [List.drop_zero, Nat.sub_zero, ← h, List.take_length]

theorem inRange_replicate (n : Nat) (v : Int) (hv : -INF_VALUE < v ∧ v < INF_VALUE) :
    InRange (List.replicate n v) := by
  intro w hw
  rw [List.eq_of_mem_replicate hw]
  exact hv

theorem pairwise_replicate_append (type : Bool) (n : Nat) (v : Int) (S : List Int)
    (hS : (v :: S).Pairwise (fun x y => compare x y type = false)) :
    (List.replicate n v ++ S).Pairwise (fun x y => compare x y type = false) := by
  rw [List.pairwise_append]
  refine ⟨?_, (List.pairwise_cons.mp hS).2, ?_⟩
  · rw [List.pairwise_replicate]
    exact Or.inr (compare_irrefl v type)
  · intro x hx y hy
    rw [List.eq_of_mem_replicate hx]
    exact (List.pairwise_cons.mp hS).1 y hy

/-- On a state whose whole sequence has its pivot at index `INF_INDEX`, `permute` over the
whole sequence reverses it. -/
theorem permute_at_sentinel (t : Link) (hre : ReachableIn t) (q : QueryType) (r : Nat)
    (A S : List Int) (a b : Int) (hp : print_ t = A ++ a :: b :: S)
    (hab : compare a b q.index = true)
    (hS : (b :: S).Pairwise (fun x y => compare x y q.index = false))
    (hA : A.length = INF_INDEX) (hlen : (print_ t).length = r + 1)
    (hn : r + 1 < SIZE_MOD) :
    ∃ t1, permute t 0 r q = some t1 ∧ print_ t1 = (print_ t).reverse ∧ ReachableIn t1 := by
  obtain ⟨t1, X, h1, h2, h3, h4⟩ := permute_spec t hre 0 r q (Nat.zero_le _)
    (by rw [hlen]; exact Nat.lt_succ_self _) (by rw [hlen]; exact hn)
  have h5 : CodeStep q.index (segment (print_ t) 0 r) X := h3
  rw [segment_all _ _ hlen] at h5
  have hX : X = (print_ t).reverse := codeStep_at_sentinel h5 hp hab hS hA
  refine ⟨t1, h1, ?_, h4⟩
  rw [h2, hX, List.take_zero, List.nil_append, List.drop_of_length_le (by rw [hlen]),
    List.append_nil]

/-! ## A range whose pivot sits at offset `INF_INDEX` -/

theorem inf_index_succ : INF_INDEX = 999999999 + 1 := rfl

theorem sentinel_size : INF_INDEX + 2 < SIZE_MOD := by
  unfold INF_INDEX SIZE_MOD; norm_num

theorem sentinelAscending_length : sentinelAscending.length = INF_INDEX + 2 := by
  unfold sentinelAscending
  rw [List.length_append, List.length_replicate]
  rfl

theorem sentinelDescending_length : sentinelDescending.length = INF_INDEX + 2 := by
  unfold sentinelDescending
  rw [List.length_append, List.length_replicate]
  rfl

theorem sentinelAscending_inRange : InRange sentinelAscending := by
  unfold sentinelAscending
  refine inRange_append.mpr ⟨inRange_replicate _ _ (by unfold INF_VALUE; norm_num), ?_⟩
  unfold InRange INF_VALUE
  decide

theorem sentinelDescending_inRange : InRange sentinelDescending := by
  unfold sentinelDescending
  refine inRange_append.mpr ⟨inRange_replicate _ _ (by unfold INF_VALUE; norm_num), ?_⟩
  unfold InRange INF_VALUE
  decide

theorem sentinelAscending_state :
    ReachableIn (fromList sentinelAscending) ∧
    print_ (fromList sentinelAscending) = sentinelAscending :=
  fromList_spec _ sentinelAscending_inRange
    (by rw [sentinelAscending_length]; exact Nat.lt_trans (Nat.lt_succ_self _) (by
      unfold INF_INDEX SIZE_MOD; norm_num))

theorem sentinelDescending_state :
    ReachableIn (fromList sentinelDescending) ∧
    print_ (fromList sentinelDescending) = sentinelDescending :=
  fromList_spec _ sentinelDescending_inRange
    (by rw [sentinelDescending_length]; exact Nat.lt_trans (Nat.lt_succ_self _) (by
      unfold INF_INDEX SIZE_MOD; norm_num))

theorem sentinelAscending_reverse :
    sentinelAscending.reverse = 1 :: 0 :: List.replicate INF_INDEX 0 := by
  unfold sentinelAscending
  rw [List.reverse_append, List.reverse_replicate]
  rfl

theorem sentinelDescending_reverse :
    sentinelDescending.reverse = 0 :: 1 :: List.replicate INF_INDEX 1 := by
  unfold sentinelDescending
  rw [List.reverse_append, List.reverse_replicate]
  rfl

theorem sentinelAscending_between :
    (List.replicate INF_INDEX (0 : Int) ++ [1, 0]).Perm sentinelAscending ∧
    List.Lex (fun a b : Int => a < b) sentinelAscending
      (List.replicate INF_INDEX (0 : Int) ++ [1, 0]) ∧
    List.Lex (fun a b : Int => a < b) (List.replicate INF_INDEX (0 : Int) ++ [1, 0])
      sentinelAscending.reverse := by
  refine ⟨?_, ?_, ?_⟩
  · exact List.Perm.append_left _ (List.Perm.swap (0 : Int) 1 [])
  · exact List.Lex.append_left _ (List.Lex.rel (by decide)) _
  · rw [sentinelAscending_reverse]
    rw [show List.replicate INF_INDEX (0 : Int) ++ [1, 0] =
      0 :: (List.replicate 999999999 (0 : Int) ++ [1, 0]) from by
        rw [inf_index_succ, List.replicate_succ]; rfl]
    exact List.Lex.rel (by decide)

theorem sentinelAscending_not_next :
    ¬ IsNextPerm sentinelAscending sentinelAscending.reverse := by
  rintro ⟨-, -, hmin⟩
  obtain ⟨b1, b2, b3⟩ := sentinelAscending_between
  exact hmin _ b1 b2 b3

theorem sentinelDescending_not_prev :
    ¬ IsPrevPerm sentinelDescending sentinelDescending.reverse := by
  rintro ⟨-, -, hmax⟩
  refine hmax (List.replicate INF_INDEX 1 ++ [0, 1]) ?_ ?_ ?_
  · exact List.Perm.append_left _ (List.Perm.swap (1 : Int) 0 [])
  · exact List.Lex.append_left _ (List.Lex.rel (by decide)) _
  · rw [sentinelDescending_reverse]
    rw [show List.replicate INF_INDEX (1 : Int) ++ [0, 1] =
      1 :: (List.replicate 999999999 (1 : Int) ++ [0, 1]) from by
        rw [inf_index_succ, List.replicate_succ]; rfl]
    exact List.Lex.rel (by decide)

theorem sentinelAscending_segment :
    segment (print_ (fromList sentinelAscending)) 0 (INF_INDEX + 1) = sentinelAscending := by
  rw [segment_all _ _ (by rw [sentinelAscending_state.2, sentinelAscending_length]),
    sentinelAscending_state.2]

theorem sentinelAscending_hasAscent : HasAscent sentinelAscending :=
  ⟨List.replicate INF_INDEX 0, 0, 1, [], by unfold sentinelAscending; rfl, by decide⟩

/-- On every state holding `sentinelAscending`, whatever the priorities,
`permute(0, n-1, NEXT)` reverses the whole sequence. -/
theorem sentinelAscending_next (t : Link) (hre : ReachableIn t)
    (hp : print_ t = sentinelAscending) :
    ∃ t1, permute t 0 (INF_INDEX + 1) QueryType.NEXT_PERMUTATION = some t1 ∧
      print_ t1 = sentinelAscending.reverse ∧ ReachableIn t1 := by
  have hdec : print_ t = List.replicate INF_INDEX 0 ++ 0 :: 1 :: [] := by
    rw [hp]; unfold sentinelAscending; rfl
  obtain ⟨t1, h1, h2, h3⟩ := permute_at_sentinel t hre QueryType.NEXT_PERMUTATION
    (INF_INDEX + 1) _ _ _ _ hdec (by decide) (List.pairwise_singleton _ _)
    (List.length_replicate _ _) (by rw [hp, sentinelAscending_length]) sentinel_size
  exact ⟨t1, h1, by rw [h2, hp], h3⟩

/-- C6 as stated fails on a range of `10^9 + 2` elements whose only ascent is at offset
`10^9 = INF_INDEX`: `get_inversion_` returns `INF_INDEX`, which `permute` reads as "no
ascent", so the range is reversed instead of advanced. -/
theorem next_permutation_sentinel_counterexample :
    ReachableIn (fromList sentinelAscending) ∧
    print_ (fromList sentinelAscending) = sentinelAscending ∧
    INF_INDEX + 1 < (print_ (fromList sentinelAscending)).length ∧
    (print_ (fromList sentinelAscending)).length < SIZE_MOD ∧
    HasAscent (segment (print_ (fromList sentinelAscending)) 0 (INF_INDEX + 1)) ∧
    (∃ t1, permute (fromList sentinelAscending) 0 (INF_INDEX + 1)
        QueryType.NEXT_PERMUTATION = some t1 ∧
      print_ t1 = sentinelAscending.reverse ∧
      ¬ IsNextPerm (segment (print_ (fromList sentinelAscending)) 0 (INF_INDEX + 1))
          (segment (print_ t1) 0 (INF_INDEX + 1))) ∧
    (∀ t, ReachableIn t → print_ t = sentinelAscending →
      ∃ t1, permute t 0 (INF_INDEX + 1) QueryType.NEXT_PERMUTATION = some t1 ∧
        print_ t1 = sentinelAscending.reverse) := by
  obtain ⟨hre, hpr⟩ := sentinelAscending_state
  have hlen : (print_ (fromList sentinelAscending)).length = INF_INDEX + 1 + 1 := by
    rw [hpr, sentinelAscending_length]
  obtain ⟨t1, h1, hp1, -⟩ := sentinelAscending_next _ hre hpr
  refine ⟨hre, hpr, by rw [hlen]; exact Nat.lt_succ_self _, by rw [hlen]; exact sentinel_size,
    ?_, ⟨t1, h1, hp1, ?_⟩, ?_⟩
  · rw [sentinelAscending_segment]
    exact sentinelAscending_hasAscent
  · rw [sentinelAscending_segment, hp1,
      segment_all _ _ (by rw [List.length_reverse, sentinelAscending_length])]
    exact sentinelAscending_not_next
  · intro t hret hpt
    obtain ⟨t2, k1, k2, -⟩ := sentinelAscending_next t hret hpt
    exact ⟨t2, k1, k2⟩

theorem sentinelDescending_segment :
    segment (print_ (fromList sentinelDescending)) 0 (INF_INDEX + 1) = sentinelDescending := by
  rw [segment_all _ _ (by rw [sentinelDescending_state.2, sentinelDescending_length]),
    sentinelDescending_state.2]

theorem sentinelDescending_hasDescent : HasDescent sentinelDescending :=
  ⟨List.replicate INF_INDEX 1, 1, 0, [], by unfold sentinelDescending; rfl, by decide⟩

/-- On every state holding `sentinelDescending`, whatever the priorities,
`permute(0, n-1, PREV)` reverses the whole sequence. -/
theorem sentinelDescending_prev (t : Link) (hre : ReachableIn t)
    (hp : print_ t = sentinelDescending) :
    ∃ t1, permute t 0 (INF_INDEX + 1) QueryType.PREV_PERMUTATION = some t1 ∧
      print_ t1 = sentinelDescending.reverse ∧ ReachableIn t1 := by
  have hdec : print_ t = List.replicate INF_INDEX 1 ++ 1 :: 0 :: [] := by
    rw [hp]; unfold sentinelDescending; rfl
  obtain ⟨t1, h1, h2, h3⟩ := permute_at_sentinel t hre QueryType.PREV_PERMUTATION
    (INF_INDEX + 1) _ _ _ _ hdec (by decide) (List.pairwise_singleton _ _)
    (List.length_replicate _ _) (by rw [hp, sentinelDescending_length]) sentinel_size
  exact ⟨t1, h1, by rw [h2, hp], h3⟩

/-- C7 as stated fails on a range of `10^9 + 2` elements whose only descent is at offset
`10^9 = INF_INDEX`: the range is reversed instead of stepped back. -/
theorem prev_permutation_sentinel_counterexample :
    ReachableIn (fromList sentinelDescending) ∧
    print_ (fromList sentinelDescending) = sentinelDescending ∧
    INF_INDEX + 1 < (print_ (fromList sentinelDescending)).length ∧
    (print_ (fromList sentinelDescending)).length < SIZE_MOD ∧
    HasDescent (segment (print_ (fromList sentinelDescending)) 0 (INF_INDEX + 1)) ∧
    (∃ t1, permute (fromList sentinelDescending) 0 (INF_INDEX + 1)
        QueryType.PREV_PERMUTATION = some t1 ∧
      print_ t1 = sentinelDescending.reverse ∧
      ¬ IsPrevPerm (segment (print_ (fromList sentinelDescending)) 0 (INF_INDEX + 1))
          (segment (print_ t1) 0 (INF_INDEX + 1))) ∧
    (∀ t, ReachableIn t → print_ t = sentinelDescending →
      ∃ t1, permute t 0 (INF_INDEX + 1) QueryType.PREV_PERMUTATION = some t1 ∧
        print_ t1 = sentinelDescending.reverse) := by
  obtain ⟨hre, hpr⟩ := sentinelDescending_state
  have hlen : (print_ (fromList sentinelDescending)).length = INF_INDEX + 1 + 1 := by
    rw [hpr, sentinelDescending_length]
  obtain ⟨t1, h1, hp1, -⟩ := sentinelDescending_prev _ hre hpr
  refine ⟨hre, hpr, by rw [hlen]; exact Nat.lt_succ_self _, by rw [hlen]; exact sentinel_size,
    ?_, ⟨t1, h1, hp1, ?_⟩, ?_⟩
  · rw [sentinelDescending_segment]
    exact sentinelDescending_hasDescent
  · rw [sentinelDescending_segment, hp1,
      segment_all _ _ (by rw [List.length_reverse, sentinelDescending_length])]
    exact sentinelDescending_not_prev
  · intro t hret hpt
    obtain ⟨t2, k1, k2, -⟩ := sentinelDescending_prev t hret hpt
    exact ⟨t2, k1, k2⟩

/-! ## Next followed by previous -/

theorem lex_trichotomy : ∀ (u v : List Int), u.length = v.length →
    List.Lex (fun a b : Int => a < b) u v ∨ u = v ∨ List.Lex (fun a b : Int => a < b) v u := by
  intro u
  induction u with
  | nil =>
    intro v hv
    cases v with
    | nil => exact Or.inr (Or.inl rfl)
    | cons y v1 => simp at hv
  | cons x u1 ih =>
    intro v hv
    cases v with
    | nil => simp at hv
    | cons y v1 =>
      have hl : u1.length = v1.length := by simpa using hv
      rcases lt_trichotomy x y with h | h | h
      · exact Or.inl (List.Lex.rel h)
      · subst h
        rcases ih v1 hl with h1 | h1 | h1
        · exact Or.inl (List.Lex.cons h1)
        · exact Or.inr (Or.inl (by rw [h1]))
        · exact Or.inr (Or.inr (List.Lex.cons h1))
      · exact Or.inr (Or.inr (List.Lex.rel h))

theorem isPrevPerm_of_isNextPerm {m X : List Int} (h : IsNextPerm m X) : IsPrevPerm X m :=
  ⟨h.1.symm, h.2.1, fun Y hY hlex hmY => h.2.2 Y (hY.trans h.1) hmY hlex⟩

theorem isNextPerm_of_isPrevPerm {m X : List Int} (h : IsPrevPerm m X) : IsNextPerm X m :=
  ⟨h.1.symm, h.2.1, fun Y hY hlex hYm => h.2.2 Y (hY.trans h.1) hYm hlex⟩

theorem isPrevPerm_unique {m X Y : List Int} (hX : IsPrevPerm m X) (hY : IsPrevPerm m Y) :
    X = Y := by
  rcases lex_trichotomy X Y (hX.1.length_eq.trans hY.1.length_eq.symm) with h | h | h
  · exact absurd h (hX.2.2 Y hY.1 hY.2.1)
  · exact h
  · exact absurd h (hY.2.2 X hX.1 hX.2.1)

theorem isNextPerm_unique {m X Y : List Int} (hX : IsNextPerm m X) (hY : IsNextPerm m Y) :
    X = Y := by
  rcases lex_trichotomy X Y (hX.1.length_eq.trans hY.1.length_eq.symm) with h | h | h
  · exact absurd h (hY.2.2 X hX.1 hX.2.1)
  · exact h
  · exact absurd h (hX.2.2 Y hY.1 hY.2.1)

theorem compare_false_of_lt {u a c : Int} {type : Bool} (h1 : compare u c type = false)
    (h2 : compare a c type = true) : compare u a type = false := by
  cases type <;> simp [compare] at * <;> omega

/-- After a `CodeStep` that exchanged the pivot, the result has its pivot of the opposite
type at the same index. -/
theorem codeStep_result_pivot {type : Bool} {m X : List Int} (h : CodeStep type m X)
    (hinv : ∃ A a b S, m = A ++ a :: b :: S ∧ compare a b type = true)
    (hpiv : ∀ A a b S, m = A ++ a :: b :: S → compare a b type = true →
      (b :: S).Pairwise (fun x y => compare x y type = false) → A.length ≠ INF_INDEX) :
    ∃ A c t0 T, X = A ++ c :: t0 :: T ∧ compare c t0 (!type) = true ∧
      (t0 :: T).Pairwise (fun x y => compare x y (!type) = false) ∧ A.length ≠ INF_INDEX := by
  obtain ⟨A0, a0, b0, S0, e0, hab0⟩ := hinv
  rcases h with ⟨hp, -⟩ | ⟨A, a, b, S, e, hab, hS, ⟨hk, -⟩ | ⟨hk, B, c, C, e3, hac, hC, e4⟩⟩
  · exact absurd hp (not_pairwise_of_adjacent type e0 hab0)
  · exact absurd hk (hpiv A a b S e hab hS)
  · rw [e3] at hS
    have hpw2 : (B ++ a :: C).Pairwise (fun x y => compare x y type = false) := by
      rw [List.pairwise_append, List.pairwise_cons] at hS ⊢
      obtain ⟨p1, ⟨p2, p3⟩, p4⟩ := hS
      refine ⟨p1, ⟨hC, p3⟩, ?_⟩
      intro u hu v hv
      rcases List.mem_cons.mp hv with e | e
      · rw [e]
        exact compare_false_of_lt (p4 u hu c (List.mem_cons_self _ _)) hac
      · exact p4 u hu v (List.mem_cons_of_mem _ e)
    have hpw3 : (B ++ a :: C).reverse.Pairwise (fun x y => compare x y (!type) = false) := by
      rw [List.pairwise_reverse]
      simp only [compare_flip _ _ (!type), Bool.not_not]
      exact hpw2
    have hlast : ∀ y, (B ++ a :: C).getLast? = some y → compare y c type = true := by
      intro y hy
      rw [List.getLast?_append, List.getLast?_cons] at hy
      cases hq : C.getLast? with
      | none =>
        rw [hq] at hy
        simp at hy
        rw [← hy]; exact hac
      | some z =>
        rw [hq] at hy
        simp at hy
        rw [← hy]
        exact compare_trans_left (hC z (List.mem_of_getLast?_eq_some hq)) hac
    cases hT : (B ++ a :: C).reverse with
    | nil => simp at hT
    | cons t0 T =>
      have h0 : (B ++ a :: C).getLast? = some t0 := by
        rw [← List.head?_reverse, hT]; rfl
      refine ⟨A, c, t0, T, by rw [e4, hT], ?_, by rw [← hT]; exact hpw3, hk⟩
      rw [← compare_flip]
      exact hlast t0 h0

theorem splice_length (s X : List Int) (l r : Nat) (hlr : l ≤ r) (hr : r < s.length)
    (hX : X.length = r - l + 1) :
    (s.take l ++ X ++ s.drop (r + 1)).length = s.length := by
  simp only [List.length_append, List.length_take, List.length_drop, hX]
  omega

theorem splice_take (s X : List Int) (l r : Nat) (hlr : l ≤ r) (hr : r < s.length) :
    (s.take l ++ X ++ s.drop (r + 1)).take l = s.take l := by
  rw [List.append_assoc, List.take_append_of_le_length (by simp; omega), List.take_take,
    Nat.min_self]

theorem splice_drop (s X : List Int) (l r : Nat) (hlr : l ≤ r) (hr : r < s.length)
    (hX : X.length = r - l + 1) :
    (s.take l ++ X ++ s.drop (r + 1)).drop (r + 1) = s.drop (r + 1) := by
  have h1 : (s.take l ++ X).length = r + 1 := by
    simp only [List.length_append, List.length_take, hX]; omega
  rw [← h1, List.drop_left]

theorem splice_segment (s X : List Int) (l r : Nat) (hlr : l ≤ r) (hr : r < s.length)
    (hX : X.length = r - l + 1) :
    segment (s.take l ++ X ++ s.drop (r + 1)) l r = X := by
  have h1 : (s.take l).length = l := by simp only [List.length_take]; omega
  generalize s.take l = P at h1
  generalize s.drop (r + 1) = Q
  subst h1
  unfold segment
  rw [List.append_assoc, List.drop_left, ← hX, List.take_left]

theorem segment_length (s : List Int) (l r : Nat) (hlr : l ≤ r) (hr : r < s.length) :
    (segment s l r).length = r - l + 1 := (range_shape s l r hlr hr).1

theorem splice_self (s : List Int) (l r : Nat) (hlr : l ≤ r) (hr : r < s.length) :
    s.take l ++ segment s l r ++ s.drop (r + 1) = s := by
  unfold segment
  rw [← (range_shape s l r hlr hr).2, List.append_assoc, List.take_append_drop,
    List.take_append_drop]

theorem round_trip_next_prev (t : Link) (h : ReachableIn t) (l r : Nat) (hlr : l ≤ r)
    (hr : r < (print_ t).length) (hn : (print_ t).length < SIZE_MOD)
    (hasc : HasAscent (segment (print_ t) l r))
    (hpiv : ¬ RightmostAscentAt (segment (print_ t) l r) INF_INDEX) :
    ∃ t1 t2, permute t l r QueryType.NEXT_PERMUTATION = some t1 ∧
      permute t1 l r QueryType.PREV_PERMUTATION = some t2 ∧ print_ t2 = print_ t := by
  obtain ⟨t1, X, h1, h2, h3, hre1⟩ :=
    permute_spec t h l r QueryType.NEXT_PERMUTATION hlr hr hn
  have h3' : CodeStep false (segment (print_ t) l r) X := h3
  have hnext := codeStep_next h3' hasc hpiv
  have hXlen : X.length = r - l + 1 :=
    hnext.1.length_eq.trans (segment_length _ l r hlr hr)
  have hlen1 : (print_ t1).length = (print_ t).length := by
    rw [h2]; exact splice_length _ _ l r hlr hr hXlen
  obtain ⟨t2, Y, k1, k2, k3, -⟩ := permute_spec t1 hre1 l r QueryType.PREV_PERMUTATION hlr
    (by rw [hlen1]; exact hr) (by rw [hlen1]; exact hn)
  have hseg1 : segment (print_ t1) l r = X := by
    rw [h2]; exact splice_segment _ _ l r hlr hr hXlen
  have k3' : CodeStep true (segment (print_ t1) l r) Y := k3
  rw [hseg1] at k3'
  obtain ⟨A, c, t0, T, eX, hct, hT, hA⟩ := codeStep_result_pivot h3'
    (by
      obtain ⟨A0, a0, b0, S0, e0, hab0⟩ := hasc
      exact ⟨A0, a0, b0, S0, e0, (compare_false_iff _ _).mpr hab0⟩)
    (fun A a b S e hab hS hk => hpiv ⟨A, a, b, S, e, hk, (compare_false_iff _ _).mp hab,
      (pairwise_false_iff _).mp hS⟩)
  have hdesc : HasDescent X := ⟨A, c, t0, T, eX, (compare_true_iff _ _).mp hct⟩
  have hnpiv : ¬ RightmostDescentAt X INF_INDEX := by
    rintro ⟨A1, a1, b1, S1, e1, hp1, hab1, hS1⟩
    rw [eX] at e1
    have := pivot_unique true e1 hct ((compare_true_iff _ _).mpr hab1) hT
      ((pairwise_true_iff _).mpr hS1)
    rw [← this] at hp1
    exact hA hp1
  have hY : Y = segment (print_ t) l r :=
    isPrevPerm_unique (codeStep_prev k3' hdesc hnpiv) (isPrevPerm_of_isNextPerm hnext)
  refine ⟨t1, t2, h1, k1, ?_⟩
  rw [k2, h2, splice_take _ _ l r hlr hr, splice_drop _ _ l r hlr hr hXlen, hY]
  exact splice_self _ l r hlr hr

theorem round_trip_prev_next (t : Link) (h : ReachableIn t) (l r : Nat) (hlr : l ≤ r)
    (hr : r < (print_ t).length) (hn : (print_ t).length < SIZE_MOD)
    (hdesc : HasDescent (segment (print_ t) l r))
    (hpiv : ¬ RightmostDescentAt (segment (print_ t) l r) INF_INDEX) :
    ∃ t1 t2, permute t l r QueryType.PREV_PERMUTATION = some t1 ∧
      permute t1 l r QueryType.NEXT_PERMUTATION = some t2 ∧ print_ t2 = print_ t := by
  obtain ⟨t1, X, h1, h2, h3, hre1⟩ :=
    permute_spec t h l r QueryType.PREV_PERMUTATION hlr hr hn
  have h3' : CodeStep true (segment (print_ t) l r) X := h3
  have hprev := codeStep_prev h3' hdesc hpiv
  have hXlen : X.length = r - l + 1 :=
    hprev.1.length_eq.trans (segment_length _ l r hlr hr)
  have hlen1 : (print_ t1).length = (print_ t).length := by
    rw [h2]; exact splice_length _ _ l r hlr hr hXlen
  obtain ⟨t2, Y, k1, k2, k3, -⟩ := permute_spec t1 hre1 l r QueryType.NEXT_PERMUTATION hlr
    (by rw [hlen1]; exact hr) (by rw [hlen1]; exact hn)
  have hseg1 : segment (print_ t1) l r = X := by
    rw [h2]; exact splice_segment _ _ l r hlr hr hXlen
  have k3' : CodeStep false (segment (print_ t1) l r) Y := k3
  rw [hseg1] at k3'
  obtain ⟨A, c, t0, T, eX, hct, hT, hA⟩ := codeStep_result_pivot h3'
    (by
      obtain ⟨A0, a0, b0, S0, e0, hab0⟩ := hdesc
      exact ⟨A0, a0, b0, S0, e0, (compare_true_iff _ _).mpr hab0⟩)
    (fun A a b S e hab hS hk => hpiv ⟨A, a, b, S, e, hk, (compare_true_iff _ _).mp hab,
      (pairwise_true_iff _).mp hS⟩)
  have hasc : HasAscent X := ⟨A, c, t0, T, eX, (compare_false_iff _ _).mp hct⟩
  have hnpiv : ¬ RightmostAscentAt X INF_INDEX := by
    rintro ⟨A1, a1, b1, S1, e1, hp1, hab1, hS1⟩
    rw [eX] at e1
    have := pivot_unique false e1 hct ((compare_false_iff _ _).mpr hab1) hT
      ((pairwise_false_iff _).mpr hS1)
    rw [← this] at hp1
    exact hA hp1
  have hY : Y = segment (print_ t) l r :=
    isNextPerm_unique (codeStep_next k3' hasc hnpiv) (isNextPerm_of_isPrevPerm hprev)
  refine ⟨t1, t2, h1, k1, ?_⟩
  rw [k2, h2, splice_take _ _ l r hlr hr, splice_drop _ _ l r hlr hr hXlen, hY]
  exact splice_self _ l r hlr hr

/-- C9 (amended): on every reachable state whose elements have always been strictly between
`-10^14` and `10^14` and every `l ≤ r < n`: when `s[l..r]` has an ascent whose rightmost
position is not at offset `INF_INDEX = 10^9`, `permute(l, r, NEXT)` followed by
`permute(l, r, PREV)` restores the whole sequence; symmetrically `PREV` followed by `NEXT`
restores it when `s[l..r]` has a descent whose rightmost position is not at offset
`INF_INDEX`. -/
theorem permutation_round_trip (t : Link) (h : ReachableIn t) (l r : Nat) (hlr : l ≤ r)
    (hr : r < (print_ t).length) (hn : (print_ t).length < SIZE_MOD) :
    (HasAscent (segment (print_ t) l r) →
      ¬ RightmostAscentAt (segment (print_ t) l r) INF_INDEX →
      ∃ t1 t2, permute t l r QueryType.NEXT_PERMUTATION = some t1 ∧
        permute t1 l r QueryType.PREV_PERMUTATION = some t2 ∧ print_ t2 = print_ t) ∧
    (HasDescent (segment (print_ t) l r) →
      ¬ RightmostDescentAt (segment (print_ t) l r) INF_INDEX →
      ∃ t1 t2, permute t l r QueryType.PREV_PERMUTATION = some t1 ∧
        permute t1 l r QueryType.NEXT_PERMUTATION = some t2 ∧ print_ t2 = print_ t) :=
  ⟨round_trip_next_prev t h l r hlr hr hn, round_trip_prev_next t h l r hlr hr hn⟩

theorem permutation_round_trip_witness :
    (1 ≤ 3 ∧ 3 < (print_ exampleFour).length ∧ (print_ exampleFour).length < SIZE_MOD) ∧
    ((HasAscent (segment (print_ exampleFour) 1 3) →
      ¬ RightmostAscentAt (segment (print_ exampleFour) 1 3) INF_INDEX →
      ∃ t1 t2, permute exampleFour 1 3 QueryType.NEXT_PERMUTATION = some t1 ∧
        permute t1 1 3 QueryType.PREV_PERMUTATION = some t2 ∧ print_ t2 = print_ exampleFour) ∧
    (HasDescent (segment (print_ exampleFour) 1 3) →
      ¬ RightmostDescentAt (segment (print_ exampleFour) 1 3) INF_INDEX →
      ∃ t1 t2, permute exampleFour 1 3 QueryType.PREV_PERMUTATION = some t1 ∧
        permute t1 1 3 QueryType.NEXT_PERMUTATION = some t2 ∧
        print_ t2 = print_ exampleFour)) :=
  ⟨by decide, permutation_round_trip exampleFour reachableIn_exampleFour 1 3 (by decide)
    (by decide) (by decide)⟩

/-- C9 as stated fails on the range of `10^9 + 2` elements whose only ascent is at offset
`INF_INDEX`: `NEXT` reverses the range and the following `PREV` does not bring it back. -/
theorem round_trip_sentinel_counterexample :
    ReachableIn (fromList sentinelAscending) ∧
    INF_INDEX + 1 < (print_ (fromList sentinelAscending)).length ∧
    (print_ (fromList sentinelAscending)).length < SIZE_MOD ∧
    HasAscent (segment (print_ (fromList sentinelAscending)) 0 (INF_INDEX + 1)) ∧
    ∃ t1 t2, permute (fromList sentinelAscending) 0 (INF_INDEX + 1)
        QueryType.NEXT_PERMUTATION = some t1 ∧
      permute t1 0 (INF_INDEX + 1) QueryType.PREV_PERMUTATION = some t2 ∧
      print_ t2 ≠ print_ (fromList sentinelAscending) := by
  obtain ⟨hre, hpr⟩ := sentinelAscending_state
  have hlen : (print_ (fromList sentinelAscending)).length = INF_INDEX + 1 + 1 := by
    rw [hpr, sentinelAscending_length]
  obtain ⟨t1, h1, hp1, hre1⟩ := sentinelAscending_next _ hre hpr
  have hlen1 : (print_ t1).length = INF_INDEX + 1 + 1 := by
    rw [hp1, List.length_reverse, sentinelAscending_length]
  obtain ⟨t2, Y, k1, k2, k3, -⟩ := permute_spec t1 hre1 0 (INF_INDEX + 1)
    QueryType.PREV_PERMUTATION (Nat.zero_le _) (by rw [hlen1]; exact Nat.lt_succ_self _)
    (by rw [hlen1]; exact sentinel_size)
  have hseg1 : segment (print_ t1) 0 (INF_INDEX + 1) = sentinelAscending.reverse := by
    rw [segment_all _ _ hlen1, hp1]
  have k3' : CodeStep true (segment (print_ t1) 0 (INF_INDEX + 1)) Y := k3
  rw [hseg1] at k3'
  have hY : print_ t2 = Y := by
    rw [k2, List.take_zero, List.nil_append, List.drop_of_length_le (by rw [hlen1]),
      List.append_nil]
  have hpw : (0 :: List.replicate INF_INDEX (0 : Int)).Pairwise
      (fun x y => compare x y true = false) := by
    rw [← List.replicate_succ, List.pairwise_replicate]
    exact Or.inr (by decide)
  have hdesc : HasDescent sentinelAscending.reverse :=
    ⟨[], 1, 0, List.replicate INF_INDEX 0, sentinelAscending_reverse, by decide⟩
  have hnpiv : ¬ RightmostDescentAt sentinelAscending.reverse INF_INDEX := by
    rintro ⟨A1, a1, b1, S1, e1, q1, hab1, hS1⟩
    rw [sentinelAscending_reverse] at e1
    have e2 : [] ++ (1 : Int) :: 0 :: List.replicate INF_INDEX 0 = A1 ++ a1 :: b1 :: S1 := e1
    have := pivot_unique true e2 (by decide)
      ((compare_true_iff _ _).mpr hab1) hpw ((pairwise_true_iff _).mpr hS1)
    rw [← this] at q1
    exact absurd q1.symm (by unfold INF_INDEX; decide)
  have hprev := codeStep_prev k3' hdesc hnpiv
  refine ⟨hre, by rw [hlen]; exact Nat.lt_succ_self _, by rw [hlen]; exact sentinel_size, ?_,
    t1, t2, h1, k1, ?_⟩
  · rw [sentinelAscending_segment]
    exact sentinelAscending_hasAscent
  · rw [hY, hpr]
    intro hYs
    rw [hYs] at hprev
    obtain ⟨b1, b2, b3⟩ := sentinelAscending_between
    exact hprev.2.2 _ (b1.trans (List.reverse_perm _).symm) b3 b2

/-! ## The cycle of all permutations -/

theorem lex_irrefl_int (u : List Int) : ¬ List.Lex (fun a b : Int => a < b) u u :=
  irrefl_of (List.Lex (fun a b : Int => a < b)) u

theorem lex_trans_int {u v w : List Int} (h1 : List.Lex (fun a b : Int => a < b) u v)
    (h2 : List.Lex (fun a b : Int => a < b) v w) : List.Lex (fun a b : Int => a < b) u w :=
  trans_of (List.Lex (fun a b : Int => a < b)) h1 h2

theorem mem_permSet {V Y : List Int} : Y ∈ permSet V ↔ Y.Perm V := by
  simp [permSet, List.mem_permutations]

theorem card_permSet {V : List Int} (hV : V.Nodup) : (permSet V).card = V.length.factorial := by
  unfold permSet
  rw [List.toFinset_card_of_nodup (List.nodup_permutations V hV), List.length_permutations]

theorem lexRank_lt {V Y : List Int} (hY : Y ∈ permSet V) : lexRank V Y < (permSet V).card := by
  unfold lexRank
  exact Finset.card_lt_card (Finset.filter_ssubset.mpr ⟨Y, hY, lex_irrefl_int Y⟩)

theorem lexRank_strictMono {V X Y : List Int} (hY : Y ∈ permSet V)
    (h : List.Lex (fun a b : Int => a < b) Y X) : lexRank V Y < lexRank V X := by
  unfold lexRank
  apply Finset.card_lt_card
  rw [Finset.ssubset_iff_of_subset]
  · exact ⟨Y, Finset.mem_filter.mpr ⟨hY, h⟩, fun hc =>
      lex_irrefl_int Y (Finset.mem_filter.mp hc).2⟩
  · intro Z hZ
    rw [Finset.mem_filter] at hZ ⊢
    exact ⟨hZ.1, lex_trans_int hZ.2 h⟩

theorem lexRank_inj {V X Y : List Int} (hX : X ∈ permSet V) (hY : Y ∈ permSet V)
    (h : lexRank V X = lexRank V Y) : X = Y := by
  have hl : X.length = Y.length :=
    (mem_permSet.mp hX).length_eq.trans (mem_permSet.mp hY).length_eq.symm
  rcases lex_trichotomy X Y hl with h1 | h1 | h1
  · exact absurd h (Nat.ne_of_lt (lexRank_strictMono hX h1))
  · exact h1
  · exact absurd h.symm (Nat.ne_of_lt (lexRank_strictMono hY h1))

theorem lexRank_next {V X Y : List Int} (hY : Y ∈ permSet V) (h : IsNextPerm Y X) :
    lexRank V X = lexRank V Y + 1 := by
  have hset : (permSet V).filter (fun Z => List.Lex (fun a b : Int => a < b) Z X) =
      Insert.insert Y ((permSet V).filter (fun Z => List.Lex (fun a b : Int => a < b) Z Y)) := by
    ext Z
    simp only [Finset.mem_filter, Finset.mem_insert]
    constructor
    · rintro ⟨hZ, hZX⟩
      have hl : Z.length = Y.length :=
        (mem_permSet.mp hZ).length_eq.trans (mem_permSet.mp hY).length_eq.symm
      rcases lex_trichotomy Z Y hl with h1 | h1 | h1
      · exact Or.inr ⟨hZ, h1⟩
      · exact Or.inl h1
      · exact absurd hZX (h.2.2 Z ((mem_permSet.mp hZ).trans (mem_permSet.mp hY).symm) h1)
    · rintro (h1 | ⟨hZ, h1⟩)
      · rw [h1]; exact ⟨hY, h.2.1⟩
      · exact ⟨hZ, lex_trans_int h1 h.2.1⟩
  unfold lexRank
  rw [hset, Finset.card_insert_of_not_mem]
  intro hc
  exact lex_irrefl_int Y (Finset.mem_filter.mp hc).2

theorem pairwise_not_lt_of_no_ascent {Y : List Int} (h : ¬ HasAscent Y) :
    Y.Pairwise (fun u v : Int => ¬ u < v) := by
  have := pairwise_of_no_adjacent false Y (fun A a b S e => by
    by_contra hc
    exact h ⟨A, a, b, S, e, (compare_false_iff _ _).mp (by simpa using hc)⟩)
  refine List.Pairwise.imp ?_ this
  intro u v huv
  exact not_lt.mpr ((compare_false_eq_false _ _).mp huv)

theorem lexRank_last {V Y : List Int} (hY : Y ∈ permSet V) (h : ¬ HasAscent Y) :
    lexRank V Y = (permSet V).card - 1 := by
  have hpw := pairwise_not_lt_of_no_ascent h
  have hset : (permSet V).filter (fun Z => List.Lex (fun a b : Int => a < b) Z Y) =
      (permSet V).erase Y := by
    ext Z
    simp only [Finset.mem_filter, Finset.mem_erase]
    constructor
    · rintro ⟨hZ, hZY⟩
      exact ⟨fun hc => by rw [hc] at hZY; exact lex_irrefl_int Y hZY, hZ⟩
    · rintro ⟨hne, hZ⟩
      have hp : Z.Perm Y := (mem_permSet.mp hZ).trans (mem_permSet.mp hY).symm
      rcases lex_trichotomy Z Y hp.length_eq with h1 | h1 | h1
      · exact ⟨hZ, h1⟩
      · exact absurd h1 hne
      · exact absurd h1 (lex_max_of_pairwise _ (fun x => lt_irrefl x) Y Z hpw hp)
  unfold lexRank
  rw [hset, Finset.card_erase_of_mem hY]

theorem lexRank_first {V Y : List Int} (hY : Y ∈ permSet V) (h : ¬ HasAscent Y) :
    lexRank V Y.reverse = 0 := by
  have hpw := pairwise_not_lt_of_no_ascent h
  have hpw2 : Y.reverse.Pairwise (fun u v : Int => ¬ v < u) := by
    rw [List.pairwise_reverse]; exact hpw
  unfold lexRank
  rw [Finset.card_eq_zero, Finset.filter_eq_empty_iff]
  intro Z hZ
  have hp : Z.Perm Y.reverse :=
    ((mem_permSet.mp hZ).trans (mem_permSet.mp hY).symm).trans (List.reverse_perm Y).symm
  exact lex_min_of_pairwise _ (fun x => lt_irrefl x) Y.reverse Z hpw2 hp

theorem nextStep_rank {V X Y : List Int} (hY : Y ∈ permSet V) (h : NextStep Y X) :
    X ∈ permSet V ∧ lexRank V X = (lexRank V Y + 1) % (permSet V).card := by
  rcases h with ⟨-, hn⟩ | ⟨hna, e⟩
  · have hX : X ∈ permSet V := mem_permSet.mpr (hn.1.trans (mem_permSet.mp hY))
    have h1 := lexRank_next hY hn
    have h2 := lexRank_lt hX
    exact ⟨hX, by rw [← h1, Nat.mod_eq_of_lt h2]⟩
  · have hX : X ∈ permSet V := by
      rw [e]; exact mem_permSet.mpr ((List.reverse_perm Y).trans (mem_permSet.mp hY))
    have h1 := lexRank_last hY hna
    have h2 := lexRank_first hY hna
    have h3 := lexRank_lt hY
    refine ⟨hX, ?_⟩
    rw [e, h2, h1, Nat.sub_add_cancel (by omega), Nat.mod_self]

theorem orbit_rank {V : List Int} (c : Nat → List Int) (h0 : c 0 ∈ permSet V)
    (hstep : ∀ k, NextStep (c k) (c (k + 1))) :
    ∀ k, c k ∈ permSet V ∧ lexRank V (c k) = (lexRank V (c 0) + k) % (permSet V).card := by
  intro k
  induction k with
  | zero => exact ⟨h0, by rw [Nat.add_zero, Nat.mod_eq_of_lt (lexRank_lt h0)]⟩
  | succ k ih =>
    obtain ⟨h1, h2⟩ := nextStep_rank ih.1 (hstep k)
    refine ⟨h1, ?_⟩
    rw [h2, ih.2, ← Nat.add_assoc, Nat.add_mod _ 1, Nat.mod_mod, ← Nat.add_mod]

/-- Following `NextStep` from `V` (distinct values): the contents return to `V` after
`|V|!` steps, are pairwise distinct within any window of `|V|!` steps, and reach every
rearrangement of `V`. -/
theorem orbit_cycle {V : List Int} (hV : V.Nodup) (c : Nat → List Int) (h0 : c 0 = V)
    (hstep : ∀ k, NextStep (c k) (c (k + 1))) :
    c V.length.factorial = V ∧
    (∀ i j, i < j → j < i + V.length.factorial → c i ≠ c j) ∧
    (∀ Y, Y.Perm V → ∃ k, 1 ≤ k ∧ k ≤ V.length.factorial ∧ c k = Y) := by
  have hmem : c 0 ∈ permSet V := by rw [h0]; exact mem_permSet.mpr (List.Perm.refl V)
  have horb := orbit_rank c hmem hstep
  have hN := card_permSet hV
  have hpos : 0 < V.length.factorial := Nat.factorial_pos _
  rw [hN] at horb
  have hr0 : lexRank V (c 0) < V.length.factorial := by
    have := lexRank_lt hmem
    rwa [hN] at this
  refine ⟨?_, ?_, ?_⟩
  · have e : c V.length.factorial = c 0 := by
      apply lexRank_inj (horb _).1 hmem
      rw [(horb _).2, Nat.add_mod_right, Nat.mod_eq_of_lt hr0]
    rw [e, h0]
  · intro i j hij hji hc
    have h1 := (horb i).2
    have h2 := (horb j).2
    rw [hc, h2] at h1
    have h3 : (lexRank V (c 0) + j - (lexRank V (c 0) + i)) % V.length.factorial = 0 :=
      Nat.sub_mod_eq_zero_of_mod_eq h1
    have h4 : lexRank V (c 0) + j - (lexRank V (c 0) + i) = j - i := by omega
    rw [h4] at h3
    have h5 := Nat.le_of_dvd (by omega) (Nat.dvd_of_mod_eq_zero h3)
    omega
  · intro Y hY
    have hYm : Y ∈ permSet V := mem_permSet.mpr hY
    have hrY : lexRank V Y < V.length.factorial := by
      have := lexRank_lt hYm
      rwa [hN] at this
    by_cases hlt : lexRank V (c 0) < lexRank V Y
    · refine ⟨lexRank V Y - lexRank V (c 0), by omega, by omega, ?_⟩
      apply lexRank_inj (horb _).1 hYm
      rw [(horb _).2, Nat.add_sub_cancel' (Nat.le_of_lt hlt), Nat.mod_eq_of_lt hrY]
    · refine ⟨lexRank V Y + V.length.factorial - lexRank V (c 0), by omega, by omega, ?_⟩
      apply lexRank_inj (horb _).1 hYm
      rw [(horb _).2, Nat.add_sub_cancel' (by omega), Nat.add_mod_right,
        Nat.mod_eq_of_lt hrY]

theorem codeStep_nextStep {m X : List Int} (h : CodeStep false m X)
    (hm : m.length ≤ INF_INDEX + 1) : NextStep m X := by
  by_cases hasc : HasAscent m
  · refine Or.inl ⟨hasc, codeStep_next h hasc ?_⟩
    intro hp
    have := rightmostAscentAt_lt hp
    omega
  · refine Or.inr ⟨hasc, codeStep_wrap h ?_⟩
    intro A a b S e
    by_contra hc
    exact hasc ⟨A, a, b, S, e, (compare_false_iff _ _).mp (by simpa using hc)⟩

theorem nextStep_length {m X : List Int} (h : NextStep m X) : X.length = m.length := by
  rcases h with ⟨-, hn⟩ | ⟨-, e⟩
  · exact hn.1.length_eq
  · rw [e, List.length_reverse]

/-- One more `permute(l, r, NEXT)` on a state whose range holds `X`. -/
theorem cycle_one_step (s : List Int) (l r : Nat) (hlr : l ≤ r) (hr : r < s.length)
    (hn : s.length < SIZE_MOD) (hsize : r - l + 1 ≤ INF_INDEX + 1)
    (tk : Link) (X : List Int) (hre : ReachableIn tk)
    (hp : print_ tk = s.take l ++ X ++ s.drop (r + 1)) (hX : X.length = r - l + 1) :
    ∃ tk1 X1, permute tk l r QueryType.NEXT_PERMUTATION = some tk1 ∧ ReachableIn tk1 ∧
      print_ tk1 = s.take l ++ X1 ++ s.drop (r + 1) ∧ X1.length = r - l + 1 ∧
      NextStep X X1 := by
  have hlen : (print_ tk).length = s.length := by
    rw [hp]; exact splice_length s X l r hlr hr hX
  obtain ⟨tk1, X1, h1, h2, h3, h4⟩ := permute_spec tk hre l r QueryType.NEXT_PERMUTATION hlr
    (by rw [hlen]; exact hr) (by rw [hlen]; exact hn)
  have h3' : CodeStep false (segment (print_ tk) l r) X1 := h3
  rw [hp, splice_segment s X l r hlr hr hX] at h3'
  have hns := codeStep_nextStep h3' (by rw [hX]; exact hsize)
  refine ⟨tk1, X1, h1, h4, ?_, (nextStep_length hns).trans hX, hns⟩
  rw [h2, hp, splice_take s X l r hlr hr, splice_drop s X l r hlr hr hX]

theorem cycle_iter (t : Link) (h : ReachableIn t) (l r : Nat) (hlr : l ≤ r)
    (hr : r < (print_ t).length) (hn : (print_ t).length < SIZE_MOD)
    (hsize : r - l + 1 ≤ INF_INDEX + 1) :
    ∀ k, ∃ tk tk1 X X1,
      permuteIter k t l r QueryType.NEXT_PERMUTATION = some tk ∧
      permuteIter (k + 1) t l r QueryType.NEXT_PERMUTATION = some tk1 ∧
      print_ tk = (print_ t).take l ++ X ++ (print_ t).drop (r + 1) ∧
      X.length = r - l + 1 ∧
      ReachableIn tk1 ∧
      print_ tk1 = (print_ t).take l ++ X1 ++ (print_ t).drop (r + 1) ∧
      X1.length = r - l + 1 ∧ NextStep X X1 := by
  intro k
  induction k with
  | zero =>
    have hp : print_ t = (print_ t).take l ++ segment (print_ t) l r ++
        (print_ t).drop (r + 1) := (splice_self _ l r hlr hr).symm
    have hX := segment_length (print_ t) l r hlr hr
    obtain ⟨tk1, X1, h1, h2, h3, h4, h5⟩ :=
      cycle_one_step (print_ t) l r hlr hr hn hsize t _ h hp hX
    exact ⟨t, tk1, _, X1, rfl, h1, hp, hX, h2, h3, h4, h5⟩
  | succ k ih =>
    obtain ⟨tk, tk1, X, X1, e1, e2, -, -, hre1, hp1, hX1, -⟩ := ih
    obtain ⟨tk2, X2, h1, h2, h3, h4, h5⟩ :=
      cycle_one_step (print_ t) l r hlr hr hn hsize tk1 X1 hre1 hp1 hX1
    refine ⟨tk1, tk2, X1, X2, e2, ?_, hp1, hX1, h2, h3, h4, h5⟩
    show (match permuteIter (k + 1) t l r QueryType.NEXT_PERMUTATION with
      | none => none
      | some t => permute t l r QueryType.NEXT_PERMUTATION) = some tk2
    rw [e2]
    exact h1

/-- C10 (amended): on every reachable state whose elements have always been strictly
between `-10^14` and `10^14`, for every range `[l, r]` (`l ≤ r < n`) holding
`m = r-l+1 ≤ 10^9 + 1` pairwise distinct values: `m!` applications of
`permute(l, r, NEXT_PERMUTATION)` return the sequence to its original content, the `m!`
range contents seen along the way are pairwise distinct, and every rearrangement of the
values is among them. -/
theorem next_permutation_cycle (t : Link) (h : ReachableIn t) (l r : Nat) (hlr : l ≤ r)
    (hr : r < (print_ t).length) (hn : (print_ t).length < SIZE_MOD)
    (hnodup : (segment (print_ t) l r).Nodup) (hsize : r - l + 1 ≤ INF_INDEX + 1) :
    (∃ tf, permuteIter (r - l + 1).factorial t l r QueryType.NEXT_PERMUTATION = some tf ∧
      print_ tf = print_ t) ∧
    (∀ i j ti tj, 1 ≤ i → i < j → j ≤ (r - l + 1).factorial →
      permuteIter i t l r QueryType.NEXT_PERMUTATION = some ti →
      permuteIter j t l r QueryType.NEXT_PERMUTATION = some tj →
      segment (print_ ti) l r ≠ segment (print_ tj) l r) ∧
    (∀ Y : List Int, Y.Perm (segment (print_ t) l r) →
      ∃ k tk, 1 ≤ k ∧ k ≤ (r - l + 1).factorial ∧
        permuteIter k t l r QueryType.NEXT_PERMUTATION = some tk ∧
        segment (print_ tk) l r = Y) := by
  have hiter := cycle_iter t h l r hlr hr hn hsize
  have hlen := segment_length (print_ t) l r hlr hr
  have hc : ∀ k tk, permuteIter k t l r QueryType.NEXT_PERMUTATION = some tk →
      (match permuteIter k t l r QueryType.NEXT_PERMUTATION with
        | some tk => segment (print_ tk) l r
        | none => []) = segment (print_ tk) l r := by
    intro k tk e
    rw [e]
  have hcX : ∀ k tk X, permuteIter k t l r QueryType.NEXT_PERMUTATION = some tk →
      print_ tk = (print_ t).take l ++ X ++ (print_ t).drop (r + 1) →
      X.length = r - l + 1 → segment (print_ tk) l r = X := by
    intro k tk X _ hp hX
    rw [hp, splice_segment _ X l r hlr hr hX]
  obtain ⟨o1, o2, o3⟩ := orbit_cycle hnodup
    (fun k => match permuteIter k t l r QueryType.NEXT_PERMUTATION with
      | some tk => segment (print_ tk) l r
      | none => []) rfl
    (by
      intro k
      obtain ⟨tk, tk1, X, X1, e1, e2, p1, x1, -, p2, x2, hs⟩ := hiter k
      simp only
      rw [hc k tk e1, hc (k + 1) tk1 e2, hcX k tk X e1 p1 x1, hcX (k + 1) tk1 X1 e2 p2 x2]
      exact hs)
  rw [hlen] at o1 o2 o3
  refine ⟨?_, ?_, ?_⟩
  · obtain ⟨tk, tk1, X, X1, e1, e2, p1, x1, -⟩ := hiter (r - l + 1).factorial
    refine ⟨tk, e1, ?_⟩
    rw [hc _ tk e1, hcX _ tk X e1 p1 x1] at o1
    rw [p1, o1]
    exact splice_self _ l r hlr hr
  · intro i j ti tj hi hij hj ei ej
    have := o2 i j hij (by omega)
    rw [hc i ti ei, hc j tj ej] at this
    exact this
  · intro Y hY
    obtain ⟨k, k1, k2, k3⟩ := o3 Y hY
    obtain ⟨tk, tk1, X, X1, e1, -⟩ := hiter k
    rw [hc k tk e1] at k3
    exact ⟨k, tk, k1, k2, e1, k3⟩

theorem next_permutation_cycle_witness :
    (0 ≤ 2 ∧ 2 < (print_ exampleThree).length ∧ (print_ exampleThree).length < SIZE_MOD ∧
      (segment (print_ exampleThree) 0 2).Nodup ∧ 2 - 0 + 1 ≤ INF_INDEX + 1) ∧
    ((∃ tf, permuteIter (2 - 0 + 1).factorial exampleThree 0 2
        QueryType.NEXT_PERMUTATION = some tf ∧ print_ tf = print_ exampleThree) ∧
    (∀ i j ti tj, 1 ≤ i → i < j → j ≤ (2 - 0 + 1).factorial →
      permuteIter i exampleThree 0 2 QueryType.NEXT_PERMUTATION = some ti →
      permuteIter j exampleThree 0 2 QueryType.NEXT_PERMUTATION = some tj →
      segment (print_ ti) 0 2 ≠ segment (print_ tj) 0 2) ∧
    (∀ Y : List Int, Y.Perm (segment (print_ exampleThree) 0 2) →
      ∃ k tk, 1 ≤ k ∧ k ≤ (2 - 0 + 1).factorial ∧
        permuteIter k exampleThree 0 2 QueryType.NEXT_PERMUTATION = some tk ∧
        segment (print_ tk) 0 2 = Y)) :=
  ⟨by decide, next_permutation_cycle exampleThree reachableIn_exampleThree 0 2 (by decide)
    (by decide) (by decide) (by decide) (by decide)⟩

/-! ## Distinct values with the pivot at offset `INF_INDEX` -/

theorem permuteIter_zero (t : Link) (l r : Nat) (q : QueryType) :
    permuteIter 0 t l r q = some t := rfl

theorem permuteIter_succ (k : Nat) (t : Link) (l r : Nat) (q : QueryType) :
    permuteIter (k + 1) t l r q =
      match permuteIter k t l r q with
      | none => none
      | some t1 => permute t1 l r q := rfl

theorem permuteIter_step {k : Nat} {t tk tk1 : Link} {l r : Nat} {q : QueryType}
    (h1 : permuteIter k t l r q = some tk) (h2 : permute tk l r q = some tk1) :
    permuteIter (k + 1) t l r q = some tk1 := by
  rw [permuteIter_succ, h1]
  exact h2

theorem inf_index_ge : 2 ≤ INF_INDEX := by unfold INF_INDEX; decide

theorem mem_sentinel_middle {x : Int}
    (hx : x ∈ (List.range (INF_INDEX - 2)).map (fun i : Nat => (i : Int) + 4)) :
    4 ≤ x ∧ x < (INF_INDEX : Int) + 4 := by
  rw [List.mem_map] at hx
  obtain ⟨i, hi, rfl⟩ := hx
  rw [List.mem_range] at hi
  have := inf_index_ge
  constructor <;> omega

theorem sentinel_shape_reverse (M : List Int) :
    (1 :: 0 :: (M ++ [2, 3])).reverse = (3 :: 2 :: M.reverse) ++ 0 :: 1 :: [] := by
  simp

theorem sentinel_shape_decomp (M : List Int) :
    (1 :: 0 :: (M ++ [2, 3])) = (1 :: 0 :: M) ++ 2 :: 3 :: [] := rfl

theorem sentinel_shape_length (M : List Int) :
    (1 :: 0 :: (M ++ [2, 3])).length = M.length + 4 := by
  simp

theorem sentinelDistinct_length : sentinelDistinct.length = INF_INDEX + 1 + 1 := by
  unfold sentinelDistinct
  rw [sentinel_shape_length, List.length_map, List.length_range]
  have := inf_index_ge
  omega

theorem sentinelDistinct_decomp :
    sentinelDistinct =
      (1 :: 0 :: (List.range (INF_INDEX - 2)).map (fun i : Nat => (i : Int) + 4)) ++
        2 :: 3 :: [] := by
  unfold sentinelDistinct
  exact sentinel_shape_decomp _

theorem sentinelDistinct_reverse :
    sentinelDistinct.reverse =
      (3 :: 2 :: ((List.range (INF_INDEX - 2)).map (fun i : Nat => (i : Int) + 4)).reverse) ++
        0 :: 1 :: [] := by
  unfold sentinelDistinct
  exact sentinel_shape_reverse _

theorem sentinelDistinct_prefix_length :
    (1 :: 0 :: (List.range (INF_INDEX - 2)).map (fun i : Nat => (i : Int) + 4)).length =
      INF_INDEX := by
  rw [List.length_cons, List.length_cons, List.length_map, List.length_range]
  have := inf_index_ge
  omega

theorem sentinelDistinct_reverse_prefix_length :
    (3 :: 2 :: ((List.range (INF_INDEX - 2)).map
      (fun i : Nat => (i : Int) + 4)).reverse).length = INF_INDEX := by
  rw [List.length_cons, List.length_cons, List.length_reverse, List.length_map,
    List.length_range]
  have := inf_index_ge
  omega

theorem sentinelDistinct_nodup : sentinelDistinct.Nodup := by
  unfold sentinelDistinct
  have hM : ((List.range (INF_INDEX - 2)).map (fun i : Nat => (i : Int) + 4)).Nodup :=
    List.Nodup.map (fun i j h => by simpa using h) (List.nodup_range _)
  have h23 : ([2, 3] : List Int).Nodup := by decide
  have hML : ((List.range (INF_INDEX - 2)).map (fun i : Nat => (i : Int) + 4) ++
      [2, 3]).Nodup := by
    rw [List.nodup_append]
    refine ⟨hM, h23, ?_⟩
    intro x hx hx2
    have := (mem_sentinel_middle hx).1
    simp only [List.mem_cons, List.mem_singleton, List.not_mem_nil, or_false] at hx2
    omega
  refine List.nodup_cons.mpr ⟨?_, List.nodup_cons.mpr ⟨?_, hML⟩⟩
  · intro h
    rw [List.mem_cons, List.mem_append] at h
    rcases h with h | h | h
    · omega
    · have := (mem_sentinel_middle h).1; omega
    · simp only [List.mem_cons, List.mem_singleton, List.not_mem_nil, or_false] at h
      omega
  · intro h
    rw [List.mem_append] at h
    rcases h with h | h
    · have := (mem_sentinel_middle h).1; omega
    · simp only [List.mem_cons, List.mem_singleton, List.not_mem_nil, or_false] at h
      omega

theorem sentinelDistinct_inRange : InRange sentinelDistinct := by
  unfold sentinelDistinct
  intro v hv
  have hI : (INF_INDEX : Int) + 4 < INF_VALUE := by unfold INF_INDEX INF_VALUE; norm_num
  have hV : (4 : Int) < INF_VALUE := by unfold INF_VALUE; norm_num
  rw [List.mem_cons, List.mem_cons, List.mem_append] at hv
  rcases hv with h | h | h | h
  · omega
  · omega
  · have := mem_sentinel_middle h; omega
  · simp only [List.mem_cons, List.mem_singleton, List.not_mem_nil, or_false] at h
    omega

theorem sentinelDistinct_state :
    ReachableIn (fromList sentinelDistinct) ∧
    print_ (fromList sentinelDistinct) = sentinelDistinct :=
  fromList_spec _ sentinelDistinct_inRange
    (by rw [sentinelDistinct_length]; exact sentinel_size)

/-- On every state holding `sentinelDistinct`, `NEXT_PERMUTATION` over the whole sequence
reverses it, reverses it back, and reverses it again: the contents after one and after
three calls coincide. -/
theorem sentinelDistinct_cycle (t : Link) (hre : ReachableIn t)
    (hp : print_ t = sentinelDistinct) :
    ∃ t1 t3, permuteIter 1 t 0 (INF_INDEX + 1) QueryType.NEXT_PERMUTATION = some t1 ∧
      permuteIter 3 t 0 (INF_INDEX + 1) QueryType.NEXT_PERMUTATION = some t3 ∧
      print_ t1 = sentinelDistinct.reverse ∧ print_ t3 = sentinelDistinct.reverse := by
  obtain ⟨t1, a1, a2, a3⟩ := permute_at_sentinel t hre QueryType.NEXT_PERMUTATION
    (INF_INDEX + 1) _ _ _ _ (hp.trans sentinelDistinct_decomp) (by decide)
    (List.pairwise_singleton _ _) sentinelDistinct_prefix_length
    (by rw [hp, sentinelDistinct_length]) sentinel_size
  rw [hp] at a2
  obtain ⟨t2, b1, b2, b3⟩ := permute_at_sentinel t1 a3 QueryType.NEXT_PERMUTATION
    (INF_INDEX + 1) _ _ _ _ (a2.trans sentinelDistinct_reverse) (by decide)
    (List.pairwise_singleton _ _) sentinelDistinct_reverse_prefix_length
    (by rw [a2, List.length_reverse, sentinelDistinct_length]) sentinel_size
  rw [a2, List.reverse_reverse] at b2
  obtain ⟨t3, c1, c2, -⟩ := permute_at_sentinel t2 b3 QueryType.NEXT_PERMUTATION
    (INF_INDEX + 1) _ _ _ _ (b2.trans sentinelDistinct_decomp) (by decide)
    (List.pairwise_singleton _ _) sentinelDistinct_prefix_length
    (by rw [b2, sentinelDistinct_length]) sentinel_size
  rw [b2] at c2
  have i1 := permuteIter_step (permuteIter_zero t 0 (INF_INDEX + 1)
    QueryType.NEXT_PERMUTATION) a1
  have i2 := permuteIter_step i1 b1
  have i3 := permuteIter_step i2 c1
  exact ⟨t1, t3, i1, i3, a2, c2⟩

theorem reachable_exampleStale : Reachable exampleStale :=
  Reachable.step (Reachable.step (Reachable.step (Reachable.step Reachable.empty
    (Step.insert null 300000000000001 0 5)) (Step.insert _ 300000000000002 1 1))
    (Step.insert _ 300000000000000 2 9)) (Step.add _ (-300000000000000) 0 2)

/-- C10 as stated fails in two ways.  First, on a reachable state whose elements were once
above `10^14`: the range `[0, 2]` holds the distinct values `1, 2, 0`, all in range, yet a
node inserted while its value exceeded the sentinel keeps a wrong inversion flag, and
`NEXT_PERMUTATION` alternates between `[0, 2, 1]` and `[1, 2, 0]`, so the contents after 1
and after 3 of the `3! = 6` calls coincide.  Second, on a state whose elements have always
been in range but whose range holds `10^9 + 2` distinct values with the pivot at offset
`INF_INDEX`: the calls alternate between the sequence and its reversal. -/
theorem next_permutation_cycle_counterexample :
    (Reachable exampleStale ∧ print_ exampleStale = [1, 2, 0] ∧
      2 < (print_ exampleStale).length ∧
      (segment (print_ exampleStale) 0 2).Nodup ∧
      (∀ v ∈ segment (print_ exampleStale) 0 2, -INF_VALUE < v ∧ v < INF_VALUE) ∧
      (permuteIter 1 exampleStale 0 2 QueryType.NEXT_PERMUTATION).map print_ =
        some [0, 2, 1] ∧
      (permuteIter 3 exampleStale 0 2 QueryType.NEXT_PERMUTATION).map print_ =
        some [0, 2, 1] ∧
      1 < 3 ∧ 3 ≤ (2 - 0 + 1).factorial) ∧
    (ReachableIn (fromList sentinelDistinct) ∧
      INF_INDEX + 1 < (print_ (fromList sentinelDistinct)).length ∧
      (print_ (fromList sentinelDistinct)).length < SIZE_MOD ∧
      (segment (print_ (fromList sentinelDistinct)) 0 (INF_INDEX + 1)).Nodup ∧
      ∃ t1 t3,
        permuteIter 1 (fromList sentinelDistinct) 0 (INF_INDEX + 1)
          QueryType.NEXT_PERMUTATION = some t1 ∧
        permuteIter 3 (fromList sentinelDistinct) 0 (INF_INDEX + 1)
          QueryType.NEXT_PERMUTATION = some t3 ∧
        segment (print_ t1) 0 (INF_INDEX + 1) = segment (print_ t3) 0 (INF_INDEX + 1) ∧
        1 < 3 ∧ 3 ≤ (INF_INDEX + 1 - 0 + 1).factorial) := by
  refine ⟨⟨reachable_exampleStale, by decide, by decide, by decide, by decide, by decide,
    by decide, by decide, by decide⟩, ?_⟩
  obtain ⟨hre, hpr⟩ := sentinelDistinct_state
  have hlen : (print_ (fromList sentinelDistinct)).length = INF_INDEX + 1 + 1 := by
    rw [hpr, sentinelDistinct_length]
  obtain ⟨t1, t3, i1, i3, p1, p3⟩ := sentinelDistinct_cycle _ hre hpr
  refine ⟨hre, by rw [hlen]; exact Nat.lt_succ_self _, by rw [hlen]; exact sentinel_size, ?_,
    t1, t3, i1, i3, by rw [p1, p3], by decide, ?_⟩
  · rw [segment_all _ _ hlen, hpr]
    exact sentinelDistinct_nodup
  · refine Nat.le_trans ?_ (Nat.self_le_factorial _)
    have := inf_index_ge
    omega

/-! ## Composition of the assign and add tags -/

theorem paint_materialize (t : Link) (hall : Link.All SizeSumOK t) (x : Int) (l r : Nat)
    (hx : x ≠ INF_VALUE) (hlr : l ≤ r) (hr : r < (materialize t).length)
    (hn : (materialize t).length < SIZE_MOD) :
    materialize (paint t x l r) =
      (materialize t).take l ++ List.replicate (r - l + 1) x ++ (materialize t).drop (r + 1) := by
  have hk := range_key l r hlr (by omega)
  obtain ⟨-, e2, -, -, -, -⟩ := ctor_spec t l r hall
  obtain ⟨-, e⟩ := perform_operation_spec t l r
    (fun m => ((), subtree_paint_ m x)) hall (fun _ hm => allBelow_paint x hm)
  obtain ⟨s1, s2⟩ := range_shape (materialize t) l r hlr hr
  show materialize (perform_operation t l r _).2 = _
  rw [e, hk]
  simp only
  rw [materialize_paint _ _ hx, e2, hk, s2]
  rw [List.map_const', s1]

theorem add_materialize (t : Link) (hall : Link.All SizeSumOK t) (x : Int) (l r : Nat)
    (hlr : l ≤ r) (hr : r < (materialize t).length) (hn : (materialize t).length < SIZE_MOD) :
    materialize (add t x l r) =
      (materialize t).take l ++ (((materialize t).drop l).take (r - l + 1)).map (fun v => v + x) ++
        (materialize t).drop (r + 1) := by
  have hk := range_key l r hlr (by omega)
  obtain ⟨-, e2, -, -, -, -⟩ := ctor_spec t l r hall
  obtain ⟨-, e⟩ := perform_operation_spec t l r
    (fun m => ((), subtree_add_ m x)) hall
    (fun _ hm => All.below (all_add SizeSumOK x (fun _ => sizeSumOK_add x) hm))
  obtain ⟨-, s2⟩ := range_shape (materialize t) l r hlr hr
  show materialize (perform_operation t l r _).2 = _
  rw [e, hk]
  simp only
  rw [materialize_add, e2, hk, s2]

/-- The three parts of a sequence assembled as prefix, range, suffix are recovered by the
index arithmetic of the range operations. -/
theorem splice_parts (A B C : List Int) (l r : Nat) (hlr : l ≤ r) (hA : A.length = l)
    (hB : B.length = r - l + 1) :
    (A ++ B ++ C).take l = A ∧ ((A ++ B ++ C).drop l).take (r - l + 1) = B ∧
    (A ++ B ++ C).drop (r + 1) = C := by
  have e1 : (A ++ B ++ C).drop l = B ++ C := by
    rw [List.append_assoc, ← hA, List.drop_left]
  refine ⟨?_, ?_, ?_⟩
  · rw [List.append_assoc, ← hA, List.take_left]
  · rw [e1, ← hB, List.take_left]
  · have e2 : r + 1 = (A ++ B).length := by rw [List.length_append, hA, hB]; omega
    rw [e2, List.drop_left]

theorem take_length_of_lt (s : List Int) (l r : Nat) (hlr : l ≤ r) (hr : r < s.length) :
    (s.take l).length = l := by
  rw [List.length_take]; omega

/-- C11: on every reachable state, for `l ≤ r < n`, every `y` and every `x` other than the
no-paint marker `INF_VALUE`, `paint(x, l, r)` followed by `add(y, l, r)` leaves `x + y` at
every position of `[l, r]` and every other position unchanged. -/
theorem paint_then_add (t : Link) (h : Reachable t) (x y : Int) (l r : Nat)
    (hx : x ≠ INF_VALUE) (hlr : l ≤ r) (hr : r < (print_ t).length)
    (hn : (print_ t).length < SIZE_MOD) :
    print_ (add (paint t x l r) y l r) =
      (print_ t).take l ++ List.replicate (r - l + 1) (x + y) ++ (print_ t).drop (r + 1) := by
  rw [print_eq] at hr hn ⊢
  rw [print_eq]
  have hall := reachable_sizeSum h
  have hall1 := reachable_sizeSum (Reachable.step h (Step.paint t x l r))
  have e1 := paint_materialize t hall x l r hx hlr hr hn
  have hA := take_length_of_lt (materialize t) l r hlr hr
  have hB : (List.replicate (r - l + 1) x).length = r - l + 1 := List.length_replicate _ _
  obtain ⟨p1, p2, p3⟩ := splice_parts ((materialize t).take l) (List.replicate (r - l + 1) x)
    ((materialize t).drop (r + 1)) l r hlr hA hB
  have hlen : (materialize (paint t x l r)).length = (materialize t).length := by
    have := congrArg List.length e1
    rw [this]
    simp only [List.length_append, List.length_take, List.length_replicate, List.length_drop]
    omega
  have e2 := add_materialize (paint t x l r) hall1 y l r hlr (by omega) (by omega)
  rw [e2, e1, p1, p2, p3, List.map_replicate]

theorem paint_then_add_witness :
    (4 ≠ INF_VALUE ∧ 0 ≤ 1 ∧ 1 < (print_ exampleThree).length ∧
      (print_ exampleThree).length < SIZE_MOD) ∧
    print_ (add (paint exampleThree 4 0 1) 7 0 1) =
      (print_ exampleThree).take 0 ++ List.replicate (1 - 0 + 1) (4 + 7) ++
        (print_ exampleThree).drop (1 + 1) :=
  ⟨by decide, paint_then_add exampleThree reachable_exampleThree 4 7 0 1 (by decide) (by decide)
    (by decide) (by decide)⟩

/-- C12: on every reachable state, for `l ≤ r < n`, every `y` and every `x` other than the
no-paint marker `INF_VALUE`, `add(y, l, r)` followed by `paint(x, l, r)` leaves `x` at every
position of `[l, r]` (no trace of the add) and every other position unchanged. -/
theorem add_then_paint (t : Link) (h : Reachable t) (x y : Int) (l r : Nat)
    (hx : x ≠ INF_VALUE) (hlr : l ≤ r) (hr : r < (print_ t).length)
    (hn : (print_ t).length < SIZE_MOD) :
    print_ (paint (add t y l r) x l r) =
      (print_ t).take l ++ List.replicate (r - l + 1) x ++ (print_ t).drop (r + 1) := by
  rw [print_eq] at hr hn ⊢
  rw [print_eq]
  have hall := reachable_sizeSum h
  have hall1 := reachable_sizeSum (Reachable.step h (Step.add t y l r))
  have e1 := add_materialize t hall y l r hlr hr hn
  have hA := take_length_of_lt (materialize t) l r hlr hr
  have hB : ((((materialize t).drop l).take (r - l + 1)).map (fun v => v + y)).length
      = r - l + 1 := by
    rw [List.length_map]; exact (range_shape (materialize t) l r hlr hr).1
  obtain ⟨p1, -, p3⟩ := splice_parts ((materialize t).take l)
    ((((materialize t).drop l).take (r - l + 1)).map (fun v => v + y))
    ((materialize t).drop (r + 1)) l r hlr hA hB
  have hlen : (materialize (add t y l r)).length = (materialize t).length := by
    have := congrArg List.length e1
    rw [this]
    simp only [List.length_append, List.length_take, List.length_map, List.length_drop]
    omega
  have e2 := paint_materialize (add t y l r) hall1 x l r hx hlr (by omega) (by omega)
  rw [e2, e1, p1, p3]

theorem add_then_paint_witness :
    (4 ≠ INF_VALUE ∧ 1 ≤ 2 ∧ 2 < (print_ exampleThree).length ∧
      (print_ exampleThree).length < SIZE_MOD) ∧
    print_ (paint (add exampleThree 7 1 2) 4 1 2) =
      (print_ exampleThree).take 1 ++ List.replicate (2 - 1 + 1) 4 ++
        (print_ exampleThree).drop (2 + 1) :=
  ⟨by decide, add_then_paint exampleThree reachable_exampleThree 4 7 1 2 (by decide) (by decide)
    (by decide) (by decide)⟩

/-! ## The size of the root -/

theorem insert_materialize (t : Link) (hall : Link.All SizeSumOK t) (x : Int)
    (pos priority : Nat) (hpos : pos < SIZE_MOD) :
    materialize (insert t x pos priority) =
      (materialize t).take pos ++ x :: (materialize t).drop pos := by
  have hk := insert_key pos hpos
  obtain ⟨-, e⟩ := perform_operation_spec t pos (size_sub pos 1)
    (fun _ => ((), create x priority)) hall (fun _ _ => ⟨trivial, trivial⟩)
  show materialize (perform_operation t pos (size_sub pos 1) _).2 = _
  rw [e, hk]
  simp [create, materialize, Node.pending, Node.new]

theorem remove_materialize (t : Link) (hall : Link.All SizeSumOK t) (pos : Nat)
    (hpos : pos + 1 < SIZE_MOD) :
    materialize (remove t pos) = (materialize t).take pos ++ (materialize t).drop (pos + 1) := by
  have hk := range_key pos pos (le_refl _) hpos
  obtain ⟨-, e⟩ := perform_operation_spec t pos pos
    (fun m => ((), Link.remove m)) hall (fun _ _ => trivial)
  show materialize (perform_operation t pos pos _).2 = _
  rw [e, hk]
  simp [Link.remove, materialize, Nat.add_comm]

/-- An operation on the range that keeps the number of elements of `mid` keeps the number of
elements of the whole sequence, whatever the bounds `l`, `r` are. -/
theorem perform_operation_length {α : Type} (t : Link) (l r : Nat)
    (operate : Link → α × Link) (h : Link.All SizeSumOK t)
    (hop : ∀ m, Link.All SizeSumOK m → Link.AllBelow SizeSumOK (operate m).2)
    (hlen : ∀ m, (materialize (operate m).2).length = (materialize m).length) :
    (materialize (perform_operation t l r operate).2).length = (materialize t).length := by
  obtain ⟨-, e⟩ := perform_operation_spec t l r operate h hop
  obtain ⟨-, e2, -, -, -, -⟩ := ctor_spec t l r h
  rw [e, List.length_append, List.length_append, hlen, e2]
  simp only [List.length_take, List.length_drop]
  omega

theorem link_permute_length (t t1 : Link) (q : QueryType) (h : Link.All SizeSumOK t)
    (hp : Link.permute t q = some t1) : (materialize t1).length = (materialize t).length := by
  unfold Link.permute at hp
  obtain ⟨g1, g2⟩ := get_inversionAux_keeps tagStable_sizeSum sizeSum_pushed sizeSum_congr
    q.index t.count t 0 h
  simp only [get_inversion_] at hp
  split_ifs at hp with hk
  · simp only [Option.some.injEq] at hp
    subst hp
    rw [materialize_reverse, List.length_reverse, g2]
  · obtain ⟨x1, x2, a1, a2⟩ := split_spec _ (get_inversionAux t.count t q.index 0).1 g1
    obtain ⟨y1, y2, b1, b2⟩ := split_spec _ 1 a2
    rw [x2] at y1 y2
    rw [g2] at x1 y1 y2
    generalize (split_ (get_inversionAux t.count t q.index 0).2
      (get_inversionAux t.count t q.index 0).1 0).1 = t_left at hp a1 x1
    generalize (split_ (split_ (get_inversionAux t.count t q.index 0).2
      (get_inversionAux t.count t q.index 0).1 0).2 1 0) = s2 at hp b1 b2 y1 y2
    obtain ⟨capture, suffix⟩ := s2
    simp only at hp b1 b2 y1 y2
    cases capture with
    | null => simp at hp
    | node dcap cc0 cc1 =>
      simp only at hp
      cases hgn : get_nearest_ suffix dcap.value q.index 0 with
      | none => rw [hgn] at hp; simp at hp
      | some gn =>
        rw [hgn] at hp
        simp only [Option.some.injEq] at hp
        subst hp
        obtain ⟨n1, n2⟩ := get_nearestAux_keeps tagStable_sizeSum sizeSum_pushed sizeSum_congr
          dcap.value q.index suffix.count suffix 0 gn b2 hgn
        obtain ⟨z1, z2, c1, c2⟩ := split_spec gn.2 gn.1 n1
        obtain ⟨w1, w2, d1, d2⟩ := split_spec _ 1 c2
        rw [z2] at w1 w2
        rw [n2, y2] at z1 w1 w2
        have e0 := congrArg List.length x1
        have e1 := congrArg List.length y1
        have e2 := congrArg List.length z1
        have e3 := congrArg List.length w1
        have e4 := congrArg List.length w2
        simp only [List.length_take, List.length_drop] at e0 e1 e2 e3 e4
        simp only [merge_materialize, materialize_reverse, List.length_append,
          List.length_reverse]
        rw [e0, e1, e2, e3, e4]
        omega

theorem permute_length (t t1 : Link) (l r : Nat) (q : QueryType) (h : Link.All SizeSumOK t)
    (hp : permute t l r q = some t1) : (materialize t1).length = (materialize t).length := by
  obtain ⟨e1, e2, e3, a1, a2, a3⟩ := ctor_spec t l r h
  unfold permute at hp
  simp only at hp
  cases hm : Link.permute (SegmentSplitter.ctor t l r).mid q with
  | none => rw [hm] at hp; simp at hp
  | some mid =>
    rw [hm] at hp
    simp only [Option.some.injEq] at hp
    subst hp
    rw [dtor_materialize]
    simp only [List.length_append]
    rw [link_permute_length _ mid q a2 hm, e1, e2, e3]
    simp only [List.length_take, List.length_drop]
    omega

theorem reachable_exampleStaleBound : Reachable exampleStaleBound :=
  Reachable.step (Reachable.step (Reachable.step (Reachable.step (Reachable.step
    (Reachable.step (Reachable.step Reachable.empty (Step.insert null (-100000000000001) 0 1))
    (Step.insert _ 3 1 10)) (Step.insert _ 0 2 6)) (Step.insert _ 0 3 4))
    (Step.insert _ (-100000000000001) 4 8)) (Step.paint _ (-100000000000001) 2 3))
    (Step.add _ 2 0 4)

/-- C13 (amended): on every reachable state with `n` elements (`n` the size of the root),
`insert(x, pos)` with `pos ≤ n` makes the root size `n + 1`, `remove(pos)` with `pos < n`
makes it `n - 1`, and for `l ≤ r < n` the operations `get_sum`, `paint` and `add` leave it
equal to `n`; so does every call of `permute` that returns, and on a state whose elements
have always been strictly between `-INF_VALUE` and `INF_VALUE` every call of `permute`
returns. -/
theorem size_invariant (t : Link) (h : Reachable t) (hn : subtree_size_ t < SIZE_MOD) :
    (∀ (x : Int) (pos priority : Nat), pos ≤ subtree_size_ t →
      subtree_size_ (insert t x pos priority) = subtree_size_ t + 1) ∧
    (∀ pos : Nat, pos < subtree_size_ t →
      subtree_size_ (remove t pos) = subtree_size_ t - 1) ∧
    (∀ l r : Nat, l ≤ r → r < subtree_size_ t →
      subtree_size_ (get_sum t l r).2 = subtree_size_ t ∧
      (∀ x : Int, subtree_size_ (paint t x l r) = subtree_size_ t) ∧
      (∀ x : Int, subtree_size_ (add t x l r) = subtree_size_ t) ∧
      (∀ (q : QueryType) (t1 : Link), permute t l r q = some t1 →
        subtree_size_ t1 = subtree_size_ t) ∧
      (ReachableIn t → ∀ q : QueryType, ∃ t1 : Link, permute t l r q = some t1 ∧
        subtree_size_ t1 = subtree_size_ t)) := by
  have hall := reachable_sizeSum h
  have hs := subtree_size_eq hall
  have key : ∀ t1 : Link, Step t t1 → (materialize t1).length = (materialize t).length →
      subtree_size_ t1 = subtree_size_ t := by
    intro t1 hst hl
    rw [subtree_size_eq (reachable_sizeSum (Reachable.step h hst)), hl, hs]
  refine ⟨?_, ?_, ?_⟩
  · intro x pos priority hpos
    rw [subtree_size_eq (reachable_sizeSum (Reachable.step h (Step.insert t x pos priority))),
      insert_materialize t hall x pos priority (by omega), hs]
    simp only [List.length_append, List.length_take, List.length_cons, List.length_drop]
    omega
  · intro pos hpos
    rw [subtree_size_eq (reachable_sizeSum (Reachable.step h (Step.remove t pos))),
      remove_materialize t hall pos (by omega), hs]
    simp only [List.length_append, List.length_take, List.length_drop]
    omega
  · intro l r hlr hr
    refine ⟨?_, ?_, ?_, ?_, ?_⟩
    · exact key _ (Step.get_sum t l r)
        (perform_operation_length t l r (fun m => (subtree_sum_ m, m)) hall
          (fun _ hm => All.below hm) (fun _ => rfl))
    · intro x
      exact key _ (Step.paint t x l r)
        (perform_operation_length t l r (fun m => ((), subtree_paint_ m x)) hall
          (fun _ hm => allBelow_paint x hm)
          (fun m => by
            show (materialize (subtree_paint_ m x)).length = _
            rw [length_materialize, length_materialize, count_paint]))
    · intro x
      exact key _ (Step.add t x l r)
        (perform_operation_length t l r (fun m => ((), subtree_add_ m x)) hall
          (fun _ hm => All.below (all_add SizeSumOK x (fun _ => sizeSumOK_add x) hm))
          (fun m => by
            show (materialize (subtree_add_ m x)).length = _
            rw [length_materialize, length_materialize, count_add]))
    · intro q t1 hp
      exact key _ (Step.permute t t1 l r q hp) (permute_length t t1 l r q hall hp)
    · intro hin q
      obtain ⟨t1, X, hp, -, -, -⟩ := permute_spec t hin l r q hlr
        (by rw [print_eq, ← hs]; exact hr) (by rw [print_eq, ← hs]; exact hn)
      exact ⟨t1, hp, key _ (Step.permute t t1 l r q hp) (permute_length t t1 l r q hall hp)⟩

theorem size_invariant_witness :
    subtree_size_ exampleThree < SIZE_MOD ∧
    subtree_size_ (insert exampleThree 4 1 2) = subtree_size_ exampleThree + 1 ∧
    subtree_size_ (remove exampleThree 2) = subtree_size_ exampleThree - 1 ∧
    subtree_size_ (get_sum exampleThree 0 2).2 = subtree_size_ exampleThree ∧
    subtree_size_ (paint exampleThree 7 0 2) = subtree_size_ exampleThree ∧
    subtree_size_ (add exampleThree 7 1 2) = subtree_size_ exampleThree ∧
    (∃ t1 : Link, permute exampleThree 0 2 QueryType.NEXT_PERMUTATION = some t1 ∧
      subtree_size_ t1 = subtree_size_ exampleThree) ∧
    (∃ t1 : Link, permute exampleThree 0 2 QueryType.PREV_PERMUTATION = some t1 ∧
      subtree_size_ t1 = subtree_size_ exampleThree) :=
  ⟨by decide,
    (size_invariant exampleThree reachable_exampleThree (by decide)).1 4 1 2 (by decide),
    (size_invariant exampleThree reachable_exampleThree (by decide)).2.1 2 (by decide),
    ((size_invariant exampleThree reachable_exampleThree (by decide)).2.2 0 2 (by decide)
      (by decide)).1,
    ((size_invariant exampleThree reachable_exampleThree (by decide)).2.2 0 2 (by decide)
      (by decide)).2.1 7,
    ((size_invariant exampleThree reachable_exampleThree (by decide)).2.2 1 2 (by decide)
      (by decide)).2.2.1 7,
    ((size_invariant exampleThree reachable_exampleThree (by decide)).2.2 0 2 (by decide)
      (by decide)).2.2.2.2 reachableIn_exampleThree QueryType.NEXT_PERMUTATION,
    ((size_invariant exampleThree reachable_exampleThree (by decide)).2.2 0 2 (by decide)
      (by decide)).2.2.2.2 reachableIn_exampleThree QueryType.PREV_PERMUTATION⟩

/-- C13 as stated fails for `permute` on a reachable state that once held values below
`-INF_VALUE`: on `exampleStaleBound` (five elements), `permute(0, 4, NEXT_PERMUTATION)`
dereferences a null link in `get_nearest_` and leaves no root whose size could be read. -/
theorem size_invariant_permute_counterexample :
    Reachable exampleStaleBound ∧ subtree_size_ exampleStaleBound = 5 ∧
    print_ exampleStaleBound =
      [-99999999999999, 5, -99999999999999, -99999999999999, -99999999999999] ∧
    permute exampleStaleBound 0 4 QueryType.NEXT_PERMUTATION = none ∧
    ¬ ∃ t1 : Link, permute exampleStaleBound 0 4 QueryType.NEXT_PERMUTATION = some t1 ∧
      subtree_size_ t1 = subtree_size_ exampleStaleBound :=
  ⟨reachable_exampleStaleBound, by decide, by decide, by decide,
    fun ⟨t1, h1, _⟩ => by
      have h2 : permute exampleStaleBound 0 4 QueryType.NEXT_PERMUTATION = none := by decide
      rw [h2] at h1
      exact Option.noConfusion h1⟩

/-! ## Ranges given with `l > r`, and reassembly by the scoped range accessor -/

/-- The `size_t` value of `right - left + 1` when `right < left`: zero for the empty range
`[left, left - 1]`, and `2^64 - (left - right - 1)` otherwise. -/
theorem range_key_wrapped (l r : Nat) (hlr : r < l) (hl : l < SIZE_MOD) :
    size_add (size_sub r l) 1 = if l = r + 1 then 0 else SIZE_MOD - (l - r - 1) := by
  unfold size_add size_sub
  have e1 : l % SIZE_MOD = l := Nat.mod_eq_of_lt hl
  have e2 : (r + SIZE_MOD - l) % SIZE_MOD = r + SIZE_MOD - l := Nat.mod_eq_of_lt (by omega)
  rw [e1, e2]
  split_ifs with hc
  · have e3 : r + SIZE_MOD - l + 1 = SIZE_MOD := by omega
    rw [e3, Nat.mod_self]
  · have e3 : r + SIZE_MOD - l + 1 = SIZE_MOD - (l - r - 1) := by omega
    rw [e3]
    exact Nat.mod_eq_of_lt (by omega)

/-- C14 (amended): on every reachable state and for positions `l > r`, `get_sum(l, r)`
returns `0` when `l = r + 1` (the empty range `[l, l - 1]`), and the sum of all elements
from position `l` to the end of the sequence when `l > r + 1`. -/
theorem get_sum_reversed_bounds (t : Link) (h : Reachable t) (l r : Nat) (hlr : r < l)
    (hl : l < SIZE_MOD) (hn : (print_ t).length < SIZE_MOD) :
    (get_sum t l r).1 = if l = r + 1 then 0 else ((print_ t).drop l).sum := by
  have hall := reachable_sizeSum h
  obtain ⟨-, e2, -, -, a2, -⟩ := ctor_spec t l r hall
  rw [print_eq] at hn ⊢
  show subtree_sum_ (SegmentSplitter.ctor t l r).mid = _
  rw [subtree_sum_eq a2, e2, range_key_wrapped l r hlr hl]
  split_ifs with hc
  · simp
  · rw [List.take_of_length_le]
    rw [List.length_drop]
    omega

theorem get_sum_reversed_bounds_witness :
    (0 < 1 ∧ 1 < SIZE_MOD ∧ (print_ exampleThree).length < SIZE_MOD) ∧
    (get_sum exampleThree 1 0).1 = if 1 = 0 + 1 then 0 else ((print_ exampleThree).drop 1).sum :=
  ⟨by decide, get_sum_reversed_bounds exampleThree reachable_exampleThree 1 0 (by decide)
    (by decide) (by decide)⟩

/-- C14 as stated fails when `l > r + 1`: on the sequence `[1, 2, 3]`, `get_sum(2, 0)`
returns `3`, the sum of the elements from position `2` on. -/
theorem get_sum_reversed_bounds_counterexample :
    Reachable exampleThree ∧ print_ exampleThree = [1, 2, 3] ∧ 0 < 2 ∧
    2 < (print_ exampleThree).length ∧ (get_sum exampleThree 2 0).1 = 3 ∧
    (get_sum exampleThree 2 0).1 ≠ 0 :=
  ⟨reachable_exampleThree, by decide, by decide, by decide, by decide, by decide⟩

theorem ctor_dtor_materialize (t : Link) (hall : Link.All SizeSumOK t) (l r : Nat) :
    materialize (SegmentSplitter.dtor (SegmentSplitter.ctor t l r)) = materialize t := by
  obtain ⟨e1, e2, e3, -, -, -⟩ := ctor_spec t l r hall
  rw [dtor_materialize, e1, e2, e3, List.append_assoc, List.take_append_drop,
    List.take_append_drop]

/-- C15: on every reachable state and for every `l`, `r`, constructing
`SegmentSplitter(root, l, r)` and destroying it with `mid` untouched leaves the materialized
sequence of the root as it was, and so does `get_sum(l, r)`. -/
theorem splitter_reassembles (t : Link) (h : Reachable t) (l r : Nat) :
    print_ (SegmentSplitter.dtor (SegmentSplitter.ctor t l r)) = print_ t ∧
    print_ (get_sum t l r).2 = print_ t := by
  have e := ctor_dtor_materialize t (reachable_sizeSum h) l r
  rw [print_eq, print_eq, print_eq]
  exact ⟨e, e⟩

theorem splitter_reassembles_witness :
    print_ (SegmentSplitter.dtor (SegmentSplitter.ctor exampleThree 1 2)) = print_ exampleThree ∧
    print_ (get_sum exampleThree 1 2).2 = print_ exampleThree :=
  splitter_reassembles exampleThree reachable_exampleThree 1 2

/-! ## The initial build of `process_data` -/

theorem take_succ_getD (e : List Int) (k : Nat) (hk : k < e.length) :
    e.take k ++ [e.getD k 0] = e.take (k + 1) := by
  rw [List.take_succ, List.getD_eq_getElem?_getD, List.getElem?_eq_getElem hk]
  rfl

theorem build_steps (e : List Int) (priority : Nat → Nat) (hn : e.length < SIZE_MOD) :
    ∀ k : Nat, k ≤ e.length →
      Reachable ((List.range k).foldl
        (fun t i => insert t (e.getD i 0) i (priority i)) null) ∧
      materialize ((List.range k).foldl
        (fun t i => insert t (e.getD i 0) i (priority i)) null) = e.take k := by
  intro k
  induction k with
  | zero => intro _; exact ⟨Reachable.empty, rfl⟩
  | succ k ih =>
    intro hk
    obtain ⟨hr, hm⟩ := ih (by omega)
    rw [List.range_succ, List.foldl_append]
    simp only [List.foldl_cons, List.foldl_nil]
    refine ⟨Reachable.step hr (Step.insert _ _ _ _), ?_⟩
    rw [insert_materialize _ (reachable_sizeSum hr) _ _ _ (by omega), hm]
    have e1 : (e.take k).take k = e.take k := by rw [List.take_take, Nat.min_self]
    have e2 : (e.take k).drop k = [] := by
      apply List.drop_eq_nil_of_le
      rw [List.length_take]; omega
    rw [e1, e2]
    exact take_succ_getD e k (by omega)

/-- C16: for every list of elements, the initial build of `process_data` (`insert(e[i], i)`
for `i = 0, ..., n - 1`, from the empty treap) yields a treap whose materialized sequence is
the list itself, whatever priorities are drawn. -/
theorem process_data_build_correct (elements : List Int) (priority : Nat → Nat)
    (hn : elements.length < SIZE_MOD) :
    print_ (process_data_build null elements priority) = elements := by
  rw [print_eq]
  unfold process_data_build
  rw [(build_steps elements priority hn elements.length (le_refl _)).2, List.take_length]

theorem process_data_build_correct_witness :
    ([4, 7, 1] : List Int).length < SIZE_MOD ∧
    print_ (process_data_build null [4, 7, 1] (fun i => 5 * i % 3)) = [4, 7, 1] :=
  ⟨by decide, process_data_build_correct [4, 7, 1] (fun i => 5 * i % 3) (by decide)⟩

/-! ## The heap order of priorities -/

theorem priorityLE_mono {c : Link} {p q : Nat} (h : c.priorityLE p) (hpq : p ≤ q) :
    c.priorityLE q := by
  cases c with
  | null => trivial
  | node d a b => exact le_trans h hpq

theorem tagStable_priorityLE (p : Nat) : TagStable (fun c => c.priorityLE p) where
  rev := fun t h => by
    cases t with
    | null => trivial
    | node d a b => exact h
  paint := fun x t _ h => by
    cases t with
    | null => trivial
    | node d a b => exact h
  add := fun x t h => by
    cases t with
    | null => trivial
    | node d a b => exact h

theorem tagStable_heapAt : TagStable HeapAt where
  rev := fun t h => by
    cases t with
    | null => trivial
    | node d a b => exact ⟨h.2, h.1⟩
  paint := fun x t _ h => by
    cases t with
    | null => trivial
    | node d a b => exact h
  add := fun x t h => by
    cases t with
    | null => trivial
    | node d a b => exact h

/-- A property stable under the three tags holds of a child after `push_` at its parent. -/
theorem pushdown_of {P : Link → Prop} (hP : TagStable P) (d : Node) {c : Link} (h : P c) :
    P (pushdown d c) := by
  simp only [pushdown]
  have a1 : P (if d.reversed then subtree_reverse_ c else c) := by
    split_ifs
    · exact hP.rev _ h
    · exact h
  generalize (if d.reversed then subtree_reverse_ c else c) = c1 at a1 ⊢
  have a2 : P (if d.paint ≠ INF_VALUE then subtree_paint_ c1 d.paint else c1) := by
    split_ifs with hp
    · exact hP.paint _ _ hp a1
    · exact a1
  generalize (if d.paint ≠ INF_VALUE then subtree_paint_ c1 d.paint else c1) = c2 at a2 ⊢
  split_ifs with ha
  · exact hP.add _ _ a2
  · exact a2

theorem heap_node_iff (d : Node) (a b : Link) :
    Heap (node d a b) ↔
      a.priorityLE d.priority ∧ b.priorityLE d.priority ∧ Heap a ∧ Heap b := by
  unfold Heap
  simp only [Link.All, HeapAt]
  tauto

theorem heap_null : Heap null := trivial

theorem heap_pushed (d : Node) (a b : Link) (h : Heap (node d a b)) :
    Heap (node d.cleared (pushdown d a) (pushdown d b)) := by
  obtain ⟨h1, h2, h3, h4⟩ := (heap_node_iff d a b).mp h
  exact (heap_node_iff _ _ _).mpr
    ⟨pushdown_of (tagStable_priorityLE d.priority) d h1,
     pushdown_of (tagStable_priorityLE d.priority) d h2,
     all_pushdown_of tagStable_heapAt d h3, all_pushdown_of tagStable_heapAt d h4⟩

theorem heap_push {t : Link} (h : Heap t) : Heap (push_ t) := by
  cases t with
  | null => exact h
  | node d a b => rw [push_node]; exact heap_pushed d a b h

theorem priorityLE_push {t : Link} {p : Nat} (h : t.priorityLE p) : (push_ t).priorityLE p := by
  cases t with
  | null => exact h
  | node d a b => rw [push_node]; exact h

theorem heap_update {t : Link} (h : Heap t) : Heap (update_ t) := by
  cases t with
  | null => exact h
  | node d a b =>
    obtain ⟨d5, e, -, -, -, -, -, hp, -⟩ := update_fields d a b
    rw [e]
    obtain ⟨h1, h2, h3, h4⟩ := (heap_node_iff d a b).mp h
    exact (heap_node_iff _ _ _).mpr ⟨by rw [hp]; exact h1, by rw [hp]; exact h2, h3, h4⟩

theorem priorityLE_update {t : Link} {p : Nat} (h : t.priorityLE p) :
    (update_ t).priorityLE p := by
  cases t with
  | null => exact h
  | node d a b =>
    obtain ⟨d5, e, -, -, -, -, -, hp, -⟩ := update_fields d a b
    rw [e]
    show d5.priority ≤ p
    rw [hp]
    exact h

/-- The root of a node rebuilt by `update_` over two heaps whose roots do not exceed its
priority is a heap with the same root priority. -/
theorem heap_rebuild (d : Node) {a b : Link} (ha : Heap a) (hb : Heap b)
    (pa : a.priorityLE d.priority) (pb : b.priorityLE d.priority) :
    Heap (update_ (node d a b)) ∧ ∀ p, d.priority ≤ p → (update_ (node d a b)).priorityLE p :=
  ⟨heap_update ((heap_node_iff d a b).mpr ⟨pa, pb, ha, hb⟩),
   fun p hp => @priorityLE_update (node d a b) p hp⟩

theorem mergeAux_null_left (fuel : Nat) (r : Link) :
    mergeAux fuel null r = update_ (push_ r) := by
  cases fuel <;> (unfold mergeAux; simp only [push_null])

theorem mergeAux_null_right (fuel : Nat) (dl : Node) (l0 l1 : Link) :
    mergeAux fuel (node dl l0 l1) null = update_ (push_ (node dl l0 l1)) := by
  cases fuel <;> (unfold mergeAux; simp only [push_null, push_node])

theorem mergeAux_heap (fuel : Nat) : ∀ l r : Link, Heap l → Heap r →
    Heap (mergeAux fuel l r) ∧
    ∀ p, l.priorityLE p → r.priorityLE p → (mergeAux fuel l r).priorityLE p := by
  induction fuel with
  | zero =>
    intro l r hl hr
    cases l with
    | null =>
      rw [mergeAux_null_left]
      exact ⟨heap_update (heap_push hr), fun p _ h2 => priorityLE_update (priorityLE_push h2)⟩
    | node dl l0 l1 =>
      cases r with
      | null =>
        rw [mergeAux_null_right]
        exact ⟨heap_update (heap_push hl), fun p h1 _ => priorityLE_update (priorityLE_push h1)⟩
      | node dr r0 r1 =>
        unfold mergeAux
        simp only [push_node]
        exact ⟨heap_null, fun _ _ _ => trivial⟩
  | succ n ih =>
    intro l r hl hr
    cases l with
    | null =>
      rw [mergeAux_null_left]
      exact ⟨heap_update (heap_push hr), fun p _ h2 => priorityLE_update (priorityLE_push h2)⟩
    | node dl l0 l1 =>
      cases r with
      | null =>
        rw [mergeAux_null_right]
        exact ⟨heap_update (heap_push hl), fun p h1 _ => priorityLE_update (priorityLE_push h1)⟩
      | node dr r0 r1 =>
        have gL := heap_pushed dl l0 l1 hl
        have gR := heap_pushed dr r0 r1 hr
        obtain ⟨a1, a2, a3, a4⟩ := (heap_node_iff _ _ _).mp gL
        obtain ⟨b1, b2, b3, b4⟩ := (heap_node_iff _ _ _).mp gR
        unfold mergeAux
        simp only [push_node]
        split_ifs with hp
        · obtain ⟨i1, i2⟩ := ih (pushdown dl l1)
            (node dr.cleared (pushdown dr r0) (pushdown dr r1)) a4 gR
          have hle : dr.cleared.priority ≤ dl.cleared.priority := Nat.le_of_lt hp
          obtain ⟨k1, k2⟩ := heap_rebuild dl.cleared a3 i1 a1 (i2 _ a2 hle)
          exact ⟨k1, fun p h1 _ => k2 p h1⟩
        · obtain ⟨i1, i2⟩ := ih (node dl.cleared (pushdown dl l0) (pushdown dl l1))
            (pushdown dr r0) gL b3
          have hle : dl.cleared.priority ≤ dr.cleared.priority := Nat.le_of_not_lt hp
          obtain ⟨k1, k2⟩ := heap_rebuild dr.cleared i1 b4 (i2 _ hle b1) b2
          exact ⟨k1, fun p _ h2 => k2 p h2⟩

theorem merge_heap (l r : Link) (hl : Heap l) (hr : Heap r) : Heap (merge_ l r) :=
  (mergeAux_heap _ l r hl hr).1

theorem merge_priorityLE {l r : Link} {p : Nat} (hl : Heap l) (hr : Heap r)
    (pl : l.priorityLE p) (pr : r.priorityLE p) : (merge_ l r).priorityLE p :=
  (mergeAux_heap _ l r hl hr).2 p pl pr

theorem splitAux_heap (fuel : Nat) : ∀ (t : Link) (key cur_key : Nat), Heap t →
    Heap (splitAux fuel t key cur_key).1 ∧ Heap (splitAux fuel t key cur_key).2 ∧
    ∀ p, t.priorityLE p →
      (splitAux fuel t key cur_key).1.priorityLE p ∧
      (splitAux fuel t key cur_key).2.priorityLE p := by
  induction fuel with
  | zero =>
    intro t key cur _
    cases t with
    | null =>
      unfold splitAux
      simp only [push_null]
      exact ⟨heap_null, heap_null, fun _ _ => ⟨trivial, trivial⟩⟩
    | node d c0 c1 =>
      unfold splitAux
      simp only [push_node]
      exact ⟨heap_null, heap_null, fun _ _ => ⟨trivial, trivial⟩⟩
  | succ n ih =>
    intro t key cur h
    cases t with
    | null =>
      unfold splitAux
      simp only [push_null]
      exact ⟨heap_null, heap_null, fun _ _ => ⟨trivial, trivial⟩⟩
    | node d c0 c1 =>
      have g := heap_pushed d c0 c1 h
      obtain ⟨a1, a2, a3, a4⟩ := (heap_node_iff _ _ _).mp g
      unfold splitAux
      simp only [push_node]
      split_ifs with hk
      · obtain ⟨i1, i2, i3⟩ := ih (pushdown d c0) key cur a3
        obtain ⟨j1, j2⟩ := i3 _ a1
        obtain ⟨k1, k2⟩ := heap_rebuild d.cleared i2 a4 j2 a2
        exact ⟨i1, k1, fun p hp => ⟨priorityLE_mono j1 hp, k2 p hp⟩⟩
      · obtain ⟨i1, i2, i3⟩ := ih (pushdown d c1) key
          (cur + subtree_size_ (pushdown d c0) + 1) a4
        obtain ⟨j1, j2⟩ := i3 _ a2
        obtain ⟨k1, k2⟩ := heap_rebuild d.cleared a3 i1 a1 j1
        exact ⟨k1, i2, fun p hp => ⟨k2 p hp, priorityLE_mono j2 hp⟩⟩

theorem split_heap (t : Link) (key cur_key : Nat) (h : Heap t) :
    Heap (split_ t key cur_key).1 ∧ Heap (split_ t key cur_key).2 :=
  ⟨(splitAux_heap _ t key cur_key h).1, (splitAux_heap _ t key cur_key h).2.1⟩

/-! ## The heap order on reachable states -/

theorem get_inversionAux_heap (type : Bool) (fuel : Nat) : ∀ (t : Link) (cur_key : Nat),
    Heap t → Heap (get_inversionAux fuel t type cur_key).2 ∧
      ∀ p, t.priorityLE p → (get_inversionAux fuel t type cur_key).2.priorityLE p := by
  induction fuel with
  | zero =>
    intro t cur h
    cases t with
    | null => exact ⟨heap_null, fun _ _ => trivial⟩
    | node d c0 c1 =>
      unfold get_inversionAux
      simp only [push_node]
      exact ⟨heap_pushed d c0 c1 h, fun p hp => hp⟩
  | succ n ih =>
    intro t cur h
    cases t with
    | null => exact ⟨heap_null, fun _ _ => trivial⟩
    | node d c0 c1 =>
      have g := heap_pushed d c0 c1 h
      obtain ⟨a1, a2, a3, a4⟩ := (heap_node_iff _ _ _).mp g
      unfold get_inversionAux
      simp only [push_node]
      split_ifs
      · exact ⟨g, fun p hp => hp⟩
      · obtain ⟨i1, i2⟩ := ih (pushdown d c1) (cur + subtree_size_ (pushdown d c0) + 1) a4
        exact ⟨(heap_node_iff _ _ _).mpr ⟨a1, i2 _ a2, a3, i1⟩, fun p hp => hp⟩
      · exact ⟨g, fun p hp => hp⟩
      · exact ⟨g, fun p hp => hp⟩
      · obtain ⟨i1, i2⟩ := ih (pushdown d c0) cur a3
        exact ⟨(heap_node_iff _ _ _).mpr ⟨i2 _ a1, a2, i1, a4⟩, fun p hp => hp⟩

theorem get_nearestAux_heap (val : Int) (type : Bool) (fuel : Nat) :
    ∀ (t : Link) (cur_key : Nat) (r : Nat × Link), Heap t →
      get_nearestAux fuel t val type cur_key = some r →
      Heap r.2 ∧ ∀ p, t.priorityLE p → r.2.priorityLE p := by
  induction fuel with
  | zero =>
    intro t cur r h hr
    cases t with
    | null => simp [get_nearestAux, push_null] at hr
    | node d c0 c1 =>
      unfold get_nearestAux at hr
      simp [push_node] at hr
  | succ n ih =>
    intro t cur r h hr
    cases t with
    | null => simp [get_nearestAux, push_null] at hr
    | node d c0 c1 =>
      have g := heap_pushed d c0 c1 h
      obtain ⟨a1, a2, a3, a4⟩ := (heap_node_iff _ _ _).mp g
      unfold get_nearestAux at hr
      simp only [push_node] at hr
      split_ifs at hr
      · cases hrec : get_nearestAux n (pushdown d c1) val type
            (cur + subtree_size_ (pushdown d c0) + 1) with
        | none => rw [hrec] at hr; simp at hr
        | some r1 =>
          rw [hrec] at hr
          simp only [Option.some.injEq] at hr
          subst hr
          obtain ⟨i1, i2⟩ := ih _ _ _ a4 hrec
          exact ⟨(heap_node_iff _ _ _).mpr ⟨a1, i2 _ a2, a3, i1⟩, fun p hp => hp⟩
      · simp only [Option.some.injEq] at hr
        subst hr
        exact ⟨g, fun p hp => hp⟩
      · cases hrec : get_nearestAux n (pushdown d c0) val type cur with
        | none => rw [hrec] at hr; simp at hr
        | some r1 =>
          rw [hrec] at hr
          simp only [Option.some.injEq] at hr
          subst hr
          obtain ⟨i1, i2⟩ := ih _ _ _ a3 hrec
          exact ⟨(heap_node_iff _ _ _).mpr ⟨i2 _ a1, a2, i1, a4⟩, fun p hp => hp⟩

theorem heap_reverse {t : Link} (h : Heap t) : Heap (subtree_reverse_ t) :=
  all_reverse HeapAt tagStable_heapAt.rev h

theorem link_permute_heap (t t1 : Link) (q : QueryType) (h : Heap t)
    (hp : Link.permute t q = some t1) : Heap t1 := by
  unfold Link.permute at hp
  obtain ⟨g1, -⟩ := get_inversionAux_heap q.index t.count t 0 h
  simp only [get_inversion_] at hp
  split_ifs at hp with hk
  · simp only [Option.some.injEq] at hp
    subst hp
    exact heap_reverse g1
  · obtain ⟨a1, a2⟩ := split_heap _ (get_inversionAux t.count t q.index 0).1 0 g1
    obtain ⟨b1, b2⟩ := split_heap _ 1 0 a2
    generalize (split_ (get_inversionAux t.count t q.index 0).2
      (get_inversionAux t.count t q.index 0).1 0).1 = t_left at hp a1
    generalize (split_ (split_ (get_inversionAux t.count t q.index 0).2
      (get_inversionAux t.count t q.index 0).1 0).2 1 0) = s2 at hp b1 b2
    obtain ⟨capture, suffix⟩ := s2
    simp only at hp b1 b2
    cases capture with
    | null => simp at hp
    | node dcap cc0 cc1 =>
      simp only at hp
      cases hgn : get_nearest_ suffix dcap.value q.index 0 with
      | none => rw [hgn] at hp; simp at hp
      | some gn =>
        rw [hgn] at hp
        simp only [Option.some.injEq] at hp
        subst hp
        obtain ⟨n1, -⟩ := get_nearestAux_heap dcap.value q.index suffix.count suffix 0 gn b2 hgn
        obtain ⟨c1, c2⟩ := split_heap gn.2 gn.1 0 n1
        obtain ⟨d1, d2⟩ := split_heap _ 1 0 c2
        exact merge_heap _ _ (merge_heap _ _ a1 d1)
          (heap_reverse (merge_heap _ _ (merge_heap _ _ c1 b1) d2))

theorem ctor_heap (t : Link) (l r : Nat) (h : Heap t) :
    Heap (SegmentSplitter.ctor t l r).left_part ∧ Heap (SegmentSplitter.ctor t l r).mid ∧
    Heap (SegmentSplitter.ctor t l r).right_part := by
  obtain ⟨a1, a2⟩ := split_heap t l 0 h
  obtain ⟨b1, b2⟩ := split_heap _ (size_add (size_sub r l) 1) 0 a2
  exact ⟨a1, b1, b2⟩

theorem dtor_heap (s : SegmentSplitter) (h1 : Heap s.left_part) (h2 : Heap s.mid)
    (h3 : Heap s.right_part) : Heap s.dtor :=
  merge_heap _ _ (merge_heap _ _ h1 h2) h3

theorem perform_operation_heap {α : Type} (t : Link) (l r : Nat) (operate : Link → α × Link)
    (h : Heap t) (hop : ∀ m, Heap m → Heap (operate m).2) :
    Heap (perform_operation t l r operate).2 := by
  obtain ⟨a1, a2, a3⟩ := ctor_heap t l r h
  exact dtor_heap { SegmentSplitter.ctor t l r with
    mid := (operate (SegmentSplitter.ctor t l r).mid).2 } a1 (hop _ a2) a3

theorem permute_heap (t t1 : Link) (l r : Nat) (q : QueryType) (h : Heap t)
    (hp : permute t l r q = some t1) : Heap t1 := by
  obtain ⟨a1, a2, a3⟩ := ctor_heap t l r h
  unfold permute at hp
  simp only at hp
  cases hm : Link.permute (SegmentSplitter.ctor t l r).mid q with
  | none => rw [hm] at hp; simp at hp
  | some mid =>
    rw [hm] at hp
    simp only [Option.some.injEq] at hp
    subst hp
    exact dtor_heap { SegmentSplitter.ctor t l r with mid := mid } a1
      (link_permute_heap _ mid q a2 hm) a3

theorem step_heap {t t1 : Link} (h : Heap t) (hs : Step t t1) : Heap t1 := by
  cases hs with
  | insert x pos priority =>
    exact perform_operation_heap t pos (size_sub pos 1) (fun _ => ((), create x priority)) h
      (fun _ _ => ⟨⟨trivial, trivial⟩, trivial, trivial⟩)
  | remove pos =>
    exact perform_operation_heap t pos pos (fun m => ((), Link.remove m)) h
      (fun _ _ => heap_null)
  | get_sum l r =>
    exact perform_operation_heap t l r (fun m => (subtree_sum_ m, m)) h (fun _ hm => hm)
  | paint x l r =>
    exact perform_operation_heap t l r (fun m => ((), subtree_paint_ m x)) h
      (fun _ hm => all_paint HeapAt x (fun t ht => by
        cases t with
        | null => trivial
        | node d a b => exact ht) hm)
  | add x l r =>
    exact perform_operation_heap t l r (fun m => ((), subtree_add_ m x)) h
      (fun _ hm => all_add HeapAt x (tagStable_heapAt.add x) hm)
  | permute _ l r q hp => exact permute_heap t t1 l r q h hp

theorem reachable_heap (t : Link) (h : Reachable t) : Heap t := by
  induction h with
  | empty => exact heap_null
  | step _ hs ih => exact step_heap ih hs

/-- C17: in every state reachable through `insert`, `remove`, `get_sum`, `paint`, `add`
and `permute`, every node's priority is greater than or equal to the priority of each of
its children; `split_` takes a tree with this property to two trees with it, and `merge_`
takes two trees with it to a tree with it. -/
theorem heap_invariant :
    (∀ t : Link, Reachable t → Heap t) ∧
    (∀ (t : Link) (key cur_key : Nat), Heap t →
      Heap (split_ t key cur_key).1 ∧ Heap (split_ t key cur_key).2) ∧
    (∀ l r : Link, Heap l → Heap r → Heap (merge_ l r)) :=
  ⟨reachable_heap, split_heap, merge_heap⟩

theorem heap_invariant_witness :
    Heap exampleThree ∧
    (Heap (split_ exampleThree 1 0).1 ∧ Heap (split_ exampleThree 1 0).2) ∧
    Heap (merge_ exampleTwo exampleThree) :=
  ⟨heap_invariant.1 exampleThree reachable_exampleThree,
   heap_invariant.2.1 exampleThree 1 0 (heap_invariant.1 exampleThree reachable_exampleThree),
   heap_invariant.2.2 exampleTwo exampleThree
     (heap_invariant.1 exampleTwo reachable_exampleTwo)
     (heap_invariant.1 exampleThree reachable_exampleThree)⟩

/-! ## Meaning of the cached aggregates -/

theorem hasAscent_iff_not_pairwise (m : List Int) :
    HasAscent m ↔ ¬ m.Pairwise (fun a b => compare a b false = false) := by
  constructor
  · rintro ⟨A, a, b, S, e, hab⟩
    exact not_pairwise_of_adjacent false e ((compare_false_iff a b).mpr hab)
  · intro hnp
    by_contra hno
    apply hnp
    apply pairwise_of_no_adjacent false
    intro A a b S e
    cases hc : compare a b false with
    | false => rfl
    | true => exact absurd ⟨A, a, b, S, e, (compare_false_iff a b).mp hc⟩ hno

theorem hasDescent_iff_not_pairwise (m : List Int) :
    HasDescent m ↔ ¬ m.Pairwise (fun a b => compare a b true = false) := by
  constructor
  · rintro ⟨A, a, b, S, e, hab⟩
    exact not_pairwise_of_adjacent true e ((compare_true_iff a b).mpr hab)
  · intro hnp
    by_contra hno
    apply hnp
    apply pairwise_of_no_adjacent true
    intro A a b S e
    cases hc : compare a b true with
    | false => rfl
    | true => exact absurd ⟨A, a, b, S, e, (compare_true_iff a b).mp hc⟩ hno

theorem aggregatesMatch_of_good (d : Node) (c0 c1 : Link) (h : Good (node d c0 c1))
    (h0 : Link.All SizeSumOK c0) (h1 : Link.All SizeSumOK c1) :
    AggregatesMatch (node d c0 c1) := by
  obtain ⟨⟨hsize, hsum⟩, hb, hhead, hlast, -⟩ := h
  have hsize1 : d.size = (materialize (node d c0 c1)).length := hsize
  have hsum1 : d.sum = (materialize (node d c0 c1)).sum := hsum
  simp only [AggregatesMatch]
  rw [print_eq]
  refine ⟨hsize1, ?_, hsum1, ?_, ?_, hhead, hlast⟩
  · rw [hsize1, subtree_size_eq h0, subtree_size_eq h1]
    simp only [materialize, List.length_append, List.length_cons, length_pending]
    omega
  · rw [List.minimum_eq_coe_iff]
    obtain ⟨m1, m2⟩ := hb false
    exact ⟨m1, fun v hv => (compare_false_eq_false v (d.bound false)).mp (m2 v hv)⟩
  · rw [List.maximum_eq_coe_iff]
    obtain ⟨m1, m2⟩ := hb true
    exact ⟨m1, fun v hv => (compare_true_eq_false v (d.bound true)).mp (m2 v hv)⟩

theorem allGood_aggregatesMatch : ∀ t : Link, Link.All Good t → Link.All AggregatesMatch t
  | null, _ => trivial
  | node d c0 c1, h =>
    ⟨aggregatesMatch_of_good d c0 c1 h.1 (allGood_sizeSum h.2.1) (allGood_sizeSum h.2.2),
     allGood_aggregatesMatch c0 h.2.1, allGood_aggregatesMatch c1 h.2.2⟩

theorem inversionFlagsMatch_of_good (t : Link) (h : Good t) : InversionFlagsMatch t := by
  cases t with
  | null => trivial
  | node d c0 c1 =>
    obtain ⟨-, -, -, -, hinv⟩ := h
    simp only [InversionFlagsMatch]
    rw [print_eq, hasAscent_iff_not_pairwise, hasDescent_iff_not_pairwise]
    exact ⟨hinv false, hinv true⟩

/-- C18: in every state reachable through the public operations with all elements always
strictly between `-INF_VALUE` and `INF_VALUE`, every node agrees with the materialized
sequence `m` of its subtree: `size` is the length of `m` and `1 + size(left) + size(right)`,
`sum` is the sum of `m`, `bound[0]` and `bound[1]` are the minimum and maximum of `m`,
`border[0]` and `border[1]` are the first and last element of `m`. -/
theorem aggregates_consistent (t : Link) (h : ReachableIn t) : Link.All AggregatesMatch t :=
  allGood_aggregatesMatch t (reachableIn_good h)

theorem aggregates_consistent_witness : Link.All AggregatesMatch exampleFour :=
  aggregates_consistent exampleFour reachableIn_exampleFour

/-- C19: in every state reachable through the public operations with all elements always
strictly between `-INF_VALUE` and `INF_VALUE`, every node with materialized subtree sequence
`m` has `inversion[0]` set exactly when some adjacent pair `m[i] < m[i+1]` exists and
`inversion[1]` set exactly when some adjacent pair `m[i] > m[i+1]` exists. -/
theorem inversion_flags_meaning (t : Link) (h : ReachableIn t) :
    Link.All InversionFlagsMatch t :=
  all_mono inversionFlagsMatch_of_good (reachableIn_good h)

theorem inversion_flags_meaning_witness : Link.All InversionFlagsMatch exampleFour :=
  inversion_flags_meaning exampleFour reachableIn_exampleFour

/-! ## `update_` on a node without children -/

/-- C20 (amended): for every node without children and every value `v`, `update_` sets
`size = 1`, `sum = v` and both borders to `v` and leaves the value, the priority and the
tags alone; it sets `bound[0] = v` exactly when `v ≤ INF_VALUE`, `bound[1] = v` exactly when
`-INF_VALUE ≤ v`, and each inversion flag to `false` exactly when
`-INF_VALUE ≤ v ≤ INF_VALUE`. -/
theorem update_leaf (d : Node) :
    ∃ d1 : Node, update_ (node d null null) = node d1 null null ∧
      d1.size = 1 ∧ d1.sum = d.value ∧ d1.border0 = d.value ∧ d1.border1 = d.value ∧
      (d1.bound0 = d.value ↔ d.value ≤ INF_VALUE) ∧
      (d1.bound1 = d.value ↔ -INF_VALUE ≤ d.value) ∧
      (d1.inversion0 = false ↔ -INF_VALUE ≤ d.value ∧ d.value ≤ INF_VALUE) ∧
      (d1.inversion1 = false ↔ -INF_VALUE ≤ d.value ∧ d.value ≤ INF_VALUE) ∧
      d1.value = d.value ∧ d1.priority = d.priority ∧ d1.reversed = d.reversed ∧
      d1.paint = d.paint ∧ d1.add = d.add := by
  refine ⟨_, rfl, rfl, ?_, rfl, rfl, ?_, ?_, ?_, ?_, rfl, rfl, rfl, rfl, rfl⟩
  · show (0 : Int) + 0 + d.value = d.value
    omega
  · show min d.value (min (INF_VALUE * 1) (INF_VALUE * 1)) = d.value ↔ _
    simp only [INF_VALUE]
    omega
  · show max d.value (max (INF_VALUE * -1) (INF_VALUE * -1)) = d.value ↔ _
    simp only [INF_VALUE]
    omega
  · show inversion_of d null null false = false ↔ _
    simp only [inversion_of, has_inversion_, min_max, compare, subtree_bound_, INF_VALUE]
    simp only [Bool.not_false, Bool.not_true, if_true, if_false, Bool.false_eq_true,
      Bool.false_or, Bool.or_eq_false_iff, decide_eq_false_iff_not]
    omega
  · show inversion_of d null null true = false ↔ _
    simp only [inversion_of, has_inversion_, min_max, compare, subtree_bound_, INF_VALUE]
    simp only [Bool.not_false, Bool.not_true, if_true, if_false, Bool.false_eq_true,
      Bool.false_or, Bool.or_eq_false_iff, decide_eq_false_iff_not]
    omega

/-- C20 (amended) at the in-range leaf `Node(7, 3)` and at the leaf holding `10^14 + 1`:
there every clause but `bound[0]` and the two flags still holds. -/
theorem update_leaf_witness :
    (∃ d1 : Node, update_ (node (Node.new 7 3) null null) = node d1 null null ∧
      d1.size = 1 ∧ d1.sum = (Node.new 7 3).value ∧ d1.border0 = (Node.new 7 3).value ∧
      d1.border1 = (Node.new 7 3).value ∧
      (d1.bound0 = (Node.new 7 3).value ↔ (Node.new 7 3).value ≤ INF_VALUE) ∧
      (d1.bound1 = (Node.new 7 3).value ↔ -INF_VALUE ≤ (Node.new 7 3).value) ∧
      (d1.inversion0 = false ↔
        -INF_VALUE ≤ (Node.new 7 3).value ∧ (Node.new 7 3).value ≤ INF_VALUE) ∧
      (d1.inversion1 = false ↔
        -INF_VALUE ≤ (Node.new 7 3).value ∧ (Node.new 7 3).value ≤ INF_VALUE) ∧
      d1.value = (Node.new 7 3).value ∧ d1.priority = (Node.new 7 3).priority ∧
      d1.reversed = (Node.new 7 3).reversed ∧
      d1.paint = (Node.new 7 3).paint ∧ d1.add = (Node.new 7 3).add) ∧
    (-INF_VALUE ≤ (Node.new 7 3).value ∧ (Node.new 7 3).value ≤ INF_VALUE) :=
  ⟨update_leaf (Node.new 7 3), by decide⟩

/-- C20 as stated fails for a value above `INF_VALUE` and for one below `-INF_VALUE`: on a
childless node holding `10^14 + 1`, `update_` sets `bound[0]` to `10^14` and both inversion
flags to `true`; on one holding `-10^14 - 1` it sets `bound[1]` to `-10^14` and both
inversion flags to `true`. -/
theorem update_leaf_counterexample :
    exampleLeafAbove = node (Node.new 100000000000001 0) null null ∧
    subtree_bound_ (update_ exampleLeafAbove) false = 100000000000000 ∧
    subtree_bound_ (update_ exampleLeafAbove) false ≠ 100000000000001 ∧
    has_inversion_ (update_ exampleLeafAbove) false = true ∧
    has_inversion_ (update_ exampleLeafAbove) true = true ∧
    exampleLeafBelow = node (Node.new (-100000000000001) 0) null null ∧
    subtree_bound_ (update_ exampleLeafBelow) true = -100000000000000 ∧
    subtree_bound_ (update_ exampleLeafBelow) true ≠ -100000000000001 ∧
    has_inversion_ (update_ exampleLeafBelow) false = true ∧
    has_inversion_ (update_ exampleLeafBelow) true = true :=
  ⟨rfl, by decide, by decide, by decide, by decide, rfl, by decide, by decide, by decide,
    by decide⟩

/-! ## What the three tags do to a node -/

/-- C21: on a non-empty node, `subtree_reverse_` exchanges `child[0]` with `child[1]`,
`inversion[0]` with `inversion[1]`, `border[0]` with `border[1]`, toggles `reversed`, and
leaves `value`, `sum`, `size`, `bound[0]`, `bound[1]`, `paint`, `add` and `priority` as
they were. -/
theorem subtree_reverse_fields (d : Node) (c0 c1 : Link) :
    ∃ d1 : Node, subtree_reverse_ (node d c0 c1) = node d1 c1 c0 ∧
      d1.inversion0 = d.inversion1 ∧ d1.inversion1 = d.inversion0 ∧
      d1.border0 = d.border1 ∧ d1.border1 = d.border0 ∧
      d1.reversed = !d.reversed ∧
      d1.value = d.value ∧ d1.sum = d.sum ∧ d1.size = d.size ∧
      d1.bound0 = d.bound0 ∧ d1.bound1 = d.bound1 ∧
      d1.paint = d.paint ∧ d1.add = d.add ∧ d1.priority = d.priority :=
  ⟨_, rfl, rfl, rfl, rfl, rfl, rfl, rfl, rfl, rfl, rfl, rfl, rfl, rfl, rfl⟩

theorem subtree_reverse_twice (t : Link) : subtree_reverse_ (subtree_reverse_ t) = t := by
  cases t with
  | null => rfl
  | node d c0 c1 =>
    simp only [subtree_reverse_, Bool.not_not]

/-- C22: for every tree, `subtree_reverse_` turns the materialized sequence into its exact
reversal, and applying it twice gives back the original tree, hence the original order. -/
theorem subtree_reverse_sequence (t : Link) :
    print_ (subtree_reverse_ t) = (print_ t).reverse ∧
    subtree_reverse_ (subtree_reverse_ t) = t ∧
    print_ (subtree_reverse_ (subtree_reverse_ t)) = print_ t := by
  refine ⟨?_, subtree_reverse_twice t, ?_⟩
  · rw [print_eq, print_eq, materialize_reverse]
  · rw [subtree_reverse_twice]

/-- C23: on a non-empty node, `subtree_paint_(t, x)` sets `value`, both bounds, both borders
and the pending `paint` to `x`, sets `add` to `0` and both inversion flags to `false`, sets
`sum = size * x`, and leaves `size`, `priority`, `reversed` and the children unchanged. -/
theorem subtree_paint_fields (d : Node) (c0 c1 : Link) (x : Int) :
    ∃ d1 : Node, subtree_paint_ (node d c0 c1) x = node d1 c0 c1 ∧
      d1.value = x ∧ d1.bound0 = x ∧ d1.bound1 = x ∧ d1.border0 = x ∧ d1.border1 = x ∧
      d1.paint = x ∧ d1.add = 0 ∧ d1.inversion0 = false ∧ d1.inversion1 = false ∧
      d1.sum = (d.size : Int) * x ∧
      d1.size = d.size ∧ d1.priority = d.priority ∧ d1.reversed = d.reversed :=
  ⟨_, rfl, rfl, rfl, rfl, rfl, rfl, rfl, rfl, rfl, rfl, rfl, rfl, rfl, rfl⟩

/-- C24: on a non-empty node, `subtree_add_(t, x)` increases `value`, both bounds, both
borders and the pending `add` by `x`, increases `sum` by `size * x`, and leaves both
inversion flags, `size`, `paint`, `reversed`, `priority` and the children unchanged
(integers unbounded: no overflow). -/
theorem subtree_add_fields (d : Node) (c0 c1 : Link) (x : Int) :
    ∃ d1 : Node, subtree_add_ (node d c0 c1) x = node d1 c0 c1 ∧
      d1.value = d.value + x ∧ d1.bound0 = d.bound0 + x ∧ d1.bound1 = d.bound1 + x ∧
      d1.border0 = d.border0 + x ∧ d1.border1 = d.border1 + x ∧ d1.add = d.add + x ∧
      d1.sum = d.sum + (d.size : Int) * x ∧
      d1.inversion0 = d.inversion0 ∧ d1.inversion1 = d.inversion1 ∧
      d1.size = d.size ∧ d1.paint = d.paint ∧ d1.reversed = d.reversed ∧
      d1.priority = d.priority :=
  ⟨_, rfl, rfl, rfl, rfl, rfl, rfl, rfl, rfl, rfl, rfl, rfl, rfl, rfl, rfl⟩

/-! ## The cached borders on every reachable state

The `border` fields never depend on the sentinel `INF_VALUE`: `update_border_` copies them
from the children or from the node's own value.  So they describe the content at every node
of every reachable treap, whatever values it has held. -/

theorem borderOK_reverse {t : Link} (h : BorderOK t) : BorderOK (subtree_reverse_ t) := by
  cases t with
  | null => exact h
  | node d c0 c1 =>
    obtain ⟨hh, hl⟩ := h
    have hm := materialize_reverse (node d c0 c1)
    simp only [subtree_reverse_] at hm
    simp only [subtree_reverse_, BorderOK]
    rw [hm]
    refine ⟨?_, ?_⟩
    · rw [List.head?_reverse]; exact hl
    · rw [List.getLast?_reverse]; exact hh

theorem borderOK_paint {t : Link} (x : Int) (hx : x ≠ INF_VALUE) :
    BorderOK (subtree_paint_ t x) := by
  cases t with
  | null => trivial
  | node d c0 c1 =>
    have hm := materialize_paint (node d c0 c1) x hx
    have hne := materialize_ne_nil d c0 c1
    simp only [subtree_paint_] at hm
    simp only [subtree_paint_, BorderOK]
    rw [hm]
    generalize materialize (node d c0 c1) = m at hne
    cases m with
    | nil => exact absurd rfl hne
    | cons a l =>
      refine ⟨?_, ?_⟩
      · simp
      · simp [List.getLast?_cons, List.getLast?_eq_getLast, List.map_const']
        cases l <;> simp [List.getLast?]

theorem borderOK_add {t : Link} (x : Int) (h : BorderOK t) : BorderOK (subtree_add_ t x) := by
  cases t with
  | null => exact h
  | node d c0 c1 =>
    obtain ⟨hh, hl⟩ := h
    have hm := materialize_add (node d c0 c1) x
    simp only [subtree_add_] at hm
    simp only [subtree_add_, BorderOK]
    rw [hm]
    refine ⟨?_, ?_⟩
    · rw [List.head?_map, hh]; rfl
    · rw [List.getLast?_map, hl]; rfl

theorem tagStable_border : TagStable BorderOK :=
  ⟨fun _ => borderOK_reverse, fun x _ hx _ => borderOK_paint x hx, fun x _ => borderOK_add x⟩

theorem allBorder_pushdown (d : Node) {c : Link} (h : Link.All BorderOK c) :
    Link.All BorderOK (pushdown d c) :=
  all_pushdown_of tagStable_border d h

theorem borderOK_root {t : Link} (h : Link.All BorderOK t) : BorderOK t := by
  cases t with
  | null => trivial
  | node d c0 c1 => exact h.1

theorem border_head (d : Node) {a : Link} (ha : BorderOK a) (l : List Int) :
    (materialize a ++ d.value :: l).head? = some (border_of d a false) := by
  cases a with
  | null => rfl
  | node da a0 a1 =>
    have hne := materialize_ne_nil da a0 a1
    have := ha.1
    generalize materialize (node da a0 a1) = m at *
    cases m with
    | nil => exact absurd rfl hne
    | cons x xs => simpa [border_of, Node.border] using this

theorem border_last (d : Node) {b : Link} (hb : BorderOK b) (l : List Int) :
    (l ++ d.value :: materialize b).getLast? = some (border_of d b true) := by
  cases b with
  | null => simp [border_of, materialize]
  | node db b0 b1 =>
    have hne := materialize_ne_nil db b0 b1
    have := hb.2
    generalize materialize (node db b0 b1) = m at *
    cases m with
    | nil => exact absurd rfl hne
    | cons x xs =>
      rw [List.getLast?_append, List.getLast?_cons_cons, this]
      simp [border_of, Node.border]

theorem borderOK_update (d : Node) {a b : Link} (ha : BorderOK a) (hb : BorderOK b) :
    BorderOK (update_ (node d.cleared a b)) := by
  obtain ⟨d5, e, -, h0, h1, -⟩ := update_fields d.cleared a b
  have hm : materialize (node d5 a b) = materialize a ++ d.value :: materialize b := by
    rw [← e, materialize_update, materialize_cleared]
  rw [e]
  simp only [BorderOK]
  rw [hm, h0, h1]
  exact ⟨border_head d.cleared ha _, by
    have := border_last d.cleared hb (materialize a)
    exact this⟩

theorem allBorder_update (d : Node) {a b : Link} (ha : Link.All BorderOK a)
    (hb : Link.All BorderOK b) : Link.All BorderOK (update_ (node d.cleared a b)) := by
  refine ⟨?_, ha, hb⟩
  exact borderOK_update d (borderOK_root ha) (borderOK_root hb)

theorem mergeAux_border (fuel : Nat) : ∀ l r : Link, l.count + r.count ≤ fuel →
    Link.AllBelow BorderOK l → Link.AllBelow BorderOK r →
    Link.All BorderOK (mergeAux fuel l r) := by
  induction fuel with
  | zero =>
    intro l r h _ _
    cases l with
    | null =>
      cases r with
      | null => trivial
      | node d c0 c1 => simp [Link.count] at h
    | node d c0 c1 => simp [Link.count] at h
  | succ n ih =>
    intro l r h hl hr
    cases l with
    | null =>
      unfold mergeAux
      simp only [push_null]
      cases r with
      | null => trivial
      | node dr r0 r1 =>
        rw [push_node]
        exact allBorder_update dr (allBorder_pushdown dr hr.1) (allBorder_pushdown dr hr.2)
    | node dl l0 l1 =>
      cases r with
      | null =>
        unfold mergeAux
        simp only [push_null, push_node]
        exact allBorder_update dl (allBorder_pushdown dl hl.1) (allBorder_pushdown dl hl.2)
      | node dr r0 r1 =>
        simp only [Link.count] at h
        unfold mergeAux
        simp only [push_node]
        split_ifs with hp
        · refine allBorder_update dl (allBorder_pushdown dl hl.1) (ih _ _ ?_ ?_ ?_)
          · simp [Link.count, count_pushdown]; omega
          · exact All.below (allBorder_pushdown dl hl.2)
          · exact ⟨allBorder_pushdown dr hr.1, allBorder_pushdown dr hr.2⟩
        · refine allBorder_update dr (ih _ _ ?_ ?_ ?_) (allBorder_pushdown dr hr.2)
          · simp [Link.count, count_pushdown]; omega
          · exact ⟨allBorder_pushdown dl hl.1, allBorder_pushdown dl hl.2⟩
          · exact All.below (allBorder_pushdown dr hr.1)

theorem merge_border {l r : Link} (hl : Link.AllBelow BorderOK l)
    (hr : Link.AllBelow BorderOK r) : Link.All BorderOK (merge_ l r) :=
  mergeAux_border _ l r (le_refl _) hl hr

theorem splitAux_border (fuel : Nat) : ∀ (t : Link) (key cur_key : Nat), t.count ≤ fuel →
    Link.All BorderOK t →
    Link.All BorderOK (splitAux fuel t key cur_key).1 ∧
    Link.All BorderOK (splitAux fuel t key cur_key).2 := by
  induction fuel with
  | zero =>
    intro t key cur h _
    cases t with
    | null => unfold splitAux; simp [push_null, Link.All]
    | node d c0 c1 => simp [Link.count] at h
  | succ n ih =>
    intro t key cur h hall
    cases t with
    | null => unfold splitAux; simp [push_null, Link.All]
    | node d c0 c1 =>
      simp only [Link.count] at h
      have h0 := allBorder_pushdown d hall.2.1
      have h1 := allBorder_pushdown d hall.2.2
      unfold splitAux
      simp only [push_node]
      split_ifs with hk
      · obtain ⟨a1, a2⟩ := ih (pushdown d c0) key cur (by rw [count_pushdown]; omega) h0
        exact ⟨a1, allBorder_update d a2 h1⟩
      · obtain ⟨a1, a2⟩ := ih (pushdown d c1) key
          (cur + subtree_size_ (pushdown d c0) + 1) (by rw [count_pushdown]; omega) h1
        exact ⟨allBorder_update d h0 a1, a2⟩

theorem split_border (t : Link) (key : Nat) (h : Link.All BorderOK t) :
    Link.All BorderOK (split_ t key 0).1 ∧ Link.All BorderOK (split_ t key 0).2 :=
  splitAux_border _ t key 0 (le_refl _) h

theorem border_pushed (d : Node) (a b : Link) (h : BorderOK (node d a b)) :
    BorderOK (node d.cleared (pushdown d a) (pushdown d b)) := by
  simp only [BorderOK] at h ⊢
  rw [materialize_pushed]
  exact h

theorem border_congr (d : Node) (a b a1 b1 : Link) (ha : materialize a1 = materialize a)
    (hb : materialize b1 = materialize b) (h : BorderOK (node d.cleared a b)) :
    BorderOK (node d.cleared a1 b1) := by
  simp only [BorderOK] at h ⊢
  rw [materialize_cleared] at h ⊢
  rw [ha, hb]
  exact h

theorem link_permute_border (t t1 : Link) (q : QueryType) (h : Link.All BorderOK t)
    (hp : Link.permute t q = some t1) : Link.All BorderOK t1 := by
  unfold Link.permute at hp
  obtain ⟨g1, -⟩ := get_inversionAux_keeps tagStable_border border_pushed border_congr
    q.index t.count t 0 h
  simp only [get_inversion_] at hp
  split_ifs at hp with hk
  · simp only [Option.some.injEq] at hp
    subst hp
    exact all_reverse BorderOK (fun _ => borderOK_reverse) g1
  · obtain ⟨a1, a2⟩ := split_border _ (get_inversionAux t.count t q.index 0).1 g1
    obtain ⟨b1, b2⟩ := split_border _ 1 a2
    generalize (split_ (get_inversionAux t.count t q.index 0).2
      (get_inversionAux t.count t q.index 0).1 0).1 = t_left at hp a1
    generalize (split_ (split_ (get_inversionAux t.count t q.index 0).2
      (get_inversionAux t.count t q.index 0).1 0).2 1 0) = s2 at hp b1 b2
    obtain ⟨capture, suffix⟩ := s2
    simp only at hp b1 b2
    cases capture with
    | null => simp at hp
    | node dcap cc0 cc1 =>
      simp only at hp
      cases hgn : get_nearest_ suffix dcap.value q.index 0 with
      | none => rw [hgn] at hp; simp at hp
      | some gn =>
        rw [hgn] at hp
        simp only [Option.some.injEq] at hp
        subst hp
        obtain ⟨n1, -⟩ := get_nearestAux_keeps tagStable_border border_pushed border_congr
          dcap.value q.index suffix.count suffix 0 gn b2 hgn
        obtain ⟨c1, c2⟩ := split_border gn.2 gn.1 n1
        obtain ⟨d1, d2⟩ := split_border _ 1 c2
        refine merge_border (All.below (merge_border (All.below a1) (All.below d1))) ?_
        refine All.below (all_reverse BorderOK (fun _ => borderOK_reverse) ?_)
        exact merge_border (All.below (merge_border (All.below c1) (All.below b1)))
          (All.below d2)

theorem ctor_border (t : Link) (l r : Nat) (h : Link.All BorderOK t) :
    Link.All BorderOK (SegmentSplitter.ctor t l r).left_part ∧
    Link.All BorderOK (SegmentSplitter.ctor t l r).mid ∧
    Link.All BorderOK (SegmentSplitter.ctor t l r).right_part := by
  obtain ⟨a1, a2⟩ := split_border t l h
  obtain ⟨b1, b2⟩ := split_border (split_ t l 0).2 (size_add (size_sub r l) 1) a2
  simp only [SegmentSplitter.ctor]
  exact ⟨a1, b1, b2⟩

theorem dtor_border (s : SegmentSplitter) (h1 : Link.AllBelow BorderOK s.left_part)
    (h2 : Link.AllBelow BorderOK s.mid) (h3 : Link.AllBelow BorderOK s.right_part) :
    Link.All BorderOK s.dtor := by
  simp only [SegmentSplitter.dtor]
  exact merge_border (All.below (merge_border h1 h2)) h3

theorem perform_operation_border {α : Type} (t : Link) (l r : Nat)
    (operate : Link → α × Link) (h : Link.All BorderOK t)
    (hop : ∀ m, Link.All BorderOK m → Link.AllBelow BorderOK (operate m).2) :
    Link.All BorderOK (perform_operation t l r operate).2 := by
  obtain ⟨a1, a2, a3⟩ := ctor_border t l r h
  simp only [perform_operation]
  exact dtor_border { SegmentSplitter.ctor t l r with
    mid := (operate (SegmentSplitter.ctor t l r).mid).2 } (All.below a1) (hop _ a2)
    (All.below a3)

theorem permute_border (t t1 : Link) (l r : Nat) (q : QueryType) (h : Link.All BorderOK t)
    (hp : permute t l r q = some t1) : Link.All BorderOK t1 := by
  obtain ⟨a1, a2, a3⟩ := ctor_border t l r h
  unfold permute at hp
  simp only at hp
  cases hm : Link.permute (SegmentSplitter.ctor t l r).mid q with
  | none => rw [hm] at hp; simp at hp
  | some mid =>
    rw [hm] at hp
    simp only [Option.some.injEq] at hp
    subst hp
    exact dtor_border { SegmentSplitter.ctor t l r with mid := mid } (All.below a1)
      (All.below (link_permute_border _ mid q a2 hm)) (All.below a3)

theorem allBelow_paint_border (x : Int) {t : Link} (h : Link.All BorderOK t) :
    Link.AllBelow BorderOK (subtree_paint_ t x) := by
  cases t with
  | null => trivial
  | node d c0 c1 => exact ⟨h.2.1, h.2.2⟩

theorem step_border {t t1 : Link} (h : Link.All BorderOK t) (hs : Step t t1) :
    Link.All BorderOK t1 := by
  cases hs with
  | insert x pos priority =>
    exact perform_operation_border t _ _ _ h (fun _ _ => by exact ⟨trivial, trivial⟩)
  | remove pos =>
    exact perform_operation_border t _ _ _ h (fun _ _ => by trivial)
  | get_sum left right =>
    exact perform_operation_border t _ _ _ h (fun _ hm => All.below hm)
  | paint x left right =>
    exact perform_operation_border t _ _ _ h (fun _ hm => allBelow_paint_border x hm)
  | add x left right =>
    exact perform_operation_border t _ _ _ h
      (fun _ hm => All.below (all_add BorderOK x (fun _ => borderOK_add x) hm))
  | permute _ l r q hp => exact permute_border t _ l r q h hp

/-- The borders cached at every node of a reachable treap are the first and the last element
of that node's sequence. -/
theorem reachable_border {t : Link} (h : Reachable t) : Link.All BorderOK t := by
  induction h with
  | empty => trivial
  | step _ hs ih => exact step_border ih hs

/-! ## `push_` on the nodes of a reachable treap -/

theorem all_subtree {P : Link → Prop} {s t : Link} (h : Link.All P t)
    (hs : Link.Subtree s t) : Link.All P s := by
  induction hs with
  | root => exact h
  | child0 d c0 c1 _ ih => exact ih h.2.1
  | child1 d c0 c1 _ ih => exact ih h.2.2

theorem aggregatesMatch_root {t : Link} (h : Link.All AggregatesMatch t) :
    AggregatesMatch t := by
  cases t with
  | null => trivial
  | node d c0 c1 => exact h.1

theorem inversionFlagsMatch_root {t : Link} (h : Link.All InversionFlagsMatch t) :
    InversionFlagsMatch t := by
  cases t with
  | null => trivial
  | node d c0 c1 => exact h.1

theorem allGood_inversionFlagsMatch {t : Link} (h : Link.All Good t) :
    Link.All InversionFlagsMatch t :=
  all_mono inversionFlagsMatch_of_good h

theorem aggregatesMatch_bound_mem {t : Link} (h : AggregatesMatch t) (hn : t.nonnull = true) :
    subtree_bound_ t false ∈ print_ t := by
  cases t with
  | null => exact absurd hn (by decide)
  | node d c0 c1 =>
    obtain ⟨-, -, -, hmin, -⟩ := h
    exact (List.minimum_eq_coe_iff.mp hmin).1

/-- C25 (amended): for every non-empty node `t` of a reachable treap, `push_(t)` leaves the
materialized sequence of `t` and `t`'s own `value`, `size`, `sum`, `bound`, `border`,
`inversion` (and `priority`) unchanged, leaves `t` without pending tag (`reversed = false`,
`paint = INF_VALUE`, `add = 0`) and replaces each child by the child with the tags of `t`
applied in the order reverse, assign, add; afterwards each child's cached `size`, `sum` and
both borders describe its content, and on a treap whose elements have always been strictly
between `-INF_VALUE` and `INF_VALUE` so do its bounds and inversion flags. -/
theorem push_correct (root : Link) (h : Reachable root) (d : Node) (c0 c1 : Link)
    (hs : Link.Subtree (node d c0 c1) root) :
    print_ (push_ (node d c0 c1)) = print_ (node d c0 c1) ∧
    (∃ d1 : Node, push_ (node d c0 c1) = node d1 (pushdown d c0) (pushdown d c1) ∧
      d1.value = d.value ∧ d1.size = d.size ∧ d1.sum = d.sum ∧
      d1.bound0 = d.bound0 ∧ d1.bound1 = d.bound1 ∧
      d1.border0 = d.border0 ∧ d1.border1 = d.border1 ∧
      d1.inversion0 = d.inversion0 ∧ d1.inversion1 = d.inversion1 ∧
      d1.priority = d.priority ∧
      d1.reversed = false ∧ d1.paint = INF_VALUE ∧ d1.add = 0) ∧
    (SizeSumOK (pushdown d c0) ∧ BorderOK (pushdown d c0) ∧
      SizeSumOK (pushdown d c1) ∧ BorderOK (pushdown d c1)) ∧
    (ReachableIn root →
      AggregatesMatch (pushdown d c0) ∧ InversionFlagsMatch (pushdown d c0) ∧
      AggregatesMatch (pushdown d c1) ∧ InversionFlagsMatch (pushdown d c1)) := by
  have hall := all_subtree (reachable_sizeSum h) hs
  have hbor := all_subtree (reachable_border h) hs
  refine ⟨?_, ⟨d.cleared, push_node d c0 c1, rfl, rfl, rfl, rfl, rfl, rfl, rfl, rfl, rfl, rfl,
    rfl, rfl, rfl⟩, ⟨sizeSumOK_root (allSizeSum_pushdown d hall.2.1),
    borderOK_root (allBorder_pushdown d hbor.2.1),
    sizeSumOK_root (allSizeSum_pushdown d hall.2.2),
    borderOK_root (allBorder_pushdown d hbor.2.2)⟩, ?_⟩
  · rw [print_eq, print_eq, materialize_push]
  · intro hin
    have hg := all_subtree (reachableIn_good hin) hs
    have g0 := allGood_pushdown d hg.2.1
    have g1 := allGood_pushdown d hg.2.2
    exact ⟨aggregatesMatch_root (allGood_aggregatesMatch _ g0),
      inversionFlagsMatch_root (allGood_inversionFlagsMatch g0),
      aggregatesMatch_root (allGood_aggregatesMatch _ g1),
      inversionFlagsMatch_root (allGood_inversionFlagsMatch g1)⟩

theorem reachableIn_examplePending : ReachableIn examplePending :=
  ReachableIn.step reachableIn_exampleThree (Step.add _ 7 0 2) (by unfold InRange; decide)

theorem subtree_examplePending :
    Link.Subtree (node examplePendingFields null examplePendingLeaf) examplePending := by
  have e : examplePending = node
      { value := 10, bound0 := 8, bound1 := 10, border0 := 8, border1 := 10,
        paint := INF_VALUE, add := 0, sum := 27, priority := 9, size := 3, reversed := false,
        inversion0 := true, inversion1 := false }
      (node examplePendingFields null examplePendingLeaf) null := by decide
  rw [e]
  exact Link.Subtree.child0 _ _ _ (Link.Subtree.root _)

theorem push_correct_witness :
    (Reachable examplePending ∧
      Link.Subtree (node examplePendingFields null examplePendingLeaf) examplePending) ∧
    print_ (push_ (node examplePendingFields null examplePendingLeaf)) =
      print_ (node examplePendingFields null examplePendingLeaf) ∧
    (∃ d1 : Node, push_ (node examplePendingFields null examplePendingLeaf) =
        node d1 (pushdown examplePendingFields null)
          (pushdown examplePendingFields examplePendingLeaf) ∧
      d1.value = examplePendingFields.value ∧ d1.size = examplePendingFields.size ∧
      d1.sum = examplePendingFields.sum ∧
      d1.bound0 = examplePendingFields.bound0 ∧ d1.bound1 = examplePendingFields.bound1 ∧
      d1.border0 = examplePendingFields.border0 ∧ d1.border1 = examplePendingFields.border1 ∧
      d1.inversion0 = examplePendingFields.inversion0 ∧
      d1.inversion1 = examplePendingFields.inversion1 ∧
      d1.priority = examplePendingFields.priority ∧
      d1.reversed = false ∧ d1.paint = INF_VALUE ∧ d1.add = 0) ∧
    (SizeSumOK (pushdown examplePendingFields null) ∧
      BorderOK (pushdown examplePendingFields null) ∧
      SizeSumOK (pushdown examplePendingFields examplePendingLeaf) ∧
      BorderOK (pushdown examplePendingFields examplePendingLeaf)) ∧
    (ReachableIn examplePending →
      AggregatesMatch (pushdown examplePendingFields null) ∧
      InversionFlagsMatch (pushdown examplePendingFields null) ∧
      AggregatesMatch (pushdown examplePendingFields examplePendingLeaf) ∧
      InversionFlagsMatch (pushdown examplePendingFields examplePendingLeaf)) :=
  ⟨⟨reachableIn_reachable reachableIn_examplePending, subtree_examplePending⟩,
    push_correct examplePending (reachableIn_reachable reachableIn_examplePending)
      examplePendingFields null examplePendingLeaf subtree_examplePending⟩

theorem reachable_exampleStaleBelow : Reachable exampleStaleBelow :=
  Reachable.step (Reachable.step (Reachable.step (Reachable.step Reachable.empty
    (Step.insert null (-300000000000001) 0 5)) (Step.insert _ (-300000000000002) 1 1))
    (Step.insert _ (-300000000000000) 2 9)) (Step.add _ 300000000000000 0 2)

theorem aggregatesMatch_bound_mem_max {t : Link} (h : AggregatesMatch t)
    (hn : t.nonnull = true) : subtree_bound_ t true ∈ print_ t := by
  cases t with
  | null => exact absurd hn (by decide)
  | node d c0 c1 =>
    obtain ⟨-, -, -, -, hmax, -⟩ := h
    exact (List.maximum_eq_coe_iff.mp hmax).1

/-- C25 as stated fails on reachable treaps that once held values outside the sentinels.
On the root of `exampleStale` (once above `INF_VALUE`, sequence `[1, 2, 0]`), after `push_`
the left child has the content `[1, 2]` but the cached `bound[0] = -2 * 10^14` and the
descent flag set; on the root of `exampleStaleBelow` (once below `-INF_VALUE`, sequence
`[-1, -2, 0]`) the left child has the content `[-1, -2]` but the cached
`bound[1] = 2 * 10^14` and the ascent flag set. -/
theorem push_children_counterexample :
    (Reachable exampleStale ∧ exampleStale.nonnull = true ∧
      print_ ((push_ exampleStale).child false) = [1, 2] ∧
      subtree_bound_ ((push_ exampleStale).child false) false = -200000000000000 ∧
      has_inversion_ ((push_ exampleStale).child false) true = true ∧
      ¬ AggregatesMatch ((push_ exampleStale).child false)) ∧
    (Reachable exampleStaleBelow ∧ exampleStaleBelow.nonnull = true ∧
      print_ ((push_ exampleStaleBelow).child false) = [-1, -2] ∧
      subtree_bound_ ((push_ exampleStaleBelow).child false) true = 200000000000000 ∧
      has_inversion_ ((push_ exampleStaleBelow).child false) false = true ∧
      ¬ AggregatesMatch ((push_ exampleStaleBelow).child false)) :=
  ⟨⟨reachable_exampleStale, by decide, by decide, by decide, by decide,
      fun h => absurd (aggregatesMatch_bound_mem h (by decide)) (by decide)⟩,
    ⟨reachable_exampleStaleBelow, by decide, by decide, by decide, by decide,
      fun h => absurd (aggregatesMatch_bound_mem_max h (by decide)) (by decide)⟩⟩

/-! ## Every subtree of an in-range state is in range -/

theorem rangeOK_root {t : Link} (h : Link.All RangeOK t) : RangeOK t := by
  cases t with
  | null => exact inRange_nil
  | node d c0 c1 => exact h.1

theorem all_of_root_below {P : Link → Prop} {t : Link} (h1 : P t) (h2 : Link.AllBelow P t) :
    Link.All P t := by
  cases t with
  | null => trivial
  | node d c0 c1 => exact ⟨h1, h2.1, h2.2⟩

theorem tagStable_allBelow (P : Link → Prop) : TagStable (Link.AllBelow P) where
  rev := fun t h => by
    cases t with
    | null => trivial
    | node d a b => exact ⟨h.2, h.1⟩
  paint := fun x t _ h => by
    cases t with
    | null => trivial
    | node d a b => exact h
  add := fun x t h => by
    cases t with
    | null => trivial
    | node d a b => exact h

theorem inRange_reverse {m : List Int} (h : InRange m) : InRange m.reverse :=
  fun v hv => h v (List.mem_reverse.mp hv)

theorem allRange_reverse {t : Link} (h : Link.All RangeOK t) :
    Link.All RangeOK (subtree_reverse_ t) := by
  refine all_of_root_below ?_ ((tagStable_allBelow RangeOK).rev _ (All.below h))
  show InRange (materialize (subtree_reverse_ t))
  rw [materialize_reverse]
  exact inRange_reverse (rangeOK_root h)

theorem allRange_pushed (d : Node) (c0 c1 : Link) (h : Link.All RangeOK (node d c0 c1)) :
    Link.All RangeOK (node d.cleared (pushdown d c0) (pushdown d c1)) := by
  have hr : InRange (materialize (node d c0 c1)) := h.1
  have hr0 := hr
  rw [materialize_node_pushed] at hr
  obtain ⟨r0, r2⟩ := inRange_append.mp hr
  obtain ⟨-, r1⟩ := inRange_cons.mp r2
  refine ⟨?_, ?_, ?_⟩
  · show InRange (materialize (node d.cleared (pushdown d c0) (pushdown d c1)))
    rw [materialize_pushed]
    exact hr0
  · exact all_of_root_below r0 (pushdown_of (tagStable_allBelow RangeOK) d (All.below h.2.1))
  · exact all_of_root_below r1 (pushdown_of (tagStable_allBelow RangeOK) d (All.below h.2.2))

theorem allRange_update (d : Node) {a b : Link} (ha : Link.All RangeOK a)
    (hb : Link.All RangeOK b) (hr : InRange (materialize a ++ d.value :: materialize b)) :
    Link.All RangeOK (update_ (node d.cleared a b)) := by
  have hm := materialize_update (node d.cleared a b)
  obtain ⟨d5, e, -⟩ := update_fields d.cleared a b
  rw [e] at hm ⊢
  refine ⟨?_, ha, hb⟩
  show InRange (materialize (node d5 a b))
  rw [hm, materialize_cleared]
  exact hr

theorem allRange_rebuild {t : Link} (h : Link.All RangeOK t) :
    Link.All RangeOK (update_ (push_ t)) := by
  cases t with
  | null => trivial
  | node d c0 c1 =>
    have g := allRange_pushed d c0 c1 h
    rw [push_node]
    refine allRange_update d g.2.1 g.2.2 ?_
    rw [← materialize_node_pushed]
    exact h.1

theorem mergeAux_range (fuel : Nat) : ∀ l r : Link, l.count + r.count ≤ fuel →
    Link.All RangeOK l → Link.All RangeOK r → Link.All RangeOK (mergeAux fuel l r) := by
  induction fuel with
  | zero =>
    intro l r h hl hr
    cases l with
    | null => rw [mergeAux_null_left]; exact allRange_rebuild hr
    | node d c0 c1 => simp [Link.count] at h
  | succ n ih =>
    intro l r h hl hr
    cases l with
    | null => rw [mergeAux_null_left]; exact allRange_rebuild hr
    | node dl l0 l1 =>
      cases r with
      | null => rw [mergeAux_null_right]; exact allRange_rebuild hl
      | node dr r0 r1 =>
        have rl0 : InRange (materialize (node dl l0 l1)) := hl.1
        have rr0 : InRange (materialize (node dr r0 r1)) := hr.1
        have rl := rl0
        have rr := rr0
        rw [materialize_node_pushed] at rl rr
        simp only [Link.count] at h
        have gL := allRange_pushed dl l0 l1 hl
        have gR := allRange_pushed dr r0 r1 hr
        obtain ⟨rl1, rl2⟩ := inRange_append.mp rl
        obtain ⟨rl3, rl4⟩ := inRange_cons.mp rl2
        obtain ⟨rr1, rr2⟩ := inRange_append.mp rr
        unfold mergeAux
        simp only [push_node]
        split_ifs with hp
        · have hc : (pushdown dl l1).count + (node dr.cleared (pushdown dr r0)
              (pushdown dr r1)).count ≤ n := by
            simp [Link.count, count_pushdown]; omega
          refine allRange_update dl gL.2.1 (ih _ _ hc gL.2.2 gR) ?_
          rw [mergeAux_materialize _ _ _ hc, materialize_pushed]
          exact inRange_append.mpr ⟨rl1, inRange_cons.mpr ⟨rl3, inRange_append.mpr ⟨rl4, rr0⟩⟩⟩
        · have hc : (node dl.cleared (pushdown dl l0) (pushdown dl l1)).count +
              (pushdown dr r0).count ≤ n := by
            simp [Link.count, count_pushdown]; omega
          refine allRange_update dr (ih _ _ hc gL gR.2.1) gR.2.2 ?_
          rw [mergeAux_materialize _ _ _ hc, materialize_pushed]
          exact inRange_append.mpr ⟨inRange_append.mpr ⟨rl0, rr1⟩, rr2⟩

theorem merge_range {l r : Link} (hl : Link.All RangeOK l) (hr : Link.All RangeOK r) :
    Link.All RangeOK (merge_ l r) :=
  mergeAux_range _ l r (le_refl _) hl hr

theorem splitAux_range (fuel : Nat) : ∀ (t : Link) (key cur_key : Nat), t.count ≤ fuel →
    Link.All SizeSumOK t → Link.All RangeOK t →
    Link.All RangeOK (splitAux fuel t key cur_key).1 ∧
    Link.All RangeOK (splitAux fuel t key cur_key).2 := by
  induction fuel with
  | zero =>
    intro t key cur h _ _
    cases t with
    | null => unfold splitAux; simp [push_null, Link.All]
    | node d c0 c1 => simp [Link.count] at h
  | succ n ih =>
    intro t key cur h hall hR
    cases t with
    | null => unfold splitAux; simp [push_null, Link.All]
    | node d c0 c1 =>
      simp only [Link.count] at h
      have g := allRange_pushed d c0 c1 hR
      have s0 := allSizeSum_pushdown d hall.2.1
      have s1 := allSizeSum_pushdown d hall.2.2
      have hc0 : (pushdown d c0).count ≤ n := by rw [count_pushdown]; omega
      have hc1 : (pushdown d c1).count ≤ n := by rw [count_pushdown]; omega
      have hr : InRange (materialize (node d c0 c1)) := hR.1
      rw [materialize_node_pushed] at hr
      obtain ⟨r0, r2⟩ := inRange_append.mp hr
      obtain ⟨rv, r1⟩ := inRange_cons.mp r2
      unfold splitAux
      simp only [push_node]
      split_ifs with hk
      · obtain ⟨a1, a2⟩ := ih (pushdown d c0) key cur hc0 s0 g.2.1
        obtain ⟨-, e2, -, -⟩ := splitAux_spec n (pushdown d c0) key cur hc0 s0
        refine ⟨a1, allRange_update d a2 g.2.2 ?_⟩
        rw [e2]
        exact inRange_append.mpr ⟨inRange_drop r0 _, r2⟩
      · obtain ⟨a1, a2⟩ := ih (pushdown d c1) key _ hc1 s1 g.2.2
        obtain ⟨e1, -, -, -⟩ := splitAux_spec n (pushdown d c1) key
          (cur + subtree_size_ (pushdown d c0) + 1) hc1 s1
        refine ⟨allRange_update d g.2.1 a1 ?_, a2⟩
        rw [e1]
        exact inRange_append.mpr ⟨r0, inRange_cons.mpr ⟨rv, inRange_take r1 _⟩⟩

theorem split_range (t : Link) (key : Nat) (hall : Link.All SizeSumOK t)
    (hR : Link.All RangeOK t) :
    Link.All RangeOK (split_ t key 0).1 ∧ Link.All RangeOK (split_ t key 0).2 :=
  splitAux_range _ t key 0 (le_refl _) hall hR

theorem get_inversionAux_range (type : Bool) (fuel : Nat) : ∀ (t : Link) (cur_key : Nat),
    Link.All SizeSumOK t → Link.All RangeOK t →
    Link.All RangeOK (get_inversionAux fuel t type cur_key).2 := by
  induction fuel with
  | zero =>
    intro t cur _ hR
    cases t with
    | null => trivial
    | node d c0 c1 =>
      unfold get_inversionAux
      simp only [push_node]
      exact allRange_pushed d c0 c1 hR
  | succ n ih =>
    intro t cur hall hR
    cases t with
    | null => trivial
    | node d c0 c1 =>
      have g := allRange_pushed d c0 c1 hR
      have s0 := allSizeSum_pushdown d hall.2.1
      have s1 := allSizeSum_pushdown d hall.2.2
      have hroot : InRange (materialize (node d.cleared (pushdown d c0) (pushdown d c1))) := g.1
      rw [materialize_cleared] at hroot
      unfold get_inversionAux
      simp only [push_node]
      split_ifs
      · exact g
      · have i1 := ih (pushdown d c1) (cur + subtree_size_ (pushdown d c0) + 1) s1 g.2.2
        obtain ⟨-, i2⟩ := get_inversionAux_keeps tagStable_sizeSum sizeSum_pushed sizeSum_congr
          type n (pushdown d c1) (cur + subtree_size_ (pushdown d c0) + 1) s1
        refine ⟨?_, g.2.1, i1⟩
        show InRange (materialize (node d.cleared _ _))
        rw [materialize_cleared, i2]
        exact hroot
      · exact g
      · exact g
      · have i1 := ih (pushdown d c0) cur s0 g.2.1
        obtain ⟨-, i2⟩ := get_inversionAux_keeps tagStable_sizeSum sizeSum_pushed sizeSum_congr
          type n (pushdown d c0) cur s0
        refine ⟨?_, i1, g.2.2⟩
        show InRange (materialize (node d.cleared _ _))
        rw [materialize_cleared, i2]
        exact hroot

theorem get_nearestAux_range (val : Int) (type : Bool) (fuel : Nat) :
    ∀ (t : Link) (cur_key : Nat) (r : Nat × Link), Link.All SizeSumOK t →
      Link.All RangeOK t → get_nearestAux fuel t val type cur_key = some r →
      Link.All RangeOK r.2 := by
  induction fuel with
  | zero =>
    intro t cur r _ _ hr
    cases t with
    | null => simp [get_nearestAux, push_null] at hr
    | node d c0 c1 =>
      unfold get_nearestAux at hr
      simp [push_node] at hr
  | succ n ih =>
    intro t cur r hall hR hr
    cases t with
    | null => simp [get_nearestAux, push_null] at hr
    | node d c0 c1 =>
      have g := allRange_pushed d c0 c1 hR
      have s0 := allSizeSum_pushdown d hall.2.1
      have s1 := allSizeSum_pushdown d hall.2.2
      have hroot : InRange (materialize (node d.cleared (pushdown d c0) (pushdown d c1))) := g.1
      rw [materialize_cleared] at hroot
      unfold get_nearestAux at hr
      simp only [push_node] at hr
      split_ifs at hr
      · cases hrec : get_nearestAux n (pushdown d c1) val type
            (cur + subtree_size_ (pushdown d c0) + 1) with
        | none => rw [hrec] at hr; simp at hr
        | some r1 =>
          rw [hrec] at hr
          simp only [Option.some.injEq] at hr
          subst hr
          have i1 := ih _ _ _ s1 g.2.2 hrec
          obtain ⟨-, i2⟩ := get_nearestAux_keeps tagStable_sizeSum sizeSum_pushed
            sizeSum_congr val type n _ _ _ s1 hrec
          refine ⟨?_, g.2.1, i1⟩
          show InRange (materialize (node d.cleared _ _))
          rw [materialize_cleared, i2]
          exact hroot
      · simp only [Option.some.injEq] at hr
        subst hr
        exact g
      · cases hrec : get_nearestAux n (pushdown d c0) val type cur with
        | none => rw [hrec] at hr; simp at hr
        | some r1 =>
          rw [hrec] at hr
          simp only [Option.some.injEq] at hr
          subst hr
          have i1 := ih _ _ _ s0 g.2.1 hrec
          obtain ⟨-, i2⟩ := get_nearestAux_keeps tagStable_sizeSum sizeSum_pushed
            sizeSum_congr val type n _ _ _ s0 hrec
          refine ⟨?_, i1, g.2.2⟩
          show InRange (materialize (node d.cleared _ _))
          rw [materialize_cleared, i2]
          exact hroot

/-! ## The range invariant on reachable states -/

theorem link_permute_range (t t1 : Link) (q : QueryType) (hall : Link.All SizeSumOK t)
    (hR : Link.All RangeOK t) (hp : Link.permute t q = some t1) : Link.All RangeOK t1 := by
  unfold Link.permute at hp
  obtain ⟨g1, -⟩ := get_inversionAux_keeps tagStable_sizeSum sizeSum_pushed sizeSum_congr
    q.index t.count t 0 hall
  have k1 := get_inversionAux_range q.index t.count t 0 hall hR
  simp only [get_inversion_] at hp
  split_ifs at hp with hk
  · simp only [Option.some.injEq] at hp
    subst hp
    exact allRange_reverse k1
  · obtain ⟨-, -, a1, a2⟩ := split_spec _ (get_inversionAux t.count t q.index 0).1 g1
    obtain ⟨ra1, ra2⟩ := split_range _ (get_inversionAux t.count t q.index 0).1 g1 k1
    obtain ⟨-, -, b1, b2⟩ := split_spec _ 1 a2
    obtain ⟨rb1, rb2⟩ := split_range _ 1 a2 ra2
    generalize (split_ (get_inversionAux t.count t q.index 0).2
      (get_inversionAux t.count t q.index 0).1 0).1 = t_left at hp a1 ra1
    generalize (split_ (split_ (get_inversionAux t.count t q.index 0).2
      (get_inversionAux t.count t q.index 0).1 0).2 1 0) = s2 at hp b1 b2 rb1 rb2
    obtain ⟨capture, suffix⟩ := s2
    simp only at hp b1 b2 rb1 rb2
    cases capture with
    | null => simp at hp
    | node dcap cc0 cc1 =>
      simp only at hp
      cases hgn : get_nearest_ suffix dcap.value q.index 0 with
      | none => rw [hgn] at hp; simp at hp
      | some gn =>
        rw [hgn] at hp
        simp only [Option.some.injEq] at hp
        subst hp
        obtain ⟨n1, -⟩ := get_nearestAux_keeps tagStable_sizeSum sizeSum_pushed sizeSum_congr
          dcap.value q.index suffix.count suffix 0 gn b2 hgn
        have rn1 := get_nearestAux_range dcap.value q.index suffix.count suffix 0 gn b2 rb2 hgn
        obtain ⟨-, -, c1, c2⟩ := split_spec gn.2 gn.1 n1
        obtain ⟨rc1, rc2⟩ := split_range gn.2 gn.1 n1 rn1
        obtain ⟨rd1, rd2⟩ := split_range _ 1 c2 rc2
        exact merge_range (merge_range ra1 rd1)
          (allRange_reverse (merge_range (merge_range rc1 rb1) rd2))

theorem ctor_range (t : Link) (l r : Nat) (hall : Link.All SizeSumOK t)
    (hR : Link.All RangeOK t) :
    Link.All RangeOK (SegmentSplitter.ctor t l r).left_part ∧
    Link.All RangeOK (SegmentSplitter.ctor t l r).mid ∧
    Link.All RangeOK (SegmentSplitter.ctor t l r).right_part := by
  obtain ⟨-, -, -, a2⟩ := split_spec t l hall
  obtain ⟨r1, r2⟩ := split_range t l hall hR
  obtain ⟨q1, q2⟩ := split_range _ (size_add (size_sub r l) 1) a2 r2
  exact ⟨r1, q1, q2⟩

theorem dtor_range (s : SegmentSplitter) (h1 : Link.All RangeOK s.left_part)
    (h2 : Link.All RangeOK s.mid) (h3 : Link.All RangeOK s.right_part) :
    Link.All RangeOK s.dtor :=
  merge_range (merge_range h1 h2) h3

theorem perform_operation_range {α : Type} (t : Link) (l r : Nat)
    (operate : Link → α × Link) (hall : Link.All SizeSumOK t) (hR : Link.All RangeOK t)
    (hop : ∀ m, Link.All RangeOK m → Link.AllBelow RangeOK (operate m).2)
    (hr1 : InRange (materialize (perform_operation t l r operate).2)) :
    Link.All RangeOK (perform_operation t l r operate).2 := by
  obtain ⟨a1, a2, a3⟩ := ctor_range t l r hall hR
  have hm : InRange (materialize (operate (SegmentSplitter.ctor t l r).mid).2) := by
    have e := dtor_materialize { SegmentSplitter.ctor t l r with
      mid := (operate (SegmentSplitter.ctor t l r).mid).2 }
    have hr2 : InRange (materialize (SegmentSplitter.dtor { SegmentSplitter.ctor t l r with
      mid := (operate (SegmentSplitter.ctor t l r).mid).2 })) := hr1
    rw [e] at hr2
    exact (inRange_append.mp (inRange_append.mp hr2).1).2
  exact dtor_range { SegmentSplitter.ctor t l r with
    mid := (operate (SegmentSplitter.ctor t l r).mid).2 } a1
    (all_of_root_below hm (hop _ a2)) a3

theorem permute_range (t t1 : Link) (l r : Nat) (q : QueryType) (hall : Link.All SizeSumOK t)
    (hR : Link.All RangeOK t) (hp : permute t l r q = some t1) : Link.All RangeOK t1 := by
  obtain ⟨-, -, -, -, s2, -⟩ := ctor_spec t l r hall
  obtain ⟨a1, a2, a3⟩ := ctor_range t l r hall hR
  unfold permute at hp
  simp only at hp
  cases hm : Link.permute (SegmentSplitter.ctor t l r).mid q with
  | none => rw [hm] at hp; simp at hp
  | some mid =>
    rw [hm] at hp
    simp only [Option.some.injEq] at hp
    subst hp
    exact dtor_range { SegmentSplitter.ctor t l r with mid := mid } a1
      (link_permute_range _ mid q s2 a2 hm) a3

theorem step_range {t t1 : Link} (hall : Link.All SizeSumOK t) (hR : Link.All RangeOK t)
    (hs : Step t t1) (hr1 : InRange (materialize t1)) : Link.All RangeOK t1 := by
  cases hs with
  | insert x pos priority =>
    exact perform_operation_range t pos (size_sub pos 1) (fun _ => ((), create x priority))
      hall hR (fun _ _ => ⟨trivial, trivial⟩) hr1
  | remove pos =>
    exact perform_operation_range t pos pos (fun m => ((), Link.remove m)) hall hR
      (fun _ _ => trivial) hr1
  | get_sum l r =>
    exact perform_operation_range t l r (fun m => (subtree_sum_ m, m)) hall hR
      (fun _ hm => All.below hm) hr1
  | paint x l r =>
    exact perform_operation_range t l r (fun m => ((), subtree_paint_ m x)) hall hR
      (fun m hm => by
        cases m with
        | null => trivial
        | node d a b => exact ⟨hm.2.1, hm.2.2⟩) hr1
  | add x l r =>
    exact perform_operation_range t l r (fun m => ((), subtree_add_ m x)) hall hR
      (fun m hm => (tagStable_allBelow RangeOK).add x m (All.below hm)) hr1
  | permute _ l r q hp => exact permute_range t t1 l r q hall hR hp

theorem reachableIn_allRange {t : Link} (h : ReachableIn t) : Link.All RangeOK t := by
  induction h with
  | empty => trivial
  | step hprev hs hr ih =>
    rw [print_eq] at hr
    exact step_range (reachable_sizeSum (reachableIn_reachable hprev)) ih hs hr

/-! ## `split_` and `merge_` on the trees of a reachable treap -/

/-- C26 (amended): for every tree `t` of a reachable treap with sequence `m` and every
`k ≤ size(t)`, `split_(t, left, right, k)` with offset 0 yields trees whose sequences are
the first `k` elements of `m` and the remaining `size(t) - k` elements, in the same order,
with the cached `size`, `sum` and both borders of every node of both results consistent; on
a treap whose elements have always been strictly between `-INF_VALUE` and `INF_VALUE`, the
bounds and inversion flags of every node of both results are consistent as well. -/
theorem split_correct (root : Link) (h : Reachable root) (t : Link)
    (hs : Link.Subtree t root) (k : Nat) (hk : k ≤ subtree_size_ t) :
    print_ (split_ t k 0).1 = (print_ t).take k ∧
    print_ (split_ t k 0).2 = (print_ t).drop k ∧
    (print_ (split_ t k 0).1).length = k ∧
    (print_ (split_ t k 0).2).length = subtree_size_ t - k ∧
    Link.All SizeSumOK (split_ t k 0).1 ∧ Link.All SizeSumOK (split_ t k 0).2 ∧
    Link.All BorderOK (split_ t k 0).1 ∧ Link.All BorderOK (split_ t k 0).2 ∧
    (ReachableIn root →
      Link.All AggregatesMatch (split_ t k 0).1 ∧
      Link.All InversionFlagsMatch (split_ t k 0).1 ∧
      Link.All AggregatesMatch (split_ t k 0).2 ∧
      Link.All InversionFlagsMatch (split_ t k 0).2) := by
  have hall := all_subtree (reachable_sizeSum h) hs
  obtain ⟨e1, e2, a1, a2⟩ := split_spec t k hall
  have hsz := subtree_size_eq hall
  obtain ⟨b1, b2⟩ := split_border t k (all_subtree (reachable_border h) hs)
  rw [print_eq, print_eq, print_eq]
  refine ⟨e1, e2, ?_, ?_, a1, a2, b1, b2, ?_⟩
  · rw [e1, List.length_take]; omega
  · rw [e2, List.length_drop, hsz]
  · intro hin
    have hg := all_subtree (reachableIn_good hin) hs
    have hr := rangeOK_root (all_subtree (reachableIn_allRange hin) hs)
    obtain ⟨g1, g2⟩ := split_good t k hg hr
    exact ⟨allGood_aggregatesMatch _ g1, allGood_inversionFlagsMatch g1,
      allGood_aggregatesMatch _ g2, allGood_inversionFlagsMatch g2⟩

theorem split_correct_witness :
    (Reachable examplePending ∧
      Link.Subtree (node examplePendingFields null examplePendingLeaf) examplePending ∧
      1 ≤ subtree_size_ (node examplePendingFields null examplePendingLeaf)) ∧
    print_ (split_ (node examplePendingFields null examplePendingLeaf) 1 0).1 =
      (print_ (node examplePendingFields null examplePendingLeaf)).take 1 ∧
    print_ (split_ (node examplePendingFields null examplePendingLeaf) 1 0).2 =
      (print_ (node examplePendingFields null examplePendingLeaf)).drop 1 ∧
    (print_ (split_ (node examplePendingFields null examplePendingLeaf) 1 0).1).length = 1 ∧
    (print_ (split_ (node examplePendingFields null examplePendingLeaf) 1 0).2).length =
      subtree_size_ (node examplePendingFields null examplePendingLeaf) - 1 ∧
    Link.All SizeSumOK (split_ (node examplePendingFields null examplePendingLeaf) 1 0).1 ∧
    Link.All SizeSumOK (split_ (node examplePendingFields null examplePendingLeaf) 1 0).2 ∧
    Link.All BorderOK (split_ (node examplePendingFields null examplePendingLeaf) 1 0).1 ∧
    Link.All BorderOK (split_ (node examplePendingFields null examplePendingLeaf) 1 0).2 ∧
    (ReachableIn examplePending →
      Link.All AggregatesMatch
        (split_ (node examplePendingFields null examplePendingLeaf) 1 0).1 ∧
      Link.All InversionFlagsMatch
        (split_ (node examplePendingFields null examplePendingLeaf) 1 0).1 ∧
      Link.All AggregatesMatch
        (split_ (node examplePendingFields null examplePendingLeaf) 1 0).2 ∧
      Link.All InversionFlagsMatch
        (split_ (node examplePendingFields null examplePendingLeaf) 1 0).2) :=
  ⟨⟨reachableIn_reachable reachableIn_examplePending, subtree_examplePending, by decide⟩,
    split_correct examplePending (reachableIn_reachable reachableIn_examplePending)
      (node examplePendingFields null examplePendingLeaf) subtree_examplePending 1
      (by decide)⟩

/-- C26 as stated fails on reachable treaps that once held values outside the sentinels.
`split_` of `exampleStale` (once above `INF_VALUE`, sequence `[1, 2, 0]`) at `k = 3`
returns as left part a tree with that sequence whose root caches `bound[0] = -2 * 10^14`
and whose left child, with the sequence `[1, 2]`, has the descent flag set; `split_` of
`exampleStaleBelow` (once below `-INF_VALUE`, sequence `[-1, -2, 0]`) at `k = 3` returns a
tree whose root caches `bound[1] = 2 * 10^14` and whose left child, with the sequence
`[-1, -2]`, has the ascent flag set. -/
theorem split_aggregates_counterexample :
    (Reachable exampleStale ∧ Link.Subtree exampleStale exampleStale ∧
      3 ≤ subtree_size_ exampleStale ∧
      print_ (split_ exampleStale 3 0).1 = [1, 2, 0] ∧
      subtree_bound_ (split_ exampleStale 3 0).1 false = -200000000000000 ∧
      ¬ AggregatesMatch (split_ exampleStale 3 0).1 ∧
      print_ ((split_ exampleStale 3 0).1.child false) = [1, 2] ∧
      has_inversion_ ((split_ exampleStale 3 0).1.child false) true = true) ∧
    (Reachable exampleStaleBelow ∧ Link.Subtree exampleStaleBelow exampleStaleBelow ∧
      3 ≤ subtree_size_ exampleStaleBelow ∧
      print_ (split_ exampleStaleBelow 3 0).1 = [-1, -2, 0] ∧
      subtree_bound_ (split_ exampleStaleBelow 3 0).1 true = 200000000000000 ∧
      ¬ AggregatesMatch (split_ exampleStaleBelow 3 0).1 ∧
      print_ ((split_ exampleStaleBelow 3 0).1.child false) = [-1, -2] ∧
      has_inversion_ ((split_ exampleStaleBelow 3 0).1.child false) false = true) :=
  ⟨⟨reachable_exampleStale, Link.Subtree.root _, by decide, by decide, by decide,
      fun h => absurd (aggregatesMatch_bound_mem h (by decide)) (by decide),
      by decide, by decide⟩,
    ⟨reachable_exampleStaleBelow, Link.Subtree.root _, by decide, by decide, by decide,
      fun h => absurd (aggregatesMatch_bound_mem_max h (by decide)) (by decide),
      by decide, by decide⟩⟩

theorem merge_null_left (r : Link) : merge_ null r = update_ (push_ r) :=
  mergeAux_null_left _ r

theorem merge_null_right (l : Link) : merge_ l null = update_ (push_ l) := by
  cases l with
  | null => exact mergeAux_null_left _ null
  | node d a b => exact mergeAux_null_right _ d a b

theorem merge_node_node (dl dr : Node) (l0 l1 r0 r1 : Link) :
    (dl.priority > dr.priority → ∃ (d1 : Node) (b : Link),
      merge_ (node dl l0 l1) (node dr r0 r1) = node d1 (pushdown dl l0) b ∧
      d1.value = dl.value ∧ d1.priority = dl.priority) ∧
    (¬ dl.priority > dr.priority → ∃ (d1 : Node) (a : Link),
      merge_ (node dl l0 l1) (node dr r0 r1) = node d1 a (pushdown dr r1) ∧
      d1.value = dr.value ∧ d1.priority = dr.priority) := by
  have e : merge_ (node dl l0 l1) (node dr r0 r1) =
      mergeAux ((l0.count + l1.count + 1 + (r0.count + r1.count)) + 1)
        (node dl l0 l1) (node dr r0 r1) := rfl
  rw [e]
  unfold mergeAux
  simp only [push_node]
  constructor
  · intro hp
    have hp1 : dl.cleared.priority > dr.cleared.priority := hp
    rw [if_pos hp1]
    obtain ⟨d5, e5, -, -, -, -, hv, hq, -⟩ := update_fields dl.cleared (pushdown dl l0)
      (mergeAux (l0.count + l1.count + 1 + (r0.count + r1.count)) (pushdown dl l1)
        (node dr.cleared (pushdown dr r0) (pushdown dr r1)))
    exact ⟨d5, _, e5, hv, hq⟩
  · intro hp
    have hp1 : ¬ dl.cleared.priority > dr.cleared.priority := hp
    rw [if_neg hp1]
    obtain ⟨d5, e5, -, -, -, -, hv, hq, -⟩ := update_fields dr.cleared
      (mergeAux (l0.count + l1.count + 1 + (r0.count + r1.count))
        (node dl.cleared (pushdown dl l0) (pushdown dl l1)) (pushdown dr r0)) (pushdown dr r1)
    exact ⟨d5, _, e5, hv, hq⟩

/-- C27: for all trees `left` and `right` (either may be empty), the sequence of
`merge_(t, left, right)` is the sequence of `left` followed by that of `right`; when one
input is empty the result is the other input (its root pushed and recomputed) with its
sequence unchanged; when both are non-empty the new root is the root of `left` if its
priority is strictly higher and the root of `right` otherwise, so its priority is the higher
of the two, and it keeps its outer child. -/
theorem merge_correct (left right : Link) :
    print_ (merge_ left right) = print_ left ++ print_ right ∧
    (merge_ null right = update_ (push_ right) ∧ print_ (merge_ null right) = print_ right) ∧
    (merge_ left null = update_ (push_ left) ∧ print_ (merge_ left null) = print_ left) ∧
    (left.nonnull = true → right.nonnull = true →
      (merge_ left right).priority = max left.priority right.priority ∧
      (left.priority > right.priority →
        (merge_ left right).priority = left.priority ∧
        (merge_ left right).value = left.value ∧
        (merge_ left right).child false = (push_ left).child false) ∧
      (¬ left.priority > right.priority →
        (merge_ left right).priority = right.priority ∧
        (merge_ left right).value = right.value ∧
        (merge_ left right).child true = (push_ right).child true)) := by
  refine ⟨?_, ⟨merge_null_left right, ?_⟩, ⟨merge_null_right left, ?_⟩, ?_⟩
  · rw [print_eq, print_eq, print_eq, merge_materialize]
  · rw [print_eq, print_eq, merge_materialize]; rfl
  · rw [print_eq, print_eq, merge_materialize]; simp [materialize]
  · intro hl hr
    cases left with
    | null => exact absurd hl (by decide)
    | node dl l0 l1 =>
      cases right with
      | null => exact absurd hr (by decide)
      | node dr r0 r1 =>
        obtain ⟨m1, m2⟩ := merge_node_node dl dr l0 l1 r0 r1
        have c1 : dl.priority > dr.priority →
            (merge_ (node dl l0 l1) (node dr r0 r1)).priority = dl.priority ∧
            (merge_ (node dl l0 l1) (node dr r0 r1)).value = dl.value ∧
            (merge_ (node dl l0 l1) (node dr r0 r1)).child false =
              (push_ (node dl l0 l1)).child false := by
          intro hp
          obtain ⟨d1, b, e, hv, hq⟩ := m1 hp
          rw [e, push_node]
          exact ⟨hq, hv, rfl⟩
        have c2 : ¬ dl.priority > dr.priority →
            (merge_ (node dl l0 l1) (node dr r0 r1)).priority = dr.priority ∧
            (merge_ (node dl l0 l1) (node dr r0 r1)).value = dr.value ∧
            (merge_ (node dl l0 l1) (node dr r0 r1)).child true =
              (push_ (node dr r0 r1)).child true := by
          intro hp
          obtain ⟨d1, a, e, hv, hq⟩ := m2 hp
          rw [e, push_node]
          exact ⟨hq, hv, rfl⟩
        refine ⟨?_, c1, c2⟩
        show _ = max dl.priority dr.priority
        by_cases hp : dl.priority > dr.priority
        · rw [(c1 hp).1]; exact (max_eq_left (Nat.le_of_lt hp)).symm
        · rw [(c2 hp).1]; exact (max_eq_right (Nat.le_of_not_lt hp)).symm

theorem merge_correct_witness :
    (exampleTwo.nonnull = true ∧ exampleThree.nonnull = true ∧
      ¬ exampleTwo.priority > exampleThree.priority) ∧
    print_ (merge_ exampleTwo exampleThree) = print_ exampleTwo ++ print_ exampleThree ∧
    (merge_ exampleTwo exampleThree).priority = max exampleTwo.priority exampleThree.priority ∧
    (merge_ exampleTwo exampleThree).priority = exampleThree.priority ∧
    (merge_ exampleTwo exampleThree).value = exampleThree.value ∧
    (merge_ exampleTwo exampleThree).child true = (push_ exampleThree).child true :=
  ⟨by decide, (merge_correct exampleTwo exampleThree).1,
    ((merge_correct exampleTwo exampleThree).2.2.2 (by decide) (by decide)).1,
    ((merge_correct exampleTwo exampleThree).2.2.2 (by decide) (by decide)).2.2 (by decide)⟩

/-! ## Positions of adjacent pairs -/

theorem pairwise_getElem_some {R : Int → Int → Prop} {l : List Int} (h : l.Pairwise R)
    {i j : Nat} {x y : Int} (hij : i < j) (hx : l[i]? = some x) (hy : l[j]? = some y) :
    R x y := by
  obtain ⟨hi, rfl⟩ := List.getElem?_eq_some.mp hx
  obtain ⟨hj, rfl⟩ := List.getElem?_eq_some.mp hy
  exact List.pairwise_iff_getElem.mp h i j hi hj hij

theorem adjacent_of_decomp (A S : List Int) (a b : Int) :
    (A ++ a :: b :: S)[A.length]? = some a ∧ (A ++ a :: b :: S)[A.length + 1]? = some b := by
  constructor
  · rw [List.getElem?_append_right (le_refl _), Nat.sub_self]; rfl
  · rw [List.getElem?_append_right (Nat.le_succ _)]
    have e : A.length + 1 - A.length = 1 := by omega
    rw [e]; simp

theorem decomp_of_adjacent {m : List Int} {p : Nat} {a b : Int} (ha : m[p]? = some a)
    (hb : m[p + 1]? = some b) : ∃ A S, m = A ++ a :: b :: S ∧ A.length = p := by
  obtain ⟨hp, rfl⟩ := List.getElem?_eq_some.mp ha
  obtain ⟨hq, rfl⟩ := List.getElem?_eq_some.mp hb
  refine ⟨m.take p, m.drop (p + 1 + 1), ?_, ?_⟩
  · rw [← List.drop_eq_getElem_cons hq, ← List.drop_eq_getElem_cons hp,
      List.take_append_drop]
  · rw [List.length_take]; omega

theorem getElem_after (A S : List Int) (a b : Int) (q : Nat) (hq : A.length < q) :
    (A ++ a :: b :: S)[q]? = (b :: S)[q - A.length - 1]? := by
  rw [List.getElem?_append_right (Nat.le_of_lt hq)]
  have e : q - A.length = (q - A.length - 1) + 1 := by omega
  rw [e, List.getElem?_cons_succ]
  simp

theorem hasPivot_iff_not_pairwise (type : Bool) (m : List Int) :
    HasPivot type m ↔ ¬ m.Pairwise (fun a b => compare a b type = false) := by
  constructor
  · rintro ⟨p, a, b, ha, hb, hab⟩
    obtain ⟨A, S, e, -⟩ := decomp_of_adjacent ha hb
    exact not_pairwise_of_adjacent type e hab
  · intro hnp
    by_contra hno
    apply hnp
    apply pairwise_of_no_adjacent type
    intro A a b S e
    cases hc : compare a b type with
    | false => rfl
    | true =>
      obtain ⟨h1, h2⟩ := adjacent_of_decomp A S a b
      rw [← e] at h1 h2
      exact absurd ⟨A.length, a, b, h1, h2, hc⟩ hno

theorem largestPivot_of_decomp {type : Bool} {m A S : List Int} {a b : Int}
    (e : m = A ++ a :: b :: S) (hab : compare a b type = true)
    (hS : (b :: S).Pairwise (fun x y => compare x y type = false)) :
    LargestPivot type m A.length := by
  subst e
  obtain ⟨h1, h2⟩ := adjacent_of_decomp A S a b
  refine ⟨⟨a, b, h1, h2, hab⟩, ?_⟩
  intro q x y hq hx hy
  rw [getElem_after A S a b q hq] at hx
  rw [getElem_after A S a b (q + 1) (by omega)] at hy
  exact pairwise_getElem_some hS (by omega) hx hy

theorem good_of_match {t : Link} (h1 : AggregatesMatch t) (h2 : InversionFlagsMatch t) :
    Good t := by
  cases t with
  | null => exact ⟨⟨rfl, rfl⟩, trivial⟩
  | node d c0 c1 =>
    obtain ⟨hsize, -, hsum, hmin, hmax, hhead, hlast⟩ := h1
    obtain ⟨i0, i1⟩ := h2
    rw [print_eq] at hsize hsum hmin hmax hhead hlast i0 i1
    rw [hasAscent_iff_not_pairwise] at i0
    rw [hasDescent_iff_not_pairwise] at i1
    obtain ⟨m1, m2⟩ := List.minimum_eq_coe_iff.mp hmin
    obtain ⟨x1, x2⟩ := List.maximum_eq_coe_iff.mp hmax
    refine ⟨⟨hsize, hsum⟩, ?_, hhead, hlast, ?_⟩
    · intro type
      cases type with
      | false =>
        exact ⟨m1, fun v hv => (compare_false_eq_false v d.bound0).mpr (m2 v hv)⟩
      | true =>
        exact ⟨x1, fun v hv => (compare_true_eq_false v d.bound1).mpr (x2 v hv)⟩
    · intro type
      cases type with
      | false => exact i0
      | true => exact i1

theorem allGood_of_match : ∀ t : Link, Link.All AggregatesMatch t →
    Link.All InversionFlagsMatch t → Link.All Good t
  | null, _, _ => trivial
  | node _ c0 c1, h1, h2 =>
    ⟨good_of_match h1.1 h2.1, allGood_of_match c0 h1.2.1 h2.2.1,
     allGood_of_match c1 h1.2.2 h2.2.2⟩

theorem inf_index_lt_size_mod : INF_INDEX < SIZE_MOD := by
  unfold INF_INDEX SIZE_MOD; decide

/-- C28: for every tree `t` with consistent aggregates and inversion flags, fewer than
`10^9` nodes and sequence `m`, and for both types, `get_inversion_(t, type)` with offset 0
returns `INF_INDEX` exactly when `m` has no adjacent pair in the order of `type`
(`m[p] < m[p+1]` for type 0, `m[p] > m[p+1]` for type 1); otherwise it returns the largest
position `p` of such a pair, and `split_` at `p` followed by splitting off one element
isolates exactly `m[p]` (with the first `p` elements to its left), on the tree as
`get_inversion_` leaves it as well as on `t`. -/
theorem get_inversion_correct (t : Link) (hagg : Link.All AggregatesMatch t)
    (hinv : Link.All InversionFlagsMatch t) (hn : t.count < INF_INDEX) (type : Bool) :
    ((get_inversion_ t type 0).1 = INF_INDEX ↔ ¬ HasPivot type (print_ t)) ∧
    (HasPivot type (print_ t) →
      LargestPivot type (print_ t) (get_inversion_ t type 0).1 ∧
      ∃ a, (print_ t)[(get_inversion_ t type 0).1]? = some a ∧
        print_ (split_ (get_inversion_ t type 0).2 (get_inversion_ t type 0).1 0).1 =
          (print_ t).take (get_inversion_ t type 0).1 ∧
        print_ (split_ (split_ (get_inversion_ t type 0).2
          (get_inversion_ t type 0).1 0).2 1 0).1 = [a] ∧
        print_ (split_ (split_ t (get_inversion_ t type 0).1 0).2 1 0).1 = [a]) := by
  have hall := allGood_of_match t hagg hinv
  have hss := allGood_sizeSum hall
  have hsz : t.count < SIZE_MOD := lt_trans hn inf_index_lt_size_mod
  obtain ⟨s1, s2⟩ := get_inversion_spec type t hall hsz
  obtain ⟨k1, k2⟩ := get_inversionAux_keeps tagStable_sizeSum sizeSum_pushed sizeSum_congr
    type t.count t 0 hss
  have k2a : materialize (get_inversion_ t type 0).2 = materialize t := k2
  have k1a : Link.All SizeSumOK (get_inversion_ t type 0).2 := k1
  rw [print_eq, hasPivot_iff_not_pairwise]
  have found : ¬ (materialize t).Pairwise (fun a b => compare a b type = false) →
      (get_inversion_ t type 0).1 ≠ INF_INDEX := by
    intro hnp
    obtain ⟨A, a, b, S, e, hp, -, -⟩ := s2 hnp
    rw [hp]
    have hlen := congrArg List.length e
    rw [length_materialize] at hlen
    simp only [List.length_append, List.length_cons] at hlen
    omega
  refine ⟨⟨fun h hnp => found hnp h, fun h => s1 (not_not.mp h)⟩, ?_⟩
  intro hnp
  obtain ⟨A, a, b, S, e, hp, hab, hS⟩ := s2 hnp
  rw [hp]
  refine ⟨largestPivot_of_decomp e hab hS, a, ?_, ?_, ?_, ?_⟩
  · rw [e]; exact (adjacent_of_decomp A S a b).1
  · obtain ⟨x1, -, -, -⟩ := split_spec _ A.length k1a
    rw [print_eq, x1, k2a]
  · obtain ⟨-, x2, -, a2⟩ := split_spec _ A.length k1a
    obtain ⟨y1, -, -, -⟩ := split_spec _ 1 a2
    rw [print_eq, y1, x2, k2a, e]
    simp
  · obtain ⟨-, x2, -, a2⟩ := split_spec t A.length hss
    obtain ⟨y1, -, -, -⟩ := split_spec _ 1 a2
    rw [print_eq, y1, x2, e]
    simp

theorem get_inversion_correct_witness :
    (Link.All AggregatesMatch exampleFour ∧ Link.All InversionFlagsMatch exampleFour ∧
      exampleFour.count < INF_INDEX) ∧
    ((get_inversion_ exampleFour false 0).1 = INF_INDEX ↔
      ¬ HasPivot false (print_ exampleFour)) ∧
    (HasPivot false (print_ exampleFour) →
      LargestPivot false (print_ exampleFour) (get_inversion_ exampleFour false 0).1 ∧
      ∃ a, (print_ exampleFour)[(get_inversion_ exampleFour false 0).1]? = some a ∧
        print_ (split_ (get_inversion_ exampleFour false 0).2
          (get_inversion_ exampleFour false 0).1 0).1 =
          (print_ exampleFour).take (get_inversion_ exampleFour false 0).1 ∧
        print_ (split_ (split_ (get_inversion_ exampleFour false 0).2
          (get_inversion_ exampleFour false 0).1 0).2 1 0).1 = [a] ∧
        print_ (split_ (split_ exampleFour
          (get_inversion_ exampleFour false 0).1 0).2 1 0).1 = [a]) :=
  ⟨⟨allGood_aggregatesMatch _ (reachableIn_good reachableIn_exampleFour),
      allGood_inversionFlagsMatch (reachableIn_good reachableIn_exampleFour), by decide⟩,
    get_inversion_correct exampleFour
      (allGood_aggregatesMatch _ (reachableIn_good reachableIn_exampleFour))
      (allGood_inversionFlagsMatch (reachableIn_good reachableIn_exampleFour)) (by decide)
      false⟩

/-! ## `get_nearest_` needs the sizes and the bounds only -/

theorem boundsOK_reverse {t : Link} (h : BoundsOK t) : BoundsOK (subtree_reverse_ t) := by
  cases t with
  | null => exact h
  | node d c0 c1 =>
    have hm := materialize_reverse (node d c0 c1)
    simp only [subtree_reverse_] at hm
    simp only [subtree_reverse_, BoundsOK]
    rw [hm]
    intro ty
    have := h ty
    cases ty <;> simpa [Node.bound] using this

theorem boundsOK_paint {t : Link} (x : Int) (hx : x ≠ INF_VALUE) :
    BoundsOK (subtree_paint_ t x) := by
  cases t with
  | null => trivial
  | node d c0 c1 =>
    have hm := materialize_paint (node d c0 c1) x hx
    have hne := materialize_ne_nil d c0 c1
    simp only [subtree_paint_] at hm
    simp only [subtree_paint_, BoundsOK]
    rw [hm]
    generalize materialize (node d c0 c1) = m at hne
    cases m with
    | nil => exact absurd rfl hne
    | cons a l =>
      intro ty
      cases ty <;> simp [Node.bound, compare_irrefl]

theorem boundsOK_add {t : Link} (x : Int) (h : BoundsOK t) : BoundsOK (subtree_add_ t x) := by
  cases t with
  | null => exact h
  | node d c0 c1 =>
    have hm := materialize_add (node d c0 c1) x
    simp only [subtree_add_] at hm
    simp only [subtree_add_, BoundsOK]
    rw [hm]
    intro ty
    obtain ⟨h1, h2⟩ := h ty
    constructor
    · rw [List.mem_map]
      exact ⟨d.bound ty, h1, by cases ty <;> simp [Node.bound]⟩
    · intro v hv
      rw [List.mem_map] at hv
      obtain ⟨w, hw, rfl⟩ := hv
      have := h2 w hw
      cases ty <;> simpa [Node.bound, compare_add] using this

theorem tagStable_boundGood : TagStable BoundGood :=
  ⟨fun _ h => ⟨sizeSumOK_reverse h.1, boundsOK_reverse h.2⟩,
   fun x _ hx h => ⟨sizeSumOK_paint x hx h.1, boundsOK_paint x hx⟩,
   fun x _ h => ⟨sizeSumOK_add x h.1, boundsOK_add x h.2⟩⟩

theorem boundOf_of_boundsOK {t : Link} (h : BoundsOK t) (type : Bool) :
    BoundOf type (materialize t) (subtree_bound_ t type) := by
  cases t with
  | null => exact Or.inl ⟨rfl, rfl⟩
  | node d c0 c1 => exact Or.inr (h type)

theorem boundGood_root {t : Link} (h : Link.All BoundGood t) : BoundGood t := by
  cases t with
  | null => exact ⟨⟨rfl, rfl⟩, trivial⟩
  | node d c0 c1 => exact h.1

theorem allBoundGood_pushed (d : Node) (a b : Link) (h : Link.All BoundGood (node d a b)) :
    Link.All BoundGood (node d.cleared (pushdown d a) (pushdown d b)) := by
  refine ⟨⟨sizeSum_pushed d a b h.1.1, ?_⟩, all_pushdown_of tagStable_boundGood d h.2.1,
    all_pushdown_of tagStable_boundGood d h.2.2⟩
  have hb : BoundsOK (node d a b) := h.1.2
  simp only [BoundsOK] at hb ⊢
  rw [materialize_pushed]
  exact hb

theorem get_nearestAux_bound_spec (val : Int) (type : Bool) (fuel : Nat) :
    ∀ (t : Link) (cur_key : Nat), t.count ≤ fuel → Link.All BoundGood t →
      (∃ y ∈ materialize t, compare val y type = true) →
      ∃ r B b C, get_nearestAux fuel t val type cur_key = some r ∧
        materialize t = B ++ b :: C ∧ r.1 = cur_key + B.length ∧
        compare val b type = true ∧ ∀ y ∈ C, compare val y type = false := by
  induction fuel with
  | zero =>
    intro t cur h _ hex
    cases t with
    | null => obtain ⟨y, hy, -⟩ := hex; exact absurd hy (List.not_mem_nil _)
    | node d c0 c1 => simp [Link.count] at h
  | succ n ih =>
    intro t cur h hall hex
    cases t with
    | null => obtain ⟨y, hy, -⟩ := hex; exact absurd hy (List.not_mem_nil _)
    | node d c0 c1 =>
      simp only [Link.count] at h
      have g := allBoundGood_pushed d c0 c1 hall
      have hc0 : (pushdown d c0).count ≤ n := by rw [count_pushdown]; omega
      have hc1 : (pushdown d c1).count ≤ n := by rw [count_pushdown]; omega
      have hs0 : subtree_size_ (pushdown d c0) = (materialize (pushdown d c0)).length :=
        (boundGood_root g.2.1).1.1
      have hb1 := boundOf_of_boundsOK (boundGood_root g.2.2).2 (!type)
      rw [materialize_node_pushed] at hex ⊢
      generalize hm0 : materialize (pushdown d c0) = m0 at *
      generalize hm1 : materialize (pushdown d c1) = m1 at *
      unfold get_nearestAux
      simp only [push_node]
      have hno : ¬ ((pushdown d c1).nonnull &&
          compare val (subtree_bound_ (pushdown d c1) (!type)) type) = true →
          ∀ y ∈ m1, compare val y type = false := by
        intro h1 y hy
        rcases hb1 with ⟨e, -⟩ | ⟨hB, hBm⟩
        · rw [e] at hy; exact absurd hy (List.not_mem_nil _)
        · have hnn : (pushdown d c1).nonnull = true := by
            cases hq : pushdown d c1 with
            | null => rw [hq] at hm1; rw [← hm1] at hy; exact absurd hy (List.not_mem_nil _)
            | node d1 x y => rfl
          have hcb : compare val (subtree_bound_ (pushdown d c1) (!type)) type = false := by
            by_contra hc
            exact h1 (by simp [hnn]; simpa using hc)
          exact compare_bound_false hcb (hBm y hy)
      split_ifs with h1 h2
      · simp only [Bool.and_eq_true] at h1
        have hex1 : ∃ y ∈ materialize (pushdown d c1), compare val y type = true := by
          rcases hb1 with ⟨e, -⟩ | ⟨hB, -⟩
          · cases hq : pushdown d c1 with
            | null => rw [hq] at h1; simp [Link.nonnull] at h1
            | node d1 x y =>
              rw [hq] at hm1; rw [← hm1] at e
              exact absurd e (materialize_ne_nil d1 x y)
          · rw [hm1]; exact ⟨_, hB, h1.2⟩
        obtain ⟨r, B, b, C, e1, e2, e3, e4, e5⟩ :=
          ih (pushdown d c1) (cur + subtree_size_ (pushdown d c0) + 1) hc1 g.2.2 hex1
        rw [hm1] at e2
        refine ⟨(r.1, node d.cleared (pushdown d c0) r.2), m0 ++ d.value :: B, b, C, ?_, ?_, ?_,
          e4, e5⟩
        · rw [e1]
        · rw [e2]; simp
        · show r.1 = _
          rw [e3, hs0]
          simp only [List.length_append, List.length_cons]
          omega
      · exact ⟨(cur + subtree_size_ (pushdown d c0), node d.cleared (pushdown d c0)
          (pushdown d c1)), m0, d.value, m1, rfl, rfl, by rw [hs0], h2, hno h1⟩
      · have hno1 := hno h1
        have hex0 : ∃ y ∈ materialize (pushdown d c0), compare val y type = true := by
          obtain ⟨y, hy, hvy⟩ := hex
          rw [hm0]
          rw [List.mem_append, List.mem_cons] at hy
          rcases hy with hy | hy | hy
          · exact ⟨y, hy, hvy⟩
          · rw [hy] at hvy; exact absurd hvy h2
          · rw [hno1 y hy] at hvy; exact Bool.noConfusion hvy
        obtain ⟨r, B, b, C, e1, e2, e3, e4, e5⟩ := ih (pushdown d c0) cur hc0 g.2.1 hex0
        rw [hm0] at e2
        refine ⟨(r.1, node d.cleared r.2 (pushdown d c1)), B, b, C ++ d.value :: m1, ?_, ?_, e3,
          e4, ?_⟩
        · rw [e1]
        · rw [e2]; simp
        · intro y hy
          rw [List.mem_append, List.mem_cons] at hy
          rcases hy with hy | hy | hy
          · exact e5 y hy
          · rw [hy]; simpa using h2
          · exact hno1 y hy

theorem boundGood_of_match {t : Link} (h1 : AggregatesMatch t) : BoundGood t := by
  cases t with
  | null => exact ⟨⟨rfl, rfl⟩, trivial⟩
  | node d c0 c1 =>
    obtain ⟨hsize, -, hsum, hmin, hmax, -, -⟩ := h1
    rw [print_eq] at hsize hsum hmin hmax
    obtain ⟨m1, m2⟩ := List.minimum_eq_coe_iff.mp hmin
    obtain ⟨x1, x2⟩ := List.maximum_eq_coe_iff.mp hmax
    refine ⟨⟨hsize, hsum⟩, ?_⟩
    intro type
    cases type with
    | false => exact ⟨m1, fun v hv => (compare_false_eq_false v d.bound0).mpr (m2 v hv)⟩
    | true => exact ⟨x1, fun v hv => (compare_true_eq_false v d.bound1).mpr (x2 v hv)⟩

/-- What `get_nearest_` returns on a tree with consistent sizes and bounds, for either
type: the rightmost position whose element is `type`-greater than `val`, that element being
the `type`-smallest such element when the sequence is monotone. -/
theorem get_nearest_generic (t : Link) (hall : Link.All BoundGood t) (val : Int) (type : Bool)
    (hex : ∃ y ∈ materialize t, compare val y type = true) :
    ∃ q t1 b, get_nearest_ t val type 0 = some (q, t1) ∧ (materialize t)[q]? = some b ∧
      compare val b type = true ∧
      (∀ j y, q < j → (materialize t)[j]? = some y → compare val y type = false) ∧
      ((materialize t).Pairwise (fun x y => compare x y type = false) →
        ∀ y ∈ materialize t, compare val y type = true → compare y b type = false) := by
  obtain ⟨r, B, b, C, e1, e2, e3, e4, e5⟩ :=
    get_nearestAux_bound_spec val type t.count t 0 (le_refl _) hall hex
  rw [Nat.zero_add] at e3
  refine ⟨r.1, r.2, b, e1, ?_, e4, ?_, ?_⟩
  · rw [e2, e3, List.getElem?_append_right (le_refl _), Nat.sub_self]; simp
  · intro j y hj hy
    rw [e2, e3] at *
    rw [List.getElem?_append_right (Nat.le_of_lt hj)] at hy
    have e : j - B.length = (j - B.length - 1) + 1 := by omega
    rw [e, List.getElem?_cons_succ] at hy
    exact e5 y (List.getElem?_mem hy)
  · intro hmono y hy hvy
    rw [e2] at hmono hy
    rw [List.mem_append, List.mem_cons] at hy
    rcases hy with hy | hy | hy
    · exact (List.pairwise_append.mp hmono).2.2 y hy b (List.mem_cons_self _ _)
    · rw [hy]; exact compare_irrefl b type
    · rw [e5 y hy] at hvy; exact Bool.noConfusion hvy

/-- C29: for every tree `t` with consistent aggregates and sequence `m`: if `m` is
non-increasing and has an element greater than `val`, `get_nearest_(t, val, 0)` with
offset 0 returns the rightmost position `q` with `m[q] > val`, and `m[q]` is the smallest
value of `m` greater than `val`; if `m` is non-decreasing and has an element smaller than
`val`, `get_nearest_(t, val, 1)` returns the rightmost `q` with `m[q] < val`, and `m[q]` is
the largest value of `m` smaller than `val`. -/
theorem get_nearest_correct (t : Link) (hagg : Link.All AggregatesMatch t) (val : Int) :
    ((print_ t).Pairwise (fun x y => y ≤ x) → (∃ y ∈ print_ t, val < y) →
      ∃ q t1 b, get_nearest_ t val false 0 = some (q, t1) ∧ (print_ t)[q]? = some b ∧
        val < b ∧ (∀ j y, q < j → (print_ t)[j]? = some y → ¬ val < y) ∧
        (∀ y ∈ print_ t, val < y → b ≤ y)) ∧
    ((print_ t).Pairwise (fun x y => x ≤ y) → (∃ y ∈ print_ t, y < val) →
      ∃ q t1 b, get_nearest_ t val true 0 = some (q, t1) ∧ (print_ t)[q]? = some b ∧
        b < val ∧ (∀ j y, q < j → (print_ t)[j]? = some y → ¬ y < val) ∧
        (∀ y ∈ print_ t, y < val → y ≤ b)) := by
  have hall : Link.All BoundGood t := all_mono (fun _ h => boundGood_of_match h) hagg
  rw [print_eq]
  constructor
  · intro hmono hex
    obtain ⟨y0, hy0, hv0⟩ := hex
    obtain ⟨q, t1, b, e1, e2, e3, e4, e5⟩ := get_nearest_generic t hall val false
      ⟨y0, hy0, (compare_false_iff val y0).mpr hv0⟩
    refine ⟨q, t1, b, e1, e2, (compare_false_iff val b).mp e3, ?_, ?_⟩
    · intro j y hj hy hvy
      have := e4 j y hj hy
      rw [(compare_false_iff val y).mpr hvy] at this
      exact Bool.noConfusion this
    · intro y hy hvy
      exact (compare_false_eq_false y b).mp
        (e5 ((pairwise_false_iff _).mpr hmono) y hy ((compare_false_iff val y).mpr hvy))
  · intro hmono hex
    obtain ⟨y0, hy0, hv0⟩ := hex
    obtain ⟨q, t1, b, e1, e2, e3, e4, e5⟩ := get_nearest_generic t hall val true
      ⟨y0, hy0, (compare_true_iff val y0).mpr hv0⟩
    refine ⟨q, t1, b, e1, e2, (compare_true_iff val b).mp e3, ?_, ?_⟩
    · intro j y hj hy hvy
      have := e4 j y hj hy
      rw [(compare_true_iff val y).mpr hvy] at this
      exact Bool.noConfusion this
    · intro y hy hvy
      exact (compare_true_eq_false y b).mp
        (e5 ((pairwise_true_iff _).mpr hmono) y hy ((compare_true_iff val y).mpr hvy))

theorem get_nearest_correct_witness :
    (Link.All AggregatesMatch exampleTwo ∧ (print_ exampleTwo).Pairwise (fun x y => y ≤ x) ∧
      (∃ y ∈ print_ exampleTwo, (6 : Int) < y)) ∧
    (Link.All AggregatesMatch exampleThree ∧
      (print_ exampleThree).Pairwise (fun x y => x ≤ y) ∧
      (∃ y ∈ print_ exampleThree, y < (3 : Int))) ∧
    (∃ q t1 b, get_nearest_ exampleTwo 6 false 0 = some (q, t1) ∧
      (print_ exampleTwo)[q]? = some b ∧ 6 < b ∧
      (∀ j y, q < j → (print_ exampleTwo)[j]? = some y → ¬ 6 < y) ∧
      (∀ y ∈ print_ exampleTwo, 6 < y → b ≤ y)) ∧
    (∃ q t1 b, get_nearest_ exampleThree 3 true 0 = some (q, t1) ∧
      (print_ exampleThree)[q]? = some b ∧ b < 3 ∧
      (∀ j y, q < j → (print_ exampleThree)[j]? = some y → ¬ y < 3) ∧
      (∀ y ∈ print_ exampleThree, y < 3 → y ≤ b)) :=
  ⟨⟨allGood_aggregatesMatch _ (reachableIn_good reachableIn_exampleTwo), by decide,
      ⟨9, by decide, by decide⟩⟩,
    ⟨allGood_aggregatesMatch _ (reachableIn_good reachableIn_exampleThree), by decide,
      ⟨1, by decide, by decide⟩⟩,
    (get_nearest_correct exampleTwo
      (allGood_aggregatesMatch _ (reachableIn_good reachableIn_exampleTwo)) 6).1
      (by decide) ⟨9, by decide, by decide⟩,
    (get_nearest_correct exampleThree
      (allGood_aggregatesMatch _ (reachableIn_good reachableIn_exampleThree)) 3).2
      (by decide) ⟨1, by decide, by decide⟩⟩

/-! ## The round trip, wrap case included -/

theorem no_descent_reverse {m : List Int}
    (hno : ∀ A a b S, m = A ++ a :: b :: S → compare a b false = false) :
    ∀ A a b S, m.reverse = A ++ a :: b :: S → compare a b true = false := by
  intro A a b S e
  have e1 : m = S.reverse ++ b :: a :: A.reverse := by
    have := congrArg List.reverse e
    rw [List.reverse_reverse] at this
    rw [this]
    simp
  have := hno _ _ _ _ e1
  rw [compare_flip] at this
  exact this

theorem round_trip_wrap (t : Link) (h : ReachableIn t) (l r : Nat) (hlr : l ≤ r)
    (hr : r < (print_ t).length) (hn : (print_ t).length < SIZE_MOD)
    (hno : ¬ HasAscent (segment (print_ t) l r)) :
    ∃ t1 t2, permute t l r QueryType.NEXT_PERMUTATION = some t1 ∧
      permute t1 l r QueryType.PREV_PERMUTATION = some t2 ∧ print_ t2 = print_ t ∧
      segment (print_ t1) l r = (segment (print_ t) l r).reverse := by
  obtain ⟨t1, X, h1, h2, h3, hre1⟩ :=
    permute_spec t h l r QueryType.NEXT_PERMUTATION hlr hr hn
  have h3' : CodeStep false (segment (print_ t) l r) X := h3
  have hno1 : ∀ A a b S, segment (print_ t) l r = A ++ a :: b :: S →
      compare a b false = false := by
    intro A a b S e
    cases hc : compare a b false with
    | false => rfl
    | true => exact absurd ⟨A, a, b, S, e, (compare_false_iff a b).mp hc⟩ hno
  have hX : X = (segment (print_ t) l r).reverse := codeStep_wrap h3' hno1
  have hXlen : X.length = r - l + 1 := by
    rw [hX, List.length_reverse]; exact segment_length _ l r hlr hr
  have hlen1 : (print_ t1).length = (print_ t).length := by
    rw [h2]; exact splice_length _ _ l r hlr hr hXlen
  obtain ⟨t2, Y, k1, k2, k3, -⟩ := permute_spec t1 hre1 l r QueryType.PREV_PERMUTATION hlr
    (by rw [hlen1]; exact hr) (by rw [hlen1]; exact hn)
  have hseg1 : segment (print_ t1) l r = X := by
    rw [h2]; exact splice_segment _ _ l r hlr hr hXlen
  have k3' : CodeStep true (segment (print_ t1) l r) Y := k3
  rw [hseg1] at k3'
  have hY : Y = segment (print_ t) l r := by
    have := codeStep_wrap k3' (by rw [hX]; exact no_descent_reverse hno1)
    rw [this, hX, List.reverse_reverse]
  refine ⟨t1, t2, h1, k1, ?_, by rw [hseg1, hX]⟩
  rw [k2, h2, splice_take _ _ l r hlr hr, splice_drop _ _ l r hlr hr hXlen, hY]
  exact splice_self _ l r hlr hr

/-- On every state holding `sentinelAscending`, whatever its shape, `NEXT` followed by `PREV`
on the whole sequence does not give the sequence back. -/
theorem sentinelAscending_round_trip (t : Link) (hre : ReachableIn t)
    (hpr : print_ t = sentinelAscending) :
    ∃ t1 t2, permute t 0 (INF_INDEX + 1) QueryType.NEXT_PERMUTATION = some t1 ∧
      permute t1 0 (INF_INDEX + 1) QueryType.PREV_PERMUTATION = some t2 ∧
      print_ t2 ≠ print_ t := by
  obtain ⟨t1, h1, hp1, hre1⟩ := sentinelAscending_next _ hre hpr
  have hlen1 : (print_ t1).length = INF_INDEX + 1 + 1 := by
    rw [hp1, List.length_reverse, sentinelAscending_length]
  obtain ⟨t2, Y, k1, k2, k3, -⟩ := permute_spec t1 hre1 0 (INF_INDEX + 1)
    QueryType.PREV_PERMUTATION (Nat.zero_le _) (by rw [hlen1]; exact Nat.lt_succ_self _)
    (by rw [hlen1]; exact sentinel_size)
  have hseg1 : segment (print_ t1) 0 (INF_INDEX + 1) = sentinelAscending.reverse := by
    rw [segment_all _ _ hlen1, hp1]
  have k3' : CodeStep true (segment (print_ t1) 0 (INF_INDEX + 1)) Y := k3
  rw [hseg1] at k3'
  have hY : print_ t2 = Y := by
    rw [k2, List.take_zero, List.nil_append, List.drop_of_length_le (by rw [hlen1]),
      List.append_nil]
  have hpw : (0 :: List.replicate INF_INDEX (0 : Int)).Pairwise
      (fun x y => compare x y true = false) := by
    rw [← List.replicate_succ, List.pairwise_replicate]
    exact Or.inr (by decide)
  have hdesc : HasDescent sentinelAscending.reverse :=
    ⟨[], 1, 0, List.replicate INF_INDEX 0, sentinelAscending_reverse, by decide⟩
  have hnpiv : ¬ RightmostDescentAt sentinelAscending.reverse INF_INDEX := by
    rintro ⟨A1, a1, b1, S1, e1, q1, hab1, hS1⟩
    rw [sentinelAscending_reverse] at e1
    have e2 : [] ++ (1 : Int) :: 0 :: List.replicate INF_INDEX 0 = A1 ++ a1 :: b1 :: S1 := e1
    have := pivot_unique true e2 (by decide)
      ((compare_true_iff _ _).mpr hab1) hpw ((pairwise_true_iff _).mpr hS1)
    rw [← this] at q1
    exact absurd q1.symm (by unfold INF_INDEX; decide)
  have hprev := codeStep_prev k3' hdesc hnpiv
  refine ⟨t1, t2, h1, k1, ?_⟩
  rw [hY, hpr]
  intro hYs
  rw [hYs] at hprev
  obtain ⟨b1, b2, b3⟩ := sentinelAscending_between
  exact hprev.2.2 _ (b1.trans (List.reverse_perm _).symm) b3 b2

/-- C30 (amended): on every reachable state whose elements have always been strictly
between `-INF_VALUE` and `INF_VALUE` and every `l ≤ r < n` such that the rightmost ascent of
`s[l..r]`, if there is one, is not at offset `INF_INDEX`, `permute(l, r, NEXT_PERMUTATION)`
followed by `permute(l, r, PREV_PERMUTATION)` restores the whole sequence; when `s[l..r]`
has no ascent (it is its last arrangement), `NEXT` reverses it and `PREV` reverses it
back. -/
theorem round_trip_every_range (t : Link) (h : ReachableIn t) (l r : Nat) (hlr : l ≤ r)
    (hr : r < (print_ t).length) (hn : (print_ t).length < SIZE_MOD)
    (hpiv : ¬ RightmostAscentAt (segment (print_ t) l r) INF_INDEX) :
    ∃ t1 t2, permute t l r QueryType.NEXT_PERMUTATION = some t1 ∧
      permute t1 l r QueryType.PREV_PERMUTATION = some t2 ∧ print_ t2 = print_ t ∧
      (¬ HasAscent (segment (print_ t) l r) →
        segment (print_ t1) l r = (segment (print_ t) l r).reverse) := by
  by_cases hasc : HasAscent (segment (print_ t) l r)
  · obtain ⟨t1, t2, h1, h2, h3⟩ := round_trip_next_prev t h l r hlr hr hn hasc hpiv
    exact ⟨t1, t2, h1, h2, h3, fun hno => absurd hasc hno⟩
  · obtain ⟨t1, t2, h1, h2, h3, h4⟩ := round_trip_wrap t h l r hlr hr hn hasc
    exact ⟨t1, t2, h1, h2, h3, fun _ => h4⟩

theorem round_trip_every_range_witness :
    (0 ≤ 1 ∧ 1 < (print_ exampleTwo).length ∧ (print_ exampleTwo).length < SIZE_MOD ∧
      ¬ RightmostAscentAt (segment (print_ exampleTwo) 0 1) INF_INDEX) ∧
    ∃ t1 t2, permute exampleTwo 0 1 QueryType.NEXT_PERMUTATION = some t1 ∧
      permute t1 0 1 QueryType.PREV_PERMUTATION = some t2 ∧ print_ t2 = print_ exampleTwo ∧
      (¬ HasAscent (segment (print_ exampleTwo) 0 1) →
        segment (print_ t1) 0 1 = (segment (print_ exampleTwo) 0 1).reverse) :=
  ⟨⟨by decide, by decide, by decide,
      fun hp => absurd (rightmostAscentAt_lt hp) (by decide)⟩,
    round_trip_every_range exampleTwo reachableIn_exampleTwo 0 1 (by decide) (by decide)
      (by decide) (fun hp => absurd (rightmostAscentAt_lt hp) (by decide))⟩

/-- C30 as stated fails on the range of `10^9 + 2` elements `0, ..., 0, 0, 1`, whose only
ascent is at offset `INF_INDEX`: on the state built by `fromList` (and on every other state
holding that sequence) `NEXT` followed by `PREV` over the whole sequence does not restore
it. -/
theorem round_trip_every_range_counterexample :
    (ReachableIn (fromList sentinelAscending) ∧
      print_ (fromList sentinelAscending) = sentinelAscending ∧
      0 ≤ INF_INDEX + 1 ∧
      INF_INDEX + 1 < (print_ (fromList sentinelAscending)).length ∧
      ∃ t1 t2, permute (fromList sentinelAscending) 0 (INF_INDEX + 1)
          QueryType.NEXT_PERMUTATION = some t1 ∧
        permute t1 0 (INF_INDEX + 1) QueryType.PREV_PERMUTATION = some t2 ∧
        print_ t2 ≠ print_ (fromList sentinelAscending)) ∧
    (∀ t, ReachableIn t → print_ t = sentinelAscending →
      ∃ t1 t2, permute t 0 (INF_INDEX + 1) QueryType.NEXT_PERMUTATION = some t1 ∧
        permute t1 0 (INF_INDEX + 1) QueryType.PREV_PERMUTATION = some t2 ∧
        print_ t2 ≠ print_ t) := by
  obtain ⟨hre, hpr⟩ := sentinelAscending_state
  have hlen : (print_ (fromList sentinelAscending)).length = INF_INDEX + 1 + 1 := by
    rw [hpr, sentinelAscending_length]
  exact ⟨⟨hre, hpr, Nat.zero_le _, by rw [hlen]; exact Nat.lt_succ_self _,
    sentinelAscending_round_trip _ hre hpr⟩, sentinelAscending_round_trip⟩

/-! ## `permute` never follows a null link -/

theorem nonnull_of_materialize_ne_nil {t : Link} (h : materialize t ≠ []) :
    t.nonnull = true := by
  cases t with
  | null => exact absurd rfl h
  | node d c0 c1 => rfl

theorem null_of_materialize_nil {t : Link} (h : materialize t = []) : t = null := by
  cases t with
  | null => rfl
  | node d c0 c1 => exact absurd h (materialize_ne_nil d c0 c1)

theorem link_permute_safe (t : Link) (q : QueryType) (hall : Link.All Good t)
    (hr : InRange (materialize t)) (hsz : (materialize t).length < SIZE_MOD)
    (hne : (get_inversion_ t q.index 0).1 ≠ INF_INDEX) :
    (split_ (split_ (get_inversion_ t q.index 0).2
      (get_inversion_ t q.index 0).1 0).2 1 0).1.nonnull = true ∧
    (split_ (split_ (get_inversion_ t q.index 0).2
      (get_inversion_ t q.index 0).1 0).2 1 0).2.nonnull = true ∧
    ∃ res, get_nearest_
        (split_ (split_ (get_inversion_ t q.index 0).2
          (get_inversion_ t q.index 0).1 0).2 1 0).2
        (split_ (split_ (get_inversion_ t q.index 0).2
          (get_inversion_ t q.index 0).1 0).2 1 0).1.value q.index 0 = some res ∧
      res.1 < subtree_size_ (split_ (split_ (get_inversion_ t q.index 0).2
        (get_inversion_ t q.index 0).1 0).2 1 0).2 := by
  obtain ⟨g1, gm⟩ := get_inversionAux_keeps tagStable_good good_pushed good_congr
    q.index t.count t 0 hall
  have spec := get_inversion_spec q.index t hall (count_lt_of_length hsz)
  cases hgi : get_inversion_ t q.index 0 with
  | mk gi1 gi2 =>
  have hgi' : get_inversionAux t.count t q.index 0 = (gi1, gi2) := hgi
  rw [hgi'] at g1 gm
  rw [hgi] at spec hne
  simp only at g1 gm spec hne ⊢
  by_cases hp : (materialize t).Pairwise (fun a b => compare a b q.index = false)
  · exact absurd (spec.1 hp) hne
  · obtain ⟨A, a, b, S, e, hres, hab, hS⟩ := spec.2 hp
    have hr2 : InRange (materialize gi2) := by rw [gm]; exact hr
    rw [← gm] at e
    subst hres
    obtain ⟨-, s1b, -, -⟩ := split_spec gi2 A.length (allGood_sizeSum g1)
    obtain ⟨-, s1d⟩ := split_good gi2 A.length g1 hr2
    cases hs1 : split_ gi2 A.length 0 with
    | mk t_left rest =>
    rw [hs1] at s1b s1d
    simp only at s1b s1d ⊢
    rw [e, List.drop_left] at s1b
    have rrest : InRange (materialize rest) := by
      rw [s1b]; rw [e] at hr2; exact (inRange_append.mp hr2).2
    obtain ⟨s2a, s2b, -, -⟩ := split_spec rest 1 (allGood_sizeSum s1d)
    obtain ⟨-, s2d⟩ := split_good rest 1 s1d rrest
    cases hs2 : split_ rest 1 0 with
    | mk capture suffix =>
    rw [hs2] at s2a s2b s2d
    simp only at s2a s2b s2d ⊢
    rw [s1b] at s2a s2b
    simp only [List.take_succ_cons, List.take_zero, List.drop_succ_cons, List.drop_zero]
      at s2a s2b
    cases capture with
    | null => simp [materialize] at s2a
    | node dcap cc0 cc1 =>
    have hval : dcap.value = a := value_of_singleton s2a
    obtain ⟨gn, B, c, C, n1, n2, n3, -, -⟩ := get_nearestAux_spec a q.index suffix.count
      suffix 0 (le_refl _) s2d ⟨b, by rw [s2b]; exact List.mem_cons_self _ _, hab⟩
    refine ⟨rfl, nonnull_of_materialize_ne_nil (by rw [s2b]; exact List.cons_ne_nil _ _),
      gn, ?_, ?_⟩
    · show get_nearestAux suffix.count suffix dcap.value q.index 0 = some gn
      rw [hval]; exact n1
    · rw [subtree_size_eq (allGood_sizeSum s2d), n3, n2]
      simp only [List.length_append, List.length_cons, Nat.zero_add]
      omega

/-- Claim C31: on a state whose elements have always been strictly between -10^14 and
10^14, `permute(l, r, type)` never follows a null link, whatever `l` and `r` are: the call
completes, and whenever `get_inversion_` returns an index other than `INF_INDEX` on the
middle part, the node `capture` cut out by the two splits is non-null, `suffix` is non-null,
and `get_nearest_(suffix, capture->value, type)` returns (it never dereferences a null
`child[1]`) an index smaller than the size of `suffix`. -/
theorem permute_never_null (t : Link) (h : ReachableIn t) (l r : Nat) (q : QueryType)
    (hn : (print_ t).length < SIZE_MOD) :
    (∃ t1, permute t l r q = some t1) ∧
    ((get_inversion_ (SegmentSplitter.ctor t l r).mid q.index 0).1 ≠ INF_INDEX →
      (split_ (split_ (get_inversion_ (SegmentSplitter.ctor t l r).mid q.index 0).2
        (get_inversion_ (SegmentSplitter.ctor t l r).mid q.index 0).1 0).2 1 0).1.nonnull
          = true ∧
      (split_ (split_ (get_inversion_ (SegmentSplitter.ctor t l r).mid q.index 0).2
        (get_inversion_ (SegmentSplitter.ctor t l r).mid q.index 0).1 0).2 1 0).2.nonnull
          = true ∧
      ∃ res, get_nearest_
          (split_ (split_ (get_inversion_ (SegmentSplitter.ctor t l r).mid q.index 0).2
            (get_inversion_ (SegmentSplitter.ctor t l r).mid q.index 0).1 0).2 1 0).2
          (split_ (split_ (get_inversion_ (SegmentSplitter.ctor t l r).mid q.index 0).2
            (get_inversion_ (SegmentSplitter.ctor t l r).mid q.index 0).1 0).2 1 0).1.value
          q.index 0 = some res ∧
        res.1 < subtree_size_
          (split_ (split_ (get_inversion_ (SegmentSplitter.ctor t l r).mid q.index 0).2
            (get_inversion_ (SegmentSplitter.ctor t l r).mid q.index 0).1 0).2 1 0).2) := by
  have hg := reachableIn_good h
  have hin := reachableIn_inRange h
  rw [print_eq] at hn
  obtain ⟨-, a2, -⟩ := ctor_good t l r hg hin
  obtain ⟨-, e2, -, -, -, -⟩ := ctor_spec t l r (allGood_sizeSum hg)
  have rmid : InRange (materialize (SegmentSplitter.ctor t l r).mid) := by
    rw [e2]; exact inRange_take (inRange_drop hin _) _
  have lmid : (materialize (SegmentSplitter.ctor t l r).mid).length < SIZE_MOD := by
    rw [e2]
    simp only [List.length_take, List.length_drop]
    omega
  refine ⟨?_, link_permute_safe _ q a2 rmid lmid⟩
  obtain ⟨m1, p1, -, -⟩ := link_permute_spec _ q a2 rmid lmid
  exact ⟨SegmentSplitter.dtor { SegmentSplitter.ctor t l r with mid := m1 },
    by unfold permute; simp only [p1]⟩

/-- Claim C31 at a concrete input: the state `[0, 1, 2]` and `next_permutation(0, 2)`. -/
theorem permute_never_null_witness :
    (print_ exampleThree).length < SIZE_MOD ∧
    ((∃ t1, permute exampleThree 0 2 QueryType.NEXT_PERMUTATION = some t1) ∧
    ((get_inversion_ (SegmentSplitter.ctor exampleThree 0 2).mid
        QueryType.NEXT_PERMUTATION.index 0).1 ≠ INF_INDEX →
      (split_ (split_ (get_inversion_ (SegmentSplitter.ctor exampleThree 0 2).mid
          QueryType.NEXT_PERMUTATION.index 0).2
        (get_inversion_ (SegmentSplitter.ctor exampleThree 0 2).mid
          QueryType.NEXT_PERMUTATION.index 0).1 0).2 1 0).1.nonnull = true ∧
      (split_ (split_ (get_inversion_ (SegmentSplitter.ctor exampleThree 0 2).mid
          QueryType.NEXT_PERMUTATION.index 0).2
        (get_inversion_ (SegmentSplitter.ctor exampleThree 0 2).mid
          QueryType.NEXT_PERMUTATION.index 0).1 0).2 1 0).2.nonnull = true ∧
      ∃ res, get_nearest_
          (split_ (split_ (get_inversion_ (SegmentSplitter.ctor exampleThree 0 2).mid
              QueryType.NEXT_PERMUTATION.index 0).2
            (get_inversion_ (SegmentSplitter.ctor exampleThree 0 2).mid
              QueryType.NEXT_PERMUTATION.index 0).1 0).2 1 0).2
          (split_ (split_ (get_inversion_ (SegmentSplitter.ctor exampleThree 0 2).mid
              QueryType.NEXT_PERMUTATION.index 0).2
            (get_inversion_ (SegmentSplitter.ctor exampleThree 0 2).mid
              QueryType.NEXT_PERMUTATION.index 0).1 0).2 1 0).1.value
          QueryType.NEXT_PERMUTATION.index 0 = some res ∧
        res.1 < subtree_size_
          (split_ (split_ (get_inversion_ (SegmentSplitter.ctor exampleThree 0 2).mid
              QueryType.NEXT_PERMUTATION.index 0).2
            (get_inversion_ (SegmentSplitter.ctor exampleThree 0 2).mid
              QueryType.NEXT_PERMUTATION.index 0).1 0).2 1 0).2)) :=
  ⟨by decide, permute_never_null exampleThree reachableIn_exampleThree 0 2
    QueryType.NEXT_PERMUTATION (by decide)⟩

/-! ## Positions beyond the end -/

/-- Claim C32: out-of-range positions are clamped. On every tree whose cached sizes are
consistent (every reachable state and each of its subtrees is one), `split_(t, left, right,
k)` with `k >= size(t)` returns `left` with the materialized sequence of `t` and `right`
null; so `remove(pos)` with `pos >= n` leaves the sequence unchanged and `insert(x, pos)`
with `pos > n` appends `x` at the end. -/
theorem split_clamps (t : Link) (h : Link.All SizeSumOK t) :
    (∀ k : Nat, subtree_size_ t ≤ k →
      materialize (split_ t k 0).1 = materialize t ∧ (split_ t k 0).2 = null) ∧
    (∀ pos : Nat, subtree_size_ t ≤ pos → print_ (remove t pos) = print_ t) ∧
    (∀ (x : Int) (pos priority : Nat), subtree_size_ t < pos →
      print_ (insert t x pos priority) = print_ t ++ [x]) := by
  have hsz := subtree_size_eq h
  refine ⟨?_, ?_, ?_⟩
  · intro k hk
    obtain ⟨e1, e2, -, -⟩ := split_spec t k h
    rw [hsz] at hk
    refine ⟨by rw [e1, List.take_of_length_le hk], null_of_materialize_nil ?_⟩
    rw [e2, List.drop_eq_nil_of_le hk]
  · intro pos hpos
    rw [hsz] at hpos
    obtain ⟨-, e⟩ := perform_operation_spec t pos pos (fun t => ((), Link.remove t)) h
      (fun _ _ => trivial)
    rw [print_eq, print_eq]
    show materialize (perform_operation t pos pos _).2 = _
    rw [e]
    simp [Link.remove, materialize, List.take_of_length_le hpos, List.drop_eq_nil_of_le hpos]
  · intro x pos priority hpos
    rw [hsz] at hpos
    obtain ⟨-, e⟩ := perform_operation_spec t pos (size_sub pos 1)
      (fun _ => ((), create x priority)) h (fun _ _ => ⟨trivial, trivial⟩)
    rw [print_eq, print_eq]
    show materialize (perform_operation t pos (size_sub pos 1) _).2 = _
    rw [e]
    simp [create, materialize, Node.pending, Node.new,
      List.take_of_length_le (Nat.le_of_lt hpos), List.drop_eq_nil_of_le (Nat.le_of_lt hpos)]

/-- Claim C32 at a concrete input: the state `[0, 1, 2]` split at 5, an element removed at
position 3 and one inserted at position 7. -/
theorem split_clamps_witness :
    Link.All SizeSumOK exampleThree ∧
    ((∀ k : Nat, subtree_size_ exampleThree ≤ k →
      materialize (split_ exampleThree k 0).1 = materialize exampleThree ∧
        (split_ exampleThree k 0).2 = null) ∧
    (∀ pos : Nat, subtree_size_ exampleThree ≤ pos →
      print_ (remove exampleThree pos) = print_ exampleThree) ∧
    (∀ (x : Int) (pos priority : Nat), subtree_size_ exampleThree < pos →
      print_ (insert exampleThree x pos priority) = print_ exampleThree ++ [x])) :=
  ⟨reachable_sizeSum reachable_exampleThree,
    split_clamps exampleThree (reachable_sizeSum reachable_exampleThree)⟩

end Treap

namespace Nim

/-! ## `nim.cpp` -/

theorem getXor_lt (n : Nat) : ∀ l : List Nat, (∀ a ∈ l, a < 2 ^ n) → GetXor l < 2 ^ n
  | [], _ => by simp [GetXor]
  | a :: l, h => by
    simp only [GetXor]
    exact Nat.xor_lt_two_pow (h a (List.mem_cons_self _ _))
      (getXor_lt n l (fun b hb => h b (List.mem_cons_of_mem _ hb)))

theorem clear_bit (k m : Nat) : ((2 ^ k * m) ||| 2 ^ k) ^^^ 2 ^ k = 2 ^ (k + 1) * (m / 2) := by
  apply Nat.eq_of_testBit_eq
  intro i
  simp only [Nat.testBit_xor, Nat.testBit_or, Nat.testBit_mul_pow_two, Nat.testBit_two_pow]
  by_cases h1 : k = i
  · subst h1
    simp
  · by_cases h2 : k + 1 ≤ i
    · have h3 : k ≤ i := by omega
      have h4 : i - k = (i - (k + 1)) + 1 := by omega
      simp [h1, h2, h3, h4, Nat.testBit_succ]
    · have h3 : ¬ k ≤ i := by omega
      simp [h1, h2, h3]

theorem leftmostBitAux_spec : ∀ (fuel k m : Nat), m ≠ 0 → m < 2 ^ fuel →
    ∃ j, LeftmostBitAux fuel (2 ^ k * m) (2 ^ k) = some (2 ^ (k + j)) ∧
      m.testBit j = true ∧ ∀ i, j < i → m.testBit i = false
  | 0, _, m, h0, h => by simp at h; exact absurd h h0
  | fuel + 1, k, m, h0, h => by
    have hpos : 0 < 2 ^ k := Nat.two_pow_pos _
    have hne : 2 ^ k * m ≠ 0 := Nat.mul_ne_zero (Nat.ne_of_gt hpos) h0
    by_cases h1 : m = 1
    · subst h1
      refine ⟨0, ?_, by decide, ?_⟩
      · simp [LeftmostBitAux]
      · intro i hi
        cases i with
        | zero => exact absurd hi (by decide)
        | succ i => simp [Nat.testBit_succ]
    · have hm2 : m / 2 ≠ 0 := by omega
      have hlt : m / 2 < 2 ^ fuel := by rw [Nat.pow_succ] at h; omega
      obtain ⟨j, e1, e2, e3⟩ := leftmostBitAux_spec fuel (k + 1) (m / 2) hm2 hlt
      refine ⟨j + 1, ?_, by rw [Nat.testBit_succ]; exact e2, ?_⟩
      · have hcur : 2 ^ k * m ≠ 2 ^ k := by
          intro hc
          have : 2 ^ k * m = 2 ^ k * 1 := by rw [hc, Nat.mul_one]
          exact h1 (Nat.eq_of_mul_eq_mul_left hpos this)
        unfold LeftmostBitAux
        rw [if_neg hne, if_neg hcur, clear_bit]
        have hs : 2 ^ k <<< 1 = 2 ^ (k + 1) := by rw [Nat.shiftLeft_eq]; ring
        rw [hs, e1]
        congr 2
        omega
      · intro i hi
        cases i with
        | zero => exact absurd hi (by omega)
        | succ i => rw [Nat.testBit_succ]; exact e3 i (by omega)

theorem leftmostBit_spec (num : Nat) (h0 : num ≠ 0) (h : num < 2 ^ 31) :
    ∃ j, LeftmostBit num = some (2 ^ j) ∧ num.testBit j = true ∧
      ∀ i, j < i → num.testBit i = false := by
  obtain ⟨j, e1, e2, e3⟩ := leftmostBitAux_spec 32 0 num h0
    (Nat.lt_trans h (by decide))
  refine ⟨j, ?_, e2, e3⟩
  unfold LeftmostBit
  simpa using e1

theorem and_two_pow_ne_zero (a j : Nat) : a &&& 2 ^ j ≠ 0 ↔ a.testBit j = true := by
  constructor
  · intro h
    by_contra hb
    apply h
    apply Nat.eq_of_testBit_eq
    intro i
    simp only [Nat.testBit_and, Nat.testBit_two_pow, Nat.zero_testBit]
    by_cases hji : j = i
    · subst hji; simp [hb]
    · simp [hji]
  · intro hb h
    have := congrArg (fun x => Nat.testBit x j) h
    simp [Nat.testBit_and, Nat.testBit_two_pow, hb] at this

theorem getXor_testBit (j : Nat) : ∀ l : List Nat, (GetXor l).testBit j = true →
    ∃ a ∈ l, a.testBit j = true
  | [], h => by simp [GetXor] at h
  | a :: l, h => by
    simp only [GetXor, Nat.testBit_xor] at h
    by_cases ha : a.testBit j = true
    · exact ⟨a, List.mem_cons_self _ _, ha⟩
    · have hl : (GetXor l).testBit j = true := by
        cases hx : (GetXor l).testBit j with
        | true => rfl
        | false => rw [hx] at h; simp at h; exact absurd h ha
      obtain ⟨b, hb, hbj⟩ := getXor_testBit j l hl
      exact ⟨b, List.mem_cons_of_mem _ hb, hbj⟩

theorem getXor_set : ∀ (l : List Nat) (idx a v : Nat), l[idx]? = some a →
    GetXor (l.set idx v) = GetXor l ^^^ a ^^^ v
  | [], _, _, _, h => by simp at h
  | b :: l, 0, a, v, h => by
    simp at h
    subst h
    simp only [List.set_cons_zero, GetXor]
    rw [Nat.xor_comm b (GetXor l), Nat.xor_assoc (GetXor l) b b, Nat.xor_self, Nat.xor_zero,
      Nat.xor_comm]
  | b :: l, idx + 1, a, v, h => by
    simp at h
    simp only [List.set_cons_succ, GetXor]
    rw [getXor_set l idx a v h, Nat.xor_assoc, Nat.xor_assoc, Nat.xor_assoc]

theorem findMove_spec (j sum : Nat) : ∀ (l : List Nat) (pile_id : Int),
    (∃ a ∈ l, a.testBit j = true) →
    (FindMove pile_id (2 ^ j) sum l).who = 1 ∧
    ∃ (idx a : Nat), l[idx]? = some a ∧ a.testBit j = true ∧
      (FindMove pile_id (2 ^ j) sum l).whence = pile_id + idx ∧
      (FindMove pile_id (2 ^ j) sum l).how = (a : Int) - ((a ^^^ sum : Nat) : Int)
  | [], _, h => by obtain ⟨a, ha, -⟩ := h; exact absurd ha (List.not_mem_nil _)
  | b :: l, pile_id, h => by
    have hbit : (2 : Nat) ^ j ≠ 0 := Nat.ne_of_gt (Nat.two_pow_pos _)
    have hspec : ¬ (pile_id = 1 ∧ 2 ^ j = 0 ∧ sum = 0) := fun hc => hbit hc.2.1
    unfold FindMove
    rw [if_neg hspec]
    refine ⟨rfl, ?_⟩
    by_cases hb : b.testBit j = true
    · refine ⟨0, b, by simp, hb, ?_, ?_⟩
      · simp [(and_two_pow_ne_zero b j).mpr hb]
      · simp [(and_two_pow_ne_zero b j).mpr hb]
    · have hl : ∃ a ∈ l, a.testBit j = true := by
        obtain ⟨a, ha, haj⟩ := h
        rcases List.mem_cons.mp ha with rfl | ha
        · exact absurd haj hb
        · exact ⟨a, ha, haj⟩
      obtain ⟨-, idx, a, e1, e2, e3, e4⟩ := findMove_spec j sum l (pile_id + 1) hl
      have hz : ¬ (b &&& 2 ^ j ≠ 0) := fun hc => hb ((and_two_pow_ne_zero b j).mp hc)
      refine ⟨idx + 1, a, by simpa using e1, e2, ?_, ?_⟩
      · simp only [if_neg hz]
        rw [e3]; push_cast; ring
      · simp only [if_neg hz]
        exact e4

theorem xor_top_lt (a sum j : Nat) (ha : a.testBit j = true) (hs : sum.testBit j = true)
    (htop : ∀ i, j < i → sum.testBit i = false) : a ^^^ sum < a := by
  apply Nat.lt_of_testBit j
  · simp [Nat.testBit_xor, ha, hs]
  · exact ha
  · intro i hi
    simp [Nat.testBit_xor, htop i hi]

theorem foldl_xor_getXor : ∀ (l : List Nat) (s : Nat),
    l.foldl (fun acc a => acc ^^^ a) s = s ^^^ GetXor l
  | [], s => by simp [GetXor]
  | a :: l, s => by
    rw [List.foldl_cons, foldl_xor_getXor l (s ^^^ a)]
    simp only [GetXor, Nat.xor_assoc]

/-- The template `GetXor` computes the xor of the piles. -/
theorem getXor_eq_pilesXor (l : List Nat) : GetXor l = pilesXor l := by
  unfold pilesXor
  rw [foldl_xor_getXor, Nat.zero_xor]

/-- Claim C39: for every non-empty list of non-negative `int` piles, `AhalaiMahalai` is
computed, reports `who = 1` exactly when the xor `a_1 xor ... xor a_m` of the piles
(`pilesXor`, stated apart from the template `GetXor`) is non-zero and `who = 2` when it is
zero; and when `who = 1`, `whence` is a 1-based pile index and `how` a number of stones with
`1 <= how <= a_whence` such that replacing `a_whence` by `a_whence - how` makes the xor of
all piles zero. -/
theorem ahalai_mahalai_correct (nums : List Nat) (hne : nums ≠ [])
    (hint : ∀ a ∈ nums, a < 2 ^ 31) :
    ∃ m, AhalaiMahalai nums = some m ∧
      (m.who = 1 ↔ pilesXor nums ≠ 0) ∧ (pilesXor nums = 0 → m.who = 2) ∧
      (m.who = 1 →
        1 ≤ m.whence ∧ m.whence ≤ nums.length ∧
        1 ≤ m.how ∧ m.how ≤ nums.getD (m.whence.toNat - 1) 0 ∧
        pilesXor (applyMove nums m.whence m.how) = 0) := by
  simp only [← getXor_eq_pilesXor]
  by_cases hz : GetXor nums = 0
  · have hA : AhalaiMahalai nums = some (FindMove 1 0 0 nums) := by
      simp [AhalaiMahalai, hz, LeftmostBit, LeftmostBitAux]
    cases nums with
    | nil => exact absurd rfl hne
    | cons b l =>
      have hw : (FindMove 1 0 0 (b :: l)).who = 2 := by simp [FindMove]
      refine ⟨_, hA, ?_, fun _ => hw, ?_⟩
      · rw [hw]; simp [hz]
      · rw [hw]; intro hc; exact absurd hc (by decide)
  · obtain ⟨j, e1, e2, e3⟩ := leftmostBit_spec (GetXor nums) hz (getXor_lt 31 nums hint)
    have hA : AhalaiMahalai nums = some (FindMove 1 (2 ^ j) (GetXor nums) nums) := by
      simp [AhalaiMahalai, e1]
    obtain ⟨hw, idx, a, f1, f2, f3, f4⟩ :=
      findMove_spec j (GetXor nums) nums 1 (getXor_testBit j nums e2)
    refine ⟨_, hA, ?_, fun h => absurd h hz, fun _ => ?_⟩
    · rw [hw]; simp [hz]
    · have hidx : idx < nums.length := (List.getElem?_eq_some.mp f1).1
      have hlt := xor_top_lt a (GetXor nums) j f2 e2 e3
      have hwn : (FindMove 1 (2 ^ j) (GetXor nums) nums).whence.toNat - 1 = idx := by
        rw [f3]; omega
      have hget : nums.getD idx 0 = a := by
        rw [List.getD_eq_getElem?_getD, f1]; rfl
      refine ⟨by rw [f3]; omega, by rw [f3]; omega, by rw [f4]; omega, ?_, ?_⟩
      · rw [hwn, hget, f4]; omega
      · unfold applyMove
        rw [hwn, hget, f4, getXor_set nums idx a _ f1]
        have : ((a : Int) - ((a : Int) - ((a ^^^ GetXor nums : Nat) : Int))).toNat
            = a ^^^ GetXor nums := by
          have : (a : Int) - ((a : Int) - ((a ^^^ GetXor nums : Nat) : Int))
              = ((a ^^^ GetXor nums : Nat) : Int) := by ring
          rw [this]; exact Int.toNat_natCast _
        rw [this, Nat.xor_comm a (GetXor nums), Nat.xor_self]

/-- Claim C39 at the piles `1, 3, 7` of `main`: the first player wins by taking 5 stones
from the third pile. -/
theorem ahalai_mahalai_correct_witness :
    ([1, 3, 7] : List Nat) ≠ [] ∧ (∀ a ∈ ([1, 3, 7] : List Nat), a < 2 ^ 31) ∧
    ∃ m, AhalaiMahalai [1, 3, 7] = some m ∧
      (m.who = 1 ↔ pilesXor [1, 3, 7] ≠ 0) ∧ (pilesXor [1, 3, 7] = 0 → m.who = 2) ∧
      (m.who = 1 →
        1 ≤ m.whence ∧ m.whence ≤ ([1, 3, 7] : List Nat).length ∧
        1 ≤ m.how ∧ m.how ≤ ([1, 3, 7] : List Nat).getD (m.whence.toNat - 1) 0 ∧
        pilesXor (applyMove [1, 3, 7] m.whence m.how) = 0) :=
  ⟨by decide, by decide, ahalai_mahalai_correct [1, 3, 7] (by decide) (by decide)⟩

end Nim

namespace Permutation

/-! ## `permutation.cpp`: `operator <` and `operator ++` -/

theorem operator_lt_iff : ∀ p q : List Int,
    operator_lt p q = true ↔ List.Lex (fun a b : Int => a < b) p q
  | [], [] => by simp [operator_lt]
  | [], b :: q => by simp [operator_lt, List.Lex.nil]
  | a :: p, [] => by simp [operator_lt]
  | a :: p, b :: q => by
    unfold operator_lt
    by_cases h : a = b
    · subst h
      simp only [ne_eq, not_true_eq_false, if_false]
      rw [operator_lt_iff p q]
      constructor
      · exact List.Lex.cons
      · intro hl
        cases hl with
        | cons h1 => exact h1
        | rel h1 => exact absurd h1 (lt_irrefl _)
    · simp only [ne_eq, h, not_false_eq_true, if_true, decide_eq_true_eq]
      constructor
      · exact List.Lex.rel
      · intro hl
        cases hl with
        | cons h1 => exact absurd rfl h
        | rel h1 => exact h1

theorem length_identity (n : Nat) : (identity n).length = n := by simp [identity]

theorem length_swap (p : List Int) (i j : Nat) : (swap p i j).length = p.length := by
  simp [swap]

theorem descent_start_spec (p : List Int) : ∀ k : Nat,
    descent_start p k ≤ k ∧
    (∀ i, descent_start p k ≤ i → i < k → p.getD (i + 1) 0 < p.getD i 0) ∧
    (descent_start p k = 0 ∨
      ¬ p.getD (descent_start p k - 1) 0 > p.getD (descent_start p k) 0)
  | 0 => by simp [descent_start]
  | k + 1 => by
    unfold descent_start
    by_cases h : p.getD k 0 > p.getD (k + 1) 0
    · rw [if_pos h]
      obtain ⟨h1, h2, h3⟩ := descent_start_spec p k
      refine ⟨Nat.le_succ_of_le h1, ?_, h3⟩
      intro i hi hik
      by_cases hk : i = k
      · subst hk; exact h
      · exact h2 i hi (by omega)
    · rw [if_neg h]
      refine ⟨le_refl _, fun i hi hik => absurd hi (by omega), Or.inr ?_⟩
      simpa using h

theorem min_greater_loop_spec (p : List Int) (k : Nat) : ∀ (count i mg : Nat),
    k < mg → mg < i + count → k < i → p.getD k 0 < p.getD mg 0 →
    (∀ j, k < j → j < i → p.getD k 0 < p.getD j 0 → p.getD mg 0 ≤ p.getD j 0) →
    k < min_greater_loop p k count i mg ∧ min_greater_loop p k count i mg < i + count ∧
    p.getD k 0 < p.getD (min_greater_loop p k count i mg) 0 ∧
    (∀ j, k < j → j < i + count → p.getD k 0 < p.getD j 0 →
      p.getD (min_greater_loop p k count i mg) 0 ≤ p.getD j 0)
  | 0, i, mg, h1, h2, _, h4, h5 => by
    simp only [min_greater_loop, Nat.add_zero] at *
    exact ⟨h1, h2, h4, h5⟩
  | count + 1, i, mg, h1, h2, h3, h4, h5 => by
    unfold min_greater_loop
    have e : i + (count + 1) = (i + 1) + count := by omega
    rw [e]
    by_cases hc : p.getD i 0 > p.getD k 0 ∧ p.getD i 0 < p.getD mg 0
    · rw [if_pos hc]
      apply min_greater_loop_spec p k count (i + 1) i h3 (by omega) (by omega) hc.1
      intro j hj1 hj2 hj3
      by_cases hji : j = i
      · subst hji; exact le_refl _
      · exact le_trans (le_of_lt hc.2) (h5 j hj1 (by omega) hj3)
    · rw [if_neg hc]
      apply min_greater_loop_spec p k count (i + 1) mg h1 (by omega) (by omega) h4
      intro j hj1 hj2 hj3
      by_cases hji : j = i
      · subst hji
        by_contra hlt
        exact hc ⟨hj3, lt_of_not_le hlt⟩
      · exact h5 j hj1 (by omega) hj3

theorem swap_decomp (A B C : List Int) (a c : Int) :
    swap (A ++ a :: (B ++ c :: C)) A.length (A.length + B.length + 1) =
      A ++ c :: (B ++ a :: C) := by
  have h1 : (A ++ a :: (B ++ c :: C)).getD A.length 0 = a := by
    rw [List.getD_eq_getElem?_getD, List.getElem?_append_right (le_refl _)]
    simp
  have h2 : (A ++ a :: (B ++ c :: C)).getD (A.length + B.length + 1) 0 = c := by
    rw [List.getD_eq_getElem?_getD, List.getElem?_append_right (by omega)]
    have : A.length + B.length + 1 - A.length = B.length + 1 := by omega
    rw [this, List.getElem?_cons_succ, List.getElem?_append_right (le_refl _)]
    simp
  unfold swap
  simp only [h1, h2]
  rw [List.set_append_right _ _ (le_refl _)]
  simp only [Nat.sub_self, List.set_cons_zero]
  rw [List.set_append_right _ _ (by omega)]
  have : A.length + B.length + 1 - A.length = B.length + 1 := by omega
  rw [this, List.set_cons_succ, List.set_append_right _ _ (le_refl _)]
  simp

theorem reverse_loop_spec : ∀ (fuel : Nat) (A M Z : List Int), M.length ≤ fuel →
    reverse_loop fuel (A ++ M ++ Z) A.length (A.length + M.length - 1) =
      A ++ M.reverse ++ Z
  | 0, A, M, Z, h => by
    have : M = [] := List.length_eq_zero.mp (Nat.le_zero.mp h)
    subst this
    simp [reverse_loop]
  | fuel + 1, A, M, Z, h => by
    unfold reverse_loop
    cases M with
    | nil => simp
    | cons x M1 =>
      rcases List.eq_nil_or_concat M1 with rfl | ⟨M2, y, rfl⟩
      all_goals try rw [List.concat_eq_append] at *
      · simp
      · have hlt : A.length < A.length + (x :: (M2 ++ [y])).length - 1 := by
          simp only [List.length_cons, List.length_append, List.length_nil]; omega
        rw [if_pos hlt]
        have e1 : A ++ x :: (M2 ++ [y]) ++ Z = A ++ x :: (M2 ++ y :: Z) := by simp
        have e2 : A.length + (x :: (M2 ++ [y])).length - 1 = A.length + M2.length + 1 := by
          simp only [List.length_cons, List.length_append, List.length_nil]; omega
        rw [e1, e2, swap_decomp]
        have e3 : A ++ y :: (M2 ++ x :: Z) = (A ++ [y]) ++ M2 ++ (x :: Z) := by simp
        have e4 : A.length + 1 = (A ++ [y]).length := by simp
        have e5 : A.length + M2.length + 1 - 1 = (A ++ [y]).length + M2.length - 1 := by
          simp only [List.length_append, List.length_cons, List.length_nil]; omega
        rw [e3, e4, e5, reverse_loop_spec fuel (A ++ [y]) M2 (x :: Z)
          (by simp only [List.length_cons, List.length_append, List.length_nil] at h; omega)]
        simp

end Permutation

namespace Permutation

theorem getD_descending_chain (p : List Int) (s : Nat)
    (h : ∀ i, s ≤ i → i + 1 < p.length → p.getD (i + 1) 0 < p.getD i 0) :
    ∀ d i, s ≤ i → i + d + 1 < p.length → p.getD (i + d + 1) 0 < p.getD i 0
  | 0, i, hi, hlt => h i hi hlt
  | d + 1, i, hi, hlt => by
    have h1 := getD_descending_chain p s h d i hi (by omega)
    have h2 := h (i + d + 1) (by omega) (by omega)
    exact lt_trans h2 h1

theorem pairwise_drop_of_chain (p : List Int) (s : Nat)
    (h : ∀ i, s ≤ i → i + 1 < p.length → p.getD (i + 1) 0 < p.getD i 0) :
    (p.drop s).Pairwise (fun u v => v < u) := by
  rw [List.pairwise_iff_getElem]
  intro i j hi hj hij
  rw [List.length_drop] at hi hj
  rw [List.getElem_drop, List.getElem_drop]
  have h1 := getD_descending_chain p s h (j - i - 1) (s + i) (by omega) (by omega)
  have e : s + i + (j - i - 1) + 1 = s + j := by omega
  rw [e, List.getD_eq_getElem _ _ (by omega), List.getD_eq_getElem _ _ (by omega)] at h1
  exact h1

theorem exists_decomp (p : List Int) (k mg : Nat) (h1 : k < mg) (h2 : mg < p.length) :
    ∃ A a B c C, p = A ++ a :: (B ++ c :: C) ∧ A.length = k ∧ B.length = mg - k - 1 := by
  have hk : k < p.length := by omega
  have e1 : p = p.take k ++ p.drop k := (List.take_append_drop k p).symm
  have e2 : p.drop k = p[k] :: p.drop (k + 1) := List.drop_eq_getElem_cons hk
  have hm : mg - k - 1 < (p.drop (k + 1)).length := by rw [List.length_drop]; omega
  have e3 : p.drop (k + 1) =
      (p.drop (k + 1)).take (mg - k - 1) ++ (p.drop (k + 1)).drop (mg - k - 1) :=
    (List.take_append_drop _ _).symm
  have e4 : (p.drop (k + 1)).drop (mg - k - 1) =
      (p.drop (k + 1))[mg - k - 1] :: (p.drop (k + 1)).drop (mg - k - 1 + 1) :=
    List.drop_eq_getElem_cons hm
  refine ⟨p.take k, p[k], (p.drop (k + 1)).take (mg - k - 1), (p.drop (k + 1))[mg - k - 1],
    (p.drop (k + 1)).drop (mg - k - 1 + 1), ?_, ?_, ?_⟩
  · rw [← e4, ← e3, ← e2, ← e1]
  · rw [List.length_take]; omega
  · rw [List.length_take]; omega

theorem getD_decomp_pivot (A B C : List Int) (a c : Int) :
    (A ++ a :: (B ++ c :: C)).getD A.length 0 = a := by
  rw [List.getD_eq_getElem?_getD, List.getElem?_append_right (le_refl _)]
  simp

theorem getD_decomp_suffix (A S : List Int) (a : Int) (i : Nat) :
    (A ++ a :: S).getD (A.length + 1 + i) 0 = S.getD i 0 := by
  rw [List.getD_eq_getElem?_getD, List.getD_eq_getElem?_getD,
    List.getElem?_append_right (by omega)]
  have : A.length + 1 + i - A.length = i + 1 := by omega
  rw [this, List.getElem?_cons_succ]

/-- What `operator ++` does on a non-empty array without repeated elements: the identity
when the array is descending, the classic pivot step otherwise. -/
theorem operator_inc_spec (p : List Int) (hne : p ≠ []) (hnd : p.Nodup) :
    (p.Pairwise (fun u v => v < u) ∧ operator_inc p = some (identity p.length)) ∨
    (∃ A a B c C, p = A ++ a :: (B ++ c :: C) ∧
      (B ++ c :: C).Pairwise (fun u v => v < u) ∧ a < c ∧ (∀ y ∈ C, ¬ a < y) ∧
      operator_inc p = some (A ++ c :: (B ++ a :: C).reverse)) := by
  have hlen : p.length ≠ 0 := fun h => hne (List.length_eq_zero.mp h)
  obtain ⟨d1, d2, d3⟩ := descent_start_spec p (p.length - 1)
  by_cases hk : descent_start p (p.length - 1) = 0
  · left
    constructor
    · have := pairwise_drop_of_chain p 0 (fun i _ hi => d2 i (by omega) (by omega))
      simpa using this
    · unfold operator_inc
      simp only [if_neg hlen, hk, if_true]
  · right
    rcases d3 with d3 | d3
    · exact absurd d3 hk
    · -- the pivot index
      obtain ⟨k, hk1⟩ : ∃ k, descent_start p (p.length - 1) = k + 1 :=
        ⟨descent_start p (p.length - 1) - 1, by omega⟩
      rw [hk1] at d1 d2 d3
      simp only [Nat.add_sub_cancel] at d3
      have hkn : k + 1 < p.length := by omega
      have hsuf := pairwise_drop_of_chain p (k + 1) (fun i h1 h2 => d2 i h1 (by omega))
      have hneq : p.getD k 0 ≠ p.getD (k + 1) 0 := by
        rw [List.getD_eq_getElem _ _ (by omega), List.getD_eq_getElem _ _ hkn]
        intro hc
        have := (List.Nodup.getElem_inj_iff hnd).mp hc
        omega
      have hasc : p.getD k 0 < p.getD (k + 1) 0 :=
        lt_of_le_of_ne (not_lt.mp d3) hneq
      obtain ⟨m1, m2, m3, m4⟩ := min_greater_loop_spec p k (p.length - (k + 1)) (k + 1)
        (k + 1) (by omega) (by omega) (by omega) hasc
        (fun j hj1 hj2 _ => absurd hj2 (by omega))
      have hfin : k + 1 + (p.length - (k + 1)) = p.length := by omega
      rw [hfin] at m2 m4
      generalize hmg : min_greater_loop p k (p.length - (k + 1)) (k + 1) (k + 1) = mg
        at m1 m2 m3 m4
      obtain ⟨A, a, B, c, C, e, eA, eB⟩ := exists_decomp p k mg m1 m2
      have hmgi : mg = A.length + B.length + 1 := by omega
      have hop : operator_inc p = some (reverse_loop p.length (swap p k mg) (k + 1)
          (p.length - 1)) := by
        unfold operator_inc
        simp only [if_neg hlen, hk1, Nat.add_sub_cancel, Nat.succ_ne_zero, if_false, hmg,
          length_swap]
      subst e
      subst eA
      have ga : (A ++ a :: (B ++ c :: C)).getD A.length 0 = a := getD_decomp_pivot A B C a c
      have gs : ∀ i, (A ++ a :: (B ++ c :: C)).getD (A.length + 1 + i) 0 =
          (B ++ c :: C).getD i 0 := getD_decomp_suffix A (B ++ c :: C) a
      have gc : (A ++ a :: (B ++ c :: C)).getD mg 0 = c := by
        have : mg = A.length + 1 + B.length := by omega
        rw [this, gs, List.getD_eq_getElem?_getD, List.getElem?_append_right (le_refl _)]
        simp
      have hdrop : (A ++ a :: (B ++ c :: C)).drop (A.length + 1) = B ++ c :: C := by
        rw [List.drop_append_eq_append_drop]
        simp
      rw [hdrop] at hsuf
      rw [ga, gc] at m3
      refine ⟨A, a, B, c, C, rfl, hsuf, m3, ?_, ?_⟩
      · intro y hy hay
        have hyc : y < c := by
          have := (List.pairwise_append.mp hsuf).2.1
          exact (List.pairwise_cons.mp this).1 y hy
        obtain ⟨i, hi, rfl⟩ := List.getElem_of_mem hy
        have hget : (A ++ a :: (B ++ c :: C)).getD (A.length + 1 + (B.length + 1 + i)) 0
            = C[i] := by
          rw [gs, List.getD_eq_getElem?_getD, List.getElem?_append_right (by omega)]
          have : B.length + 1 + i - B.length = i + 1 := by omega
          rw [this, List.getElem?_cons_succ, List.getElem?_eq_getElem hi]
          rfl
        have := m4 (A.length + 1 + (B.length + 1 + i)) (by omega)
          (by simp only [List.length_append, List.length_cons]; omega)
          (by rw [ga, hget]; exact hay)
        rw [gc, hget] at this
        exact absurd hyc (not_lt.mpr this)
      · rw [hop, hmgi, swap_decomp]
        have e1 : A ++ c :: (B ++ a :: C) = (A ++ [c]) ++ (B ++ a :: C) ++ [] := by simp
        have e2 : A.length + 1 = (A ++ [c]).length := by simp
        have e3 : (A ++ a :: (B ++ c :: C)).length - 1 =
            (A ++ [c]).length + (B ++ a :: C).length - 1 := by
          simp only [List.length_append, List.length_cons, List.length_nil]; omega
        rw [e1, e2, e3, reverse_loop_spec _ (A ++ [c]) (B ++ a :: C) []
          (by simp only [List.length_append, List.length_cons, List.length_nil]; omega)]
        simp

end Permutation

namespace Permutation

theorem pairwise_identity (n : Nat) : (identity n).Pairwise (fun u v => u < v) := by
  unfold identity
  rw [List.pairwise_map]
  exact (List.pairwise_lt_range n).imp (fun h => by exact_mod_cast h)

theorem nodup_identity (n : Nat) : (identity n).Nodup :=
  (pairwise_identity n).imp (fun h => ne_of_lt h)

theorem pairwise_descending (n : Nat) : (descending n).Pairwise (fun u v => v < u) := by
  unfold descending
  rw [List.pairwise_reverse]
  exact pairwise_identity n

theorem eq_descending_of_pairwise {n : Nat} {p : List Int} (hp : IsPermutation n p)
    (h : p.Pairwise (fun u v => v < u)) : p = descending n := by
  have h1 : p.Perm (descending n) := hp.trans (List.reverse_perm _).symm
  have s1 : List.Sorted (fun u v : Int => u > v) p := h
  have s2 : List.Sorted (fun u v : Int => u > v) (descending n) := pairwise_descending n
  exact List.eq_of_perm_of_sorted h1 s1 s2

/-- Claim C33: for every `n >= 1` and every `p` holding a permutation of `0..n-1`, `++p`
completes; when `p` is not the descending permutation the new `p` is a permutation of
`0..n-1`, strictly greater than the old one under `operator <`, and no permutation of
`0..n-1` greater than the old `p` is smaller than it; when `p` is the descending
permutation the new `p` is the identity `Permutation(n)`. -/
theorem operator_inc_correct (n : Nat) (p : List Int) (hn : 1 ≤ n)
    (hp : IsPermutation n p) :
    ∃ X, operator_inc p = some X ∧
      (p ≠ descending n → IsPermutation n X ∧ operator_lt p X = true ∧
        ∀ Y, IsPermutation n Y → operator_lt p Y = true → operator_lt Y X = false) ∧
      (p = descending n → X = identity n) := by
  have hlen : p.length = n := by rw [hp.length_eq, length_identity]
  have hne : p ≠ [] := by
    intro h; rw [h] at hlen; simp at hlen; omega
  have hnd : p.Nodup := hp.nodup_iff.mpr (nodup_identity n)
  rcases operator_inc_spec p hne hnd with ⟨h1, h2⟩ | ⟨A, a, B, c, C, e, h1, h2, h3, h4⟩
  · rw [hlen] at h2
    exact ⟨_, h2, fun hd => absurd (eq_descending_of_pairwise hp h1) hd, fun _ => rfl⟩
  · refine ⟨_, h4, fun _ => ⟨?_, ?_, ?_⟩, fun hd => ?_⟩
    · have : (A ++ c :: (B ++ a :: C).reverse).Perm p := by
        rw [e]
        refine List.Perm.append_left A ?_
        refine ((List.reverse_perm _).cons c).trans ?_
        have h5 : (c :: (B ++ a :: C)).Perm (B ++ c :: a :: C) := List.perm_middle.symm
        have h6 : (a :: (B ++ c :: C)).Perm (B ++ a :: c :: C) := List.perm_middle.symm
        refine h5.trans (List.Perm.trans ?_ h6.symm)
        exact List.Perm.append_left B (List.Perm.swap a c C)
      exact this.trans hp
    · rw [operator_lt_iff, e]
      exact Treap.step_greater _ a c A B C h2
    · intro Y hY hlt
      rw [operator_lt_iff] at hlt
      cases hYX : operator_lt Y (A ++ c :: (B ++ a :: C).reverse) with
      | false => rfl
      | true =>
        rw [operator_lt_iff] at hYX
        rw [e] at hlt
        exact absurd hYX (Treap.step_least (fun u v : Int => u < v) (fun x => lt_irrefl x)
          (fun x y z => lt_trans) a c B C (h1.imp (fun h => not_lt.mpr (le_of_lt h))) h2 h3
          A Y (by rw [← e]; exact hY.trans hp.symm) hlt)
    · exfalso
      have hpw : p.Pairwise (fun u v => v < u) := by rw [hd]; exact pairwise_descending n
      rw [e] at hpw
      have h5 := (List.pairwise_append.mp hpw).2.1
      have h6 := (List.pairwise_cons.mp h5).1 c (by simp)
      exact absurd h6 (not_lt.mpr (le_of_lt h2))

/-- Claim C33 at a concrete input: `++` on the permutation `(0, 2, 1)` of `0..2`. -/
theorem operator_inc_correct_witness :
    1 ≤ 3 ∧ IsPermutation 3 [0, 2, 1] ∧
    ∃ X, operator_inc [0, 2, 1] = some X ∧
      (([0, 2, 1] : List Int) ≠ descending 3 → IsPermutation 3 X ∧
        operator_lt [0, 2, 1] X = true ∧
        ∀ Y, IsPermutation 3 Y → operator_lt [0, 2, 1] Y = true → operator_lt Y X = false) ∧
      (([0, 2, 1] : List Int) = descending 3 → X = identity 3) :=
  ⟨by decide, by unfold IsPermutation; decide,
    operator_inc_correct 3 [0, 2, 1] (by decide) (by unfold IsPermutation; decide)⟩

end Permutation

namespace Permutation

/-! ## `permutation.cpp`: `inverse` and `operator *` -/

theorem mapM_of_forall {α β : Type} (f : α → Option β) (g : α → β) :
    ∀ l : List α, (∀ x ∈ l, f x = some (g x)) → l.mapM f = some (l.map g)
  | [], _ => by rw [List.mapM_nil]; rfl
  | a :: l, h => by
    rw [List.mapM_cons, h a (List.mem_cons_self _ _),
      mapM_of_forall f g l (fun x hx => h x (List.mem_cons_of_mem _ hx))]
    rfl

/-- The content of a permutation of `0..n-1` as natural numbers. -/
theorem exists_nat_list {n : Nat} {p : List Int} (hp : IsPermutation n p) :
    ∃ P : List Nat, p = P.map (fun i : Nat => (i : Int)) ∧ P.Perm (List.range n) := by
  refine ⟨p.map Int.toNat, ?_, ?_⟩
  · rw [List.map_map]
    have : ∀ x ∈ p, ((fun i : Nat => (i : Int)) ∘ Int.toNat) x = x := by
      intro x hx
      have hx1 : x ∈ identity n := hp.subset hx
      unfold identity at hx1
      obtain ⟨i, -, rfl⟩ := List.mem_map.mp hx1
      simp
    rw [List.map_congr_left this]; simp
  · have h1 := hp.map Int.toNat
    unfold identity at h1
    rw [List.map_map] at h1
    have : (Int.toNat ∘ fun i : Nat => (i : Int)) = id := by
      funext i; simp
    rw [this, List.map_id] at h1
    exact h1

theorem perm_range_facts {n : Nat} {P : List Nat} (hP : P.Perm (List.range n)) :
    P.length = n ∧ (∀ (i v : Nat), P[i]? = some v → v < n) ∧
    (∀ (i j v : Nat), P[i]? = some v → P[j]? = some v → i = j) ∧
    (∀ v, v < n → ∃ i, i < n ∧ P[i]? = some v) := by
  have hlen : P.length = n := by rw [hP.length_eq, List.length_range]
  have hnd : P.Nodup := hP.nodup_iff.mpr (List.nodup_range n)
  refine ⟨hlen, ?_, ?_, ?_⟩
  · intro i v h
    exact List.mem_range.mp (hP.subset (List.getElem?_mem h))
  · intro i j v hi hj
    obtain ⟨hi1, hi2⟩ := List.getElem?_eq_some.mp hi
    obtain ⟨hj1, hj2⟩ := List.getElem?_eq_some.mp hj
    exact (List.Nodup.getElem_inj_iff hnd).mp (hi2.trans hj2.symm)
  · intro v hv
    have : v ∈ P := hP.symm.subset (List.mem_range.mpr hv)
    obtain ⟨i, hi⟩ := List.mem_iff_getElem?.mp this
    exact ⟨i, by rw [← hlen]; exact (List.getElem?_eq_some.mp hi).1, hi⟩

/-- The loop of `inverse` after `m` iterations. -/
theorem inverse_loop {n : Nat} {P : List Nat} (hP : P.Perm (List.range n)) :
    ∀ m, m ≤ n → ∃ r : List Int,
      (List.range m).foldlM
        (fun result i =>
          let v := (P.map (fun i : Nat => (i : Int))).getD i 0
          if 0 ≤ v ∧ v.toNat < result.length then some (result.set v.toNat (i : Int))
          else none)
        (identity n) = some r ∧
      r.length = n ∧ ∀ (i v : Nat), i < m → P[i]? = some v → r[v]? = some (i : Int)
  | 0, _ => ⟨identity n, rfl, length_identity n, fun i v h _ => absurd h (by omega)⟩
  | m + 1, hm => by
    obtain ⟨hlen, hlt, hinj, -⟩ := perm_range_facts hP
    obtain ⟨r, e1, e2, e3⟩ := inverse_loop hP m (by omega)
    have hmP : m < P.length := by omega
    have hget : (P.map (fun i : Nat => (i : Int))).getD m 0 = (P[m] : Int) := by
      rw [List.getD_eq_getElem?_getD, List.getElem?_map, List.getElem?_eq_getElem hmP]
      rfl
    have hv : P[m] < n := hlt m _ (List.getElem?_eq_getElem hmP)
    refine ⟨r.set P[m] (m : Int), ?_, by rw [List.length_set]; exact e2, ?_⟩
    · rw [List.range_succ, List.foldlM_append, e1]
      simp only [Option.bind_eq_bind, Option.some_bind, List.foldlM_cons, List.foldlM_nil,
        hget, Int.toNat_natCast, e2]
      rw [if_pos ⟨Int.natCast_nonneg _, hv⟩]
      rfl
    · intro i v hi hiv
      by_cases him : i = m
      · subst him
        have : v = P[i] := by
          rw [List.getElem?_eq_getElem hmP] at hiv
          exact (Option.some.inj hiv).symm
        subst this
        rw [List.getElem?_set_self (by omega)]
      · have hne : P[m] ≠ v := by
          intro hc
          exact him (hinj i m v hiv (by rw [List.getElem?_eq_getElem hmP, hc]))
        rw [List.getElem?_set_ne hne]
        exact e3 i v (by omega) hiv

/-- The code's `operator *` on two permutations of `0..n-1` completes with the product
`(a * b)[i] = a[b[i]]`. -/
theorem operator_mul_compose (n : Nat) (a b : List Int) (ha : IsPermutation n a)
    (hb : IsPermutation n b) : operator_mul a b = some (compose a b) := by
  have hla : a.length = n := by rw [ha.length_eq, length_identity]
  have hlb : b.length = n := by rw [hb.length_eq, length_identity]
  unfold operator_mul operator_mul_assign
  rw [mapM_of_forall _ (fun i => a.getD (b.getD i 0).toNat 0)]
  · congr 1
    unfold compose
    apply List.ext_getElem
    · simp [hla, hlb]
    · intro i h1 h2
      have hib : i < b.length := by simpa using h2
      simp [List.getD_eq_getElem?_getD, List.getElem?_eq_getElem hib]
  · intro i hi
    have hi1 : i < n := by rw [← hla]; exact List.mem_range.mp hi
    have hib : i < b.length := by omega
    have hmem : b[i] ∈ identity n := hb.subset (List.getElem_mem _)
    unfold identity at hmem
    obtain ⟨v, hv, hve⟩ := List.mem_map.mp hmem
    have hvn : v < a.length := by rw [hla]; exact List.mem_range.mp hv
    simp only [List.getElem?_eq_getElem hib, List.getD_eq_getElem?_getD, Option.some_bind,
      Option.getD_some, at_index, ← hve, Int.natCast_nonneg, if_true, Int.toNat_natCast,
      List.getElem?_eq_getElem hvn]

/-- Claim C34: for every `p` holding a permutation of `0..n-1`, `p.inverse()` completes
and is again a permutation of `0..n-1`; both `p * p.inverse()` and `p.inverse() * p`
complete and equal the identity `Permutation(n)`; the products `(a * b)[i] = a[b[i]]`
themselves (`compose`, stated apart from `operator *`) of `p` with its inverse, in both
orders, are the identity; and on any two permutations of `0..n-1` the code's `operator *`
completes with that product. -/
theorem inverse_correct (n : Nat) (p : List Int) (hp : IsPermutation n p) :
    ∃ q, inverse p = some q ∧ IsPermutation n q ∧
      operator_mul p q = some (identity n) ∧ operator_mul q p = some (identity n) ∧
      compose p q = identity n ∧ compose q p = identity n ∧
      (∀ i, i < n → p.getD (q.getD i 0).toNat 0 = (i : Int) ∧
        q.getD (p.getD i 0).toNat 0 = (i : Int)) ∧
      (∀ a b, IsPermutation n a → IsPermutation n b →
        operator_mul a b = some (compose a b)) := by
  have hp0 := hp
  have main : ∃ q, inverse p = some q ∧ IsPermutation n q ∧
      operator_mul p q = some (identity n) ∧ operator_mul q p = some (identity n) := by
    clear hp0

    obtain ⟨P, rfl, hP⟩ := exists_nat_list hp
    obtain ⟨hlen, hlt, hinj, hsur⟩ := perm_range_facts hP
    obtain ⟨q, e1, e2, e3⟩ := inverse_loop hP n (le_refl _)
    have hq : ∀ v, v < n → ∃ i, i < n ∧ P[i]? = some v ∧ q[v]? = some (i : Int) := by
      intro v hv
      obtain ⟨i, hi1, hi2⟩ := hsur v hv
      exact ⟨i, hi1, hi2, e3 i v hi1 hi2⟩
    refine ⟨q, ?_, ?_, ?_, ?_⟩
    · unfold inverse
      rw [List.length_map, hlen]
      exact e1
    · -- the inverse holds a permutation
      have hnd : q.Nodup := by
        rw [List.nodup_iff_getElem?_ne_getElem?]
        intro v w hvw hw hc
        rw [e2] at hw
        obtain ⟨i, -, hi2, hi3⟩ := hq v (by omega)
        obtain ⟨j, -, hj2, hj3⟩ := hq w hw
        rw [hi3, hj3] at hc
        have hij : i = j := by exact_mod_cast Option.some.inj hc
        subst hij
        rw [hi2] at hj2
        have := Option.some.inj hj2
        omega
      have hsub : q ⊆ identity n := by
        intro x hx
        obtain ⟨v, hv⟩ := List.mem_iff_getElem?.mp hx
        have hvn : v < n := by rw [← e2]; exact (List.getElem?_eq_some.mp hv).1
        obtain ⟨i, hi1, -, hi3⟩ := hq v hvn
        rw [hi3] at hv
        have := Option.some.inj hv
        subst this
        unfold identity
        exact List.mem_map.mpr ⟨i, List.mem_range.mpr hi1, rfl⟩
      exact (List.subperm_of_subset hnd hsub).perm_of_length_le
        (by rw [length_identity, e2])
    · unfold operator_mul operator_mul_assign identity
      rw [List.length_map, hlen]
      apply mapM_of_forall
      intro v hv
      obtain ⟨i, hi1, hi2, hi3⟩ := hq v (List.mem_range.mp hv)
      rw [hi3]
      simp only [Option.some_bind, at_index, Int.natCast_nonneg, if_true, Int.toNat_natCast]
      rw [List.getElem?_map, hi2]
      rfl
    · unfold operator_mul operator_mul_assign identity
      rw [e2]
      apply mapM_of_forall
      intro i hi
      have hi1 := List.mem_range.mp hi
      have hiP : i < P.length := by omega
      rw [List.getElem?_map, List.getElem?_eq_getElem hiP]
      simp only [Option.map_some', Option.some_bind, at_index, Int.natCast_nonneg, if_true,
        Int.toNat_natCast]
      exact e3 i P[i] hi1 (List.getElem?_eq_getElem hiP)
  obtain ⟨q, h1, h2, h3, h4⟩ := main
  have c1 : compose p q = identity n :=
    Option.some.inj ((operator_mul_compose n p q hp0 h2).symm.trans h3)
  have c2 : compose q p = identity n :=
    Option.some.inj ((operator_mul_compose n q p h2 hp0).symm.trans h4)
  have hlq : q.length = n := by rw [h2.length_eq, length_identity]
  have hlp : p.length = n := by rw [hp0.length_eq, length_identity]
  refine ⟨q, h1, h2, h3, h4, c1, c2, ?_, fun a b ha hb => operator_mul_compose n a b ha hb⟩
  intro i hi
  have e1 := congrArg (fun l : List Int => l.getD i 0) c1
  have e2 := congrArg (fun l : List Int => l.getD i 0) c2
  have hid : (identity n).getD i 0 = (i : Int) := by
    unfold identity
    simp [List.getD_eq_getElem?_getD, List.getElem?_range hi]
  simp only [hid] at e1 e2
  constructor
  · rw [← e1]
    unfold compose
    simp [List.getD_eq_getElem?_getD, List.getElem?_eq_getElem (hlq.symm ▸ hi)]
  · rw [← e2]
    unfold compose
    simp [List.getD_eq_getElem?_getD, List.getElem?_eq_getElem (hlp.symm ▸ hi)]

/-- Claim C34 at a concrete input: the permutation `(1, 2, 0)` of `0..2`. -/
theorem inverse_correct_witness :
    IsPermutation 3 [1, 2, 0] ∧
    ∃ q, inverse [1, 2, 0] = some q ∧ IsPermutation 3 q ∧
      operator_mul [1, 2, 0] q = some (identity 3) ∧
      operator_mul q [1, 2, 0] = some (identity 3) ∧
      compose [1, 2, 0] q = identity 3 ∧ compose q [1, 2, 0] = identity 3 ∧
      (∀ i, i < 3 → ([1, 2, 0] : List Int).getD (q.getD i 0).toNat 0 = (i : Int) ∧
        q.getD (([1, 2, 0] : List Int).getD i 0).toNat 0 = (i : Int)) ∧
      (∀ a b, IsPermutation 3 a → IsPermutation 3 b →
        operator_mul a b = some (compose a b)) :=
  ⟨by unfold IsPermutation; decide,
    inverse_correct 3 [1, 2, 0] (by unfold IsPermutation; decide)⟩

end Permutation

namespace BigInteger

/-! ## `rational.cpp`: digit vectors and their values -/

theorem isDigits_nil : IsDigits [] := fun _ h => absurd h (List.not_mem_nil _)

theorem isDigits_cons {d : Int} {l : List Int} :
    IsDigits (d :: l) ↔ (0 ≤ d ∧ d < 10) ∧ IsDigits l := by
  unfold IsDigits
  simp

theorem isDigits_append {l m : List Int} : IsDigits (l ++ m) ↔ IsDigits l ∧ IsDigits m := by
  unfold IsDigits
  simp only [List.mem_append]
  constructor
  · intro h
    exact ⟨fun d hd => h d (Or.inl hd), fun d hd => h d (Or.inr hd)⟩
  · rintro ⟨h1, h2⟩ d (hd | hd)
    · exact h1 d hd
    · exact h2 d hd

theorem isDigits_reverse {l : List Int} : IsDigits l.reverse ↔ IsDigits l := by
  unfold IsDigits
  simp

theorem isDigits_replicate (n : Nat) : IsDigits (List.replicate n 0) := by
  intro d hd
  rw [List.eq_of_mem_replicate hd]
  decide

theorem digits_value_append : ∀ l m : List Int,
    digits_value (l ++ m) = digits_value l + 10 ^ l.length * digits_value m
  | [], m => by simp [digits_value]
  | d :: l, m => by
    have ih := digits_value_append l m
    show d + 10 * digits_value (l ++ m) = (d + 10 * digits_value l) +
      10 ^ (l.length + 1) * digits_value m
    rw [ih]
    ring

theorem digits_value_replicate : ∀ n : Nat, digits_value (List.replicate n 0) = 0
  | 0 => rfl
  | n + 1 => by simp [List.replicate_succ, digits_value, digits_value_replicate n]

theorem digits_value_nonneg : ∀ {l : List Int}, IsDigits l → 0 ≤ digits_value l
  | [], _ => le_refl _
  | d :: l, h => by
    have h1 := isDigits_cons.mp h
    have h2 := digits_value_nonneg h1.2
    simp only [digits_value]
    omega

theorem digits_value_lt : ∀ {l : List Int}, IsDigits l → digits_value l < 10 ^ l.length
  | [], _ => by simp [digits_value]
  | d :: l, h => by
    have h1 := isDigits_cons.mp h
    have h2 := digits_value_lt h1.2
    simp only [digits_value, List.length_cons, pow_succ]
    omega

theorem back_append_singleton (l : List Int) (d : Int) : back (l ++ [d]) = d := by
  simp [back]

theorem back_reverse_cons (d : Int) (r : List Int) : back (d :: r).reverse = d := by
  simp [back]

theorem digits_value_ge_of_back {l : List Int} (h : IsDigits l) (hne : l ≠ [])
    (hb : back l ≠ 0) : 10 ^ (l.length - 1) ≤ digits_value l := by
  rcases List.eq_nil_or_concat l with rfl | ⟨m, d, rfl⟩
  · exact absurd rfl hne
  · rw [List.concat_eq_append] at *
    rw [back_append_singleton] at hb
    have h1 := isDigits_append.mp h
    have hd := (isDigits_cons.mp h1.2).1
    have h2 := digits_value_nonneg h1.1
    rw [digits_value_append]
    simp only [digits_value, List.length_append, List.length_cons, List.length_nil,
      Nat.add_sub_cancel, mul_zero, add_zero, Nat.zero_add]
    have hpos : (0 : Int) < 10 ^ m.length := by positivity
    have hd1 : 1 ≤ d := by omega
    have : 10 ^ m.length * 1 ≤ 10 ^ m.length * d :=
      Int.mul_le_mul_of_nonneg_left hd1 (le_of_lt hpos)
    omega

theorem pop_zeros_value : ∀ r : List Int,
    digits_value (pop_zeros r).reverse = digits_value r.reverse
  | [] => rfl
  | d :: rest => by
    unfold pop_zeros
    by_cases h : rest ≠ [] ∧ d = 0
    · rw [if_pos h, pop_zeros_value rest, List.reverse_cons, digits_value_append, h.2]
      simp [digits_value]
    · rw [if_neg h]

theorem pop_zeros_isDigits : ∀ {r : List Int}, IsDigits r → IsDigits (pop_zeros r)
  | [], h => h
  | d :: rest, h => by
    unfold pop_zeros
    by_cases hc : rest ≠ [] ∧ d = 0
    · rw [if_pos hc]; exact pop_zeros_isDigits (isDigits_cons.mp h).2
    · rw [if_neg hc]; exact h

theorem pop_zeros_ne_nil : ∀ {r : List Int}, r ≠ [] → pop_zeros r ≠ []
  | [], h => absurd rfl h
  | d :: rest, _ => by
    unfold pop_zeros
    by_cases hc : rest ≠ [] ∧ d = 0
    · rw [if_pos hc]; exact pop_zeros_ne_nil hc.1
    · rw [if_neg hc]; exact List.cons_ne_nil _ _

theorem pop_zeros_head : ∀ (r : List Int), 1 < (pop_zeros r).length →
    (pop_zeros r).head?.getD 0 ≠ 0
  | [], h => by simp [pop_zeros] at h
  | d :: rest, h => by
    unfold pop_zeros at h ⊢
    by_cases hc : rest ≠ [] ∧ d = 0
    · rw [if_pos hc] at h ⊢; exact pop_zeros_head rest h
    · rw [if_neg hc] at h ⊢
      simp only [List.head?_cons, Option.getD_some]
      intro hd
      apply hc
      refine ⟨?_, hd⟩
      intro hr
      rw [hr] at h
      simp at h

theorem back_reverse (r : List Int) : back r.reverse = r.head?.getD 0 := by
  cases r with
  | nil => rfl
  | cons d r => rw [back_reverse_cons]; rfl

theorem trimmed_pop_zeros {num : List Int} (h : IsDigits num) (hne : num ≠ []) :
    Trimmed (pop_zeros num.reverse).reverse ∧
    digits_value (pop_zeros num.reverse).reverse = digits_value num := by
  refine ⟨⟨isDigits_reverse.mpr (pop_zeros_isDigits (isDigits_reverse.mpr h)), ?_, ?_⟩, ?_⟩
  · intro hc
    have := pop_zeros_ne_nil (r := num.reverse) (by simpa using hne)
    exact this (by simpa using hc)
  · intro hl
    rw [back_reverse]
    exact pop_zeros_head _ (by simpa using hl)
  · rw [pop_zeros_value, List.reverse_reverse]

theorem back_eq_zero_iff {l : List Int} (htr : Trimmed l) :
    back l = 0 ↔ digits_value l = 0 := by
  obtain ⟨h, hne, ht⟩ := htr
  constructor
  · intro hb
    have hlen : ¬ 1 < l.length := fun hc => ht hc hb
    cases l with
    | nil => exact absurd rfl hne
    | cons d m =>
      cases m with
      | nil => simp [back] at hb; simp [digits_value, hb]
      | cons e m => simp at hlen
  · intro hv
    by_contra hb
    have := digits_value_ge_of_back h hne hb
    rw [hv] at this
    have hpos : (0 : Int) < 10 ^ (l.length - 1) := by positivity
    omega

theorem normalize_val (a : BigInteger) (h : IsDigits a.num_) (hne : a.num_ ≠ []) :
    val (normalize a) = val a := by
  obtain ⟨t1, t4⟩ := trimmed_pop_zeros h hne
  unfold normalize val
  simp only
  by_cases hb : back (pop_zeros a.num_.reverse).reverse = 0
  · rw [if_pos hb, t4]
    have := (back_eq_zero_iff t1).mp hb
    rw [t4] at this
    rw [this]; simp
  · rw [if_neg hb, t4]

theorem normalize_normalized (a : BigInteger) (h : IsDigits a.num_) (hne : a.num_ ≠ [])
    (hs : a.sign_ = 1 ∨ a.sign_ = -1) : Normalized (normalize a) := by
  obtain ⟨t1, -⟩ := trimmed_pop_zeros h hne
  unfold normalize Normalized
  simp only
  refine ⟨t1, ?_, ?_⟩
  · by_cases hb : back (pop_zeros a.num_.reverse).reverse = 0
    · rw [if_pos hb]; exact Or.inl rfl
    · rw [if_neg hb]; exact hs
  · intro hb
    rw [if_pos hb]

theorem pop_zeros_of_trimmed : ∀ (r : List Int), (1 < r.length → r.head?.getD 0 ≠ 0) →
    pop_zeros r = r
  | [], _ => rfl
  | d :: rest, h => by
    unfold pop_zeros
    by_cases hc : rest ≠ [] ∧ d = 0
    · exfalso
      have hl : 1 < (d :: rest).length := by
        cases rest with
        | nil => exact absurd rfl hc.1
        | cons e m => simp
      exact h hl (by simpa using hc.2)
    · rw [if_neg hc]

/-- `normalize` leaves a normalized `BigInteger` as it is. -/
theorem normalize_of_normalized {a : BigInteger} (h : Normalized a) : normalize a = a := by
  obtain ⟨⟨h1, h2, h3⟩, h4, h5⟩ := h
  have hp : pop_zeros a.num_.reverse = a.num_.reverse := by
    apply pop_zeros_of_trimmed
    intro hl
    rw [← back_reverse, List.reverse_reverse]
    exact h3 (by simpa using hl)
  unfold normalize
  simp only [hp, List.reverse_reverse]
  by_cases hb : back a.num_ = 0
  · rw [if_pos hb, ← h5 hb]
  · rw [if_neg hb]

end BigInteger

namespace BigInteger

/-! ## Comparison of absolute values -/

theorem abs_less_loop_iff : ∀ (ra rb : List Int), ra.length = rb.length →
    IsDigits ra → IsDigits rb →
    (abs_less_loop ra rb = true ↔ digits_value ra.reverse < digits_value rb.reverse)
  | [], [], _, _, _ => by simp [abs_less_loop, digits_value]
  | [], b :: bs, h, _, _ => by simp at h
  | a :: as, [], h, _, _ => by simp at h
  | a :: as, b :: bs, h, ha, hb => by
    have hlen : as.length = bs.length := by simpa using h
    have ha1 := isDigits_cons.mp ha
    have hb1 := isDigits_cons.mp hb
    have hX0 := digits_value_nonneg (isDigits_reverse.mpr ha1.2)
    have hY0 := digits_value_nonneg (isDigits_reverse.mpr hb1.2)
    have hX1 := digits_value_lt (isDigits_reverse.mpr ha1.2)
    have hY1 := digits_value_lt (isDigits_reverse.mpr hb1.2)
    rw [List.length_reverse] at hX1 hY1
    rw [hlen] at hX1
    simp only [List.reverse_cons, digits_value_append, List.length_reverse, digits_value,
      mul_zero, add_zero]
    rw [hlen]
    have hpos : (0 : Int) < 10 ^ bs.length := by positivity
    unfold abs_less_loop
    by_cases hab : a = b
    · subst hab
      simp only [ne_eq, not_true_eq_false, if_false]
      rw [abs_less_loop_iff as bs hlen ha1.2 hb1.2]
      constructor <;> intro h1 <;> omega
    · simp only [ne_eq, hab, not_false_eq_true, if_true, decide_eq_true_eq]
      constructor
      · intro hlt
        have : 10 ^ bs.length * (a + 1) ≤ 10 ^ bs.length * b :=
          Int.mul_le_mul_of_nonneg_left (by omega) (le_of_lt hpos)
        rw [mul_add, mul_one] at this
        omega
      · intro hlt
        by_contra hc
        have hba : b + 1 ≤ a := by omega
        have : 10 ^ bs.length * (b + 1) ≤ 10 ^ bs.length * a :=
          Int.mul_le_mul_of_nonneg_left hba (le_of_lt hpos)
        rw [mul_add, mul_one] at this
        omega

theorem trimmed_value_lt_of_length {a b : List Int} (ha : Trimmed a) (hb : Trimmed b)
    (h : a.length < b.length) : digits_value a < digits_value b := by
  have h1 := digits_value_lt ha.1
  have hb1 : 1 < b.length := by
    have : a.length ≠ 0 := fun hc => ha.2.1 (List.length_eq_zero.mp hc)
    omega
  have h2 := digits_value_ge_of_back hb.1 hb.2.1 (hb.2.2 hb1)
  have h3 : (10 : Int) ^ a.length ≤ 10 ^ (b.length - 1) :=
    pow_le_pow_right₀ (by norm_num) (by omega)
  omega

theorem abs_less_iff {a b : BigInteger} (ha : Trimmed a.num_) (hb : Trimmed b.num_) :
    abs_less a b = true ↔ digits_value a.num_ < digits_value b.num_ := by
  unfold abs_less
  by_cases hl : a.num_.length = b.num_.length
  · simp only [ne_eq, hl, not_true_eq_false, if_false]
    rw [abs_less_loop_iff _ _ (by simpa using hl) (isDigits_reverse.mpr ha.1)
      (isDigits_reverse.mpr hb.1), List.reverse_reverse, List.reverse_reverse]
  · simp only [ne_eq, hl, not_false_eq_true, if_true, decide_eq_true_eq]
    constructor
    · exact trimmed_value_lt_of_length ha hb
    · intro hlt
      by_contra hc
      have := trimmed_value_lt_of_length hb ha (by omega)
      omega

theorem abs_less_loop_eq : ∀ (ra rb : List Int), ra.length = rb.length →
    abs_less_loop ra rb = false → abs_less_loop rb ra = false → ra = rb
  | [], [], _, _, _ => rfl
  | [], b :: bs, h, _, _ => by simp at h
  | a :: as, [], h, _, _ => by simp at h
  | a :: as, b :: bs, h, h1, h2 => by
    have hlen : as.length = bs.length := by simpa using h
    unfold abs_less_loop at h1 h2
    by_cases hab : a = b
    · subst hab
      simp only [ne_eq, not_true_eq_false, if_false] at h1 h2
      rw [abs_less_loop_eq as bs hlen h1 h2]
    · have hba : ¬ b = a := fun hc => hab hc.symm
      simp only [ne_eq, hab, hba, not_false_eq_true, if_true, decide_eq_false_iff_not] at h1 h2
      omega

theorem trimmed_eq_of_value {a b : List Int} (ha : Trimmed a) (hb : Trimmed b)
    (h : digits_value a = digits_value b) : a = b := by
  have hlen : a.length = b.length := by
    by_contra hc
    rcases Nat.lt_or_gt_of_ne hc with h1 | h1
    · have := trimmed_value_lt_of_length ha hb h1; omega
    · have := trimmed_value_lt_of_length hb ha h1; omega
  have h1 : abs_less_loop a.reverse b.reverse = false := by
    cases hc : abs_less_loop a.reverse b.reverse with
    | false => rfl
    | true =>
      rw [abs_less_loop_iff _ _ (by simpa using hlen) (isDigits_reverse.mpr ha.1)
        (isDigits_reverse.mpr hb.1), List.reverse_reverse, List.reverse_reverse] at hc
      omega
  have h2 : abs_less_loop b.reverse a.reverse = false := by
    cases hc : abs_less_loop b.reverse a.reverse with
    | false => rfl
    | true =>
      rw [abs_less_loop_iff _ _ (by simpa using hlen.symm) (isDigits_reverse.mpr hb.1)
        (isDigits_reverse.mpr ha.1), List.reverse_reverse, List.reverse_reverse] at hc
      omega
  have := abs_less_loop_eq _ _ (by simpa using hlen) h1 h2
  exact List.reverse_injective this

theorem abs_equal_iff {a b : BigInteger} (ha : Trimmed a.num_) (hb : Trimmed b.num_) :
    abs_equal a b = true ↔ digits_value a.num_ = digits_value b.num_ := by
  unfold abs_equal
  simp only [decide_eq_true_eq]
  exact ⟨fun h => by rw [h], trimmed_eq_of_value ha hb⟩

/-- What `!abs_less(other)` gives without any assumption: `other` is not the longer one. -/
theorem length_le_of_not_abs_less {a b : BigInteger} (h : abs_less a b = false) :
    b.num_.length ≤ a.num_.length := by
  unfold abs_less at h
  by_cases hl : a.num_.length = b.num_.length
  · omega
  · simp only [ne_eq, hl, not_false_eq_true, if_true, decide_eq_false_iff_not] at h
    omega

/-! ## The constructor from `int` -/

theorem back_cons_of_ne_nil (d : Int) {l : List Int} (h : l ≠ []) : back (d :: l) = back l := by
  cases l with
  | nil => exact absurd rfl h
  | cons e m => simp [back, List.getLast?_cons_cons]

theorem push_digits_spec : ∀ (fuel : Nat) (x : Int), 0 < x → x < 10 ^ fuel →
    IsDigits (push_digits fuel x) ∧ push_digits fuel x ≠ [] ∧
    back (push_digits fuel x) ≠ 0 ∧ digits_value (push_digits fuel x) = x
  | 0, x, h0, h => by simp at h; omega
  | fuel + 1, x, h0, h => by
    have hx : x ≠ 0 := by omega
    have e1 : Int.tmod x 10 = x % 10 := Int.tmod_eq_emod (by omega) (by decide)
    have e2 : Int.tdiv x 10 = x / 10 := Int.tdiv_eq_ediv (by omega) (by decide)
    unfold push_digits
    rw [if_pos hx, e1, e2]
    by_cases hq : x / 10 = 0
    · have hr : push_digits fuel (x / 10) = [] := by
        rw [hq]; cases fuel <;> simp [push_digits]
      rw [hr]
      refine ⟨isDigits_cons.mpr ⟨by omega, isDigits_nil⟩, List.cons_ne_nil _ _, ?_, ?_⟩
      · simp only [back, List.getLast?_singleton, Option.getD_some]; omega
      · simp only [digits_value]; omega
    · have hlt : x / 10 < 10 ^ fuel := by rw [pow_succ] at h; omega
      obtain ⟨i1, i2, i3, i4⟩ := push_digits_spec fuel (x / 10) (by omega) hlt
      refine ⟨isDigits_cons.mpr ⟨by omega, i1⟩, List.cons_ne_nil _ _, ?_, ?_⟩
      · rw [back_cons_of_ne_nil _ i2]; exact i3
      · simp only [digits_value, i4]; omega

/-- The constructor `BigInteger(int)` gives a normalized object that denotes its argument
(here for every argument of at most 10 decimal digits). -/
theorem ofInt_spec (x : Int) (h1 : -10 ^ 10 < x) (h2 : x < 10 ^ 10) :
    Normalized (ofInt x) ∧ val (ofInt x) = x := by
  by_cases hneg : x < 0
  · have hx : x * -1 ≠ 0 := by omega
    have e : ofInt x = { num_ := push_digits 10 (x * -1), sign_ := -1 } := by
      unfold ofInt
      simp only [if_pos hneg, if_neg hx]
    obtain ⟨i1, i2, i3, i4⟩ := push_digits_spec 10 (x * -1) (by omega) (by omega)
    rw [e]
    refine ⟨⟨⟨i1, i2, fun _ => i3⟩, Or.inr rfl, fun hb => absurd hb i3⟩, ?_⟩
    show -1 * digits_value (push_digits 10 (x * -1)) = x
    rw [i4]; ring
  · by_cases hz : x = 0
    · subst hz
      exact ⟨by decide, by decide⟩
    · have e : ofInt x = { num_ := push_digits 10 x, sign_ := 1 } := by
        unfold ofInt
        simp only [if_neg hneg, if_neg hz]
      obtain ⟨i1, i2, i3, i4⟩ := push_digits_spec 10 x (by omega) h2
      rw [e]
      refine ⟨⟨⟨i1, i2, fun _ => i3⟩, Or.inl rfl, fun _ => rfl⟩, ?_⟩
      show 1 * digits_value (push_digits 10 x) = x
      rw [i4]; ring

end BigInteger

namespace BigInteger

/-! ## Addition, subtraction and multiplication of absolute values -/

theorem abs_add_tail_spec : ∀ (bs : List Int) (carry : Bool), IsDigits bs →
    IsDigits (abs_add_tail bs carry) ∧
    digits_value (abs_add_tail bs carry) = digits_value bs + (if carry then 1 else 0)
  | [], true, _ => by simp [abs_add_tail, digits_value, IsDigits]
  | [], false, _ => by simp [abs_add_tail, digits_value, IsDigits]
  | b :: bs, carry, h => by
    have hb := isDigits_cons.mp h
    have hc : (0 : Int) ≤ (if carry then 1 else 0) ∧ (if carry then (1 : Int) else 0) ≤ 1 := by
      cases carry <;> simp
    unfold abs_add_tail
    simp only [BASE_]
    by_cases hv : 0 + (b + (if carry then 1 else 0)) ≥ 10
    · rw [if_pos hv]
      obtain ⟨i1, i2⟩ := abs_add_tail_spec bs true hb.2
      refine ⟨isDigits_cons.mpr ⟨by omega, i1⟩, ?_⟩
      simp only [digits_value, i2, if_true]; omega
    · rw [if_neg hv]
      obtain ⟨i1, i2⟩ := abs_add_tail_spec bs false hb.2
      refine ⟨isDigits_cons.mpr ⟨by omega, i1⟩, ?_⟩
      simp only [digits_value, i2]; simp; omega

theorem abs_add_loop_spec : ∀ (as bs : List Int) (carry : Bool), IsDigits as → IsDigits bs →
    IsDigits (abs_add_loop as bs carry) ∧
    digits_value (abs_add_loop as bs carry) =
      digits_value as + digits_value bs + (if carry then 1 else 0) ∧
    (as ≠ [] → abs_add_loop as bs carry ≠ [])
  | [], bs, carry, _, hb => by
    obtain ⟨i1, i2⟩ := abs_add_tail_spec bs carry hb
    unfold abs_add_loop
    refine ⟨i1, ?_, fun h => absurd rfl h⟩
    rw [i2]; simp [digits_value]
  | a :: as, [], carry, ha, hb => by
    have ha1 := isDigits_cons.mp ha
    have hc : (0 : Int) ≤ (if carry then 1 else 0) ∧ (if carry then (1 : Int) else 0) ≤ 1 := by
      cases carry <;> simp
    unfold abs_add_loop
    simp only [BASE_]
    by_cases hv : a + (0 + (if carry then 1 else 0)) ≥ 10
    · rw [if_pos hv]
      obtain ⟨i1, i2, -⟩ := abs_add_loop_spec as [] true ha1.2 hb
      refine ⟨isDigits_cons.mpr ⟨by omega, i1⟩, ?_, fun _ => List.cons_ne_nil _ _⟩
      simp only [digits_value, i2, if_true]; omega
    · rw [if_neg hv]
      obtain ⟨i1, i2, -⟩ := abs_add_loop_spec as [] false ha1.2 hb
      refine ⟨isDigits_cons.mpr ⟨by omega, i1⟩, ?_, fun _ => List.cons_ne_nil _ _⟩
      simp only [digits_value, i2]; simp; omega
  | a :: as, b :: bs, carry, ha, hb => by
    have ha1 := isDigits_cons.mp ha
    have hb1 := isDigits_cons.mp hb
    have hc : (0 : Int) ≤ (if carry then 1 else 0) ∧ (if carry then (1 : Int) else 0) ≤ 1 := by
      cases carry <;> simp
    unfold abs_add_loop
    simp only [BASE_]
    by_cases hv : a + (b + (if carry then 1 else 0)) ≥ 10
    · rw [if_pos hv]
      obtain ⟨i1, i2, -⟩ := abs_add_loop_spec as bs true ha1.2 hb1.2
      refine ⟨isDigits_cons.mpr ⟨by omega, i1⟩, ?_, fun _ => List.cons_ne_nil _ _⟩
      simp only [digits_value, i2, if_true]; omega
    · rw [if_neg hv]
      obtain ⟨i1, i2, -⟩ := abs_add_loop_spec as bs false ha1.2 hb1.2
      refine ⟨isDigits_cons.mpr ⟨by omega, i1⟩, ?_, fun _ => List.cons_ne_nil _ _⟩
      simp only [digits_value, i2]; simp; omega

theorem abs_substract_loop_spec : ∀ (as bs : List Int) (carry : Bool), IsDigits as →
    IsDigits bs → bs.length ≤ as.length →
    IsDigits (abs_substract_loop as bs carry) ∧
    (abs_substract_loop as bs carry).length = as.length ∧
    ∃ k : Int, (k = 0 ∨ k = 1) ∧
      digits_value (abs_substract_loop as bs carry) =
        digits_value as - digits_value bs - (if carry then 1 else 0) + k * 10 ^ as.length
  | [], [], carry, _, _, _ => by
    refine ⟨isDigits_nil, rfl, if carry then 1 else 0, ?_, ?_⟩
    · cases carry <;> simp
    · simp [abs_substract_loop, digits_value]
  | [], b :: bs, _, _, _, h => by simp at h
  | a :: as, [], carry, ha, hb, _ => by
    have ha1 := isDigits_cons.mp ha
    have hc : (0 : Int) ≤ (if carry then 1 else 0) ∧ (if carry then (1 : Int) else 0) ≤ 1 := by
      cases carry <;> simp
    unfold abs_substract_loop
    simp only [BASE_]
    by_cases hv : a - (0 + (if carry then 1 else 0)) < 0
    · rw [if_pos hv]
      obtain ⟨i1, i2, k, i3, i4⟩ := abs_substract_loop_spec as [] true ha1.2 hb (by simp)
      refine ⟨isDigits_cons.mpr ⟨by omega, i1⟩, by simp [i2], k, i3, ?_⟩
      simp only [digits_value, i4, if_true, List.length_cons, pow_succ]
      ring_nf
    · rw [if_neg hv]
      obtain ⟨i1, i2, k, i3, i4⟩ := abs_substract_loop_spec as [] false ha1.2 hb (by simp)
      refine ⟨isDigits_cons.mpr ⟨by omega, i1⟩, by simp [i2], k, i3, ?_⟩
      simp only [digits_value, i4, List.length_cons, pow_succ]
      simp only [Bool.false_eq_true, if_false]
      ring_nf
  | a :: as, b :: bs, carry, ha, hb, hl => by
    have ha1 := isDigits_cons.mp ha
    have hb1 := isDigits_cons.mp hb
    have hl1 : bs.length ≤ as.length := by simpa using hl
    have hc : (0 : Int) ≤ (if carry then 1 else 0) ∧ (if carry then (1 : Int) else 0) ≤ 1 := by
      cases carry <;> simp
    unfold abs_substract_loop
    simp only [BASE_]
    by_cases hv : a - (b + (if carry then 1 else 0)) < 0
    · rw [if_pos hv]
      obtain ⟨i1, i2, k, i3, i4⟩ := abs_substract_loop_spec as bs true ha1.2 hb1.2 hl1
      refine ⟨isDigits_cons.mpr ⟨by omega, i1⟩, by simp [i2], k, i3, ?_⟩
      simp only [digits_value, i4, if_true, List.length_cons, pow_succ]
      ring_nf
    · rw [if_neg hv]
      obtain ⟨i1, i2, k, i3, i4⟩ := abs_substract_loop_spec as bs false ha1.2 hb1.2 hl1
      refine ⟨isDigits_cons.mpr ⟨by omega, i1⟩, by simp [i2], k, i3, ?_⟩
      simp only [digits_value, i4, List.length_cons, pow_succ]
      simp only [Bool.false_eq_true, if_false]
      ring_nf

theorem abs_substract_loop_value (as bs : List Int) (ha : IsDigits as) (hb : IsDigits bs)
    (hl : bs.length ≤ as.length) (hv : digits_value bs ≤ digits_value as) :
    IsDigits (abs_substract_loop as bs false) ∧
    (abs_substract_loop as bs false).length = as.length ∧
    digits_value (abs_substract_loop as bs false) = digits_value as - digits_value bs := by
  obtain ⟨i1, i2, k, i3, i4⟩ := abs_substract_loop_spec as bs false ha hb hl
  refine ⟨i1, i2, ?_⟩
  have h1 := digits_value_lt i1
  have h2 := digits_value_nonneg hb
  have h3 := digits_value_lt ha
  rw [i2] at h1
  simp only [Bool.false_eq_true, if_false, sub_zero] at i4
  rcases i3 with rfl | rfl
  · rw [i4]; ring
  · rw [i4] at h1
    omega

theorem multiply_row_spec (d : Int) (hd : 0 ≤ d) : ∀ (res bs : List Int) (carry : Int),
    IsDigits res → (∀ b ∈ bs, 0 ≤ b) → 0 ≤ carry →
    digits_value res + d * digits_value bs + carry < 10 ^ res.length →
    IsDigits (multiply_row d bs res carry) ∧
    (multiply_row d bs res carry).length = res.length ∧
    digits_value (multiply_row d bs res carry) = digits_value res + d * digits_value bs + carry
  | [], bs, carry, _, hbs, hc, hlt => by
    have hb0 : 0 ≤ digits_value bs := by
      clear hlt
      induction bs with
      | nil => exact le_refl _
      | cons b bs ih =>
        have := ih (fun x hx => hbs x (List.mem_cons_of_mem _ hx))
        have := hbs b (List.mem_cons_self _ _)
        simp only [digits_value]; omega
    have hm : 0 ≤ d * digits_value bs := mul_nonneg hd hb0
    simp only [digits_value, List.length_nil, pow_zero, zero_add] at hlt
    refine ⟨?_, ?_, ?_⟩
    · cases bs <;> simp [multiply_row, isDigits_nil]
    · cases bs <;> simp [multiply_row]
    · have : multiply_row d bs [] carry = [] := by cases bs <;> simp [multiply_row]
      rw [this]; simp only [digits_value]; omega
  | r :: rs, [], carry, hr, hbs, hc, hlt => by
    have hr1 := isDigits_cons.mp hr
    unfold multiply_row
    by_cases hcp : carry > 0
    · rw [if_pos hcp]
      simp only [BASE_, mul_zero, zero_add]
      have hv : 0 ≤ r + carry := by omega
      rw [Int.tmod_eq_emod hv (by decide), Int.tdiv_eq_ediv hv (by decide)]
      have hlt2 : digits_value rs + d * digits_value [] + (r + carry) / 10 < 10 ^ rs.length := by
        simp only [digits_value, List.length_cons, pow_succ, mul_zero, add_zero] at hlt ⊢
        omega
      obtain ⟨i1, i2, i3⟩ := multiply_row_spec d hd rs [] ((r + carry) / 10) hr1.2 hbs
        (by omega) hlt2
      refine ⟨isDigits_cons.mpr ⟨by omega, i1⟩, by simp [i2], ?_⟩
      simp only [digits_value, mul_zero, add_zero] at i3 ⊢
      rw [i3]; omega
    · rw [if_neg hcp]
      refine ⟨hr, rfl, ?_⟩
      simp only [digits_value, mul_zero, add_zero]; omega
  | r :: rs, b :: bs, carry, hr, hbs, hc, hlt => by
    have hr1 := isDigits_cons.mp hr
    have hb := hbs b (List.mem_cons_self _ _)
    have hbs1 : ∀ x ∈ bs, 0 ≤ x := fun x hx => hbs x (List.mem_cons_of_mem _ hx)
    have hdb : 0 ≤ d * b := mul_nonneg hd hb
    unfold multiply_row
    simp only [BASE_]
    have hv : 0 ≤ r + (d * b + carry) := by omega
    rw [Int.tmod_eq_emod hv (by decide), Int.tdiv_eq_ediv hv (by decide)]
    have hexp : d * digits_value (b :: bs) = d * b + 10 * (d * digits_value bs) := by
      simp only [digits_value]; ring
    rw [hexp] at hlt
    have hlt2 : digits_value rs + d * digits_value bs + (r + (d * b + carry)) / 10
        < 10 ^ rs.length := by
      simp only [digits_value, List.length_cons, pow_succ] at hlt
      omega
    obtain ⟨i1, i2, i3⟩ := multiply_row_spec d hd rs bs ((r + (d * b + carry)) / 10) hr1.2 hbs1
      (by omega) hlt2
    refine ⟨isDigits_cons.mpr ⟨by omega, i1⟩, by simp [i2], ?_⟩
    rw [hexp]
    simp only [digits_value]
    rw [i3]; omega

theorem multiply_loop_spec : ∀ (as bs res : List Int), IsDigits as → IsDigits bs →
    IsDigits res → digits_value res + digits_value as * digits_value bs < 10 ^ res.length →
    IsDigits (multiply_loop as bs res) ∧ (multiply_loop as bs res).length = res.length ∧
    digits_value (multiply_loop as bs res) = digits_value res + digits_value as * digits_value bs
  | [], bs, res, _, _, hr, _ => by
    refine ⟨hr, rfl, ?_⟩
    simp [multiply_loop, digits_value]
  | a :: as, bs, res, ha, hb, hr, hlt => by
    have ha1 := isDigits_cons.mp ha
    have hA := digits_value_nonneg ha1.2
    have hB := digits_value_nonneg hb
    have hAB : 0 ≤ digits_value as * digits_value bs := mul_nonneg hA hB
    have hexp : digits_value (a :: as) * digits_value bs =
        a * digits_value bs + 10 * (digits_value as * digits_value bs) := by
      simp only [digits_value]; ring
    rw [hexp] at hlt ⊢
    obtain ⟨i1, i2, i3⟩ := multiply_row_spec a ha1.1.1 res bs 0 hr (fun b hb1 => (hb b hb1).1)
      (le_refl _) (by omega)
    rw [add_zero] at i3
    unfold multiply_loop
    cases hrow : multiply_row a bs res 0 with
    | nil =>
      rw [hrow] at i2 i3
      have hres : res = [] := List.length_eq_zero.mp i2.symm
      subst hres
      refine ⟨isDigits_nil, rfl, ?_⟩
      simp only [digits_value, List.length_nil, pow_zero] at hlt i3 ⊢
      omega
    | cons x rest =>
      rw [hrow] at i1 i2 i3
      have hx := isDigits_cons.mp i1
      simp only [digits_value] at i3
      have hlen : res.length = rest.length + 1 := by rw [← i2]; simp
      have hlt2 : digits_value rest + digits_value as * digits_value bs < 10 ^ rest.length := by
        rw [hlen, pow_succ] at hlt
        omega
      obtain ⟨j1, j2, j3⟩ := multiply_loop_spec as bs rest ha1.2 hb hx.2 hlt2
      refine ⟨isDigits_cons.mpr ⟨hx.1, j1⟩, by simp [j2, hlen], ?_⟩
      simp only [digits_value]
      rw [j3]; omega

end BigInteger

namespace BigInteger

/-! ## The arithmetic operators on normalized objects -/

theorem normalize_mag (a : BigInteger) (h : IsDigits a.num_) (hne : a.num_ ≠ []) :
    digits_value (normalize a).num_ = digits_value a.num_ :=
  (trimmed_pop_zeros h hne).2

theorem normalize_sign (a : BigInteger) (h : IsDigits a.num_) (hne : a.num_ ≠ []) :
    (normalize a).sign_ = if digits_value a.num_ = 0 then 1 else a.sign_ := by
  obtain ⟨t1, t2⟩ := trimmed_pop_zeros h hne
  have hb := back_eq_zero_iff t1
  rw [t2] at hb
  unfold normalize
  simp only
  by_cases hz : digits_value a.num_ = 0
  · rw [if_pos (hb.mpr hz), if_pos hz]
  · rw [if_neg (fun hc => hz (hb.mp hc)), if_neg hz]

theorem val_of_sign_rule {x : BigInteger} {s m : Int} (hm : digits_value x.num_ = m)
    (hs : x.sign_ = if m = 0 then 1 else s) : val x = s * m := by
  unfold val
  rw [hm, hs]
  by_cases hz : m = 0
  · rw [if_pos hz, hz]; simp
  · rw [if_neg hz]

/-- A `BigInteger` whose digits are replaced and which is then normalized. -/
theorem normalize_with (a : BigInteger) (num : List Int) (h : IsDigits num) (hne : num ≠ [])
    (hs : a.sign_ = 1 ∨ a.sign_ = -1) :
    Normalized (normalize { a with num_ := num }) ∧
    digits_value (normalize { a with num_ := num }).num_ = digits_value num ∧
    val (normalize { a with num_ := num }) = a.sign_ * digits_value num := by
  refine ⟨normalize_normalized _ h hne hs, normalize_mag _ h hne, ?_⟩
  exact val_of_sign_rule (normalize_mag _ h hne) (normalize_sign _ h hne)

theorem abs_add_spec {a b : BigInteger} (ha : Normalized a) (hb : IsDigits b.num_) :
    Normalized (abs_add a b) ∧
    digits_value (abs_add a b).num_ = digits_value a.num_ + digits_value b.num_ ∧
    val (abs_add a b) = a.sign_ * (digits_value a.num_ + digits_value b.num_) := by
  obtain ⟨i1, i2, i3⟩ := abs_add_loop_spec a.num_ b.num_ false ha.1.1 hb
  simp only [Bool.false_eq_true, if_false, add_zero] at i2
  have := normalize_with a _ i1 (i3 ha.1.2.1) ha.2.1
  rw [i2] at this
  exact this

theorem abs_substract_spec {a b : BigInteger} (ha : Normalized a) (hb : IsDigits b.num_)
    (hl : b.num_.length ≤ a.num_.length) (hv : digits_value b.num_ ≤ digits_value a.num_) :
    Normalized (abs_substract a b) ∧
    digits_value (abs_substract a b).num_ = digits_value a.num_ - digits_value b.num_ ∧
    val (abs_substract a b) = a.sign_ * (digits_value a.num_ - digits_value b.num_) := by
  obtain ⟨i1, i2, i3⟩ := abs_substract_loop_value a.num_ b.num_ ha.1.1 hb hl hv
  have hne : abs_substract_loop a.num_ b.num_ false ≠ [] := by
    intro hc
    rw [hc] at i2
    exact ha.1.2.1 (List.length_eq_zero.mp i2.symm)
  have := normalize_with a _ i1 hne ha.2.1
  rw [i3] at this
  exact this

theorem abs_multiply_spec {a b : BigInteger} (ha : Normalized a) (hb : IsDigits b.num_) :
    Normalized (abs_multiply a b) ∧
    digits_value (abs_multiply a b).num_ = digits_value a.num_ * digits_value b.num_ ∧
    val (abs_multiply a b) = a.sign_ * (digits_value a.num_ * digits_value b.num_) := by
  have hA0 := digits_value_nonneg ha.1.1
  have hB0 := digits_value_nonneg hb
  have hA1 := digits_value_lt ha.1.1
  have hB1 := digits_value_lt hb
  have hbound : digits_value (List.replicate (a.num_.length + b.num_.length + 7) 0) +
      digits_value a.num_ * digits_value b.num_ <
      10 ^ (List.replicate (a.num_.length + b.num_.length + 7) (0 : Int)).length := by
    rw [digits_value_replicate, List.length_replicate, zero_add]
    have h1 : digits_value a.num_ * digits_value b.num_ <
        10 ^ a.num_.length * 10 ^ b.num_.length := by
      have hp : (0 : Int) < 10 ^ a.num_.length := by positivity
      calc digits_value a.num_ * digits_value b.num_
          ≤ digits_value a.num_ * 10 ^ b.num_.length :=
            Int.mul_le_mul_of_nonneg_left (le_of_lt hB1) hA0
        _ < 10 ^ a.num_.length * 10 ^ b.num_.length :=
            Int.mul_lt_mul_of_pos_right hA1 (by positivity)
    have h2 : (10 : Int) ^ a.num_.length * 10 ^ b.num_.length ≤
        10 ^ (a.num_.length + b.num_.length + 7) := by
      rw [← pow_add]
      exact pow_le_pow_right₀ (by norm_num) (by omega)
    omega
  obtain ⟨i1, i2, i3⟩ := multiply_loop_spec a.num_ b.num_ _ ha.1.1 hb
    (isDigits_replicate _) hbound
  rw [digits_value_replicate, zero_add] at i3
  have hne : multiply_loop a.num_ b.num_
      (List.replicate (a.num_.length + b.num_.length + 7) 0) ≠ [] := by
    intro hc
    rw [hc, List.length_replicate] at i2
    simp at i2
  have := normalize_with a _ i1 hne ha.2.1
  rw [i3] at this
  exact this

theorem invert_sign_spec {a : BigInteger} (ha : Normalized a) :
    Normalized (invert_sign a) ∧ digits_value (invert_sign a).num_ = digits_value a.num_ ∧
    val (invert_sign a) = - val a := by
  have hs : a.sign_ * -1 = 1 ∨ a.sign_ * -1 = -1 := by
    rcases ha.2.1 with h | h <;> rw [h] <;> simp
  have := normalize_with { a with sign_ := a.sign_ * -1 } a.num_ ha.1.1 ha.1.2.1 hs
  refine ⟨this.1, this.2.1, ?_⟩
  have h3 := this.2.2
  unfold invert_sign
  simp only at h3 ⊢
  rw [h3]; unfold val; ring

theorem val_normalize_of_normalized {a : BigInteger} (h : Normalized a) :
    Normalized (normalize a) ∧ val (normalize a) = val a := by
  rw [normalize_of_normalized h]; exact ⟨h, rfl⟩

theorem sign_sq {a : BigInteger} (h : Normalized a) : a.sign_ * a.sign_ = 1 := by
  rcases h.2.1 with h1 | h1 <;> rw [h1] <;> rfl

theorem operator_mul_assign_spec {a b : BigInteger} (ha : Normalized a) (hb : Normalized b) :
    Normalized (operator_mul_assign a b) ∧
    val (operator_mul_assign a b) = val a * val b := by
  obtain ⟨m1, m2, m3⟩ := abs_multiply_spec ha hb.1.1
  unfold operator_mul_assign
  simp only
  by_cases hneg : b.sign_ = -1
  · rw [if_pos hneg]
    obtain ⟨n1, -, n3⟩ := invert_sign_spec m1
    rw [normalize_of_normalized n1]
    refine ⟨n1, ?_⟩
    rw [n3, m3]; unfold val; rw [hneg]; ring
  · rw [if_neg hneg]
    rw [normalize_of_normalized m1]
    refine ⟨m1, ?_⟩
    have hpos : b.sign_ = 1 := by rcases hb.2.1 with h | h; exact h; exact absurd h hneg
    rw [m3]; unfold val; rw [hpos]; ring

theorem abs_less_asymm {a b : BigInteger} (ha : Trimmed a.num_) (hb : Trimmed b.num_)
    (h : abs_less a b = true) : abs_less b a = false := by
  cases hc : abs_less b a with
  | false => rfl
  | true =>
    rw [abs_less_iff ha hb] at h
    rw [abs_less_iff hb ha] at hc
    omega

theorem operator_add_assign_spec {a b : BigInteger} (ha : Normalized a) (hb : Normalized b) :
    Normalized (operator_add_assign a b) ∧
    val (operator_add_assign a b) = val a + val b := by
  unfold operator_add_assign add_branch
  by_cases hs : a.sign_ = b.sign_
  · simp only [if_pos hs]
    obtain ⟨m1, -, m3⟩ := abs_add_spec ha hb.1.1
    rw [normalize_of_normalized m1]
    refine ⟨m1, ?_⟩
    rw [m3]; unfold val; rw [hs]; ring
  · have hopp : b.sign_ = - a.sign_ := by
      rcases ha.2.1 with h1 | h1 <;> rcases hb.2.1 with h2 | h2 <;> rw [h1, h2] at hs ⊢ <;>
        first | rfl | exact absurd rfl hs
    have hs2 : ¬ b.sign_ = a.sign_ := fun hc => hs hc.symm
    simp only [if_neg hs, if_neg hs2]
    cases hl : abs_less a b with
    | false =>
      simp only [Bool.not_false, if_true]
      have hv : digits_value b.num_ ≤ digits_value a.num_ := by
        by_contra hc
        have := (abs_less_iff ha.1 hb.1).mpr (by omega)
        rw [hl] at this
        exact absurd this (by decide)
      obtain ⟨m1, -, m3⟩ := abs_substract_spec ha hb.1.1 (length_le_of_not_abs_less hl) hv
      rw [normalize_of_normalized m1]
      refine ⟨m1, ?_⟩
      rw [m3]; unfold val; rw [hopp]; ring
    | true =>
      have hl2 := abs_less_asymm ha.1 hb.1 hl
      simp only [Bool.not_true, Bool.false_eq_true, if_false, hl2, Bool.not_false, if_true]
      have hv : digits_value a.num_ ≤ digits_value b.num_ := by
        have := (abs_less_iff ha.1 hb.1).mp hl
        omega
      obtain ⟨m1, -, m3⟩ := abs_substract_spec hb ha.1.1 (length_le_of_not_abs_less hl2) hv
      rw [normalize_of_normalized m1, normalize_of_normalized m1]
      refine ⟨m1, ?_⟩
      have hopp2 : a.sign_ = - b.sign_ := by rw [hopp]; ring
      rw [m3]; unfold val; rw [hopp2]; ring

theorem operator_sub_assign_spec {a b : BigInteger} (ha : Normalized a) (hb : Normalized b) :
    Normalized (operator_sub_assign a b) ∧
    val (operator_sub_assign a b) = val a - val b := by
  have hm1 : Normalized (ofInt (-1)) ∧ val (ofInt (-1)) = -1 := by decide
  obtain ⟨a1, a2⟩ := operator_mul_assign_spec ha hm1.1
  obtain ⟨b1, b2⟩ := operator_add_assign_spec a1 hb
  obtain ⟨c1, c2⟩ := operator_mul_assign_spec b1 hm1.1
  unfold operator_sub_assign
  simp only
  rw [normalize_of_normalized c1]
  refine ⟨c1, ?_⟩
  rw [c2, b2, a2, hm1.2]; ring

/-- Claim C35: `BigInteger` arithmetic agrees with the integers. For all normalized `a` and
`b` the results of `a + b`, `a - b` and `a * b` are normalized and denote the sum, the
difference and the product of the integers denoted by `a` and `b`, whatever the signs and
the relative magnitudes. -/
theorem arithmetic_correct (a b : BigInteger) (ha : Normalized a) (hb : Normalized b) :
    (Normalized (operator_add a b) ∧ val (operator_add a b) = val a + val b) ∧
    (Normalized (operator_sub a b) ∧ val (operator_sub a b) = val a - val b) ∧
    (Normalized (operator_mul a b) ∧ val (operator_mul a b) = val a * val b) :=
  ⟨operator_add_assign_spec ha hb, operator_sub_assign_spec ha hb,
    operator_mul_assign_spec ha hb⟩

/-- Claim C35 at a concrete input: `a = -95` and `b = 107`. -/
theorem arithmetic_correct_witness :
    Normalized (ofInt (-95)) ∧ Normalized (ofInt 107) ∧
    (Normalized (operator_add (ofInt (-95)) (ofInt 107)) ∧
      val (operator_add (ofInt (-95)) (ofInt 107)) = val (ofInt (-95)) + val (ofInt 107)) ∧
    (Normalized (operator_sub (ofInt (-95)) (ofInt 107)) ∧
      val (operator_sub (ofInt (-95)) (ofInt 107)) = val (ofInt (-95)) - val (ofInt 107)) ∧
    (Normalized (operator_mul (ofInt (-95)) (ofInt 107)) ∧
      val (operator_mul (ofInt (-95)) (ofInt 107)) = val (ofInt (-95)) * val (ofInt 107)) :=
  ⟨by decide, by decide, arithmetic_correct (ofInt (-95)) (ofInt 107) (by decide) (by decide)⟩

end BigInteger

namespace BigInteger

/-! ## Division -/

theorem mag_eq_abs {x : BigInteger} (h : Normalized x) : digits_value x.num_ = |val x| := by
  have h0 := digits_value_nonneg h.1.1
  unfold val
  rcases h.2.1 with hs | hs <;> rw [hs]
  · rw [one_mul, abs_of_nonneg h0]
  · rw [neg_one_mul, abs_neg, abs_of_nonneg h0]

theorem power_of_ten_spec : ∀ k : Nat,
    Normalized (power_of_ten k) ∧ val (power_of_ten k) = 10 ^ k
  | 0 => by decide
  | k + 1 => by
    obtain ⟨h1, h2⟩ := power_of_ten_spec k
    have hten : Normalized (ofInt 10) ∧ digits_value (ofInt 10).num_ = 10 := by decide
    obtain ⟨m1, m2, m3⟩ := abs_multiply_spec h1 hten.1.1.1
    refine ⟨m1, ?_⟩
    show val (abs_multiply (power_of_ten k) (ofInt 10)) = 10 ^ (k + 1)
    rw [m3, hten.2, ← mul_assoc]
    have : (power_of_ten k).sign_ * digits_value (power_of_ten k).num_ = 10 ^ k := h2
    rw [this, pow_succ]

/-- The trial product `(pow * digit).abs_multiply(other)` of `abs_divide`. -/
theorem trial_product_spec (k : Nat) (other : BigInteger) (ho : IsDigits other.num_)
    (digit : Int) (h0 : 0 ≤ digit) (h9 : digit ≤ 9) :
    Normalized (abs_multiply (operator_mul (power_of_ten k) (ofInt digit)) other) ∧
    digits_value (abs_multiply (operator_mul (power_of_ten k) (ofInt digit)) other).num_ =
      digit * (10 ^ k * digits_value other.num_) := by
  obtain ⟨p1, p2⟩ := power_of_ten_spec k
  obtain ⟨d1, d2⟩ := ofInt_spec digit (by omega) (by omega)
  obtain ⟨m1, m2⟩ := operator_mul_assign_spec p1 d1
  obtain ⟨n1, n2, -⟩ := abs_multiply_spec m1 ho
  refine ⟨n1, ?_⟩
  show digits_value (abs_multiply (operator_mul_assign (power_of_ten k) (ofInt digit))
    other).num_ = _
  rw [n2, mag_eq_abs m1, m2, p2, d2]
  have : (0 : Int) ≤ 10 ^ k * digit := mul_nonneg (by positivity) h0
  rw [abs_of_nonneg this]; ring

theorem digit_loop_spec (k : Nat) (dividend other : BigInteger) (hd : Trimmed dividend.num_)
    (ho : IsDigits other.num_) :
    ∀ (fuel : Nat) (digit : Int), 0 ≤ digit → digit ≤ 9 → digit < fuel →
      digits_value dividend.num_ < (digit + 1) * (10 ^ k * digits_value other.num_) →
      ∃ d, digit_loop fuel dividend (power_of_ten k) other digit = some d ∧ 0 ≤ d ∧ d ≤ 9 ∧
        d * (10 ^ k * digits_value other.num_) ≤ digits_value dividend.num_ ∧
        digits_value dividend.num_ < (d + 1) * (10 ^ k * digits_value other.num_)
  | 0, digit, h0, _, hf, _ => by simp at hf; omega
  | fuel + 1, digit, h0, h9, hf, hlt => by
    obtain ⟨t1, t2⟩ := trial_product_spec k other ho digit h0 h9
    unfold digit_loop
    cases hl : abs_less dividend
        (abs_multiply (operator_mul (power_of_ten k) (ofInt digit)) other) with
    | true =>
      simp only [if_true]
      rw [abs_less_iff hd t1.1, t2] at hl
      have hD := digits_value_nonneg hd.1
      have hpos : 0 < digit := by
        by_contra hc
        have : digit = 0 := by omega
        rw [this, zero_mul] at hl
        omega
      apply digit_loop_spec k dividend other hd ho fuel (digit - 1) (by omega) (by omega)
        (by push_cast at hf; omega)
      rw [sub_add_cancel]; exact hl
    | false =>
      simp only [Bool.false_eq_true, if_false]
      refine ⟨digit, rfl, h0, h9, ?_, hlt⟩
      by_contra hc
      have := (abs_less_iff hd t1.1).mpr (by rw [t2]; omega)
      rw [hl] at this
      exact absurd this (by decide)

theorem divide_loop_spec (other : BigInteger) (ho : IsDigits other.num_) :
    ∀ (i : Nat) (dividend : BigInteger), Normalized dividend →
      digits_value dividend.num_ < 10 ^ i * digits_value other.num_ →
      ∃ digits, divide_loop i dividend other = some digits ∧ IsDigits digits ∧
        digits.length = i ∧
        digits_value digits * digits_value other.num_ ≤ digits_value dividend.num_ ∧
        digits_value dividend.num_ < (digits_value digits + 1) * digits_value other.num_
  | 0, dividend, hd, hlt => by
    have hD := digits_value_nonneg hd.1.1
    refine ⟨[], rfl, isDigits_nil, rfl, ?_, ?_⟩
    · simp only [digits_value, zero_mul]; exact hD
    · simp only [digits_value, zero_add, pow_zero] at hlt ⊢; exact hlt
  | i + 1, dividend, hd, hlt => by
    have hlt1 : digits_value dividend.num_ <
        ((9 : Int) + 1) * (10 ^ i * digits_value other.num_) := by
      rw [pow_succ] at hlt
      have : (10 : Int) ^ i * 10 * digits_value other.num_ =
          (9 + 1) * (10 ^ i * digits_value other.num_) := by ring
      rw [← this]; exact hlt
    obtain ⟨d, e1, e2, e3, e4, e5⟩ := digit_loop_spec i dividend other hd.1 ho 10 9
      (by decide) (by decide) (by decide) hlt1
    obtain ⟨t1, t2⟩ := trial_product_spec i other ho d e2 e3
    have hnl : abs_less dividend
        (abs_multiply (operator_mul (power_of_ten i) (ofInt d)) other) = false := by
      cases hc : abs_less dividend
          (abs_multiply (operator_mul (power_of_ten i) (ofInt d)) other) with
      | false => rfl
      | true =>
        rw [abs_less_iff hd.1 t1.1, t2] at hc
        omega
    obtain ⟨s1, s2, -⟩ := abs_substract_spec hd t1.1.1 (length_le_of_not_abs_less hnl)
      (by rw [t2]; exact e4)
    rw [t2] at s2
    obtain ⟨digits, f1, f2, f3, f4, f5⟩ := divide_loop_spec other ho i _ s1
      (by rw [s2]; linarith)
    rw [s2] at f4 f5
    refine ⟨digits ++ [d], ?_, isDigits_append.mpr ⟨f2, isDigits_cons.mpr ⟨⟨e2, by omega⟩,
      isDigits_nil⟩⟩, by simp [f3], ?_, ?_⟩
    · unfold divide_loop
      simp only [e1, f1, Option.map_some']
    · rw [digits_value_append, f3]
      simp only [digits_value, mul_zero, add_zero]
      linarith
    · rw [digits_value_append, f3]
      simp only [digits_value, mul_zero, add_zero]
      linarith

theorem abs_divide_spec {a b : BigInteger} (ha : Normalized a) (hb : Normalized b)
    (hb0 : 0 < digits_value b.num_) :
    ∃ r, abs_divide a b = some r ∧ IsDigits r.num_ ∧ r.num_ ≠ [] ∧ r.sign_ = a.sign_ ∧
      digits_value r.num_ = digits_value a.num_ / digits_value b.num_ := by
  have hA := digits_value_nonneg ha.1.1
  unfold abs_divide
  cases hl : abs_less a b with
  | true =>
    simp only [if_true]
    rw [abs_less_iff ha.1 hb.1] at hl
    refine ⟨_, rfl, (by decide : IsDigits [0]), List.cons_ne_nil _ _, rfl, ?_⟩
    rw [Int.ediv_eq_zero_of_lt hA hl]; rfl
  | false =>
    simp only [Bool.false_eq_true, if_false]
    cases he : abs_equal a b with
    | true =>
      simp only [if_true]
      rw [abs_equal_iff ha.1 hb.1] at he
      refine ⟨_, rfl, (by decide : IsDigits [1]), List.cons_ne_nil _ _, rfl, ?_⟩
      rw [he, Int.ediv_self (ne_of_gt hb0)]; rfl
    | false =>
      simp only [Bool.false_eq_true, if_false]
      have hlt : digits_value a.num_ < 10 ^ a.num_.length * digits_value b.num_ := by
        have h1 := digits_value_lt ha.1.1
        have hp : (0 : Int) < 10 ^ a.num_.length := by positivity
        have : 10 ^ a.num_.length * 1 ≤ 10 ^ a.num_.length * digits_value b.num_ :=
          Int.mul_le_mul_of_nonneg_left (by omega) (le_of_lt hp)
        omega
      obtain ⟨digits, f1, f2, f3, f4, f5⟩ := divide_loop_spec b hb.1.1 a.num_.length a ha hlt
      have hne : digits ≠ [] := by
        intro hc
        rw [hc] at f3
        exact ha.1.2.1 (List.length_eq_zero.mp f3.symm)
      obtain ⟨n1, n2, -⟩ := normalize_with a digits f2 hne ha.2.1
      refine ⟨_, by rw [f1]; rfl, n1.1.1, n1.1.2.1, ?_, ?_⟩
      · rw [normalize_sign _ f2 hne]
        have hq : digits_value digits ≠ 0 := by
          intro hc
          rw [hc] at f5
          have hv : ¬ digits_value a.num_ < digits_value b.num_ := by
            intro hc2
            have := (abs_less_iff ha.1 hb.1).mpr hc2
            rw [hl] at this
            exact absurd this (by decide)
          omega
        rw [if_neg hq]
      · rw [n2]
        have := (Int.ediv_emod_unique hb0 (a := digits_value a.num_)
          (q := digits_value digits)
          (r := digits_value a.num_ - digits_value b.num_ * digits_value digits)).mpr
          ⟨by ring, by linarith, by linarith⟩
        exact this.1.symm

theorem tdiv_signed (sa sb A B : Int) (hsa : sa = 1 ∨ sa = -1) (hsb : sb = 1 ∨ sb = -1)
    (hA : 0 ≤ A) (hB : 0 ≤ B) : Int.tdiv (sa * A) (sb * B) = sa * sb * (A / B) := by
  have e := Int.tdiv_eq_ediv hA hB
  rcases hsa with rfl | rfl <;> rcases hsb with rfl | rfl
  · simp only [one_mul]; exact e
  · rw [one_mul, neg_one_mul, Int.tdiv_neg, e]; ring
  · rw [one_mul, neg_one_mul, Int.neg_tdiv, e]; ring
  · rw [neg_one_mul, neg_one_mul, Int.neg_tdiv, Int.tdiv_neg, e]; ring

theorem operator_div_assign_spec {a b : BigInteger} (ha : Normalized a) (hb : Normalized b)
    (hb0 : val b ≠ 0) :
    ∃ q, operator_div_assign a b = some q ∧ Normalized q ∧
      val q = a.sign_ * b.sign_ * (digits_value a.num_ / digits_value b.num_) ∧
      val q = Int.tdiv (val a) (val b) := by
  have hB : 0 < digits_value b.num_ := by
    have h0 := digits_value_nonneg hb.1.1
    have : digits_value b.num_ ≠ 0 := by
      intro hc; apply hb0; unfold val; rw [hc]; ring
    omega
  obtain ⟨r, e1, e2, e3, e4, e5⟩ := abs_divide_spec ha hb hB
  have hform : ∀ q, Normalized q → val q = a.sign_ * b.sign_ *
      (digits_value a.num_ / digits_value b.num_) →
      Normalized q ∧ val q = a.sign_ * b.sign_ * (digits_value a.num_ / digits_value b.num_) ∧
      val q = Int.tdiv (val a) (val b) := by
    intro q hq hv
    refine ⟨hq, hv, ?_⟩
    rw [hv]
    unfold val
    rw [tdiv_signed _ _ _ _ ha.2.1 hb.2.1 (digits_value_nonneg ha.1.1) (le_of_lt hB)]
  unfold operator_div_assign
  rw [e1]
  simp only [Option.map_some']
  by_cases hneg : b.sign_ = -1
  · rw [if_pos hneg]
    have hs : r.sign_ * -1 = 1 ∨ r.sign_ * -1 = -1 := by
      rw [e4]; rcases ha.2.1 with h | h <;> rw [h] <;> simp
    obtain ⟨n1, -, n3⟩ := normalize_with { r with sign_ := r.sign_ * -1 } r.num_ e2 e3 hs
    have hinv : invert_sign r = normalize { r with sign_ := r.sign_ * -1 } := rfl
    refine ⟨_, rfl, ?_⟩
    rw [hinv]
    have n1a : Normalized (normalize { r with sign_ := r.sign_ * -1 }) := n1
    rw [normalize_of_normalized n1a]
    apply hform _ n1a
    have n3a : val (normalize { r with sign_ := r.sign_ * -1 }) =
        (r.sign_ * -1) * digits_value r.num_ := n3
    rw [n3a, e4, e5, hneg]
  · rw [if_neg hneg]
    have hpos : b.sign_ = 1 := by rcases hb.2.1 with h | h; exact h; exact absurd h hneg
    have hs : r.sign_ = 1 ∨ r.sign_ = -1 := by rw [e4]; exact ha.2.1
    obtain ⟨n1, -, n3⟩ := normalize_with r r.num_ e2 e3 hs
    refine ⟨_, rfl, ?_⟩
    have n1a : Normalized (normalize r) := n1
    apply hform _ n1a
    have n3a : val (normalize r) = r.sign_ * digits_value r.num_ := n3
    rw [n3a, e4, e5, hpos]; ring

theorem operator_mod_assign_spec {a b : BigInteger} (ha : Normalized a) (hb : Normalized b)
    (hb0 : val b ≠ 0) :
    ∃ q r, operator_div_assign a b = some q ∧ operator_mod_assign a b = some r ∧
      Normalized r ∧ val r = val a - val q * val b ∧
      val r = a.sign_ * (digits_value a.num_ % digits_value b.num_) := by
  obtain ⟨q, e1, e2, e3, -⟩ := operator_div_assign_spec ha hb hb0
  obtain ⟨m1, m2⟩ := operator_mul_assign_spec e2 hb
  obtain ⟨s1, s2⟩ := operator_sub_assign_spec ha m1
  have hr : operator_mod_assign a b =
      some (operator_sub_assign a (operator_mul_assign q b)) := by
    unfold operator_mod_assign
    rw [e1]
    simp only [Option.map_some']
    rw [normalize_of_normalized s1]
  refine ⟨q, _, e1, hr, s1, ?_, ?_⟩
  · rw [s2, m2]
  · rw [s2, m2, e3]
    unfold val
    have hbb := sign_sq hb
    have hmod := Int.emod_add_ediv (digits_value a.num_) (digits_value b.num_)
    have : a.sign_ * b.sign_ * (digits_value a.num_ / digits_value b.num_) *
        (b.sign_ * digits_value b.num_) =
        a.sign_ * (b.sign_ * b.sign_) *
          (digits_value b.num_ * (digits_value a.num_ / digits_value b.num_)) := by ring
    rw [this, hbb]
    linear_combination (-a.sign_) * hmod

end BigInteger

namespace BigInteger

theorem sign_signed (s x : Int) (hs : s = 1 ∨ s = -1) (hx : 0 < x) : Int.sign (s * x) = s := by
  rcases hs with rfl | rfl
  · rw [one_mul]; exact Int.sign_eq_one_of_pos hx
  · rw [neg_one_mul]; exact Int.sign_eq_neg_one_of_neg (by omega)

theorem abs_signed (s x : Int) (hs : s = 1 ∨ s = -1) (hx : 0 ≤ x) : |s * x| = x := by
  rcases hs with rfl | rfl
  · rw [one_mul, abs_of_nonneg hx]
  · rw [neg_one_mul, abs_neg, abs_of_nonneg hx]

/-- Claim C36: `BigInteger` division truncates toward zero. For all normalized `a` and `b`
with `b != 0`, `a / b` and `a % b` are computed and normalized, `val(a / b)` is the quotient
of `val(a)` by `val(b)` rounded toward zero, `val(a % b) = val(a) - val(a / b) * val(b)`,
`|val(a % b)| < |val(b)|`, and a non-zero remainder has the sign of `a`. -/
theorem division_correct (a b : BigInteger) (ha : Normalized a) (hb : Normalized b)
    (hb0 : val b ≠ 0) :
    ∃ q r, operator_div a b = some q ∧ operator_mod a b = some r ∧
      Normalized q ∧ Normalized r ∧
      val q = Int.tdiv (val a) (val b) ∧ val r = val a - val q * val b ∧
      |val r| < |val b| ∧ (val r ≠ 0 → Int.sign (val r) = Int.sign (val a)) := by
  obtain ⟨q, d1, d2, -, d4⟩ := operator_div_assign_spec ha hb hb0
  obtain ⟨q1, r, m1, m2, m3, m4, m5⟩ := operator_mod_assign_spec ha hb hb0
  have hq : q1 = q := by rw [d1] at m1; exact (Option.some.inj m1).symm
  subst hq
  have hA := digits_value_nonneg ha.1.1
  have hB0 := digits_value_nonneg hb.1.1
  have hB : 0 < digits_value b.num_ := by
    have : digits_value b.num_ ≠ 0 := by
      intro hc; apply hb0; unfold val; rw [hc]; ring
    omega
  have hm0 := Int.emod_nonneg (digits_value a.num_) (ne_of_gt hB)
  have hm1 := Int.emod_lt_of_pos (digits_value a.num_) hB
  refine ⟨q1, r, d1, m2, d2, m3, d4, m4, ?_, ?_⟩
  · rw [m5, abs_signed _ _ ha.2.1 hm0, ← mag_eq_abs hb]
    exact hm1
  · intro hr
    rw [m5] at hr ⊢
    have hpos : 0 < digits_value a.num_ % digits_value b.num_ := by
      have : digits_value a.num_ % digits_value b.num_ ≠ 0 := by
        intro hc; apply hr; rw [hc]; ring
      omega
    have hApos : 0 < digits_value a.num_ := by
      by_contra hc
      have : digits_value a.num_ = 0 := by omega
      rw [this] at hpos
      simp at hpos
    rw [sign_signed _ _ ha.2.1 hpos]
    unfold val
    rw [sign_signed _ _ ha.2.1 hApos]

/-- Claim C36 at a concrete input: `a = -95` and `b = 7`. -/
theorem division_correct_witness :
    Normalized (ofInt (-95)) ∧ Normalized (ofInt 7) ∧ val (ofInt 7) ≠ 0 ∧
    ∃ q r, operator_div (ofInt (-95)) (ofInt 7) = some q ∧
      operator_mod (ofInt (-95)) (ofInt 7) = some r ∧
      Normalized q ∧ Normalized r ∧
      val q = Int.tdiv (val (ofInt (-95))) (val (ofInt 7)) ∧
      val r = val (ofInt (-95)) - val q * val (ofInt 7) ∧
      |val r| < |val (ofInt 7)| ∧
      (val r ≠ 0 → Int.sign (val r) = Int.sign (val (ofInt (-95)))) :=
  ⟨by decide, by decide, by decide,
    division_correct (ofInt (-95)) (ofInt 7) (by decide) (by decide) (by decide)⟩

end BigInteger

namespace BigInteger

/-! ## `greatest_common_divisor` -/

theorem mag_eq_zero_iff {a : BigInteger} (h : Normalized a) :
    digits_value a.num_ = 0 ↔ val a = 0 := by
  unfold val
  rcases h.2.1 with hs | hs <;> rw [hs] <;> constructor <;> intro h1 <;> omega

theorem sign_of_val_nonneg {a : BigInteger} (h : Normalized a) (h0 : 0 ≤ val a) :
    a.sign_ = 1 := by
  rcases h.2.1 with hs | hs
  · exact hs
  · have hm := digits_value_nonneg h.1.1
    have : digits_value a.num_ = 0 := by
      unfold val at h0; rw [hs] at h0; omega
    exact h.2.2 ((back_eq_zero_iff h.1).mpr this)

theorem sign_of_val_neg {a : BigInteger} (h : Normalized a) (h0 : val a < 0) :
    a.sign_ = -1 := by
  rcases h.2.1 with hs | hs
  · have hm := digits_value_nonneg h.1.1
    unfold val at h0; rw [hs] at h0; omega
  · exact hs

theorem normalized_eq_of_val {a b : BigInteger} (ha : Normalized a) (hb : Normalized b)
    (h : val a = val b) : a = b := by
  have hmag : digits_value a.num_ = digits_value b.num_ := by
    rw [mag_eq_abs ha, mag_eq_abs hb, h]
  have hnum := trimmed_eq_of_value ha.1 hb.1 hmag
  have hsign : a.sign_ = b.sign_ := by
    by_cases h0 : 0 ≤ val a
    · rw [sign_of_val_nonneg ha h0, sign_of_val_nonneg hb (by rw [← h]; exact h0)]
    · rw [sign_of_val_neg ha (by omega), sign_of_val_neg hb (by rw [← h]; omega)]
  cases a; cases b
  simp only at hnum hsign
  rw [hnum, hsign]

theorem operator_eq_iff {a b : BigInteger} (ha : Normalized a) (hb : Normalized b) :
    operator_eq a b = true ↔ val a = val b := by
  constructor
  · intro h
    unfold operator_eq abs_equal at h
    simp only [Bool.and_eq_true, decide_eq_true_eq] at h
    unfold val
    rw [h.1, h.2]
  · intro h
    rw [normalized_eq_of_val ha hb h]
    unfold operator_eq abs_equal
    simp

theorem operator_ne_zero_iff {b : BigInteger} (hb : Normalized b) :
    operator_ne b (ofInt 0) = true ↔ val b ≠ 0 := by
  have hz : Normalized (ofInt 0) ∧ val (ofInt 0) = 0 := by decide
  unfold operator_ne
  rw [Bool.not_eq_true', ← Bool.not_eq_true, operator_eq_iff hb hz.1, hz.2]

theorem operator_lt_zero_iff {a : BigInteger} (ha : Normalized a) :
    operator_lt a (ofInt 0) = true ↔ val a < 0 := by
  have hz : (ofInt 0) = { num_ := [0], sign_ := 1 } := by decide
  have hm := digits_value_nonneg ha.1.1
  rw [hz]
  unfold operator_lt
  simp only
  rcases ha.2.1 with hs | hs
  · rw [hs]
    simp only [ne_eq, not_true_eq_false, if_false, if_true]
    have htz : Trimmed ([0] : List Int) := by decide
    rw [abs_less_iff ha.1 htz]
    unfold val at *
    rw [hs]
    simp only [digits_value]
    omega
  · rw [hs]
    simp only [ne_eq, show ¬ ((-1 : Int) = 1) by decide, not_false_eq_true, if_true,
      decide_eq_true_eq]
    have hne : digits_value a.num_ ≠ 0 := by
      intro hc
      have := ha.2.2 ((back_eq_zero_iff ha.1).mpr hc)
      rw [hs] at this
      exact absurd this (by decide)
    unfold val
    rw [hs]
    constructor <;> intro _ <;> omega

theorem gcd_loop_spec : ∀ (fuel : Nat) (a b : BigInteger), Normalized a → Normalized b →
    0 ≤ val a → 0 ≤ val b → val b < fuel →
    ∃ g, gcd_loop fuel a b = some g ∧ Normalized g ∧
      val g = (Nat.gcd (val a).natAbs (val b).natAbs : Int)
  | 0, a, b, _, _, _, h0, hf => by simp at hf; omega
  | fuel + 1, a, b, ha, hb, ha0, hb0, hf => by
    unfold gcd_loop
    by_cases hz : val b = 0
    · have hne : operator_ne b (ofInt 0) = false := by
        cases hc : operator_ne b (ofInt 0) with
        | false => rfl
        | true => exact absurd hz ((operator_ne_zero_iff hb).mp hc)
      simp only [hne, Bool.false_eq_true, if_false]
      refine ⟨a, rfl, ha, ?_⟩
      rw [hz]
      simp only [Int.natAbs_zero, Nat.gcd_zero_right]
      exact (Int.natAbs_of_nonneg ha0).symm
    · have hne : operator_ne b (ofInt 0) = true := (operator_ne_zero_iff hb).mpr hz
      simp only [hne, if_true]
      obtain ⟨q, r, -, m2, m3, -, m5⟩ := operator_mod_assign_spec ha hb hz
      rw [m2]
      simp only
      have hsa := sign_of_val_nonneg ha ha0
      have hsb := sign_of_val_nonneg hb hb0
      have hva : val a = digits_value a.num_ := by unfold val; rw [hsa, one_mul]
      have hvb : val b = digits_value b.num_ := by unfold val; rw [hsb, one_mul]
      rw [hsa, one_mul, ← hva, ← hvb] at m5
      have hbpos : 0 < val b := by omega
      have hr0 : 0 ≤ val r := by rw [m5]; exact Int.emod_nonneg _ hz
      have hr1 : val r < val b := by rw [m5]; exact Int.emod_lt_of_pos _ hbpos
      obtain ⟨g, g1, g2, g3⟩ := gcd_loop_spec fuel b r hb m3 hb0 hr0
        (by push_cast at hf; omega)
      refine ⟨g, g1, g2, ?_⟩
      rw [g3]
      congr 1
      have e1 : (val r).natAbs = (val a).natAbs % (val b).natAbs := by
        rw [m5]
        have := Int.natAbs_of_nonneg ha0
        have := Int.natAbs_of_nonneg hb0
        zify
        rw [abs_of_nonneg (Int.emod_nonneg _ hz), abs_of_nonneg ha0, abs_of_nonneg hb0]
      rw [e1]
      exact (Nat.gcd_comm _ _).trans ((Nat.gcd_rec _ _).symm.trans (Nat.gcd_comm _ _))

theorem nonneg_side {a : BigInteger} (ha : Normalized a) :
    Normalized (if operator_lt a (ofInt 0) then invert_sign a else a) ∧
    val (if operator_lt a (ofInt 0) then invert_sign a else a) = |val a| := by
  by_cases h : operator_lt a (ofInt 0) = true
  · rw [if_pos h]
    obtain ⟨i1, -, i3⟩ := invert_sign_spec ha
    refine ⟨i1, ?_⟩
    rw [i3, abs_of_neg ((operator_lt_zero_iff ha).mp h)]
  · rw [if_neg h]
    refine ⟨ha, ?_⟩
    have : ¬ val a < 0 := fun hc => h ((operator_lt_zero_iff ha).mpr hc)
    rw [abs_of_nonneg (by omega)]

theorem greatest_common_divisor_spec {a b : BigInteger} (ha : Normalized a)
    (hb : Normalized b) :
    ∃ g, greatest_common_divisor a b = some g ∧ Normalized g ∧
      val g = (Nat.gcd (val a).natAbs (val b).natAbs : Int) := by
  obtain ⟨a1, a2⟩ := nonneg_side ha
  obtain ⟨b1, b2⟩ := nonneg_side hb
  have hfuel : val (if operator_lt b (ofInt 0) then invert_sign b else b) <
      ((digits_value (if operator_lt b (ofInt 0) then invert_sign b else b).num_).natAbs
        + 1 : Nat) := by
    rw [mag_eq_abs b1]
    push_cast
    rw [abs_abs]
    linarith [le_abs_self (val (if operator_lt b (ofInt 0) then invert_sign b else b))]
  obtain ⟨g, g1, g2, g3⟩ := gcd_loop_spec _ _ _ a1 b1 (by rw [a2]; exact abs_nonneg _)
    (by rw [b2]; exact abs_nonneg _) hfuel
  refine ⟨normalize g, ?_, ?_, ?_⟩
  · unfold greatest_common_divisor
    simp only
    rw [g1]; rfl
  · rw [normalize_of_normalized g2]; exact g2
  · rw [normalize_of_normalized g2, g3, a2, b2, Int.natAbs_abs, Int.natAbs_abs]

end BigInteger

namespace Rational

open BigInteger

/-! ## `Rational`: the canonical form -/

theorem sign_neg_iff {q : BigInteger} (h : Normalized q) : q.sign_ = -1 ↔ val q < 0 := by
  constructor
  · intro hs
    by_contra hc
    have := sign_of_val_nonneg h (by omega)
    rw [hs] at this
    exact absurd this (by decide)
  · exact sign_of_val_neg h

/-- `Rational::normalize` on normalized components with a non-zero denominator: it
completes, the result is canonical and denotes the same rational number. -/
theorem normalize_spec (r : Rational) (hp : Normalized r.p_) (hq : Normalized r.q_)
    (hq0 : val r.q_ ≠ 0) :
    ∃ r1, normalize r = some r1 ∧ Canonical r1 ∧ value r1 = value r := by
  obtain ⟨g, g1, g2, g3⟩ := greatest_common_divisor_spec hp hq
  have hGpos : 0 < Nat.gcd (val r.p_).natAbs (val r.q_).natAbs :=
    Nat.gcd_pos_of_pos_right _ (Int.natAbs_pos.mpr hq0)
  have hg0 : val g ≠ 0 := by rw [g3]; exact_mod_cast (Nat.ne_of_gt hGpos)
  obtain ⟨p1, dp1, dp2, -, dp4⟩ := BigInteger.operator_div_assign_spec hp g2 hg0
  obtain ⟨q1, dq1, dq2, -, dq4⟩ := BigInteger.operator_div_assign_spec hq g2 hg0
  have hdp : val g ∣ val r.p_ := by
    rw [g3]; exact Int.natCast_dvd.mpr (Nat.gcd_dvd_left _ _)
  have hdq : val g ∣ val r.q_ := by
    rw [g3]; exact Int.natCast_dvd.mpr (Nat.gcd_dvd_right _ _)
  have eP : val p1 * val g = val r.p_ := by rw [dp4]; exact Int.tdiv_mul_cancel hdp
  have eQ : val q1 * val g = val r.q_ := by rw [dq4]; exact Int.tdiv_mul_cancel hdq
  have hq1 : val q1 ≠ 0 := by
    intro hc; rw [hc, zero_mul] at eQ; exact hq0 eQ.symm
  have hnatg : (val g).natAbs = Nat.gcd (val r.p_).natAbs (val r.q_).natAbs := by
    rw [g3]; exact Int.natAbs_ofNat _
  have hcop : Nat.gcd (val p1).natAbs (val q1).natAbs = 1 := by
    rw [dp4, dq4, Int.natAbs_tdiv, Int.natAbs_tdiv, hnatg]
    exact Nat.coprime_div_gcd_div_gcd hGpos
  have hval : ((val p1 : ℚ) / (val q1 : ℚ)) = value r := by
    unfold value
    rw [← eP, ← eQ]
    push_cast
    have : (val g : ℚ) ≠ 0 := by exact_mod_cast hg0
    rw [mul_div_mul_right _ _ this]
  have hnorm : normalize r = some
      { p_ := BigInteger.normalize (if q1.sign_ = -1 then invert_sign p1 else p1),
        q_ := BigInteger.normalize (if q1.sign_ = -1 then invert_sign q1 else q1) } := by
    unfold normalize
    rw [g1]
    simp only [dp1, dq1]
  refine ⟨_, hnorm, ?_⟩
  by_cases hs : q1.sign_ = -1
  · simp only [if_pos hs]
    obtain ⟨ip1, -, ip3⟩ := invert_sign_spec dp2
    obtain ⟨iq1, -, iq3⟩ := invert_sign_spec dq2
    rw [normalize_of_normalized ip1, normalize_of_normalized iq1]
    have hneg := (sign_neg_iff dq2).mp hs
    refine ⟨⟨ip1, iq1, by rw [iq3]; omega, ?_⟩, ?_⟩
    · show Nat.gcd (val (invert_sign p1)).natAbs (val (invert_sign q1)).natAbs = 1
      rw [ip3, iq3, Int.natAbs_neg, Int.natAbs_neg]; exact hcop
    · unfold value
      simp only
      rw [ip3, iq3]
      push_cast
      rw [neg_div_neg_eq]
      exact hval
  · simp only [if_neg hs]
    rw [normalize_of_normalized dp2, normalize_of_normalized dq2]
    have hnn : ¬ val q1 < 0 := fun hc => hs ((sign_neg_iff dq2).mpr hc)
    exact ⟨⟨dp2, dq2, (by show 0 < val q1; omega), hcop⟩, hval⟩

theorem canonical_ofInt (x : Int) (h : -2 ^ 31 < x ∧ x < 2 ^ 31) :
    Canonical (ofInt x) ∧ value (ofInt x) = (x : ℚ) := by
  obtain ⟨h1, h2⟩ := ofInt_spec x (by omega) (by omega)
  have hone : Normalized (BigInteger.ofInt 1) ∧ val (BigInteger.ofInt 1) = 1 := by decide
  unfold Canonical value ofInt
  simp only
  rw [h2, hone.2]
  refine ⟨⟨h1, hone.1, by decide, by simp⟩, by simp⟩

theorem q_ne_zero {a : Rational} (h : Canonical a) : val a.q_ ≠ 0 := by
  have := h.2.2.1
  omega

theorem q_cast_ne_zero {a : Rational} (h : Canonical a) : (val a.q_ : ℚ) ≠ 0 := by
  exact_mod_cast q_ne_zero h

theorem rational_add_assign_spec {a b : Rational} (ha : Canonical a) (hb : Canonical b) :
    ∃ r, operator_add_assign a b = some r ∧ Canonical r ∧ value r = value a + value b := by
  have hqa := q_cast_ne_zero ha
  have hqb := q_cast_ne_zero hb
  unfold operator_add_assign
  by_cases he : BigInteger.operator_eq a.q_ b.q_ = true
  · rw [if_pos he]
    have hq := (BigInteger.operator_eq_iff ha.2.1 hb.2.1).mp he
    obtain ⟨s1, s2⟩ := BigInteger.operator_add_assign_spec ha.1 hb.1
    obtain ⟨r, n1, n2, n3⟩ := normalize_spec
      { a with p_ := BigInteger.operator_add_assign a.p_ b.p_ } s1 ha.2.1 (@q_ne_zero a ha)
    refine ⟨r, n1, n2, ?_⟩
    rw [n3]
    unfold value
    simp only
    rw [s2, ← hq]
    push_cast
    rw [add_div]
  · rw [if_neg he]
    simp only
    obtain ⟨m1, m2⟩ := BigInteger.operator_mul_assign_spec ha.1 hb.2.1
    obtain ⟨m3, m4⟩ := BigInteger.operator_mul_assign_spec hb.1 ha.2.1
    obtain ⟨s1, s2⟩ := BigInteger.operator_add_assign_spec m1 m3
    obtain ⟨m5, m6⟩ := BigInteger.operator_mul_assign_spec ha.2.1 hb.2.1
    have hq0 : val (BigInteger.operator_mul_assign a.q_ b.q_) ≠ 0 := by
      rw [m6]; exact mul_ne_zero (q_ne_zero ha) (q_ne_zero hb)
    obtain ⟨r, n1, n2, n3⟩ := normalize_spec
      { p_ := BigInteger.operator_add_assign (BigInteger.operator_mul_assign a.p_ b.q_)
          (BigInteger.operator_mul b.p_ a.q_),
        q_ := BigInteger.operator_mul_assign a.q_ b.q_ } s1 m5 hq0
    refine ⟨r, n1, n2, ?_⟩
    rw [n3]
    unfold value
    simp only
    have s2a : val (BigInteger.operator_add_assign (BigInteger.operator_mul_assign a.p_ b.q_)
        (BigInteger.operator_mul b.p_ a.q_)) = val a.p_ * val b.q_ + val b.p_ * val a.q_ := by
      rw [← m2, ← m4]; exact s2
    rw [s2a, m6]
    push_cast
    field_simp

theorem rational_mul_assign_spec {a b : Rational} (ha : Canonical a) (hb : Canonical b) :
    ∃ r, operator_mul_assign a b = some r ∧ Canonical r ∧ value r = value a * value b := by
  have hqa := q_cast_ne_zero ha
  have hqb := q_cast_ne_zero hb
  obtain ⟨m1, m2⟩ := BigInteger.operator_mul_assign_spec ha.1 hb.1
  obtain ⟨m5, m6⟩ := BigInteger.operator_mul_assign_spec ha.2.1 hb.2.1
  have hq0 : val (BigInteger.operator_mul_assign a.q_ b.q_) ≠ 0 := by
    rw [m6]; exact mul_ne_zero (q_ne_zero ha) (q_ne_zero hb)
  obtain ⟨r, n1, n2, n3⟩ := normalize_spec
    { p_ := BigInteger.operator_mul_assign a.p_ b.p_,
      q_ := BigInteger.operator_mul_assign a.q_ b.q_ } m1 m5 hq0
  refine ⟨r, n1, n2, ?_⟩
  rw [n3]
  unfold value
  simp only
  rw [m2, m6]
  push_cast
  field_simp

theorem rational_div_assign_spec {a b : Rational} (ha : Canonical a) (hb : Canonical b)
    (hb0 : val b.p_ ≠ 0) :
    ∃ r, operator_div_assign a b = some r ∧ Canonical r ∧ value r = value a / value b := by
  have hqa := q_cast_ne_zero ha
  have hqb := q_cast_ne_zero hb
  have hpb : (val b.p_ : ℚ) ≠ 0 := by exact_mod_cast hb0
  obtain ⟨m1, m2⟩ := BigInteger.operator_mul_assign_spec ha.1 hb.2.1
  obtain ⟨m5, m6⟩ := BigInteger.operator_mul_assign_spec ha.2.1 hb.1
  have hq0 : val (BigInteger.operator_mul_assign a.q_ b.p_) ≠ 0 := by
    rw [m6]; exact mul_ne_zero (q_ne_zero ha) hb0
  obtain ⟨r, n1, n2, n3⟩ := normalize_spec
    { p_ := BigInteger.operator_mul_assign a.p_ b.q_,
      q_ := BigInteger.operator_mul_assign a.q_ b.p_ } m1 m5 hq0
  refine ⟨r, n1, n2, ?_⟩
  rw [n3]
  unfold value
  simp only
  rw [m2, m6]
  push_cast
  field_simp

theorem rational_div_assign_self_spec {a : Rational} (ha : Canonical a)
    (ha0 : val a.p_ ≠ 0) :
    ∃ r, operator_div_assign_self a = some r ∧ Canonical r := by
  obtain ⟨m1, m2⟩ := BigInteger.operator_mul_assign_spec ha.1 ha.2.1
  obtain ⟨m5, m6⟩ := BigInteger.operator_mul_assign_spec ha.2.1 m1
  have hq0 : val (BigInteger.operator_mul_assign a.q_
      (BigInteger.operator_mul_assign a.p_ a.q_)) ≠ 0 := by
    rw [m6, m2]
    exact mul_ne_zero (q_ne_zero ha) (mul_ne_zero ha0 (q_ne_zero ha))
  obtain ⟨r, n1, n2, -⟩ := normalize_spec
    { p_ := BigInteger.operator_mul_assign a.p_ a.q_,
      q_ := BigInteger.operator_mul_assign a.q_ (BigInteger.operator_mul_assign a.p_ a.q_) }
    m1 m5 hq0
  exact ⟨r, n1, n2⟩

theorem rational_neg_spec {a : Rational} (ha : Canonical a) :
    ∃ r, operator_neg a = some r ∧ Canonical r ∧ value r = - value a := by
  obtain ⟨i1, -, i3⟩ := invert_sign_spec ha.1
  obtain ⟨r, n1, n2, n3⟩ := normalize_spec { a with p_ := invert_sign a.p_ } i1 ha.2.1
    (@q_ne_zero a ha)
  refine ⟨r, n1, n2, ?_⟩
  rw [n3]
  unfold value
  simp only
  rw [i3]
  push_cast
  rw [neg_div]

theorem rational_eq_iff {a b : Rational} (ha : Canonical a) (hb : Canonical b) :
    operator_eq a b = true ↔ value a = value b := by
  have hqa := q_cast_ne_zero ha
  have hqb := q_cast_ne_zero hb
  unfold operator_eq
  rw [Bool.and_eq_true, BigInteger.operator_eq_iff ha.1 hb.1,
    BigInteger.operator_eq_iff ha.2.1 hb.2.1]
  constructor
  · rintro ⟨h1, h2⟩
    unfold value
    rw [h1, h2]
  · intro h
    unfold value at h
    rw [div_eq_div_iff hqa hqb] at h
    have hcross : val a.p_ * val b.q_ = val b.p_ * val a.q_ := by exact_mod_cast h
    have hqa0 := ha.2.2.1
    have hqb0 := hb.2.2.1
    have hca : Nat.Coprime (val a.q_).natAbs (val a.p_).natAbs := by
      rw [Nat.Coprime, Nat.gcd_comm]; exact ha.2.2.2
    have hcb : Nat.Coprime (val b.q_).natAbs (val b.p_).natAbs := by
      rw [Nat.Coprime, Nat.gcd_comm]; exact hb.2.2.2
    have hnat : (val a.p_).natAbs * (val b.q_).natAbs =
        (val b.p_).natAbs * (val a.q_).natAbs := by
      rw [← Int.natAbs_mul, ← Int.natAbs_mul, hcross]
    have d1 : (val a.q_).natAbs ∣ (val b.q_).natAbs :=
      hca.dvd_of_dvd_mul_left ⟨(val b.p_).natAbs, by rw [hnat]; ring⟩
    have d2 : (val b.q_).natAbs ∣ (val a.q_).natAbs :=
      hcb.dvd_of_dvd_mul_left ⟨(val a.p_).natAbs, by rw [← hnat]; ring⟩
    have hq : val a.q_ = val b.q_ := by
      have := Nat.dvd_antisymm d1 d2
      omega
    refine ⟨?_, hq⟩
    rw [hq] at hcross
    exact Int.eq_of_mul_eq_mul_right (by omega) hcross

theorem rational_sub_assign_spec {a b : Rational} (ha : Canonical a) (hb : Canonical b) :
    ∃ r, operator_sub_assign a b = some r ∧ Canonical r ∧ value r = value a - value b := by
  have hm : Canonical (ofInt (-1)) ∧ value (ofInt (-1)) = ((-1 : Int) : ℚ) :=
    canonical_ofInt (-1) (by decide)
  unfold operator_sub_assign
  by_cases he : operator_eq a b = true
  · rw [if_pos he]
    obtain ⟨z1, z2⟩ := canonical_ofInt 0 (by decide)
    refine ⟨_, rfl, z1, ?_⟩
    rw [z2, (rational_eq_iff ha hb).mp he]
    simp
  · rw [if_neg he]
    obtain ⟨r1, e1, c1, v1⟩ := rational_mul_assign_spec ha hm.1
    obtain ⟨r2, e2, c2, v2⟩ := rational_add_assign_spec c1 hb
    obtain ⟨r3, e3, c3, v3⟩ := rational_mul_assign_spec c2 hm.1
    obtain ⟨r4, e4, c4, v4⟩ := normalize_spec r3 c3.1 c3.2.1 (q_ne_zero c3)
    simp only [e1, e2, e3]
    refine ⟨r4, e4, c4, ?_⟩
    rw [v4, v3, v2, v1, hm.2]
    push_cast
    ring

theorem produced_canonical {r : Rational} (h : Produced r) : Canonical r := by
  induction h with
  | ofInt x hx => exact (canonical_ofInt x hx).1
  | add a b r _ _ he iha ihb =>
    obtain ⟨r1, e1, c1, -⟩ := rational_add_assign_spec iha ihb
    rw [e1] at he; rw [← Option.some.inj he]; exact c1
  | sub a b r _ _ he iha ihb =>
    obtain ⟨r1, e1, c1, -⟩ := rational_sub_assign_spec iha ihb
    rw [e1] at he; rw [← Option.some.inj he]; exact c1
  | mul a b r _ _ he iha ihb =>
    obtain ⟨r1, e1, c1, -⟩ := rational_mul_assign_spec iha ihb
    rw [e1] at he; rw [← Option.some.inj he]; exact c1
  | div a b r _ _ hb0 he iha ihb =>
    obtain ⟨r1, e1, c1, -⟩ := rational_div_assign_spec iha ihb hb0
    rw [e1] at he; rw [← Option.some.inj he]; exact c1
  | div_self a r _ ha0 he iha =>
    obtain ⟨r1, e1, c1⟩ := rational_div_assign_self_spec iha ha0
    rw [e1] at he; rw [← Option.some.inj he]; exact c1
  | neg a r _ he iha =>
    obtain ⟨r1, e1, c1, -⟩ := rational_neg_spec iha
    rw [e1] at he; rw [← Option.some.inj he]; exact c1

/-- Claim C37: `Rational` keeps a canonical form. Every `Rational` produced from
integer-constructed ones by `+=`, `-=`, `*=`, `/=` with a non-zero divisor and unary minus
has normalized components, a strictly positive denominator and `gcd(|p_|, q_) = 1`; on two
such objects `operator ==` holds exactly when they denote the same rational number; and each
of the operations completes on them with a result that denotes the sum, the difference, the
product, the quotient and the opposite. -/
theorem rational_canonical (a b : Rational) (ha : Produced a) (hb : Produced b) :
    Canonical a ∧ Canonical b ∧ (operator_eq a b = true ↔ value a = value b) ∧
    (∃ r, operator_add_assign a b = some r ∧ Canonical r ∧ value r = value a + value b) ∧
    (∃ r, operator_sub_assign a b = some r ∧ Canonical r ∧ value r = value a - value b) ∧
    (∃ r, operator_mul_assign a b = some r ∧ Canonical r ∧ value r = value a * value b) ∧
    (val b.p_ ≠ 0 →
      ∃ r, operator_div_assign a b = some r ∧ Canonical r ∧ value r = value a / value b) ∧
    (val a.p_ ≠ 0 → ∃ r, operator_div_assign_self a = some r ∧ Canonical r) ∧
    (∃ r, operator_neg a = some r ∧ Canonical r ∧ value r = - value a) := by
  have ca := produced_canonical ha
  have cb := produced_canonical hb
  exact ⟨ca, cb, rational_eq_iff ca cb, rational_add_assign_spec ca cb,
    rational_sub_assign_spec ca cb, rational_mul_assign_spec ca cb,
    rational_div_assign_spec ca cb, rational_div_assign_self_spec ca, rational_neg_spec ca⟩

/-- Claim C37 at a concrete input: the `Rational`s constructed from 3 and from -6. -/
theorem rational_canonical_witness :
    Produced (ofInt 3) ∧ Produced (ofInt (-6)) ∧
    Canonical (ofInt 3) ∧ Canonical (ofInt (-6)) ∧
    (operator_eq (ofInt 3) (ofInt (-6)) = true ↔ value (ofInt 3) = value (ofInt (-6))) ∧
    (∃ r, operator_add_assign (ofInt 3) (ofInt (-6)) = some r ∧ Canonical r ∧
      value r = value (ofInt 3) + value (ofInt (-6))) ∧
    (∃ r, operator_sub_assign (ofInt 3) (ofInt (-6)) = some r ∧ Canonical r ∧
      value r = value (ofInt 3) - value (ofInt (-6))) ∧
    (∃ r, operator_mul_assign (ofInt 3) (ofInt (-6)) = some r ∧ Canonical r ∧
      value r = value (ofInt 3) * value (ofInt (-6))) ∧
    (val (ofInt (-6)).p_ ≠ 0 →
      ∃ r, operator_div_assign (ofInt 3) (ofInt (-6)) = some r ∧ Canonical r ∧
        value r = value (ofInt 3) / value (ofInt (-6))) ∧
    (val (ofInt 3).p_ ≠ 0 → ∃ r, operator_div_assign_self (ofInt 3) = some r ∧ Canonical r) ∧
    (∃ r, operator_neg (ofInt 3) = some r ∧ Canonical r ∧ value r = - value (ofInt 3)) :=
  ⟨Produced.ofInt 3 (by decide), Produced.ofInt (-6) (by decide),
    rational_canonical (ofInt 3) (ofInt (-6)) (Produced.ofInt 3 (by decide))
      (Produced.ofInt (-6) (by decide))⟩

end Rational

namespace Rational

/-! ## `Rational::asDecimal` -/

/-- Claim C38 at the canonical `Rational` -3/2 (the result of `Rational(-3) / Rational(2)`)
with precision 1: `asDecimal` writes the sign twice. The minus sign appended for a negative
`p_` is followed by `before_dot.toString()`, which writes the sign of the negative integer
part again, so the result is `--1.5` where the decimal rendering of -3/2 is `-1.5`. With a
positive value, or a negative one whose integer part is zero, the rendering is the expected
one. -/
theorem asDecimal_sign_twice :
    operator_div_assign (ofInt (-3)) (ofInt 2) =
      some { p_ := BigInteger.ofInt (-3), q_ := BigInteger.ofInt 2 } ∧
    Canonical { p_ := BigInteger.ofInt (-3), q_ := BigInteger.ofInt 2 } ∧
    asDecimal { p_ := BigInteger.ofInt (-3), q_ := BigInteger.ofInt 2 } 1 = some "--1.5" ∧
    asDecimal { p_ := BigInteger.ofInt (-3), q_ := BigInteger.ofInt 2 } 0 = some "--1" ∧
    asDecimal { p_ := BigInteger.ofInt 3, q_ := BigInteger.ofInt 2 } 1 = some "1.5" ∧
    asDecimal { p_ := BigInteger.ofInt (-1), q_ := BigInteger.ofInt 2 } 2 = some "-0.50" := by
  decide

end Rational

namespace Flows

/-! ## `flows.cpp`: the two algorithms on the same input -/

/-- Claim C40 at the input `exampleTwoPairs` (four topics with the values 10^6, -10^6, 10^6,
-10^6, topic 0 requiring topic 1 and topic 2 requiring topic 3): `solve<Malhotra>` returns 0
and `solve<PushRelabel>` returns 10^6, so the assertion `answer_malhotra ==
answer_pushrelabel` of `run` fails. The maximum flow of the network is 2 * 10^6;
`PushRelabel::init_` gives the source the excess `INF = 10^6` and never sends more. -/
theorem solve_disagree :
    solve_Malhotra exampleTwoPairs = some 0 ∧
    solve_PushRelabel exampleTwoPairs = some 1000000 ∧
    solve_Malhotra exampleTwoPairs ≠ solve_PushRelabel exampleTwoPairs := by
  decide

end Flows
